import Mathlib

/-!
VSFS (`myfs.c`): a shallow embedding and its verified properties.

The embedding follows `src/project3_FileSystem-master/myfs.c` function by function.
The image is a state value passed explicitly.  A result of `none` means that the C
program leaves defined behaviour at this point (an index past the end of an array, a
division by zero, a C `int` that overflows, `abort()`).
Values of C type `uint` are natural numbers, reduced modulo `2 ^ 32` where the source
arithmetic can wrap.
-/

namespace MyFS

/-! ## Constants and records -/

/-- A C string: the bytes before the terminating NUL. -/
abbrev CStr := List Nat

/-- Modelled from the spec: a directory record (`dirrec`): a name of at most
`MAX_FILENAME` bytes and an inode number.  The `next` link of the source is the order of
the records in a list. -/
structure DirRec where
  name : CStr
  inum : Nat
deriving DecidableEq, Repr

/-- A block of the image: `BLOCKSIZE` bytes. -/
abbrev Block := List Nat

/-- Modelled from the spec: the inode record (`type`, `size`, `blocks`, and the array
`pointers[K]` of direct block numbers, 0 meaning unused). -/
structure Inode where
  type : Nat
  size : Nat
  blocks : Nat
  pointers : List Nat
deriving DecidableEq, Repr

/-- Modelled from the spec: the image.  Block 1 (inode bitmap), block 2 (data-block
bitmap) and blocks 3..7 (inode table) are kept decoded in `i_bmap`, `d_bmap` and
`inodes`; `blocks` holds the bytes of every block by block number, of which only
block 0 and the blocks from 8 on are used (the bytes of the blocks 1..7 are given by
`Params.meta_read`). -/
structure FS where
  i_bmap : List Nat
  d_bmap : List Nat
  inodes : List Inode
  blocks : List Block
deriving DecidableEq, Repr

/-- Modelled from the spec: the build-time constants of `params.h` / `myfs.h`, which are
not among the sources.  `NUM_POINTERS` is the number `K` of direct pointers of an inode,
`NUM_INODES` the number of inode slots, `DIRREC_SIZE` is `sizeof(dirrec)`,
`encode` / `decode` give the byte layout of one record of `DIRREC_SIZE` bytes, and
`meta_read` / `meta_write` the byte layout of the metadata region (blocks 1..7, the
bitmaps and the inode table): `meta_read s n` is block `n` of the image `s` as bytes,
`meta_write s n b` the image after the bytes `b` have been stored into block `n`. -/
structure Params where
  BLOCKSIZE : Nat
  NUM_OF_BLOCKS : Nat
  NUM_POINTERS : Nat
  NUM_INODES : Nat
  MAX_FILENAME : Nat
  MAX_PATH_DEPTH : Nat
  DIRREC_SIZE : Nat
  TYPE_FILE : Nat
  TYPE_DIR : Nat
  encode : DirRec → List Nat
  decode : List Nat → DirRec
  meta_read : FS → Nat → Block
  meta_write : FS → Nat → Block → FS

/-- Reduction of a value to C `uint` (32 bits). -/
def u32 (x : Nat) : Nat := x % 2 ^ 32

/-- Block numbers 1..7 hold the bitmaps and the inode table. -/
def is_meta_block (n : Nat) : Bool := decide (1 ≤ n) && decide (n ≤ 7)

/-! ## The disk layer (`disk.h`), modelled from the spec -/

/-- Modelled from the spec: `read_block(n, buf)`.  `some (some b)` is success (return 0)
with contents `b`; `some none` is a failed read (nonzero return) for a block number
outside the image.  A block of the metadata region is read as the bytes that the layout
`meta_read` gives. -/
def read_block (P : Params) (s : FS) (n : Nat) : Option (Option Block) :=
  if is_meta_block n then some (some (P.meta_read s n)) else some (s.blocks[n]?)

/-- Modelled from the spec: `write_block(n, buf)`.  `some (some s1)` is success with the
new image; `some none` is a failed write (block number outside the image, image
unchanged).  A write to a block of the metadata region changes the bitmaps or the inode
table as the layout `meta_write` says. -/
def write_block (P : Params) (s : FS) (n : Nat) (b : Block) : Option (Option FS) :=
  if is_meta_block n then some (some (P.meta_write s n b))
  else if n < s.blocks.length then some (some { s with blocks := s.blocks.set n b })
  else some none

/-- Modelled from the spec: `get_inode(n, ino)`; `none` is the error return. -/
def get_inode (s : FS) (n : Nat) : Option Inode := s.inodes[n]?

/-- Modelled from the spec: `set_inode(n, ino)`; `none` is the error return. -/
def set_inode (s : FS) (n : Nat) (ino : Inode) : Option FS :=
  if n < s.inodes.length then some { s with inodes := s.inodes.set n ino } else none

/-- Modelled from the spec: `get_d_bmap` loads the data-block bitmap. -/
def get_d_bmap (s : FS) : List Nat := s.d_bmap

/-- Modelled from the spec: `set_d_bmap` stores the data-block bitmap. -/
def set_d_bmap (s : FS) (m : List Nat) : FS := { s with d_bmap := m }

/-- Modelled from the spec: `get_i_bmap` loads the inode bitmap. -/
def get_i_bmap (s : FS) : List Nat := s.i_bmap

/-- Modelled from the spec: `set_i_bmap` stores the inode bitmap. -/
def set_i_bmap (s : FS) (m : List Nat) : FS := { s with i_bmap := m }

/-! ## Allocator (`myfs.c` lines 21-72) -/

/-- The scan `while (bitmap[i]) i++` over the entries `l = bitmap[i..]`: the first index
whose entry is 0, `none` when the scan runs past the end of the array. -/
def scan_free : List Nat → Nat → Option Nat
  | [], _ => none
  | x :: xs, i => if x = 0 then some i else scan_free xs (i + 1)

/-- `get_next_free_block`: first free entry of the data-block bitmap from index 0,
marked and stored. -/
def get_next_free_block (s : FS) : Option (Nat × FS) :=
  let block_bitmap := get_d_bmap s
  match scan_free block_bitmap 0 with
  | none => none
  | some free_block => some (free_block, set_d_bmap s (block_bitmap.set free_block 1))

/-- `get_next_free_inode`: first free entry of the inode bitmap from index 2, marked and
stored. -/
def get_next_free_inode (s : FS) : Option (Nat × FS) :=
  let inode_bitmap := get_i_bmap s
  if inode_bitmap.length < 2 then none
  else
    match scan_free (inode_bitmap.drop 2) 2 with
    | none => none
    | some free_inode => some (free_inode, set_i_bmap s (inode_bitmap.set free_inode 1))

/-! ## Byte copies -/

/-- `memcpy(&dst[off], src, |src|)` on a buffer `dst`. -/
def memcpy_at (dst : List Nat) (off : Nat) (src : List Nat) : List Nat :=
  dst.take off ++ src ++ dst.drop (off + src.length)

/-- The `n` bytes `src[off .. off+n)`. -/
def bytes_at (src : List Nat) (off n : Nat) : List Nat := (src.drop off).take n

/-! ## `my_read` (lines 103-148) -/

/-- The `for` loop of `my_read` (lines 128-143); `fuel` is the number of iterations left,
`end_block + 1 - current_block`.  The result is `(retstat, buf)` at the `return`.
`retstat` is a C `int` (line 104): `none` when the count reaches `2 ^ 31`. -/
def read_loop (P : Params) (s : FS) (mallNode : Inode) (start_block offset : Nat) :
    Nat → Nat → Nat → Nat → List Nat → Option (Int × List Nat)
  | 0, _, _, retstat, buf => some ((retstat : Int), buf)
  | fuel + 1, current_block, size, retstat, buf =>
    let block_offset := if current_block = start_block then offset % P.BLOCKSIZE else 0
    let bytes_to_read :=
      if size < P.BLOCKSIZE - block_offset then size else P.BLOCKSIZE - block_offset
    match mallNode.pointers[current_block]? with
    | none => none
    | some ptr =>
      match read_block P s ptr with
      | none => none
      | some none => some (-1, buf)
      | some (some r_block) =>
        if buf.length < retstat + bytes_to_read ∨ 2 ^ 31 ≤ retstat + bytes_to_read then none
        else
          read_loop P s mallNode start_block offset fuel (current_block + 1)
            (size - bytes_to_read) (retstat + bytes_to_read)
            (memcpy_at buf retstat (bytes_at r_block block_offset bytes_to_read))

/-- `my_read(inodenum, buf, size, offset)`: the returned `int` and the buffer after the
call. -/
def my_read (P : Params) (inodenum : Nat) (buf : List Nat) (size offset : Nat) (s : FS) :
    Option (Int × List Nat) :=
  match get_inode s inodenum with
  | none => some (-1, buf)
  | some mallNode =>
    if P.BLOCKSIZE = 0 then none
    else
      let start_block := offset / P.BLOCKSIZE
      let end_block := u32 (offset + size + (2 ^ 32 - 1)) / P.BLOCKSIZE
      let file_size := mallNode.size
      if offset ≥ file_size then some (0, buf)
      else
        let size1 := if u32 (offset + size) > file_size then file_size - offset else size
        read_loop P s mallNode start_block offset (end_block + 1 - start_block)
          start_block size1 0 buf

/-! ## `my_write` (lines 152-210) -/

/-- The scan `for (i = 0; i < K; i++) if (pointers[i] == 0)` of `my_write`: the first
slot holding 0, counted from `i`. -/
def first_zero_slot : List Nat → Nat → Option Nat
  | [], _ => none
  | x :: xs, i => if x = 0 then some i else first_zero_slot xs (i + 1)

/-- The allocation loop of `my_write` (lines 162-171); `fuel` is the number of
iterations, `numBlocksNeeded - blocks`, as each iteration adds one to `blocks`. -/
def alloc_loop (P : Params) : Nat → Inode → FS → Option (Inode × FS)
  | 0, fileInode, s => some (fileInode, s)
  | fuel + 1, fileInode, s =>
    let fileInode1 := { fileInode with blocks := fileInode.blocks + 1 }
    match first_zero_slot fileInode1.pointers 0 with
    | none => alloc_loop P fuel fileInode1 s
    | some i =>
      match get_next_free_block s with
      | none => none
      | some (b, s1) =>
        match write_block P s1 b (List.replicate P.BLOCKSIZE 0) with
        | none => none
        | some r =>
          alloc_loop P fuel { fileInode1 with pointers := fileInode1.pointers.set i b }
            (r.getD s1)

/-- Lines 190-192 of `my_write`: `read_block`, `memcpy` into the block at `blockOffset`,
`write_block`.  When the block number lies outside the image both calls fail and the
image is unchanged. -/
def write_chunk (P : Params) (s : FS) (ptr blockOffset : Nat) (src : List Nat) : Option FS :=
  match read_block P s ptr with
  | none => none
  | some none => some s
  | some (some dataBlock) =>
    match write_block P s ptr (memcpy_at dataBlock blockOffset src) with
    | none => none
    | some r => some (r.getD s)

/-- The copy loop of `my_write` (lines 182-205); `fuel` bounds the number of iterations
(`size` decreases in each).  The result is `bytesWritten` and the image.  `dataOffset`
and `bytesWritten` are C `int`s (lines 153, 176): `none` when one of them reaches
`2 ^ 31`. -/
def write_loop (P : Params) (fileInode : Inode) (buf : List Nat) :
    Nat → Nat → Nat → Nat → Nat → Nat → FS → Option (Nat × FS)
  | 0, _, _, _, _, bytesWritten, s => some (bytesWritten, s)
  | fuel + 1, size, currentBlock, blockOffset, dataOffset, bytesWritten, s =>
    if size > 0 then
      let numBytesToCopy :=
        if size ≥ P.BLOCKSIZE - blockOffset then P.BLOCKSIZE - blockOffset else size
      match fileInode.pointers[currentBlock]? with
      | none => none
      | some ptr =>
        if buf.length < dataOffset + numBytesToCopy ∨ 2 ^ 31 ≤ dataOffset + numBytesToCopy ∨
            2 ^ 31 ≤ bytesWritten + numBytesToCopy then none
        else
          match write_chunk P s ptr blockOffset (bytes_at buf dataOffset numBytesToCopy) with
          | none => none
          | some s1 =>
            if size > P.BLOCKSIZE then
              write_loop P fileInode buf fuel (size - P.BLOCKSIZE) (currentBlock + 1) 0
                (dataOffset + numBytesToCopy) (bytesWritten + numBytesToCopy) s1
            else
              write_loop P fileInode buf fuel 0 currentBlock 0
                (dataOffset + numBytesToCopy) (bytesWritten + numBytesToCopy) s1
    else some (bytesWritten, s)

/-- `my_write(inodenum, buf, size, offset)`: the returned `int` and the image after the
call.  `get_inode` and `set_inode` failures are not checked by the source: after a
failed `get_inode` the inode buffer is uninitialised (`none`); a failed `set_inode`
leaves the image as it is. -/
def my_write (P : Params) (inodenum : Nat) (buf : List Nat) (size offset : Nat) (s : FS) :
    Option (Int × FS) :=
  if P.BLOCKSIZE = 0 then none
  else
    let numBlocksNeeded := u32 (size + offset + P.BLOCKSIZE - 1) / P.BLOCKSIZE
    match get_inode s inodenum with
    | none => none
    | some fileInode =>
      match alloc_loop P (numBlocksNeeded - fileInode.blocks) fileInode s with
      | none => none
      | some (fileInode1, s1) =>
        let currentBlock := offset / P.BLOCKSIZE
        let blockOffset := offset % P.BLOCKSIZE
        let fileInode2 := { fileInode1 with size := u32 (size + offset) }
        match write_loop P fileInode2 buf size size currentBlock blockOffset 0 0 s1 with
        | none => none
        | some (bytesWritten, s2) =>
          some ((bytesWritten : Int), (set_inode s2 inodenum fileInode2).getD s2)

/-! ## Directory codec (`read_dir_from_blocks`, `write_dir_to_blocks`), modelled from the spec -/

/-- Modelled from the spec: the concatenation of the blocks `pointers[0..n)`, the byte
stream of a directory.  `some none` is a failed block read. -/
def read_stream (P : Params) (s : FS) (pointers : List Nat) : Nat → Option (Option (List Nat))
  | 0 => some (some [])
  | n + 1 =>
    match read_stream P s pointers n with
    | none => none
    | some none => some none
    | some (some bs) =>
      match pointers[n]? with
      | none => none
      | some p =>
        match read_block P s p with
        | none => none
        | some none => some none
        | some (some b) => some (some (bs ++ b))

/-- Modelled from the spec: records are decoded one after the other until a record with
inode number 0 or until `count` records have been read. -/
def decode_chain (P : Params) : Nat → List Nat → List DirRec
  | 0, _ => []
  | count + 1, stream =>
    if stream.length < P.DIRREC_SIZE then []
    else
      let r := P.decode (stream.take P.DIRREC_SIZE)
      if r.inum = 0 then [] else r :: decode_chain P count (stream.drop P.DIRREC_SIZE)

/-- Modelled from the spec: `read_dir_from_blocks(first, size, blocks, pointers)`, the
chain of records stored in the given blocks.  `some none` is the error return -1. -/
def read_dir_from_blocks (P : Params) (s : FS) (size blocks : Nat) (pointers : List Nat) :
    Option (Option (List DirRec)) :=
  if P.DIRREC_SIZE = 0 then none
  else
    match read_stream P s pointers blocks with
    | none => none
    | some none => some none
    | some (some stream) => some (some (decode_chain P (size / P.DIRREC_SIZE) stream))

/-- Modelled from the spec: the byte stream `rest` is written block by block to
`pointers[j]`, `pointers[j+1]`, ..., the last block padded with zeros.  The flag is
`false` when a block write failed. -/
def write_stream (P : Params) (pointers : List Nat) :
    Nat → Nat → List Nat → FS → Option (Bool × FS)
  | 0, _, _, s => some (true, s)
  | n + 1, j, rest, s =>
    match pointers[j]? with
    | none => none
    | some p =>
      let chunk := rest.take P.BLOCKSIZE
      match write_block P s p (chunk ++ List.replicate (P.BLOCKSIZE - chunk.length) 0) with
      | none => none
      | some none => some (false, s)
      | some (some s1) => write_stream P pointers n (j + 1) (rest.drop P.BLOCKSIZE) s1

/-- Modelled from the spec: `write_dir_to_blocks(first, blocks, pointers, &size)`.  The
result is the returned `int`, the image and the value of `size` after the call: the
records are written end to end into the blocks; when the blocks do not suffice the
number of additional blocks is returned and nothing is written. -/
def write_dir_to_blocks (P : Params) (s : FS) (chain : List DirRec) (blocks : Nat)
    (pointers : List Nat) (size : Nat) : Option (Int × FS × Nat) :=
  if P.BLOCKSIZE = 0 then none
  else
    let stream := (chain.map P.encode).flatten
    let needed := (stream.length + P.BLOCKSIZE - 1) / P.BLOCKSIZE
    if needed > blocks then some (((needed - blocks : Nat) : Int), s, size)
    else
      match write_stream P pointers needed 0 stream s with
      | none => none
      | some (false, s1) => some (-1, s1, size)
      | some (true, s1) => some (0, s1, stream.length)

/-! ## Directories (lines 212-272) -/

/-- `read_dir_from_inode(first, inodenum)`: `some none` is the error return -1. -/
def read_dir_from_inode (P : Params) (s : FS) (inodenum : Nat) :
    Option (Option (List DirRec)) :=
  match get_inode s inodenum with
  | none => some none
  | some dirinode => read_dir_from_blocks P s dirinode.size dirinode.blocks dirinode.pointers

/-- The loop of lines 252-254: `pointers[i + blocks] = get_next_free_block()` for
`i < err`. -/
def grow_pointers : Nat → Nat → List Nat → FS → Option (List Nat × FS)
  | 0, _, pointers, s => some (pointers, s)
  | n + 1, j, pointers, s =>
    if pointers.length ≤ j then none
    else
      match get_next_free_block s with
      | none => none
      | some (b, s1) => grow_pointers n (j + 1) (pointers.set j b) s1

/-- `add_rec_to_dir_inode(inodenum, rec)`: the returned `int` and the image.  The chain
read by `read_dir_from_inode` is used without a check of its return value (`none` when
that read failed). -/
def add_rec_to_dir_inode (P : Params) (s : FS) (inodenum : Nat) (rec : DirRec) :
    Option (Int × FS) :=
  match get_inode s inodenum with
  | none => some (-1, s)
  | some dirinode =>
    match read_dir_from_inode P s inodenum with
    | none => none
    | some none => none
    | some (some first0) =>
      let first := rec :: first0
      match write_dir_to_blocks P s first dirinode.blocks dirinode.pointers dirinode.size with
      | none => none
      | some (err, s1, size1) =>
        if err = -1 then some (-1, s1)
        else if err > 0 then
          match grow_pointers err.toNat dirinode.blocks dirinode.pointers s1 with
          | none => none
          | some (pointers2, s2) =>
            let blocks2 := dirinode.blocks + err.toNat
            match write_dir_to_blocks P s2 first blocks2 pointers2 size1 with
            | none => none
            | some (err2, s3, size3) =>
              if err2 = -1 then some (-1, s3)
              else
                let dirinode2 : Inode :=
                  { dirinode with size := size3, blocks := blocks2, pointers := pointers2 }
                some (0, (set_inode s3 inodenum dirinode2).getD s3)
        else
          some (0, (set_inode s1 inodenum { dirinode with size := size1 }).getD s1)

/-! ## Paths (lines 274-382) -/

/-- The character `path[i]` of a C string: its bytes, then the terminating NUL, and
nothing after it. -/
def cstr_at (path : CStr) (i : Nat) : Option Nat :=
  if i < path.length then path[i]? else if i = path.length then some 0 else none

/-- `strnlen(path, cap)`. -/
def strnlen (path : CStr) (cap : Nat) : Nat := min path.length cap

/-- Modelled from the spec: the local `pathlist` (typedef in `myfs.h`) is an array of
rows, each a C string of at most `MAX_FILENAME` bytes.  Row `i` is overwritten by the
string `str`; `none` for a row index past the array or a string longer than a row. -/
def set_row (P : Params) (pathl : List CStr) (i : Nat) (str : CStr) : Option (List CStr) :=
  if i < pathl.length ∧ str.length ≤ P.MAX_FILENAME then some (pathl.set i str) else none

/-- Lines 294-302 of `split_path`: the last component and the terminating empty row. -/
def split_tail (P : Params) (path : CStr) (i cur prev : Nat) (pathl : List CStr) :
    Option (Int × List CStr) :=
  if cur - prev > 0 then
    match set_row P pathl i (bytes_at path prev (cur - prev - 1)) with
    | none => none
    | some pathl1 =>
      match set_row P pathl1 (i + 1) [] with
      | none => none
      | some pathl2 => some (0, pathl2)
  else
    match set_row P pathl i [] with
    | none => none
    | some pathl1 => some (0, pathl1)

/-- The `while` loop of `split_path` (lines 281-292) followed by the rest of the
function; `fuel` bounds the iterations (`cur` grows by one in each, up to `pathlen`). -/
def split_loop (P : Params) (path : CStr) (pathlen : Nat) :
    Nat → Nat → Nat → Nat → List CStr → Option (Int × List CStr)
  | 0, i, cur, prev, pathl => split_tail P path i cur prev pathl
  | fuel + 1, i, cur, prev, pathl =>
    if i < P.MAX_PATH_DEPTH ∧ cur ≤ pathlen then
      match cstr_at path cur with
      | none => none
      | some c =>
        if c = 47 then
          if cur - prev > P.MAX_FILENAME then some (-1, pathl)
          else
            match set_row P pathl i (bytes_at path prev (cur - prev)) with
            | none => none
            | some pathl1 => split_loop P path pathlen fuel (i + 1) (cur + 1) (cur + 1) pathl1
        else split_loop P path pathlen fuel i (cur + 1) prev pathl
    else split_tail P path i cur prev pathl

/-- `split_path(path, pathlen, pathl)`: the returned `int` and the contents of `pathl`
after the call. -/
def split_path (P : Params) (path : CStr) (pathlen : Nat) (pathl : List CStr) :
    Option (Int × List CStr) :=
  if pathlen < 1 then some (-1, pathl)
  else
    match cstr_at path 0 with
    | none => none
    | some c =>
      if c ≠ 47 then some (-1, pathl)
      else split_loop P path pathlen pathlen 0 1 1 pathl

/-- `get_inum_for_name_in_dir(root, name)`: `strncmp(cur->name, name, MAX_FILENAME) == 0`
on C strings is equality of their first `MAX_FILENAME` bytes. -/
def get_inum_for_name_in_dir (P : Params) : List DirRec → CStr → Nat
  | [], _ => 0
  | cur :: rest, name =>
    if cur.name.take P.MAX_FILENAME = name.take P.MAX_FILENAME then cur.inum
    else get_inum_for_name_in_dir P rest name

/-- The `while (next[0])` loop of `get_inode_for_path` (lines 347-362); `rows` are the
rows `pl[i..]` not yet read.  The results of `get_inode` and `read_dir_from_inode` are
used without a check of their return values (`none` when one of them failed). -/
def walk (P : Params) (s : FS) : List CStr → CStr → Nat → Option Nat
  | rows, next, cur_inode_num =>
    if next = [] then some cur_inode_num
    else
      match get_inode s cur_inode_num with
      | none => none
      | some cur_inode =>
        if cur_inode.type = P.TYPE_DIR then
          match read_dir_from_inode P s cur_inode_num with
          | none => none
          | some none => none
          | some (some curdir) =>
            let n := get_inum_for_name_in_dir P curdir next
            if n < 2 then some 0
            else
              match rows with
              | [] => none
              | r :: rows1 => walk P s rows1 r n
        else some 0

/-- `get_inode_for_path(path)`.  `pl0` is the content of the uninitialised local
`pathlist pl` at entry; it is what the walk reads when `split_path` returns -1 before
writing it, as the return value of `split_path` is not checked. -/
def get_inode_for_path (P : Params) (pl0 : List CStr) (s : FS) (path : CStr) : Option Nat :=
  let pathlen := strnlen path (P.MAX_PATH_DEPTH * P.MAX_FILENAME)
  match split_path P path pathlen pl0 with
  | none => none
  | some (_, pl) =>
    match pl with
    | [] => none
    | next :: rows => walk P s rows next 2

/-- The scan `while (path[last_slash] != '/') last_slash--` from index `i`; `none` when
it runs below index 0. -/
def find_last_slash (path : CStr) : Nat → Option Nat
  | 0 => if cstr_at path 0 = some 47 then some 0 else none
  | i + 1 =>
    match cstr_at path (i + 1) with
    | none => none
    | some c => if c = 47 then some (i + 1) else find_last_slash path i

/-- `get_parent_dir_inode(path)`. -/
def get_parent_dir_inode (P : Params) (pl0 : List CStr) (s : FS) (path : CStr) :
    Option Nat :=
  let pathlen := strnlen path (P.MAX_FILENAME * P.MAX_PATH_DEPTH)
  match find_last_slash path pathlen with
  | none => none
  | some last_slash => get_inode_for_path P pl0 s (path.take last_slash)

/-- `get_file_from_path(path, &filename)`: the string stored in `*filename`.  When the
scan stops at `path[pathlen]` (a path longer than the `strnlen` bound with a '/' there)
the `size_t` value `pathlen - last_slash - 1` wraps and `memcpy` leaves the buffer
(`none`). -/
def get_file_from_path (P : Params) (path : CStr) : Option CStr :=
  let pathlen := strnlen path (P.MAX_FILENAME * P.MAX_PATH_DEPTH)
  match find_last_slash path pathlen with
  | none => none
  | some last_slash =>
    if pathlen ≤ last_slash then none
    else some (bytes_at path (last_slash + 1) (pathlen - last_slash - 1))

/-! ## File operations -/

/-- `my_mknod(path)` (lines 74-101): the returned `int` and the image.  When
`get_inode` fails for the new inode number, `set_inode` fails for it as well and no
inode is written. -/
def my_mknod (P : Params) (pl0 : List CStr) (path : CStr) (s : FS) : Option (Int × FS) :=
  match get_parent_dir_inode P pl0 s path with
  | none => none
  | some parent_inode_num =>
    match get_file_from_path P path with
    | none => none
    | some filename =>
      match get_next_free_inode s with
      | none => none
      | some (nextFreeInode, s1) =>
        let s2 :=
          match get_inode s1 nextFreeInode with
          | none => s1
          | some newInode =>
            (set_inode s1 nextFreeInode
              { newInode with type := P.TYPE_FILE, size := 0, blocks := 0 }).getD s1
        let dir : DirRec := { name := filename.take P.MAX_FILENAME, inum := nextFreeInode }
        match add_rec_to_dir_inode P s2 parent_inode_num dir with
        | none => none
        | some (_, s3) => some (0, s3)

/-- `my_mkdir(path)` (lines 390-455): the returned `int` and the image.  `junk` is the
content of the uninitialised local `inode newInode` at entry.  The chain read into `head`
at line 414 is not used.  When the scan stops at `path[pathlen]` the `size_t` value
`pathlen - last_slash - 1` wraps and `memcpy` leaves the buffer (`none`).  `strncpy`
copies the leaf name and its NUL into `newrec->name` (`none` when they do not fit into
`MAX_FILENAME` bytes); `abort()` is `none`. -/
def my_mkdir (P : Params) (pl0 : List CStr) (junk : Inode) (path : CStr) (s : FS) :
    Option (Int × FS) :=
  let pathlen := strnlen path (P.MAX_FILENAME * P.MAX_PATH_DEPTH)
  match find_last_slash path pathlen with
  | none => none
  | some last_slash =>
    let path_dir := path.take last_slash
    let path_file := bytes_at path (last_slash + 1) (pathlen - last_slash - 1)
    match get_inode_for_path P pl0 s path_dir with
    | none => none
    | some dir_inode_num =>
      if pathlen ≤ last_slash then none
      else if (read_dir_from_inode P s dir_inode_num).isNone then none
      else if P.MAX_FILENAME < pathlen - last_slash ∨ P.MAX_FILENAME < 3 then none
      else
        match get_next_free_inode s with
        | none => none
        | some (inum, s1) =>
          let newrec : DirRec := { name := path_file, inum := inum }
          if junk.pointers.length < 1 then none
          else
            match get_next_free_block s1 with
            | none => none
            | some (b, s2) =>
              let newInode : Inode :=
                { junk with type := P.TYPE_DIR, blocks := 1, pointers := junk.pointers.set 0 b }
              let first : List DirRec := [⟨[46], inum⟩, ⟨[46, 46], dir_inode_num⟩]
              match write_dir_to_blocks P s2 first 1 newInode.pointers newInode.size with
              | none => none
              | some (err, s3, size3) =>
                if err = -1 then none
                else
                  match set_inode s3 inum { newInode with size := size3 } with
                  | none => none
                  | some s4 =>
                    match add_rec_to_dir_inode P s4 dir_inode_num newrec with
                    | none => none
                    | some (_, s5) => some (0, s5)

/-- `my_open(path, &fd)` (lines 457-468): the returned `int` and `*fd`. -/
def my_open (P : Params) (pl0 : List CStr) (path : CStr) (s : FS) : Option (Int × Nat) :=
  match get_inode_for_path P pl0 s path with
  | none => none
  | some inodenum => some (if inodenum < 2 then -1 else 0, inodenum)

/-- The fields of `struct stat` filled by `my_getattr`. -/
structure Stat where
  st_dev : Nat
  st_ino : Nat
  st_mode : Nat
  st_nlink : Nat
  st_blksize : Nat
  st_blocks : Nat
  st_size : Nat
deriving DecidableEq, Repr

/-- `S_IFDIR` of `<sys/stat.h>`. -/
def S_IFDIR : Nat := 0o040000

/-- `S_IFREG` of `<sys/stat.h>`. -/
def S_IFREG : Nat := 0o100000

/-- `S_IRWXU | S_IRWXG | S_IROTH | S_IXOTH`. -/
def DEFAULT_MODE : Nat := 0o775

/-- `ENOENT` of `<errno.h>`. -/
def ENOENT : Int := 2

/-- `my_getattr(path, statbuf)` (lines 470-497): the returned `int` and `*statbuf`
after the call (`statbuf0` before it). -/
def my_getattr (P : Params) (pl0 : List CStr) (path : CStr) (statbuf0 : Stat) (s : FS) :
    Option (Int × Stat) :=
  match get_inode_for_path P pl0 s path with
  | none => none
  | some inodenum =>
    if inodenum < 2 then some (-ENOENT, statbuf0)
    else
      match get_inode s inodenum with
      | none => none
      | some ino =>
        some (0,
          { st_dev := 0
            st_ino := inodenum
            st_mode := if ino.type = P.TYPE_DIR then DEFAULT_MODE ||| S_IFDIR
                       else DEFAULT_MODE ||| S_IFREG
            st_nlink := 1
            st_blksize := P.BLOCKSIZE
            st_blocks := ino.blocks
            st_size := ino.size })

/-! ## Mount (lines 499-586) -/

/-- The image after `ftruncate(fsfile, BLOCKSIZE * NUM_OF_BLOCKS)` on the new file: all
bytes zero. -/
def zero_image (P : Params) : FS :=
  { i_bmap := List.replicate P.NUM_INODES 0
    d_bmap := List.replicate P.NUM_OF_BLOCKS 0
    inodes := List.replicate P.NUM_INODES
      { type := 0, size := 0, blocks := 0, pointers := List.replicate P.NUM_POINTERS 0 }
    blocks := List.replicate P.NUM_OF_BLOCKS (List.replicate P.BLOCKSIZE 0) }

/-- The loop `for (i = 0; i < 9; i++) dmap[i] = 1` of `my_init`, from index `i` for `n`
entries; `none` for an index past the bitmap. -/
def mark_first : Nat → Nat → List Nat → Option (List Nat)
  | 0, _, dmap => some dmap
  | n + 1, i, dmap => if i < dmap.length then mark_first n (i + 1) (dmap.set i 1) else none

/-- The initialisation branch of `my_init` (lines 516-577) on the image `s`.  `junk` is
the content of the uninitialised local `inode rootnode`; `abort()` is `none`. -/
def my_init (P : Params) (junk : Inode) (s : FS) : Option FS :=
  match mark_first 9 0 (get_d_bmap s) with
  | none => none
  | some dmap =>
    let s1 := set_d_bmap s dmap
    let imap := get_i_bmap s1
    if imap.length ≤ 2 then none
    else
      let s2 := set_i_bmap s1 (imap.set 2 1)
      if junk.pointers.length < 1 ∨ P.MAX_FILENAME < 3 then none
      else
        let rootnode : Inode :=
          { junk with type := P.TYPE_DIR, size := 0, blocks := 1,
                      pointers := junk.pointers.set 0 8 }
        let root : List DirRec := [⟨[46], 2⟩, ⟨[46, 46], 2⟩]
        match write_dir_to_blocks P s2 root 1 rootnode.pointers rootnode.size with
        | none => none
        | some (err, s3, size3) =>
          if err = -1 then none
          else set_inode s3 2 { rootnode with size := size3 }

/-! ## A small configuration for concrete runs -/

/-- A record layout for the small configuration: the name padded with NULs to 3 bytes,
then the inode number in one cell. -/
def demo_encode (r : DirRec) : List Nat :=
  r.name.take 3 ++ List.replicate (3 - r.name.length) 0 ++ [r.inum]

/-- The inverse of `demo_encode`: the name is the bytes before the first NUL. -/
def demo_decode (bs : List Nat) : DirRec :=
  { name := (bs.take 3).takeWhile (fun c => !(c == 0)), inum := bs.getD 3 0 }

/-- The metadata region of the small configuration as 56 cells: block 1 holds the 8
entries of the inode bitmap, block 2 the 16 entries of the data-block bitmap (two to a
cell), blocks 3..7 the 8 inode records (five cells each: type, size, blocks and the four
pointers, two to a cell). -/
def demo_meta_cells (s : FS) : List Nat :=
  (List.range 8).map (fun i => s.i_bmap.getD i 0) ++
  (List.range 8).map (fun k => s.d_bmap.getD (2 * k) 0 + 2 ^ 32 * s.d_bmap.getD (2 * k + 1) 0) ++
  ((List.range 8).map (fun i =>
    let ino := s.inodes.getD i (Inode.mk 0 0 0 [])
    [ino.type, ino.size, ino.blocks,
     ino.pointers.getD 0 0 + 2 ^ 32 * ino.pointers.getD 1 0,
     ino.pointers.getD 2 0 + 2 ^ 32 * ino.pointers.getD 3 0])).flatten

/-- Block `n` (1..7) of the small configuration as cells. -/
def demo_meta_read (s : FS) (n : Nat) : Block :=
  ((demo_meta_cells s).drop ((n - 1) * 8)).take 8

/-- The bitmaps and the inode table that the 56 cells `cells` hold. -/
def demo_meta_decode (s : FS) (cells : List Nat) : FS :=
  { i_bmap := (List.range 8).map (fun i => cells.getD i 0)
    d_bmap := (List.range 16).map (fun b =>
      if b % 2 = 0 then cells.getD (8 + b / 2) 0 % 2 ^ 32 else cells.getD (8 + b / 2) 0 / 2 ^ 32)
    inodes := (List.range 8).map (fun i =>
      Inode.mk (cells.getD (16 + 5 * i) 0) (cells.getD (16 + 5 * i + 1) 0)
        (cells.getD (16 + 5 * i + 2) 0)
        [cells.getD (16 + 5 * i + 3) 0 % 2 ^ 32, cells.getD (16 + 5 * i + 3) 0 / 2 ^ 32,
         cells.getD (16 + 5 * i + 4) 0 % 2 ^ 32, cells.getD (16 + 5 * i + 4) 0 / 2 ^ 32])
    blocks := s.blocks }

/-- The small image after the cells `b` have been stored into block `n` (1..7). -/
def demo_meta_write (s : FS) (n : Nat) (b : Block) : FS :=
  demo_meta_decode s
    (memcpy_at (demo_meta_cells s) ((n - 1) * 8) (b.take 8 ++ List.replicate (8 - b.length) 0))

/-- A small configuration: blocks of 8 bytes, 4 direct pointers, names of 3 bytes. -/
def demo : Params :=
  { BLOCKSIZE := 8, NUM_OF_BLOCKS := 16, NUM_POINTERS := 4, NUM_INODES := 8,
    MAX_FILENAME := 3, MAX_PATH_DEPTH := 3, DIRREC_SIZE := 4,
    TYPE_FILE := 1, TYPE_DIR := 2, encode := demo_encode, decode := demo_decode,
    meta_read := demo_meta_read, meta_write := demo_meta_write }

/-- A zeroed `struct inode` of the small configuration. -/
def demo_inode0 : Inode := { type := 0, size := 0, blocks := 0, pointers := [0, 0, 0, 0] }

/-- A zeroed `pathlist` of the small configuration. -/
def demo_pl0 : List CStr := [[], [], [], []]

/-- The small image after `my_init`. -/
def demo_fresh : Option FS := my_init demo demo_inode0 (zero_image demo)

/-- The small image after `my_init` and `mknod("/a")`. -/
def demo_a : Option FS :=
  demo_fresh.bind fun s => (my_mknod demo demo_pl0 [47, 97] s).map Prod.snd

/-- The small image after `my_init`, `mknod("/a")` and `write(3, "Hello", 5, 0)`. -/
def demo_hello : Option FS :=
  demo_a.bind fun s => (my_write demo 3 [72, 101, 108, 108, 111] 5 0 s).map Prod.snd

/-! ## Well-formedness conditions used in the statements -/

/-- The image conditions under which file data is addressed correctly: blocks are
`BLOCKSIZE > 0` bytes long, the data-block bitmap has its entries 0..8 set and has an
entry only for blocks of the image. -/
structure ImageOK (P : Params) (s : FS) : Prop where
  bpos : 0 < P.BLOCKSIZE
  reserved : ∀ b, b ≤ 8 → ∃ v, s.d_bmap[b]? = some v ∧ v ≠ 0
  bmap_len : s.d_bmap.length ≤ s.blocks.length
  blk_len : ∀ (b : Nat) (blk : Block), s.blocks[b]? = some blk → blk.length = P.BLOCKSIZE

/-- A well-formed inode: `K` pointers, of which `pointers[0..blocks)` are distinct data
blocks (number 8 or more) marked in the data-block bitmap, and the others are 0. -/
structure InodeOK (P : Params) (s : FS) (ino : Inode) : Prop where
  len : ino.pointers.length = P.NUM_POINTERS
  cap : ino.blocks ≤ P.NUM_POINTERS
  used : ∀ j, j < ino.blocks →
    ∃ p, ino.pointers[j]? = some p ∧ 8 ≤ p ∧ ∃ v, s.d_bmap[p]? = some v ∧ v ≠ 0
  unused : ∀ j, ino.blocks ≤ j → j < P.NUM_POINTERS → ino.pointers[j]? = some 0
  distinct : ∀ i j, i < j → j < ino.blocks → ino.pointers[i]? ≠ ino.pointers[j]?

/-- The bytes of the blocks `pointers[c .. c+m)`, in order. -/
def content (s : FS) (pointers : List Nat) : Nat → Nat → List Nat
  | _, 0 => []
  | c, m + 1 => s.blocks.getD (pointers.getD c 0) [] ++ content s pointers (c + 1) m

/-- A decidable form of `ImageOK`, for concrete images. -/
def image_check (P : Params) (s : FS) : Bool :=
  decide (0 < P.BLOCKSIZE) &&
  (List.range 9).all (fun b =>
    match s.d_bmap[b]? with
    | some v => decide (v ≠ 0)
    | none => false) &&
  decide (s.d_bmap.length ≤ s.blocks.length) &&
  s.blocks.all (fun blk => decide (blk.length = P.BLOCKSIZE))

/-- A decidable form of `InodeOK`, for concrete inodes. -/
def inode_check (P : Params) (s : FS) (ino : Inode) : Bool :=
  decide (ino.pointers.length = P.NUM_POINTERS) &&
  decide (ino.blocks ≤ P.NUM_POINTERS) &&
  (List.range ino.blocks).all (fun j =>
    match ino.pointers[j]? with
    | some p =>
      decide (8 ≤ p) &&
        (match s.d_bmap[p]? with
         | some v => decide (v ≠ 0)
         | none => false)
    | none => false) &&
  (List.range P.NUM_POINTERS).all (fun j =>
    decide (j < ino.blocks) || decide (ino.pointers[j]? = some 0)) &&
  (List.range ino.blocks).all (fun j =>
    (List.range j).all (fun i => decide (ino.pointers[i]? ≠ ino.pointers[j]?)))

/-- The small image after `my_init` and `mknod("/a")`, as an image. -/
def demo_a_fs : FS := demo_a.getD (zero_image demo)

/-- The small image after `my_init`, `mknod("/a")` and `write(3, "Hello", 5, 0)`, as an
image. -/
def demo_hello_fs : FS := demo_hello.getD (zero_image demo)

/-- A name as a directory record holds it: at most `MAX_FILENAME` bytes, none of them
NUL. -/
def GoodName (P : Params) (name : CStr) : Prop :=
  name.length ≤ P.MAX_FILENAME ∧ ∀ c ∈ name, c ≠ 0

/-- The conditions on the record layout: a record takes `DIRREC_SIZE > 0` bytes and is
decoded to what was encoded. -/
structure CodecOK (P : Params) : Prop where
  dpos : 0 < P.DIRREC_SIZE
  enc_len : ∀ r : DirRec, (P.encode r).length = P.DIRREC_SIZE
  dec_enc : ∀ r : DirRec, GoodName P r.name → P.decode (P.encode r) = r

/-- The pointers `ptrs[c .. c+m)` name data blocks of the image. -/
def PtrsOK (s : FS) (ptrs : List Nat) (c m : Nat) : Prop :=
  ∀ j, c ≤ j → j < c + m → ∃ p, ptrs[j]? = some p ∧ 8 ≤ p ∧ p < s.blocks.length

/-- The pointers `ptrs[c .. c+m)` are pairwise different. -/
def PtrsDistinct (ptrs : List Nat) (c m : Nat) : Prop :=
  ∀ i j, c ≤ i → i < j → j < c + m → ptrs[i]? ≠ ptrs[j]?

/-- All blocks of the image have `BLOCKSIZE` bytes. -/
def BlocksSized (P : Params) (s : FS) : Prop :=
  ∀ (b : Nat) (blk : Block), s.blocks[b]? = some blk → blk.length = P.BLOCKSIZE

/-- Inode `i` is marked in the inode bitmap. -/
def allocated (s : FS) (i : Nat) : Prop := ∃ v, s.i_bmap[i]? = some v ∧ v ≠ 0

/-- Block `b` is marked in the data-block bitmap. -/
def marked (s : FS) (b : Nat) : Prop := ∃ v, s.d_bmap[b]? = some v ∧ v ≠ 0

/-- The conditions on the configuration: a sound record layout, two records fit into a
block, names have room for "..", the two inode types differ, the capacity of a file
fits into a `uint`, and the image has room for the reserved blocks and the root inode. -/
structure ParamsOK (P : Params) : Prop where
  codec : CodecOK P
  bpos : 0 < P.BLOCKSIZE
  fit : 2 * P.DIRREC_SIZE ≤ P.BLOCKSIZE
  mf : 3 ≤ P.MAX_FILENAME
  types : P.TYPE_FILE ≠ P.TYPE_DIR
  word : P.NUM_POINTERS * P.BLOCKSIZE + P.BLOCKSIZE ≤ 2 ^ 32
  nblocks : 9 ≤ P.NUM_OF_BLOCKS
  ninodes : 3 ≤ P.NUM_INODES
  kpos : 1 ≤ P.NUM_POINTERS

/-- The chain `c` of directory `i` ends with `(".", i)` followed by the last record
`("..", p)`; for the root directory 2, `p = 2`. -/
def DotEnd (i : Nat) (c : List DirRec) : Prop :=
  ∃ front p, c = front ++ [⟨[46], i⟩, ⟨[46, 46], p⟩] ∧ (i = 2 → p = 2)

/-- The invariant of the images built by `my_init`, `my_mknod`, `my_mkdir` and `my_write`:
allocated inodes are files or directories with at most `K` blocks; their used pointers
are marked data blocks, no block is used twice, every marked block beyond 0..8 is used;
the unused pointers of files and all pointers of unallocated inodes are 0; every
directory holds a chain of well-formed records naming allocated inodes that ends with
its dot entries. -/
structure FsInv (P : Params) (s : FS) : Prop where
  img : ImageOK P s
  tbl : s.i_bmap.length = s.inodes.length
  lo : ∀ i, allocated s i → 2 ≤ i
  plen : ∀ (i : Nat) (ino : Inode), s.inodes[i]? = some ino →
    ino.pointers.length = P.NUM_POINTERS
  typ : ∀ (i : Nat) (ino : Inode), allocated s i → s.inodes[i]? = some ino →
    ino.type = P.TYPE_FILE ∨ ino.type = P.TYPE_DIR
  cap : ∀ (i : Nat) (ino : Inode), allocated s i → s.inodes[i]? = some ino →
    ino.blocks ≤ P.NUM_POINTERS
  used : ∀ (i : Nat) (ino : Inode) (j : Nat), allocated s i → s.inodes[i]? = some ino →
    j < ino.blocks → ∃ p, ino.pointers[j]? = some p ∧ 8 ≤ p ∧ marked s p
  disj : ∀ (i k : Nat) (ino kno : Inode) (j l : Nat), allocated s i → allocated s k →
    s.inodes[i]? = some ino → s.inodes[k]? = some kno → j < ino.blocks → l < kno.blocks →
    (i ≠ k ∨ j ≠ l) → ino.pointers[j]? ≠ kno.pointers[l]?
  refd : ∀ b, marked s b → b ≤ 8 ∨ ∃ (i : Nat) (ino : Inode) (j : Nat),
    allocated s i ∧ s.inodes[i]? = some ino ∧ j < ino.blocks ∧ ino.pointers[j]? = some b
  zero : ∀ (i : Nat) (ino : Inode), allocated s i → s.inodes[i]? = some ino →
    ino.type = P.TYPE_FILE → ∀ j, ino.blocks ≤ j → j < P.NUM_POINTERS →
    ino.pointers[j]? = some 0
  fresh : ∀ (i : Nat) (ino : Inode), ¬ allocated s i → s.inodes[i]? = some ino →
    ∀ j, j < P.NUM_POINTERS → ino.pointers[j]? = some 0
  chain : ∀ (i : Nat) (ino : Inode), allocated s i → s.inodes[i]? = some ino →
    ino.type = P.TYPE_DIR →
    ∃ c, read_dir_from_blocks P s ino.size ino.blocks ino.pointers = some (some c) ∧
      (∀ r ∈ c, GoodName P r.name ∧ 2 ≤ r.inum ∧ allocated s r.inum) ∧ DotEnd i c
  root : allocated s 2 ∧ ∃ ino : Inode, s.inodes[2]? = some ino ∧ ino.type = P.TYPE_DIR

/-- One update of the image: the record of inode `x` becomes `ino1`, `x` is allocated
afterwards, the blocks satisfying `isNew` are newly marked, and only blocks used by `x`
or new blocks are written. -/
structure Step (P : Params) (s s1 : FS) (x : Nat) (ino1 : Inode) (isNew : Nat → Prop) :
    Prop where
  xlt : x < s.inodes.length
  x2 : 2 ≤ x
  imap_len : s1.i_bmap.length = s.i_bmap.length
  alloc_iff : ∀ i, allocated s1 i ↔ allocated s i ∨ i = x
  dmap_len : s1.d_bmap.length = s.d_bmap.length
  mark_iff : ∀ b, marked s1 b ↔ marked s b ∨ isNew b
  new_fresh : ∀ b, isNew b → 9 ≤ b ∧ ¬ marked s b
  inodes_eq : s1.inodes = s.inodes.set x ino1
  blocks_len : s1.blocks.length = s.blocks.length
  sized : BlocksSized P s1
  frame : ∀ q, 8 ≤ q → marked s q →
    (∀ (inoX : Inode) (j : Nat), allocated s x → s.inodes[x]? = some inoX → j < inoX.blocks →
      inoX.pointers[j]? ≠ some q) → s1.blocks[q]? = s.blocks[q]?
  plen : ino1.pointers.length = P.NUM_POINTERS
  typ : ino1.type = P.TYPE_FILE ∨ ino1.type = P.TYPE_DIR
  cap : ino1.blocks ≤ P.NUM_POINTERS
  used : ∀ j, j < ino1.blocks → ∃ p, ino1.pointers[j]? = some p ∧ 8 ≤ p ∧
    (isNew p ∨ (allocated s x ∧ ∃ (inoX : Inode) (j0 : Nat),
      s.inodes[x]? = some inoX ∧ j0 < inoX.blocks ∧ inoX.pointers[j0]? = some p))
  distinct : ∀ i j, i < j → j < ino1.blocks → ino1.pointers[i]? ≠ ino1.pointers[j]?
  new_used : ∀ b, isNew b → ∃ j, j < ino1.blocks ∧ ino1.pointers[j]? = some b
  old_used : allocated s x → ∀ (inoX : Inode) (j0 : Nat), s.inodes[x]? = some inoX →
    j0 < inoX.blocks → ∃ j, j < ino1.blocks ∧ ino1.pointers[j]? = inoX.pointers[j0]?
  zero : ino1.type = P.TYPE_FILE → ∀ j, ino1.blocks ≤ j → j < P.NUM_POINTERS →
    ino1.pointers[j]? = some 0
  chain : ino1.type = P.TYPE_DIR →
    ∃ c, read_dir_from_blocks P s1 ino1.size ino1.blocks ino1.pointers = some (some c) ∧
      (∀ r ∈ c, GoodName P r.name ∧ 2 ≤ r.inum ∧ allocated s1 r.inum) ∧ DotEnd x c
  keep_type : allocated s x → ∀ inoX : Inode, s.inodes[x]? = some inoX →
    ino1.type = inoX.type

/-- The images reachable from a fresh image by `my_mknod` and `my_mkdir` calls whose
parent path resolves to an allocated directory, and by `my_write` calls on an allocated
file with `size + offset` within the capacity of the direct pointers. -/
inductive Reach (P : Params) : FS → Prop
  | init (junk : Inode) (s : FS) (hjunk : junk.pointers.length = P.NUM_POINTERS)
      (hrun : my_init P junk (zero_image P) = some s) : Reach P s
  | mknod (s s1 : FS) (pl0 : List CStr) (path : CStr) (p : Nat) (inoP : Inode) (r : Int)
      (hs : Reach P s) (hnz : ∀ c ∈ path, c ≠ 0)
      (hpar : get_parent_dir_inode P pl0 s path = some p) (hap : allocated s p)
      (hino : get_inode s p = some inoP) (hty : inoP.type = P.TYPE_DIR)
      (hrun : my_mknod P pl0 path s = some (r, s1)) : Reach P s1
  | mkdir (s s1 : FS) (pl0 : List CStr) (junk : Inode) (path : CStr) (p : Nat) (inoP : Inode)
      (r : Int) (hs : Reach P s) (hnz : ∀ c ∈ path, c ≠ 0)
      (hjunk : junk.pointers.length = P.NUM_POINTERS)
      (hpar : get_parent_dir_inode P pl0 s path = some p) (hap : allocated s p)
      (hino : get_inode s p = some inoP) (hty : inoP.type = P.TYPE_DIR)
      (hrun : my_mkdir P pl0 junk path s = some (r, s1)) : Reach P s1
  | write (s s1 : FS) (inum : Nat) (ino : Inode) (buf : List Nat) (size offset : Nat) (r : Int)
      (hs : Reach P s) (ha : allocated s inum) (hino : get_inode s inum = some ino)
      (hty : ino.type = P.TYPE_FILE) (hcap : size + offset ≤ P.NUM_POINTERS * P.BLOCKSIZE)
      (hrun : my_write P inum buf size offset s = some (r, s1)) : Reach P s1

/-- Directory `p` is allocated and its chain has a record for inode `i`. -/
def Listed (P : Params) (s : FS) (p i : Nat) : Prop :=
  allocated s p ∧ ∃ (inoP : Inode) (c : List DirRec) (r : DirRec),
    get_inode s p = some inoP ∧ inoP.type = P.TYPE_DIR ∧
    read_dir_from_inode P s p = some (some c) ∧ r ∈ c ∧ r.inum = i

/-- The `..` record of every directory other than the root names a directory that lists
it. -/
def ParentInv (P : Params) (s : FS) : Prop :=
  ∀ (i : Nat) (ino : Inode) (front : List DirRec) (p : Nat), allocated s i →
    get_inode s i = some ino → ino.type = P.TYPE_DIR →
    read_dir_from_inode P s i = some (some (front ++ [⟨[46], i⟩, ⟨[46, 46], p⟩])) →
    i ≠ 2 → Listed P s p i

/-! ## Concrete images for the invariants -/

/-- The small image after `my_init`, as an image. -/
def demo_fresh_fs : FS := demo_fresh.getD (zero_image demo)

/-- The small image after `my_init` and `mkdir("/d")`. -/
def demo_d : Option FS :=
  demo_fresh.bind fun s => (my_mkdir demo demo_pl0 demo_inode0 [47, 100] s).map Prod.snd

/-- The small image after `my_init` and `mkdir("/d")`, as an image. -/
def demo_d_fs : FS := demo_d.getD (zero_image demo)

/-- The small image after `my_init` and `write(3, "\x01", 1, 0)` on the free inode 3. -/
def demo_stale_w_fs : FS :=
  ((my_write demo 3 [1] 1 0 demo_fresh_fs).map Prod.snd).getD (zero_image demo)

/-- The image `demo_stale_w_fs` after `mknod("/a")`. -/
def demo_stale_fs : FS :=
  ((my_mknod demo demo_pl0 [47, 97] demo_stale_w_fs).map Prod.snd).getD (zero_image demo)

/-- Block `b` is one of `pointers[0..blocks)` of some inode of the table. -/
def block_referenced (s : FS) (b : Nat) : Bool :=
  s.inodes.any fun ino => (ino.pointers.take ino.blocks).contains b

/-- The path "/c1/c2/.../ck" with the components `c1`, …, `ck`; the empty string for no
component. -/
def path_of : List CStr → CStr
  | [] => []
  | c :: cs => 47 :: c ++ path_of cs

/-- The small image after `my_init`, `mkdir("/d")` and `mknod("/d/a")`. -/
def demo_d_a_fs : FS :=
  ((my_mknod demo demo_pl0 [47, 100, 47, 97] demo_d_fs).map Prod.snd).getD (zero_image demo)

/-- The small image after `my_init`, `mkdir("/d")` and `mkdir("/d/a")`. -/
def demo_d_dir_fs : FS :=
  ((my_mkdir demo demo_pl0 demo_inode0 [47, 100, 47, 97] demo_d_fs).map Prod.snd).getD
    (zero_image demo)

/-- The small configuration with paths of up to 4 components. -/
def demo4 : Params := { demo with MAX_PATH_DEPTH := 4 }

/-- A zeroed `pathlist` for `demo4`. -/
def demo4_pl0 : List CStr := [[], [], [], [], []]

/-- The image of `demo4` after `my_init`. -/
def demo4_fresh_fs : FS :=
  (my_init demo4 demo_inode0 (zero_image demo4)).getD (zero_image demo4)

/-- The image of `demo4` after `my_init` and `mkdir("/d")`. -/
def demo4_d_fs : FS :=
  ((my_mkdir demo4 demo4_pl0 demo_inode0 [47, 100] demo4_fresh_fs).map Prod.snd).getD
    (zero_image demo4)

/-- A zeroed `struct stat`. -/
def stat0 : Stat :=
  { st_dev := 0, st_ino := 0, st_mode := 0, st_nlink := 0, st_blksize := 0, st_blocks := 0,
    st_size := 0 }

/-- The small image after `my_init`, `mknod("/a")` and `write(3, buf, 0, 33)`. -/
def demo_over_fs : FS :=
  ((my_write demo 3 [] 0 33 demo_a_fs).map Prod.snd).getD (zero_image demo)

/-- A `struct inode` left on the stack with a stale second pointer. -/
def demo_inode_stale : Inode := { type := 0, size := 0, blocks := 0, pointers := [0, 5, 0, 0] }

/-- The small image after `my_init` and `mkdir("/d")` run with `demo_inode_stale` as the
uninitialised inode. -/
def demo_junk_d_fs : FS :=
  ((my_mkdir demo demo_pl0 demo_inode_stale [47, 100] demo_fresh_fs).map Prod.snd).getD
    (zero_image demo)

/-- The image `demo_junk_d_fs` after `write(3, buf, 0, 9)` on the directory inode 3. -/
def demo_junk_w_fs : FS :=
  ((my_write demo 3 [] 0 9 demo_junk_d_fs).map Prod.snd).getD (zero_image demo)

/-- The walk of `get_inode_for_path` (lines 347-362), started with the component `next`,
the rows `rows` still to be read and the current inode `cur`, comes to look up the
component `next2` in the inode `cur2`, with the rows `rows2` still to be read: every
component before was found, with an inode number of 2 or more, in a directory. -/
inductive WalkTo (P : Params) (s : FS) :
    List CStr → CStr → Nat → List CStr → CStr → Nat → Prop
  | here (rows : List CStr) (next : CStr) (cur : Nat) : WalkTo P s rows next cur rows next cur
  | step (rows1 : List CStr) (r next : CStr) (cur : Nat) (ino : Inode) (c : List DirRec)
      (rows2 : List CStr) (next2 : CStr) (cur2 : Nat) (hne : next ≠ [])
      (hino : get_inode s cur = some ino) (hty : ino.type = P.TYPE_DIR)
      (hrd : read_dir_from_inode P s cur = some (some c))
      (hge : 2 ≤ get_inum_for_name_in_dir P c next)
      (hrest : WalkTo P s rows1 r (get_inum_for_name_in_dir P c next) rows2 next2 cur2) :
      WalkTo P s (r :: rows1) next cur rows2 next2 cur2

/-- The lookup of the component `next` in the inode `cur` fails: the inode is not a
directory, or no record of its chain has the name `next` (compared on the first
`MAX_FILENAME` bytes, as `strncmp` does). -/
def FailsAt (P : Params) (s : FS) (next : CStr) (cur : Nat) : Prop :=
  next ≠ [] ∧ ∃ ino : Inode, get_inode s cur = some ino ∧
    (ino.type ≠ P.TYPE_DIR ∨
      ∃ c : List DirRec, read_dir_from_inode P s cur = some (some c) ∧
        ∀ r ∈ c, r.name.take P.MAX_FILENAME ≠ next.take P.MAX_FILENAME)

/-- The small image after `my_init` and `mknod("/abcd")`. -/
def demo_abcd_fs : FS :=
  ((my_mknod demo demo_pl0 [47, 97, 98, 99, 100] demo_fresh_fs).map Prod.snd).getD
    (zero_image demo)

/-- The small image after `my_init`, `mknod("/a")`, `mknod("/b")`,
`write(3, "Hello", 5, 0)` and `write(4, "World", 5, 0)`. -/
def demo_two_fs : FS :=
  (((my_mknod demo demo_pl0 [47, 98] demo_a_fs).bind fun r =>
      (my_write demo 3 [72, 101, 108, 108, 111] 5 0 r.2).bind fun r1 =>
        (my_write demo 4 [87, 111, 114, 108, 100] 5 0 r1.2).map Prod.snd)).getD
    (zero_image demo)

/-- The image `demo_two_fs` after `write(3, buf, 10, 0)`. -/
def demo_two_w_fs : FS :=
  ((my_write demo 3 [1, 2, 3, 4, 5, 6, 7, 8, 9, 10] 10 0 demo_two_fs).map Prod.snd).getD
    (zero_image demo)

/-- A `pathlist` left on the stack with a stale first row "x". -/
def demo_pl_x : List CStr := [[120], [], [], []]

/-- A `pathlist` left on the stack with a stale first row "d". -/
def demo_pl_d : List CStr := [[100], [], [], []]

/-- The small image after `my_init` and `mkdir("/d")` run with the stale row "x" in the
uninitialised `pathlist` of the parent lookup. -/
def demo_stale_d_fs : FS :=
  ((my_mkdir demo demo_pl_x demo_inode0 [47, 100] demo_fresh_fs).map Prod.snd).getD
    (zero_image demo)

/-- The small image after `my_init` and `mknod("/a")` run with the stale row "x" in the
uninitialised `pathlist` of the parent lookup. -/
def demo_stale_a_fs : FS :=
  ((my_mknod demo demo_pl_x [47, 97] demo_fresh_fs).map Prod.snd).getD (zero_image demo)

/-- The image `demo_d_fs` after `mknod("/a")` run with the stale row "d" in the
uninitialised `pathlist` of the parent lookup. -/
def demo_d_stale_a_fs : FS :=
  ((my_mknod demo demo_pl_d [47, 97] demo_d_fs).map Prod.snd).getD (zero_image demo)

/-- The image `demo_d_fs` after `mkdir("/a")` run with the stale row "d" in the
uninitialised `pathlist` of the parent lookup. -/
def demo_d_stale_adir_fs : FS :=
  ((my_mkdir demo demo_pl_d demo_inode0 [47, 97] demo_d_fs).map Prod.snd).getD
    (zero_image demo)

/-- The image of `demo4` after `my_init`, `mkdir("/d")` and `mknod("/d/../d/..")`. -/
def demo4_dd_file_fs : FS :=
  ((my_mknod demo4 demo4_pl0 [47, 100, 47, 46, 46, 47, 100, 47, 46, 46]
    demo4_d_fs).map Prod.snd).getD (zero_image demo4)

/-- A `struct inode` left on the stack with the stale second pointer 4, a block of the
inode table. -/
def demo_inode_stale4 : Inode := { type := 0, size := 0, blocks := 0, pointers := [0, 4, 0, 0] }

/-- The small image after `my_init` and `mkdir("/d")` run with `demo_inode_stale4` as the
uninitialised inode. -/
def demo_junk4_d_fs : FS :=
  ((my_mkdir demo demo_pl0 demo_inode_stale4 [47, 100] demo_fresh_fs).map Prod.snd).getD
    (zero_image demo)

/-- The image `demo_junk4_d_fs` after `write(3, buf, 8, 8)` on the directory inode 3. -/
def demo_junk4_w_fs : FS :=
  ((my_write demo 3 [0, 0, 2, 1000, 1, 8, 0, 2] 8 8 demo_junk4_d_fs).map Prod.snd).getD
    (zero_image demo)

/-- The image `demo_two_fs` with the record of inode 4 set to a file of one block whose
pointer names block 5, a block of the inode table. -/
def demo_meta_fs : FS :=
  (set_inode demo_two_fs 4 (Inode.mk 1 8 1 [5, 0, 0, 0])).getD (zero_image demo)

/-- The image `demo_meta_fs` after `write(3, buf, 10, 0)`. -/
def demo_meta_w_fs : FS :=
  ((my_write demo 3 [1, 2, 3, 4, 5, 6, 7, 8, 9, 10] 10 0 demo_meta_fs).map Prod.snd).getD
    (zero_image demo)

/-- Inode `i` may hold blocks: it is allocated, or it is inode 0, which `my_mknod` and
`my_mkdir` take for the parent when the parent lookup returns 0. -/
def Owner (s : FS) (i : Nat) : Prop := allocated s i ∨ i = 0

/-- The invariant of the images built by `my_init`, by `my_mknod` and `my_mkdir` with any
path, and by `my_write` on allocated files with any size and offset: allocated inodes are
files or directories; the pointers `pointers[0..blocks)` of the allocated inodes and of
inode 0 are marked data blocks, no block is used twice, every marked block beyond 0..8
is used; the unused pointers of files and all pointers of the other inodes are 0; every
record of the chain of an allocated directory has a well-formed name and names an
allocated inode. -/
structure BmInv (P : Params) (s : FS) : Prop where
  img : ImageOK P s
  tbl : s.i_bmap.length = s.inodes.length
  lo : ∀ i, allocated s i → 2 ≤ i
  plen : ∀ (i : Nat) (ino : Inode), s.inodes[i]? = some ino →
    ino.pointers.length = P.NUM_POINTERS
  typ : ∀ (i : Nat) (ino : Inode), allocated s i → s.inodes[i]? = some ino →
    ino.type = P.TYPE_FILE ∨ ino.type = P.TYPE_DIR
  used : ∀ (i : Nat) (ino : Inode) (j p : Nat), Owner s i → s.inodes[i]? = some ino →
    j < ino.blocks → ino.pointers[j]? = some p → 8 ≤ p ∧ marked s p
  disj : ∀ (i k : Nat) (ino kno : Inode) (j l p : Nat), Owner s i → Owner s k →
    s.inodes[i]? = some ino → s.inodes[k]? = some kno → j < ino.blocks → l < kno.blocks →
    ino.pointers[j]? = some p → kno.pointers[l]? = some p → i = k ∧ j = l
  refd : ∀ b, marked s b → b ≤ 8 ∨ ∃ (i : Nat) (ino : Inode) (j : Nat),
    Owner s i ∧ s.inodes[i]? = some ino ∧ j < ino.blocks ∧ ino.pointers[j]? = some b
  zero : ∀ (i : Nat) (ino : Inode), allocated s i → s.inodes[i]? = some ino →
    ino.type = P.TYPE_FILE → ∀ j, ino.blocks ≤ j → j < P.NUM_POINTERS →
    ino.pointers[j]? = some 0
  fresh : ∀ (i : Nat) (ino : Inode), ¬ Owner s i → s.inodes[i]? = some ino →
    ∀ j, j < P.NUM_POINTERS → ino.pointers[j]? = some 0
  chain : ∀ (i : Nat) (ino : Inode) (c : List DirRec), allocated s i →
    s.inodes[i]? = some ino → ino.type = P.TYPE_DIR →
    read_dir_from_blocks P s ino.size ino.blocks ino.pointers = some (some c) →
    ∀ r ∈ c, GoodName P r.name ∧ allocated s r.inum
  root : allocated s 2

/-- One update of the image for `BmInv`: the record of inode `x` (an allocated inode
afterwards, or inode 0) becomes `ino1`, the blocks satisfying `isNew` are newly marked,
and only blocks used by `x` or new blocks are written. -/
structure BStep (P : Params) (s s1 : FS) (x : Nat) (ino1 : Inode) (isNew : Nat → Prop) :
    Prop where
  xlt : x < s.inodes.length
  x2 : x ≠ 0 → 2 ≤ x
  imap_len : s1.i_bmap.length = s.i_bmap.length
  alloc_iff : ∀ i, allocated s1 i ↔ allocated s i ∨ (i = x ∧ x ≠ 0)
  dmap_len : s1.d_bmap.length = s.d_bmap.length
  mark_iff : ∀ b, marked s1 b ↔ marked s b ∨ isNew b
  new_fresh : ∀ b, isNew b → 9 ≤ b ∧ ¬ marked s b
  inodes_eq : s1.inodes = s.inodes.set x ino1
  blocks_len : s1.blocks.length = s.blocks.length
  sized : BlocksSized P s1
  frame : ∀ q, 8 ≤ q → marked s q →
    (∀ (inoX : Inode) (j : Nat), Owner s x → s.inodes[x]? = some inoX → j < inoX.blocks →
      inoX.pointers[j]? ≠ some q) → s1.blocks[q]? = s.blocks[q]?
  plen : ino1.pointers.length = P.NUM_POINTERS
  typ : x ≠ 0 → ino1.type = P.TYPE_FILE ∨ ino1.type = P.TYPE_DIR
  used : ∀ (j p : Nat), j < ino1.blocks → ino1.pointers[j]? = some p → 8 ≤ p ∧
    (isNew p ∨ (Owner s x ∧ ∃ (inoX : Inode) (j0 : Nat),
      s.inodes[x]? = some inoX ∧ j0 < inoX.blocks ∧ inoX.pointers[j0]? = some p))
  distinct : ∀ (i j p : Nat), i < j → j < ino1.blocks → ino1.pointers[i]? = some p →
    ino1.pointers[j]? ≠ some p
  new_used : ∀ b, isNew b → ∃ j, j < ino1.blocks ∧ ino1.pointers[j]? = some b
  old_used : Owner s x → ∀ (inoX : Inode) (j0 p : Nat), s.inodes[x]? = some inoX →
    j0 < inoX.blocks → inoX.pointers[j0]? = some p →
    ∃ j, j < ino1.blocks ∧ ino1.pointers[j]? = some p
  zero : x ≠ 0 → ino1.type = P.TYPE_FILE → ∀ j, ino1.blocks ≤ j → j < P.NUM_POINTERS →
    ino1.pointers[j]? = some 0
  chain : x ≠ 0 → ino1.type = P.TYPE_DIR → ∀ c : List DirRec,
    read_dir_from_blocks P s1 ino1.size ino1.blocks ino1.pointers = some (some c) →
    ∀ r ∈ c, GoodName P r.name ∧ allocated s1 r.inum

/-- The images built from the all-zero image by `my_init` followed by `my_mknod` and
`my_mkdir` calls with any path (a C string: its bytes are not NUL) and any content of the
uninitialised locals, and by `my_write` calls with any buffer, size and offset on
allocated inodes of type `TYPE_FILE`; every call has defined behaviour (its model is
`some`), whatever value it returns. -/
inductive ReachB (P : Params) : FS → Prop
  | init (junk : Inode) (s : FS) (hjunk : junk.pointers.length = P.NUM_POINTERS)
      (hrun : my_init P junk (zero_image P) = some s) : ReachB P s
  | mknod (s s1 : FS) (pl0 : List CStr) (path : CStr) (r : Int) (hs : ReachB P s)
      (hnz : ∀ c ∈ path, c ≠ 0) (hrun : my_mknod P pl0 path s = some (r, s1)) : ReachB P s1
  | mkdir (s s1 : FS) (pl0 : List CStr) (junk : Inode) (path : CStr) (r : Int)
      (hs : ReachB P s) (hnz : ∀ c ∈ path, c ≠ 0)
      (hjunk : junk.pointers.length = P.NUM_POINTERS)
      (hrun : my_mkdir P pl0 junk path s = some (r, s1)) : ReachB P s1
  | write (s s1 : FS) (inum : Nat) (ino : Inode) (buf : List Nat) (size offset : Nat) (r : Int)
      (hs : ReachB P s) (ha : allocated s inum) (hino : get_inode s inum = some ino)
      (hty : ino.type = P.TYPE_FILE)
      (hrun : my_write P inum buf size offset s = some (r, s1)) : ReachB P s1

/-- The small image after `my_init`, `mknod("/a")`, `write(3, buf, 0, 33)` and
`mknod("/x/y")`, whose parent `/x` does not exist. -/
def demo_orphan_fs : FS :=
  ((my_mknod demo demo_pl0 [47, 120, 47, 121] demo_over_fs).map Prod.snd).getD (zero_image demo)

/-! ## Lemmas: allocator -/

theorem scan_free_spec (l : List Nat) (i k : Nat) (h : scan_free l i = some k) :
    i ≤ k ∧ l[k - i]? = some 0 ∧ (l.set (k - i) 1).count 0 + 1 = l.count 0 := by
  induction l generalizing i with
  | nil => simp [scan_free] at h
  | cons x xs ih =>
    unfold scan_free at h
    by_cases hx : x = 0
    · simp [hx] at h
      subst h; subst hx
      simp
    · simp [hx] at h
      obtain ⟨h1, h2, h3⟩ := ih (i + 1) h
      have hk : k - i = (k - (i + 1)) + 1 := by omega
      refine ⟨by omega, ?_, ?_⟩
      · rw [hk]; simpa using h2
      · rw [hk]
        simp only [List.set_cons_succ, List.count_cons]
        have : (x == 0) = false := by simpa using hx
        simp [this]
        omega

theorem scan_free_exists (l : List Nat) (i : Nat) (h : 0 < l.count 0) :
    ∃ k, scan_free l i = some k := by
  induction l generalizing i with
  | nil => simp at h
  | cons x xs ih =>
    unfold scan_free
    by_cases hx : x = 0
    · exact ⟨i, by simp [hx]⟩
    · have hx2 : (x == 0) = false := by simpa using hx
      simp only [List.count_cons, hx2] at h
      simp only [hx, if_false]
      exact ih (i + 1) (by simpa using h)

theorem first_zero_slot_spec (l : List Nat) (i k : Nat)
    (hpre : ∀ j, j < k → ∃ p, l[j]? = some p ∧ p ≠ 0) (hk : l[k]? = some 0) :
    first_zero_slot l i = some (i + k) := by
  induction l generalizing i k with
  | nil => simp at hk
  | cons x xs ih =>
    unfold first_zero_slot
    cases k with
    | zero =>
      simp at hk
      simp [hk]
    | succ k =>
      obtain ⟨p, hp, hp0⟩ := hpre 0 (by omega)
      simp at hp
      subst hp
      simp only [hp0, if_false]
      have := ih (i + 1) k (fun j hj => by simpa using hpre (j + 1) (by omega)) (by simpa using hk)
      rw [this]; congr 1; omega

theorem get_next_free_block_spec (P : Params) (s : FS) (hI : ImageOK P s)
    (hfree : 0 < s.d_bmap.count 0) :
    ∃ b, get_next_free_block s = some (b, { s with d_bmap := s.d_bmap.set b 1 }) ∧
      9 ≤ b ∧ s.d_bmap[b]? = some 0 ∧ (s.d_bmap.set b 1).count 0 + 1 = s.d_bmap.count 0 := by
  obtain ⟨k, hk⟩ := scan_free_exists s.d_bmap 0 hfree
  obtain ⟨_, h2, h3⟩ := scan_free_spec s.d_bmap 0 k hk
  simp only [Nat.sub_zero] at h2 h3
  refine ⟨k, ?_, ?_, h2, h3⟩
  · simp [get_next_free_block, get_d_bmap, set_d_bmap, hk]
  · by_contra hlt
    obtain ⟨v, hv, hv0⟩ := hI.reserved k (by omega)
    rw [h2] at hv
    simp at hv
    exact hv0 hv.symm


theorem alloc_step_ok (P : Params) (ino : Inode) (s : FS) (b : Nat) (hI : ImageOK P s)
    (hN : InodeOK P s ino) (hcap : ino.blocks < P.NUM_POINTERS) (hb9 : 9 ≤ b)
    (hb0 : s.d_bmap[b]? = some 0) :
    ImageOK P { s with d_bmap := s.d_bmap.set b 1,
                       blocks := s.blocks.set b (List.replicate P.BLOCKSIZE 0) } ∧
    InodeOK P { s with d_bmap := s.d_bmap.set b 1,
                       blocks := s.blocks.set b (List.replicate P.BLOCKSIZE 0) }
      { ino with blocks := ino.blocks + 1, pointers := ino.pointers.set ino.blocks b } := by
  have hblen : b < s.d_bmap.length := by
    rcases Nat.lt_or_ge b s.d_bmap.length with h | h
    · exact h
    · rw [List.getElem?_eq_none h] at hb0; simp at hb0
  constructor
  · refine ⟨hI.bpos, ?_, ?_, ?_⟩
    · intro c hc
      obtain ⟨v, hv, hv0⟩ := hI.reserved c hc
      refine ⟨v, ?_, hv0⟩
      simp only
      rw [List.getElem?_set_ne (by omega)]
      exact hv
    · simpa using hI.bmap_len
    · intro c blk hc
      simp only at hc
      rw [List.getElem?_set] at hc
      split at hc
      · split at hc
        · simp at hc; rw [← hc]; simp
        · simp at hc
      · exact hI.blk_len c blk hc
  · refine ⟨?_, ?_, ?_, ?_, ?_⟩
    · simpa using hN.len
    · simpa using hcap
    · intro j hj
      simp only at hj ⊢
      by_cases hjb : j = ino.blocks
      · subst hjb
        refine ⟨b, ?_, by omega, 1, ?_, by simp⟩
        · rw [List.getElem?_set_self]
          · rw [hN.len]; exact hcap
        · rw [List.getElem?_set_self]
          · exact hblen
      · obtain ⟨p, hp, hp8, v, hv, hv0⟩ := hN.used j (by omega)
        refine ⟨p, ?_, hp8, ?_⟩
        · rw [List.getElem?_set_ne (by omega)]; exact hp
        · by_cases hpb : p = b
          · subst hpb
            rw [hb0] at hv; simp at hv; exact absurd hv.symm hv0
          · rw [List.getElem?_set_ne (by omega)]
            exact ⟨v, hv, hv0⟩
    · intro j hj hjK
      simp only at hj ⊢
      rw [List.getElem?_set_ne (by omega)]
      exact hN.unused j (by omega) hjK
    · intro i j hij hj
      simp only at hj ⊢
      by_cases hjb : j = ino.blocks
      · subst hjb
        rw [List.getElem?_set_ne (by omega), List.getElem?_set_self (by rw [hN.len]; exact hcap)]
        obtain ⟨p, hp, _, v, hv, hv0⟩ := hN.used i hij
        rw [hp]
        intro hpb
        simp at hpb
        subst hpb
        rw [hb0] at hv; simp at hv; exact hv0 hv.symm
      · rw [List.getElem?_set_ne (by omega), List.getElem?_set_ne (by omega)]
        exact hN.distinct i j hij (by omega)

theorem alloc_loop_spec (P : Params) (n : Nat) (ino : Inode) (s : FS) (hI : ImageOK P s)
    (hN : InodeOK P s ino) (hcap : ino.blocks + n ≤ P.NUM_POINTERS)
    (hfree : n ≤ s.d_bmap.count 0) :
    ∃ ino1 s1, alloc_loop P n ino s = some (ino1, s1) ∧ ImageOK P s1 ∧ InodeOK P s1 ino1 ∧
      ino1.blocks = ino.blocks + n ∧ ino1.type = ino.type ∧ s1.inodes = s.inodes ∧
      s1.i_bmap = s.i_bmap ∧ s1.d_bmap.count 0 + n = s.d_bmap.count 0 := by
  induction n generalizing ino s with
  | zero => exact ⟨ino, s, rfl, hI, hN, rfl, rfl, rfl, rfl, rfl⟩
  | succ n ih =>
    have hlt : ino.blocks < P.NUM_POINTERS := by omega
    have hslot : first_zero_slot ino.pointers 0 = some ino.blocks := by
      have := first_zero_slot_spec ino.pointers 0 ino.blocks
        (fun j hj => by
          obtain ⟨p, hp, hp8, _⟩ := hN.used j hj
          exact ⟨p, hp, by omega⟩)
        (hN.unused ino.blocks (le_refl _) hlt)
      simpa using this
    obtain ⟨b, hb, hb9, hb0, hcount⟩ := get_next_free_block_spec P s hI (by omega)
    have hblen : b < s.blocks.length := by
      rcases Nat.lt_or_ge b s.d_bmap.length with h | h
      · exact lt_of_lt_of_le h hI.bmap_len
      · rw [List.getElem?_eq_none h] at hb0; simp at hb0
    have hmeta : is_meta_block b = false := by
      simp [is_meta_block]; omega
    obtain ⟨hI2, hN2⟩ := alloc_step_ok P ino s b hI hN hlt hb9 hb0
    obtain ⟨ino1, s1, h1, h2, h3, h4, h5, h6, h7, h8⟩ := ih _ _ hI2 hN2
      (by simp only; omega) (by simp only; omega)
    refine ⟨ino1, s1, ?_, h2, h3, ?_, ?_, ?_, ?_, ?_⟩
    · unfold alloc_loop
      simp only [hslot, hb, write_block, hmeta, hblen, if_true, Option.getD_some]
      simpa using h1
    · rw [h4]; simp only; omega
    · rw [h5]
    · rw [h6]
    · rw [h7]
    · simp only at h8; omega


theorem memcpy_at_nil (buf : List Nat) (r : Nat) : memcpy_at buf r [] = buf := by
  simp [memcpy_at]

theorem memcpy_at_length (buf src : List Nat) (r : Nat) (h : r + src.length ≤ buf.length) :
    (memcpy_at buf r src).length = buf.length := by
  simp [memcpy_at]; omega

theorem memcpy_at_append (buf x y : List Nat) (r : Nat) (h : r + x.length ≤ buf.length) :
    memcpy_at (memcpy_at buf r x) (r + x.length) y = memcpy_at buf r (x ++ y) := by
  unfold memcpy_at
  have h1 : (List.take r buf ++ x ++ List.drop (r + x.length) buf).take (r + x.length)
      = List.take r buf ++ x := by
    have hl : (List.take r buf ++ x).length = r + x.length := by simp; omega
    rw [← hl, List.take_left]
  have h2 : (List.take r buf ++ x ++ List.drop (r + x.length) buf).drop (r + x.length + y.length)
      = List.drop (r + (x ++ y).length) buf := by
    have hl : (List.take r buf ++ x).length = r + x.length := by simp; omega
    have e1 : r + x.length + y.length = (List.take r buf ++ x).length + y.length := by omega
    rw [e1, List.drop_append, List.drop_drop]
    congr 1
    simp
    omega
  rw [h1, h2]
  simp

theorem write_loop_zero (P : Params) (ino : Inode) (buf : List Nat) (fuel c bo d bw : Nat)
    (s : FS) : write_loop P ino buf fuel 0 c bo d bw s = some (bw, s) := by
  cases fuel <;> simp [write_loop]

theorem bytes_at_split (buf : List Nat) (d a b : Nat) :
    bytes_at buf d (a + b) = bytes_at buf d a ++ bytes_at buf (d + a) b := by
  unfold bytes_at
  rw [List.take_add, List.drop_drop]


theorem content_congr (s s1 : FS) (ptrs : List Nat) (c m : Nat)
    (h : ∀ j, c ≤ j → j < c + m →
      s1.blocks.getD (ptrs.getD j 0) [] = s.blocks.getD (ptrs.getD j 0) []) :
    content s1 ptrs c m = content s ptrs c m := by
  induction m generalizing c with
  | zero => rfl
  | succ m ih =>
    simp only [content]
    rw [h c (le_refl _) (by omega), ih (c + 1) (fun j h1 h2 => h j (by omega) (by omega))]

theorem blk_len_set (B : Nat) (l : List Block) (p : Nat) (new : Block)
    (hblk : ∀ (b : Nat) (blk : Block), l[b]? = some blk → blk.length = B)
    (hnew : new.length = B) :
    ∀ (b : Nat) (blk : Block), (l.set p new)[b]? = some blk → blk.length = B := by
  intro b blk hb
  by_cases hpb : p = b
  · subst hpb
    by_cases hl : p < l.length
    · rw [List.getElem?_set_self hl] at hb
      simp at hb; rw [← hb]; exact hnew
    · rw [List.getElem?_eq_none (by simpa using hl)] at hb
      simp at hb
  · rw [List.getElem?_set_ne hpb] at hb
    exact hblk b blk hb

theorem write_chunk_ok (P : Params) (s : FS) (p : Nat) (src : List Nat) (blk : Block)
    (hp8 : 8 ≤ p) (hblk : s.blocks[p]? = some blk) :
    write_chunk P s p 0 src = some { s with blocks := s.blocks.set p (memcpy_at blk 0 src) } := by
  have hmeta : is_meta_block p = false := by simp [is_meta_block]; omega
  have hlen : p < s.blocks.length := by
    rcases Nat.lt_or_ge p s.blocks.length with h | h
    · exact h
    · rw [List.getElem?_eq_none h] at hblk; simp at hblk
  simp [write_chunk, read_block, write_block, hmeta, hblk, hlen]

theorem write_loop_aligned (P : Params) (ino : Inode) (buf : List Nat) (hB : 0 < P.BLOCKSIZE)
    (fuel size c dataOffset bw m : Nat) (s : FS)
    (hblk : ∀ (b : Nat) (blk : Block), s.blocks[b]? = some blk → blk.length = P.BLOCKSIZE)
    (hfuel : size ≤ fuel) (hbuf : dataOffset + size ≤ buf.length) (hm : size ≤ m * P.BLOCKSIZE)
    (hptr : ∀ j, c ≤ j → j < c + m →
      ∃ p, ino.pointers[j]? = some p ∧ 8 ≤ p ∧ p < s.blocks.length)
    (hdist : ∀ i j, c ≤ i → i < j → j < c + m → ino.pointers[i]? ≠ ino.pointers[j]?)
    (hi1 : dataOffset + size < 2 ^ 31) (hi2 : bw + size < 2 ^ 31) :
    ∃ s1, write_loop P ino buf fuel size c 0 dataOffset bw s = some (bw + size, s1) ∧
      s1.i_bmap = s.i_bmap ∧ s1.d_bmap = s.d_bmap ∧ s1.inodes = s.inodes ∧
      s1.blocks.length = s.blocks.length ∧
      (∀ (b : Nat) (blk : Block), s1.blocks[b]? = some blk → blk.length = P.BLOCKSIZE) ∧
      (∀ q, (∀ j, c ≤ j → j < c + m → ino.pointers[j]? ≠ some q) →
        s1.blocks[q]? = s.blocks[q]?) ∧
      (content s1 ino.pointers c m).take size = bytes_at buf dataOffset size := by
  induction fuel generalizing size c dataOffset bw m s with
  | zero =>
    have hs : size = 0 := by omega
    subst hs
    exact ⟨s, by simp [write_loop], rfl, rfl, rfl, rfl, hblk, fun _ _ => rfl, by simp [bytes_at]⟩
  | succ fuel ih =>
    by_cases hs : size = 0
    · subst hs
      exact ⟨s, by simp [write_loop], rfl, rfl, rfl, rfl, hblk, fun _ _ => rfl,
        by simp [bytes_at]⟩
    · have hspos : 0 < size := Nat.pos_of_ne_zero hs
      obtain ⟨m, rfl⟩ : ∃ m1, m = m1 + 1 := by
        cases m with
        | zero => simp at hm; omega
        | succ m1 => exact ⟨m1, rfl⟩
      obtain ⟨p, hp, hp8, hplen⟩ := hptr c (le_refl _) (by omega)
      obtain ⟨blk, hblkp⟩ : ∃ blk, s.blocks[p]? = some blk :=
        ⟨s.blocks[p], List.getElem?_eq_getElem hplen⟩
      have hblkl := hblk p blk hblkp
      by_cases hbig : size > P.BLOCKSIZE
      · -- a full block, more to come
        have hnum : (if size ≥ P.BLOCKSIZE - 0 then P.BLOCKSIZE - 0 else size) = P.BLOCKSIZE := by
          simp; intro h; omega
        have hchunk : (bytes_at buf dataOffset P.BLOCKSIZE).length = P.BLOCKSIZE := by
          simp [bytes_at]; omega
        have hnew : memcpy_at blk 0 (bytes_at buf dataOffset P.BLOCKSIZE)
            = bytes_at buf dataOffset P.BLOCKSIZE := by
          simp [memcpy_at, hchunk, hblkl]
        have hsz : size - P.BLOCKSIZE ≤ m * P.BLOCKSIZE := by
          have : (m + 1) * P.BLOCKSIZE = m * P.BLOCKSIZE + P.BLOCKSIZE := by ring
          omega
        obtain ⟨s2, h1, h2, h3, h4, h5, h6, h7, h8⟩ := ih (size - P.BLOCKSIZE) (c + 1)
          (dataOffset + P.BLOCKSIZE) (bw + P.BLOCKSIZE) m
          { s with blocks := s.blocks.set p (bytes_at buf dataOffset P.BLOCKSIZE) }
          (blk_len_set _ _ _ _ hblk hchunk)
          (by omega) (by omega) hsz
          (by
            intro j hj1 hj2
            obtain ⟨q, hq, hq8, hql⟩ := hptr j (by omega) (by omega)
            exact ⟨q, hq, hq8, by simpa using hql⟩)
          (fun i j hi hij hj => hdist i j (by omega) hij (by omega)) (by omega) (by omega)
        refine ⟨s2, ?_, h2, h3, h4, by simpa using h5, h6, ?_, ?_⟩
        · unfold write_loop
          simp only [hspos, if_true, hnum, hp]
          rw [write_chunk_ok P s p _ blk hp8 hblkp, hnew]
          have hb2 : ¬ (buf.length < dataOffset + P.BLOCKSIZE ∨
              2 ^ 31 ≤ dataOffset + P.BLOCKSIZE ∨ 2 ^ 31 ≤ bw + P.BLOCKSIZE) := by omega
          simp only [hb2, if_false, hbig, if_true]
          rw [h1]
          congr 2
          omega
        · intro q hq
          rw [h7 q (fun j hj1 hj2 => hq j (by omega) (by omega))]
          simp only
          have hqp : p ≠ q := by
            intro hpq
            exact hq c (le_refl _) (by omega) (by rw [hp, hpq])
          rw [List.getElem?_set_ne hqp]
        · simp only [content]
          have hpc : ino.pointers.getD c 0 = p := by
            simp [List.getD_eq_getElem?_getD, hp]
          have hkeep : s2.blocks[p]? = some (bytes_at buf dataOffset P.BLOCKSIZE) := by
            rw [h7 p (fun j hj1 hj2 => by
              have := hdist c j (le_refl _) (by omega) (by omega)
              rw [hp] at this
              exact fun h => this h.symm)]
            simp only
            rw [List.getElem?_set_self hplen]
          rw [hpc, List.getD_eq_getElem?_getD, hkeep]
          simp only [Option.getD_some]
          rw [List.take_append_eq_append_take, hchunk, h8]
          rw [List.take_of_length_le (by rw [hchunk]; omega)]
          have : size = P.BLOCKSIZE + (size - P.BLOCKSIZE) := by omega
          conv_rhs => rw [this, bytes_at_split]
      · -- the last block
        have hnum : (if size ≥ P.BLOCKSIZE - 0 then P.BLOCKSIZE - 0 else size) = size := by
          simp; intro h; omega
        have hchunk : (bytes_at buf dataOffset size).length = size := by
          simp [bytes_at]; omega
        refine ⟨{ s with blocks := s.blocks.set p (memcpy_at blk 0 (bytes_at buf dataOffset size)) },
          ?_, rfl, rfl, rfl, by simp, ?_, ?_, ?_⟩
        · unfold write_loop
          simp only [hspos, if_true, hnum, hp]
          rw [write_chunk_ok P s p _ blk hp8 hblkp]
          have hb2 : ¬ (buf.length < dataOffset + size ∨
              2 ^ 31 ≤ dataOffset + size ∨ 2 ^ 31 ≤ bw + size) := by omega
          simp only [hb2, if_false, hbig, if_false]
          rw [write_loop_zero]
        · exact blk_len_set _ _ _ _ hblk
            (by rw [memcpy_at_length _ _ _ (by rw [hchunk]; omega)]; exact hblkl)
        · intro q hq
          simp only
          have hqp : p ≠ q := by
            intro hpq
            exact hq c (le_refl _) (by omega) (by rw [hp, hpq])
          rw [List.getElem?_set_ne hqp]
        · simp only [content]
          have hpc : ino.pointers.getD c 0 = p := by
            simp [List.getD_eq_getElem?_getD, hp]
          rw [hpc, List.getD_eq_getElem?_getD, List.getElem?_set_self hplen]
          simp only [Option.getD_some]
          rw [List.take_append_of_le_length (by
            rw [memcpy_at_length _ _ _ (by rw [hchunk]; omega)]; omega)]
          unfold memcpy_at
          simp only [List.take_zero, List.nil_append]
          rw [List.take_append_of_le_length (by rw [hchunk])]
          rw [List.take_of_length_le (by rw [hchunk])]


theorem read_loop_aligned (P : Params) (s : FS) (ino : Inode) (start_block offset : Nat)
    (hoff : offset % P.BLOCKSIZE = 0) (m c size r : Nat) (buf : List Nat)
    (hblk : ∀ (b : Nat) (blk : Block), s.blocks[b]? = some blk → blk.length = P.BLOCKSIZE)
    (hbuf : r + size ≤ buf.length) (hm : size ≤ m * P.BLOCKSIZE)
    (hptr : ∀ j, c ≤ j → j < c + m →
      ∃ p, ino.pointers[j]? = some p ∧ 8 ≤ p ∧ p < s.blocks.length)
    (hint : r + size < 2 ^ 31) :
    read_loop P s ino start_block offset m c size r buf
      = some (((r + size : Nat) : Int), memcpy_at buf r ((content s ino.pointers c m).take size)) := by
  induction m generalizing c size r buf with
  | zero =>
    have hs : size = 0 := by simpa using hm
    subst hs
    simp [read_loop, memcpy_at_nil]
  | succ m ih =>
    obtain ⟨p, hp, hp8, hplen⟩ := hptr c (le_refl _) (by omega)
    have hblkp : s.blocks[p]? = some s.blocks[p] := List.getElem?_eq_getElem hplen
    have hblkl := hblk p _ hblkp
    have hmeta : is_meta_block p = false := by simp [is_meta_block]; omega
    have hbo : (if c = start_block then offset % P.BLOCKSIZE else 0) = 0 := by
      split <;> simp [hoff]
    have hpc : ino.pointers.getD c 0 = p := by
      simp [List.getD_eq_getElem?_getD, hp]
    unfold read_loop
    simp only [hbo, Nat.sub_zero, hp, read_block, hmeta, hblkp]
    by_cases hlt : size < P.BLOCKSIZE
    · simp only [hlt, if_true]
      have hb2 : ¬ (buf.length < r + size ∨ 2 ^ 31 ≤ r + size) := by omega
      simp only [hb2, if_false, Bool.false_eq_true]
      have hx : (bytes_at s.blocks[p] 0 size).length = size := by
        simp [bytes_at]; omega
      rw [ih (c + 1) (size - size) (r + size) _ (by
            rw [memcpy_at_length _ _ _ (by rw [hx]; omega)]; omega) (by omega)
          (fun j h1 h2 => hptr j (by omega) (by omega)) (by omega)]
      simp only [Nat.sub_self, List.take_zero, memcpy_at_nil, content]
      rw [hpc, List.getD_eq_getElem?_getD, hblkp]
      simp only [Option.getD_some]
      rw [List.take_append_of_le_length (by omega)]
      simp [bytes_at]
    · simp only [hlt, if_false]
      have hb2 : ¬ (buf.length < r + P.BLOCKSIZE ∨ 2 ^ 31 ≤ r + P.BLOCKSIZE) := by omega
      simp only [hb2, if_false, Bool.false_eq_true]
      have hx : (bytes_at s.blocks[p] 0 P.BLOCKSIZE).length = P.BLOCKSIZE := by
        simp [bytes_at]; omega
      have hsz : size - P.BLOCKSIZE ≤ m * P.BLOCKSIZE := by
        have : (m + 1) * P.BLOCKSIZE = m * P.BLOCKSIZE + P.BLOCKSIZE := by ring
        omega
      rw [ih (c + 1) (size - P.BLOCKSIZE) (r + P.BLOCKSIZE) _ (by
            rw [memcpy_at_length _ _ _ (by rw [hx]; omega)]; omega) hsz
          (fun j h1 h2 => hptr j (by omega) (by omega)) (by omega)]
      have hxe : bytes_at s.blocks[p] 0 P.BLOCKSIZE = s.blocks[p] := by
        simp [bytes_at, hblkl]
      have key := memcpy_at_append buf (bytes_at s.blocks[p] 0 P.BLOCKSIZE)
        (List.take (size - P.BLOCKSIZE) (content s ino.pointers (c + 1) m)) r (by rw [hx]; omega)
      rw [hx] at key
      rw [key, hxe]
      have htake : List.take size (s.blocks[p] ++ content s ino.pointers (c + 1) m)
          = s.blocks[p] ++ List.take (size - P.BLOCKSIZE) (content s ino.pointers (c + 1) m) := by
        rw [List.take_append_eq_append_take, List.take_of_length_le (by omega), hblkl]
      simp only [content]
      rw [hpc, List.getD_eq_getElem?_getD, hblkp]
      simp only [Option.getD_some]
      rw [htake]
      congr 3
      omega


theorem ceil_div_le (n B K : Nat) (hB : 0 < B) (h : n ≤ K * B) : (n + B - 1) / B ≤ K := by
  have h1 : (n + B - 1) / B < K + 1 := by
    rw [Nat.div_lt_iff_lt_mul hB]
    have : (K + 1) * B = K * B + B := by ring
    omega
  omega

theorem le_ceil_div_mul (n B : Nat) (hB : 0 < B) : n ≤ (n + B - 1) / B * B := by
  have h1 := Nat.div_add_mod (n + B - 1) B
  have h2 := Nat.mod_lt (n + B - 1) hB
  have h3 : B * ((n + B - 1) / B) = (n + B - 1) / B * B := Nat.mul_comm _ _
  omega

theorem used_ptr_in_image (P : Params) (s : FS) (ino : Inode) (hI : ImageOK P s)
    (hN : InodeOK P s ino) (j : Nat) (hj : j < ino.blocks) :
    ∃ p, ino.pointers[j]? = some p ∧ 8 ≤ p ∧ p < s.blocks.length := by
  obtain ⟨p, hp, hp8, v, hv, _⟩ := hN.used j hj
  refine ⟨p, hp, hp8, ?_⟩
  rcases Nat.lt_or_ge p s.d_bmap.length with h | h
  · exact lt_of_lt_of_le h hI.bmap_len
  · rw [List.getElem?_eq_none h] at hv; simp at hv

/-- C1: writing `data` at offset 0 of a well-formed inode returns `|data|`, and reading
`|data|` bytes at offset 0 afterwards returns `|data|` and fills the buffer with `data`. -/
theorem write_read_roundtrip (P : Params) (s : FS) (inum : Nat) (ino : Inode)
    (data buf : List Nat) (hI : ImageOK P s) (hget : get_inode s inum = some ino)
    (hN : InodeOK P s ino) (hcap : data.length ≤ P.NUM_POINTERS * P.BLOCKSIZE)
    (hword : P.NUM_POINTERS * P.BLOCKSIZE + P.BLOCKSIZE ≤ 2 ^ 31)
    (hfree : (data.length + P.BLOCKSIZE - 1) / P.BLOCKSIZE - ino.blocks ≤ s.d_bmap.count 0)
    (hbuf : data.length ≤ buf.length) :
    ∃ s1 buf1, my_write P inum data data.length 0 s = some ((data.length : Int), s1) ∧
      my_read P inum buf data.length 0 s1 = some ((data.length : Int), buf1) ∧
      buf1.take data.length = data := by
  have hB := hI.bpos
  have hB0 : P.BLOCKSIZE ≠ 0 := by omega
  have hneed : u32 (data.length + 0 + P.BLOCKSIZE - 1) / P.BLOCKSIZE
      = (data.length + P.BLOCKSIZE - 1) / P.BLOCKSIZE := by
    unfold u32
    rw [Nat.mod_eq_of_lt (by omega)]
    simp
  have hsize : u32 (data.length + 0) = data.length := by
    unfold u32
    rw [Nat.mod_eq_of_lt (by omega)]
    simp
  have hK := ceil_div_le data.length P.BLOCKSIZE P.NUM_POINTERS hB hcap
  have hcov := le_ceil_div_mul data.length P.BLOCKSIZE hB
  obtain ⟨ino1, s1, ha, hI1, hN1, hb1, _, hin1, _, _⟩ := alloc_loop_spec P
    ((data.length + P.BLOCKSIZE - 1) / P.BLOCKSIZE - ino.blocks) ino s hI hN
    (by have := hN.cap; omega) hfree
  have hblocks : (data.length + P.BLOCKSIZE - 1) / P.BLOCKSIZE ≤ ino1.blocks := by omega
  have hptr : ∀ j, 0 ≤ j → j < 0 + (data.length + P.BLOCKSIZE - 1) / P.BLOCKSIZE →
      ∃ p, ino1.pointers[j]? = some p ∧ 8 ≤ p ∧ p < s1.blocks.length :=
    fun j _ hj => used_ptr_in_image P s1 ino1 hI1 hN1 j (by omega)
  obtain ⟨s2, hw, _, _, hin2, hlen2, hblk2, _, hcont⟩ := write_loop_aligned P
    { ino1 with size := data.length } data hB data.length data.length 0 0 0
    ((data.length + P.BLOCKSIZE - 1) / P.BLOCKSIZE) s1 hI1.blk_len (le_refl _) (by omega) hcov
    hptr (fun i j _ hij hj => hN1.distinct i j hij (by omega)) (by omega) (by omega)
  have hinum : inum < s2.inodes.length := by
    rw [hin2, hin1]
    unfold get_inode at hget
    rcases Nat.lt_or_ge inum s.inodes.length with h | h
    · exact h
    · rw [List.getElem?_eq_none h] at hget; simp at hget
  have hdata : bytes_at data 0 data.length = data := by simp [bytes_at]
  rw [hdata] at hcont
  refine ⟨{ s2 with inodes := s2.inodes.set inum { ino1 with size := data.length } }, 
    memcpy_at buf 0 data, ?_, ?_, ?_⟩
  · unfold my_write
    simp only [hB0, if_false, hneed, hget, ha, hsize, Nat.zero_div, Nat.zero_mod, hw,
      set_inode, hinum, if_true, Option.getD_some]
    simp
  · unfold my_read
    have hgi : get_inode { s2 with inodes := s2.inodes.set inum { ino1 with size := data.length } }
        inum = some { ino1 with size := data.length } := by
      simp [get_inode, List.getElem?_set_self hinum]
    simp only [hgi, hB0, if_false]
    by_cases hn : data.length = 0
    · have : data = [] := List.length_eq_zero.mp hn
      subst this
      simp [memcpy_at_nil]
    · have hpos : 0 < data.length := Nat.pos_of_ne_zero hn
      have h1 : ¬ (0 ≥ data.length) := by omega
      have h2 : ¬ (u32 (0 + data.length) > data.length) := by
        unfold u32; rw [Nat.mod_eq_of_lt (by omega)]; omega
      have h3 : u32 (0 + data.length + (2 ^ 32 - 1)) / P.BLOCKSIZE + 1 - 0
          = (data.length + P.BLOCKSIZE - 1) / P.BLOCKSIZE := by
        unfold u32
        have e1 : 0 + data.length + (2 ^ 32 - 1) = (data.length - 1) + 2 ^ 32 := by omega
        rw [e1, Nat.add_mod_right, Nat.mod_eq_of_lt (by omega)]
        have e2 : data.length + P.BLOCKSIZE - 1 = (data.length - 1) + P.BLOCKSIZE := by omega
        rw [e2, Nat.add_div_right _ hB]
        simp
      simp only [h1, h2, if_false, h3, Nat.zero_div]
      rw [read_loop_aligned P
        { s2 with inodes := s2.inodes.set inum { ino1 with size := data.length } }
        { ino1 with size := data.length } 0 0 (by simp) _ 0 data.length 0 buf hblk2
        (by omega) hcov
        (by
          intro j h0 hj
          obtain ⟨p, hp, hp8, hpl⟩ := hptr j h0 hj
          exact ⟨p, hp, hp8, by rw [hlen2]; exact hpl⟩) (by omega)]
      have hc : content { s2 with inodes := s2.inodes.set inum { ino1 with size := data.length } }
          ino1.pointers 0 ((data.length + P.BLOCKSIZE - 1) / P.BLOCKSIZE)
          = content s2 ino1.pointers 0
            ((data.length + P.BLOCKSIZE - 1) / P.BLOCKSIZE) :=
        content_congr _ _ _ _ _ (fun _ _ _ => rfl)
      rw [hc, hcont]
      simp
  · simp [memcpy_at]


theorem imageOK_of_check (P : Params) (s : FS) (h : image_check P s = true) : ImageOK P s := by
  simp only [image_check, Bool.and_eq_true, decide_eq_true_eq, List.all_eq_true,
    List.mem_range] at h
  obtain ⟨⟨⟨h1, h2⟩, h3⟩, h4⟩ := h
  refine ⟨h1, ?_, h3, ?_⟩
  · intro b hb
    have := h2 b (by omega)
    cases hv : s.d_bmap[b]? with
    | none => simp [hv] at this
    | some v => exact ⟨v, rfl, by simpa [hv] using this⟩
  · intro b blk hb
    exact h4 blk (List.getElem?_mem hb)

theorem inodeOK_of_check (P : Params) (s : FS) (ino : Inode) (h : inode_check P s ino = true) :
    InodeOK P s ino := by
  simp only [inode_check, Bool.and_eq_true, Bool.or_eq_true, decide_eq_true_eq,
    List.all_eq_true, List.mem_range] at h
  obtain ⟨⟨⟨⟨h1, h2⟩, h3⟩, h4⟩, h5⟩ := h
  refine ⟨h1, h2, ?_, ?_, ?_⟩
  · intro j hj
    have := h3 j hj
    cases hp : ino.pointers[j]? with
    | none => simp [hp] at this
    | some p =>
      simp only [hp, Bool.and_eq_true, decide_eq_true_eq] at this
      cases hv : s.d_bmap[p]? with
      | none => simp [hv] at this
      | some v => exact ⟨p, rfl, this.1, v, hv, by simpa [hv] using this.2⟩
  · intro j hj hjK
    rcases h4 j hjK with h | h
    · omega
    · exact h
  · intro i j hij hj
    exact h5 j hj i hij

/-- C1 at a concrete input: the file of inode 3 holds "Hello" in one block; ten bytes are
written at offset 0 (a second block is allocated) and read back. -/
theorem write_read_roundtrip_witness :
    ∃ s1 buf1,
      my_write demo 3 [1, 2, 3, 4, 5, 6, 7, 8, 9, 10] 10 0 demo_hello_fs
        = some (((10 : Nat) : Int), s1) ∧
      my_read demo 3 (List.replicate 12 0) 10 0 s1 = some (((10 : Nat) : Int), buf1) ∧
      buf1.take 10 = [1, 2, 3, 4, 5, 6, 7, 8, 9, 10] :=
  write_read_roundtrip demo demo_hello_fs 3
    { type := 1, size := 5, blocks := 1, pointers := [10, 0, 0, 0] }
    [1, 2, 3, 4, 5, 6, 7, 8, 9, 10] (List.replicate 12 0)
    (imageOK_of_check _ _ (by decide)) (by decide) (inodeOK_of_check _ _ _ (by decide))
    (by decide) (by decide) (by decide) (by decide)

/-- C3 fails on the code: in the small configuration (blocks of 8 bytes) a write of 8
bytes at offset 2 of the empty file of inode 3 copies 6 bytes into the first block and
stops, returning 6. -/
theorem my_write_unaligned_returns_short :
    (my_write demo 3 [1, 2, 3, 4, 5, 6, 7, 8] 8 2 demo_a_fs).map Prod.fst = some 6 := by
  decide

/-- C4 fails on the code: on the 5-byte file of inode 3 a read of `2 ^ 32 - 2` bytes at
offset 3 is not clamped (`offset + size` wraps to 1) and returns 5 bytes, the rest of
the block, where the file has 2 bytes left. -/
theorem my_read_huge_size_not_clamped :
    (my_read demo 3 (List.replicate 8 0) (2 ^ 32 - 2) 3 demo_hello_fs).map Prod.fst
      = some 5 := by
  decide

/-- C4, second failure: a read of 33 bytes at offset 0 of the same file computes
`end_block = 4` before the clamp and indexes `pointers[4]`, past the 4 pointers. -/
theorem my_read_large_size_leaves_pointers :
    my_read demo 3 (List.replicate 40 0) 33 0 demo_hello_fs = none := by
  decide

/-- C5 fails on the code: a write of one byte at offset 0 of the 5-byte file of inode 3
sets the size of the inode to 1. -/
theorem my_write_shrinks_size :
    (get_inode demo_hello_fs 3).map Inode.size = some 5 ∧
    ((my_write demo 3 [7] 1 0 demo_hello_fs).bind fun r => (get_inode r.2 3).map Inode.size)
      = some 1 := by
  decide


theorem content_snoc (s : FS) (ptrs : List Nat) (c m : Nat) :
    content s ptrs c (m + 1) = content s ptrs c m ++ s.blocks.getD (ptrs.getD (c + m) 0) [] := by
  induction m generalizing c with
  | zero => simp [content]
  | succ m ih =>
    rw [content, ih (c + 1), content]
    simp only [List.append_assoc]
    congr 4
    omega

theorem content_add (s : FS) (ptrs : List Nat) (c m k : Nat) :
    content s ptrs c (m + k) = content s ptrs c m ++ content s ptrs (c + m) k := by
  induction m generalizing c with
  | zero => simp [content]
  | succ m ih =>
    have e : m + 1 + k = (m + k) + 1 := by omega
    rw [e, content, content, ih (c + 1)]
    simp only [List.append_assoc]
    congr 3
    omega

theorem read_stream_spec (P : Params) (s : FS) (ptrs : List Nat) (n : Nat) (hok : PtrsOK s ptrs 0 n) :
    read_stream P s ptrs n = some (some (content s ptrs 0 n)) := by
  induction n with
  | zero => simp [read_stream, content]
  | succ n ih =>
    obtain ⟨p, hp, hp8, hpl⟩ := hok n (by omega) (by omega)
    have hmeta : is_meta_block p = false := by simp [is_meta_block]; omega
    unfold read_stream
    rw [ih (fun j h1 h2 => hok j h1 (by omega))]
    simp only [hp, read_block, hmeta, List.getElem?_eq_getElem hpl]
    rw [content_snoc]
    simp [List.getD_eq_getElem?_getD, hp, List.getElem?_eq_getElem hpl]

theorem decode_chain_spec (P : Params) (hC : CodecOK P) (chain : List DirRec) (tail : List Nat)
    (hgood : ∀ r ∈ chain, GoodName P r.name ∧ r.inum ≠ 0) :
    decode_chain P chain.length ((chain.map P.encode).flatten ++ tail) = chain := by
  induction chain with
  | nil => simp [decode_chain]
  | cons r rs ih =>
    obtain ⟨hg, hi⟩ := hgood r (by simp)
    have hlen := hC.enc_len r
    simp only [List.map_cons, List.flatten_cons, List.length_cons, List.append_assoc]
    unfold decode_chain
    have h1 : ¬ (P.encode r ++ ((rs.map P.encode).flatten ++ tail)).length < P.DIRREC_SIZE := by
      simp [hlen]
    have h2 : (P.encode r ++ ((rs.map P.encode).flatten ++ tail)).take P.DIRREC_SIZE
        = P.encode r := by
      rw [← hlen, List.take_left]
    have h3 : (P.encode r ++ ((rs.map P.encode).flatten ++ tail)).drop P.DIRREC_SIZE
        = (rs.map P.encode).flatten ++ tail := by
      rw [← hlen, List.drop_left]
    simp only [h1, if_false, h2, h3, hC.dec_enc r hg, hi]
    rw [ih (fun r hr => hgood r (by simp [hr]))]

theorem stream_length (P : Params) (hC : CodecOK P) (chain : List DirRec) :
    ((chain.map P.encode).flatten).length = chain.length * P.DIRREC_SIZE := by
  induction chain with
  | nil => simp
  | cons r rs ih =>
    simp only [List.map_cons, List.flatten_cons, List.length_append, List.length_cons, ih,
      hC.enc_len r]
    ring

theorem write_stream_spec (P : Params) (ptrs : List Nat)
    (n j : Nat) (rest : List Nat) (s : FS) (hblk : BlocksSized P s)
    (hok : PtrsOK s ptrs j n) (hd : PtrsDistinct ptrs j n) (hlen : rest.length ≤ n * P.BLOCKSIZE) :
    ∃ s1, write_stream P ptrs n j rest s = some (true, s1) ∧
      s1.i_bmap = s.i_bmap ∧ s1.d_bmap = s.d_bmap ∧ s1.inodes = s.inodes ∧
      s1.blocks.length = s.blocks.length ∧ BlocksSized P s1 ∧
      (∀ q, (∀ i, j ≤ i → i < j + n → ptrs[i]? ≠ some q) → s1.blocks[q]? = s.blocks[q]?) ∧
      content s1 ptrs j n = rest ++ List.replicate (n * P.BLOCKSIZE - rest.length) 0 := by
  induction n generalizing j rest s with
  | zero =>
    have : rest = [] := by
      apply List.length_eq_zero.mp; simpa using hlen
    subst this
    exact ⟨s, by simp [write_stream], rfl, rfl, rfl, rfl, hblk, fun _ _ => rfl, by simp [content]⟩
  | succ n ih =>
    obtain ⟨p, hp, hp8, hpl⟩ := hok j (le_refl _) (by omega)
    have hmeta : is_meta_block p = false := by simp [is_meta_block]; omega
    have hpad : (List.take P.BLOCKSIZE rest ++
        List.replicate (P.BLOCKSIZE - (List.take P.BLOCKSIZE rest).length) 0).length
        = P.BLOCKSIZE := by
      simp
    have hmul : (n + 1) * P.BLOCKSIZE = n * P.BLOCKSIZE + P.BLOCKSIZE := by ring
    obtain ⟨s2, h1, h2, h3, h4, h5, h6, h7, h8⟩ := ih (j + 1) (rest.drop P.BLOCKSIZE)
      { s with blocks := s.blocks.set p (List.take P.BLOCKSIZE rest ++
        List.replicate (P.BLOCKSIZE - (List.take P.BLOCKSIZE rest).length) 0) }
      (blk_len_set _ _ _ _ hblk hpad)
      (by
        intro i hi1 hi2
        obtain ⟨q, hq, hq8, hql⟩ := hok i (by omega) (by omega)
        exact ⟨q, hq, hq8, by simpa using hql⟩)
      (fun i k hi hik hk => hd i k (by omega) hik (by omega))
      (by simp; omega)
    refine ⟨s2, ?_, h2, h3, h4, by simpa using h5, h6, ?_, ?_⟩
    · unfold write_stream
      simp only [hp, write_block, hmeta, hpl, if_true, Bool.false_eq_true, if_false]
      exact h1
    · intro q hq
      rw [h7 q (fun i hi1 hi2 => hq i (by omega) (by omega))]
      simp only
      have hqp : p ≠ q := by
        intro hpq
        exact hq j (le_refl _) (by omega) (by rw [hp, hpq])
      rw [List.getElem?_set_ne hqp]
    · have hkeep : s2.blocks[p]? = some (List.take P.BLOCKSIZE rest ++
          List.replicate (P.BLOCKSIZE - (List.take P.BLOCKSIZE rest).length) 0) := by
        rw [h7 p (fun i hi1 hi2 => by
          have := hd j i (le_refl _) (by omega) (by omega)
          rw [hp] at this
          exact fun h => this h.symm)]
        simp only
        rw [List.getElem?_set_self hpl]
      have hpc : ptrs.getD j 0 = p := by simp [List.getD_eq_getElem?_getD, hp]
      rw [content, hpc, List.getD_eq_getElem?_getD, hkeep, h8]
      simp only [Option.getD_some, List.length_drop, List.length_take]
      by_cases hle : P.BLOCKSIZE ≤ rest.length
      · have e1 : P.BLOCKSIZE - min P.BLOCKSIZE rest.length = 0 := by omega
        have e2 : n * P.BLOCKSIZE - (rest.length - P.BLOCKSIZE)
            = (n + 1) * P.BLOCKSIZE - rest.length := by omega
        rw [e1, e2]
        simp only [List.replicate_zero, List.append_nil]
        rw [← List.append_assoc, List.take_append_drop]
      · have e0 : rest.drop P.BLOCKSIZE = [] := List.drop_eq_nil_of_le (by omega)
        have e3 : rest.take P.BLOCKSIZE = rest := List.take_of_length_le (by omega)
        have e1 : P.BLOCKSIZE - min P.BLOCKSIZE rest.length = P.BLOCKSIZE - rest.length := by
          omega
        have e2 : n * P.BLOCKSIZE - (rest.length - P.BLOCKSIZE) = n * P.BLOCKSIZE := by omega
        rw [e0, e3, e1, e2]
        simp only [List.nil_append, List.append_assoc]
        rw [← List.replicate_add]
        congr 2
        omega


theorem ptrsOK_mono (s s1 : FS) (ptrs : List Nat) (c m : Nat)
    (hl : s1.blocks.length = s.blocks.length) (h : PtrsOK s ptrs c m) : PtrsOK s1 ptrs c m := by
  intro j h1 h2
  obtain ⟨p, hp, hp8, hpl⟩ := h j h1 h2
  exact ⟨p, hp, hp8, by rw [hl]; exact hpl⟩

theorem write_dir_short (P : Params) (hB : 0 < P.BLOCKSIZE) (s : FS) (chain : List DirRec)
    (blocks : Nat) (ptrs : List Nat) (size0 : Nat)
    (h : blocks < ((chain.map P.encode).flatten.length + P.BLOCKSIZE - 1) / P.BLOCKSIZE) :
    write_dir_to_blocks P s chain blocks ptrs size0
      = some (((((chain.map P.encode).flatten.length + P.BLOCKSIZE - 1) / P.BLOCKSIZE - blocks
          : Nat) : Int), s, size0) := by
  have hB0 : P.BLOCKSIZE ≠ 0 := by omega
  unfold write_dir_to_blocks
  simp only [hB0, if_false]
  rw [if_pos h]

theorem write_dir_spec (P : Params) (hB : 0 < P.BLOCKSIZE) (hC : CodecOK P) (s : FS)
    (chain : List DirRec) (blocks : Nat) (ptrs : List Nat) (size0 : Nat)
    (hblk : BlocksSized P s) (hok : PtrsOK s ptrs 0 blocks) (hd : PtrsDistinct ptrs 0 blocks)
    (hfit : (chain.length * P.DIRREC_SIZE + P.BLOCKSIZE - 1) / P.BLOCKSIZE ≤ blocks)
    (hgood : ∀ r ∈ chain, GoodName P r.name ∧ r.inum ≠ 0) :
    ∃ s1, write_dir_to_blocks P s chain blocks ptrs size0
        = some (0, s1, chain.length * P.DIRREC_SIZE) ∧
      s1.i_bmap = s.i_bmap ∧ s1.d_bmap = s.d_bmap ∧ s1.inodes = s.inodes ∧
      s1.blocks.length = s.blocks.length ∧ BlocksSized P s1 ∧
      (∀ q, (∀ i, i < (chain.length * P.DIRREC_SIZE + P.BLOCKSIZE - 1) / P.BLOCKSIZE →
        ptrs[i]? ≠ some q) → s1.blocks[q]? = s.blocks[q]?) ∧
      content s1 ptrs 0 ((chain.length * P.DIRREC_SIZE + P.BLOCKSIZE - 1) / P.BLOCKSIZE)
        = (chain.map P.encode).flatten ++ List.replicate
          ((chain.length * P.DIRREC_SIZE + P.BLOCKSIZE - 1) / P.BLOCKSIZE * P.BLOCKSIZE
            - chain.length * P.DIRREC_SIZE) 0 ∧
      read_dir_from_blocks P s1 (chain.length * P.DIRREC_SIZE) blocks ptrs
        = some (some chain) := by
  have hB0 : P.BLOCKSIZE ≠ 0 := by omega
  have hD0 : P.DIRREC_SIZE ≠ 0 := by have := hC.dpos; omega
  have hsl := stream_length P hC chain
  obtain ⟨s1, h1, h2, h3, h4, h5, h6, h7, h8⟩ := write_stream_spec P ptrs
    ((chain.length * P.DIRREC_SIZE + P.BLOCKSIZE - 1) / P.BLOCKSIZE) 0
    (chain.map P.encode).flatten s hblk
    (fun j a b => hok j a (by omega)) (fun i j a b c => hd i j a b (by omega))
    (by rw [hsl]; exact le_ceil_div_mul _ _ hB)
  have hnot : ¬ ((chain.map P.encode).flatten.length + P.BLOCKSIZE - 1) / P.BLOCKSIZE > blocks := by
    rw [hsl]; omega
  refine ⟨s1, ?_, h2, h3, h4, h5, h6, ?_, ?_, ?_⟩
  · unfold write_dir_to_blocks
    simp only [hB0, if_false, hnot]
    rw [hsl, h1]
  · intro q hq
    exact h7 q (fun i _ hi => hq i (by omega))
  · rw [h8, hsl]
  · unfold read_dir_from_blocks
    simp only [hD0, if_false]
    rw [read_stream_spec P s1 ptrs blocks (ptrsOK_mono s s1 ptrs 0 blocks h5 hok)]
    simp only
    have e : blocks = (chain.length * P.DIRREC_SIZE + P.BLOCKSIZE - 1) / P.BLOCKSIZE
        + (blocks - (chain.length * P.DIRREC_SIZE + P.BLOCKSIZE - 1) / P.BLOCKSIZE) := by omega
    rw [e, content_add, h8, Nat.mul_div_cancel _ hC.dpos, List.append_assoc,
      decode_chain_spec P hC chain _ hgood]

theorem not_meta_of_ge (p : Nat) (h : 8 ≤ p) : is_meta_block p = false := by
  simp [is_meta_block]; omega

theorem read_stream_congr (P : Params) (s s1 : FS) (ptrs : List Nat) (n : Nat)
    (hm : ∀ (j q : Nat), j < n → ptrs[j]? = some q → is_meta_block q = false)
    (h : ∀ (j q : Nat), j < n → ptrs[j]? = some q → s1.blocks[q]? = s.blocks[q]?) :
    read_stream P s1 ptrs n = read_stream P s ptrs n := by
  induction n with
  | zero => rfl
  | succ n ih =>
    unfold read_stream
    rw [ih (fun j q hj hq => hm j q (by omega) hq) (fun j q hj hq => h j q (by omega) hq)]
    cases hr : read_stream P s ptrs n with
    | none => rfl
    | some o =>
      cases o with
      | none => rfl
      | some bs =>
        cases hp : ptrs[n]? with
        | none => rfl
        | some p =>
          simp only [read_block, hm n p (by omega) hp, Bool.false_eq_true, if_false]
          rw [h n p (by omega) hp]

theorem read_dir_congr (P : Params) (s s1 : FS) (size blocks : Nat) (ptrs : List Nat)
    (hm : ∀ (j q : Nat), j < blocks → ptrs[j]? = some q → is_meta_block q = false)
    (h : ∀ (j q : Nat), j < blocks → ptrs[j]? = some q → s1.blocks[q]? = s.blocks[q]?) :
    read_dir_from_blocks P s1 size blocks ptrs = read_dir_from_blocks P s size blocks ptrs := by
  unfold read_dir_from_blocks
  rw [read_stream_congr P s s1 ptrs blocks hm h]

theorem ptrsOK_not_meta (s : FS) (ptrs : List Nat) (n : Nat) (hok : PtrsOK s ptrs 0 n) :
    ∀ (j q : Nat), j < n → ptrs[j]? = some q → is_meta_block q = false := by
  intro j q hj hq
  obtain ⟨p, hp, hp8, _⟩ := hok j (Nat.zero_le _) (by omega)
  have e : q = p := Option.some.inj (hq.symm.trans hp)
  rw [e]
  exact not_meta_of_ge p hp8

theorem single_ptr_not_meta (ptrs : List Nat) (b : Nat) (h8 : 8 ≤ b) (h0 : ptrs[0]? = some b) :
    ∀ (j q : Nat), j < 1 → ptrs[j]? = some q → is_meta_block q = false := by
  intro j q hj hq
  have : j = 0 := by omega
  subst this
  have e : q = b := Option.some.inj (hq.symm.trans h0)
  rw [e]
  exact not_meta_of_ge b h8

theorem mark_first_spec (n i m : Nat) (h : n ≤ m) :
    mark_first n i (List.replicate i 1 ++ List.replicate m 0)
      = some (List.replicate (i + n) 1 ++ List.replicate (m - n) 0) := by
  induction n generalizing i m with
  | zero => simp [mark_first]
  | succ n ih =>
    unfold mark_first
    have hl : i < (List.replicate i 1 ++ List.replicate m 0).length := by simp; omega
    simp only [hl, if_true]
    have hset : (List.replicate i 1 ++ List.replicate m 0).set i 1
        = List.replicate (i + 1) 1 ++ List.replicate (m - 1) 0 := by
      obtain ⟨m, rfl⟩ : ∃ k, m = k + 1 := ⟨m - 1, by omega⟩
      rw [List.set_append_right _ _ (by simp)]
      rw [show List.replicate (i + 1) 1 = List.replicate i 1 ++ [1] from List.replicate_succ' i 1]
      simp [List.replicate_succ]
    rw [hset, ih (i + 1) (m - 1) (by omega)]
    congr 3 <;> omega


theorem dot_names_good (P : Params) (hMF : 3 ≤ P.MAX_FILENAME) :
    GoodName P [46] ∧ GoodName P [46, 46] := by
  refine ⟨⟨by simp; omega, by simp⟩, ⟨by simp; omega, by simp⟩⟩

/-- C10: on the all-zero image `my_init` sets exactly the entries 0..8 of the data-block
bitmap and exactly entry 2 of the inode bitmap, writes inode 2 as a directory with one
block, `pointers[0] = 8` and size `2 * sizeof(dirrec)`, and stores the chain
`[(".", 2), ("..", 2)]` in block 8. -/
theorem my_init_fresh_image (P : Params) (junk : Inode) (hC : CodecOK P)
    (hB : 0 < P.BLOCKSIZE) (hfit : 2 * P.DIRREC_SIZE ≤ P.BLOCKSIZE)
    (hN : 9 ≤ P.NUM_OF_BLOCKS) (hI : 3 ≤ P.NUM_INODES) (hK : 1 ≤ junk.pointers.length)
    (hMF : 3 ≤ P.MAX_FILENAME) :
    ∃ s, my_init P junk (zero_image P) = some s ∧
      s.d_bmap = List.replicate 9 1 ++ List.replicate (P.NUM_OF_BLOCKS - 9) 0 ∧
      s.i_bmap = (List.replicate P.NUM_INODES 0).set 2 1 ∧
      get_inode s 2 = some { type := P.TYPE_DIR, size := 2 * P.DIRREC_SIZE, blocks := 1,
                             pointers := junk.pointers.set 0 8 } ∧
      (junk.pointers.set 0 8)[0]? = some 8 ∧
      s.blocks[8]? = some (P.encode ⟨[46], 2⟩ ++ P.encode ⟨[46, 46], 2⟩ ++
        List.replicate (P.BLOCKSIZE - 2 * P.DIRREC_SIZE) 0) ∧
      read_dir_from_inode P s 2 = some (some [⟨[46], 2⟩, ⟨[46, 46], 2⟩]) := by
  have hmark : mark_first 9 0 (List.replicate P.NUM_OF_BLOCKS 0)
      = some (List.replicate 9 1 ++ List.replicate (P.NUM_OF_BLOCKS - 9) 0) := by
    have := mark_first_spec 9 0 P.NUM_OF_BLOCKS hN
    simpa using this
  have hneed : ((2 : Nat) * P.DIRREC_SIZE + P.BLOCKSIZE - 1) / P.BLOCKSIZE = 1 := by
    have hd := hC.dpos
    apply Nat.div_eq_of_lt_le <;> omega
  obtain ⟨hg1, hg2⟩ := dot_names_good P hMF
  have hptr0 : (junk.pointers.set 0 8)[0]? = some 8 := by
    rw [List.getElem?_set_self (by omega)]
  obtain ⟨s1, h1, h2, h3, h4, h5, h6, h7, h8, h9⟩ := write_dir_spec P hB hC
    { i_bmap := (List.replicate P.NUM_INODES 0).set 2 1
      d_bmap := List.replicate 9 1 ++ List.replicate (P.NUM_OF_BLOCKS - 9) 0
      inodes := List.replicate P.NUM_INODES
        { type := 0, size := 0, blocks := 0, pointers := List.replicate P.NUM_POINTERS 0 }
      blocks := List.replicate P.NUM_OF_BLOCKS (List.replicate P.BLOCKSIZE 0) }
    [⟨[46], 2⟩, ⟨[46, 46], 2⟩] 1 (junk.pointers.set 0 8) 0
    (by
      intro b blk hb
      have := List.getElem?_mem hb
      simp only [List.mem_replicate] at this
      rw [this.2]; simp)
    (by
      intro j _ hj
      have : j = 0 := by omega
      subst this
      exact ⟨8, hptr0, le_refl _, by simp; omega⟩)
    (by intro i j _ hij hj; omega)
    (by
      simp only [List.length_cons, List.length_nil, Nat.zero_add, Nat.reduceAdd]
      rw [hneed])
    (by
      intro r hr
      simp only [List.mem_cons, List.mem_singleton, List.not_mem_nil, or_false] at hr
      rcases hr with rfl | rfl
      · exact ⟨hg1, by simp⟩
      · exact ⟨hg2, by simp⟩)
  simp only [List.length_cons, List.length_nil, Nat.zero_add, Nat.reduceAdd] at h1 h7 h8 h9
  rw [hneed] at h7 h8
  have h2I : 2 < s1.inodes.length := by rw [h4]; simp; omega
  refine ⟨{ s1 with
      inodes := s1.inodes.set 2
        (Inode.mk P.TYPE_DIR (2 * P.DIRREC_SIZE) 1 (junk.pointers.set 0 8)) },
    ?_, ?_, ?_, ?_, hptr0, ?_, ?_⟩
  · unfold my_init
    simp only [get_d_bmap, zero_image, hmark, set_d_bmap, get_i_bmap, set_i_bmap,
      List.length_replicate]
    have e1 : ¬ P.NUM_INODES ≤ 2 := by omega
    have e2 : ¬ (junk.pointers.length < 1 ∨ P.MAX_FILENAME < 3) := by omega
    simp only [e1, e2, if_false]
    rw [h1]
    simp [set_inode, h2I]
  · simpa using h3
  · simpa using h2
  · simp [get_inode, List.getElem?_set_self h2I]
  · simp only
    have hc : content s1 (junk.pointers.set 0 8) 0 1 = s1.blocks.getD 8 [] := by
      simp [content, List.getD_eq_getElem?_getD, hptr0]
    rw [hc] at h8
    have hl : 8 < s1.blocks.length := by rw [h5]; simp; omega
    rw [List.getD_eq_getElem?_getD, List.getElem?_eq_getElem hl] at h8
    simp only [Option.getD_some] at h8
    rw [List.getElem?_eq_getElem hl, h8]
    simp
  · unfold read_dir_from_inode
    simp only [get_inode, List.getElem?_set_self h2I]
    have hframe : read_dir_from_blocks P
        { s1 with
          inodes := s1.inodes.set 2
            (Inode.mk P.TYPE_DIR (2 * P.DIRREC_SIZE) 1 (junk.pointers.set 0 8)) }
        (2 * P.DIRREC_SIZE) 1 (junk.pointers.set 0 8)
        = read_dir_from_blocks P s1 (2 * P.DIRREC_SIZE) 1 (junk.pointers.set 0 8) :=
      read_dir_congr P s1 _ _ _ _ (single_ptr_not_meta _ 8 (le_refl _) hptr0)
        (fun _ _ _ _ => rfl)
    rw [hframe, h9]


theorem takeWhile_name (name : List Nat) (k : Nat) (h : ∀ c ∈ name, c ≠ 0) :
    (name ++ List.replicate k 0).takeWhile (fun c => !(c == 0)) = name := by
  induction name with
  | nil =>
    cases k with
    | zero => simp
    | succ k => simp [List.replicate_succ]
  | cons c cs ih =>
    have hc : c ≠ 0 := h c (by simp)
    simp only [List.cons_append]
    rw [List.takeWhile_cons_of_pos (by simpa using hc)]
    rw [ih (fun d hd => h d (by simp [hd]))]

theorem demo_codecOK : CodecOK demo := by
  refine ⟨by decide, ?_, ?_⟩
  · intro r
    simp [demo, demo_encode]
    omega
  · intro r hg
    obtain ⟨hl, hz⟩ := hg
    have hl3 : r.name.length ≤ 3 := hl
    have ht : r.name.take 3 = r.name := List.take_of_length_le hl3
    have hlen : (r.name ++ List.replicate (3 - r.name.length) 0).length = 3 := by
      simp; omega
    show demo_decode (demo_encode r) = r
    unfold demo_decode demo_encode
    rw [ht]
    have h1 : (r.name ++ List.replicate (3 - r.name.length) 0 ++ [r.inum]).take 3
        = r.name ++ List.replicate (3 - r.name.length) 0 := by
      have h := @List.take_left Nat (r.name ++ List.replicate (3 - r.name.length) 0) [r.inum]
      rw [hlen] at h
      exact h
    have h2 : (r.name ++ List.replicate (3 - r.name.length) 0 ++ [r.inum]).getD 3 0
        = r.inum := by
      rw [List.getD_eq_getElem?_getD, List.getElem?_append_right (by rw [hlen])]
      simp [hlen]
    rw [h1, h2, takeWhile_name _ _ hz]

/-- C10 in the small configuration. -/
theorem my_init_fresh_image_witness :
    ∃ s, my_init demo demo_inode0 (zero_image demo) = some s ∧
      s.d_bmap = List.replicate 9 1 ++ List.replicate (demo.NUM_OF_BLOCKS - 9) 0 ∧
      s.i_bmap = (List.replicate demo.NUM_INODES 0).set 2 1 ∧
      get_inode s 2 = some { type := demo.TYPE_DIR, size := 2 * demo.DIRREC_SIZE, blocks := 1,
                             pointers := demo_inode0.pointers.set 0 8 } ∧
      (demo_inode0.pointers.set 0 8)[0]? = some 8 ∧
      s.blocks[8]? = some (demo.encode ⟨[46], 2⟩ ++ demo.encode ⟨[46, 46], 2⟩ ++
        List.replicate (demo.BLOCKSIZE - 2 * demo.DIRREC_SIZE) 0) ∧
      read_dir_from_inode demo s 2 = some (some [⟨[46], 2⟩, ⟨[46, 46], 2⟩]) :=
  my_init_fresh_image demo demo_inode0 demo_codecOK (by decide) (by decide) (by decide)
    (by decide) (by decide) (by decide)


theorem step_inode_ne (P : Params) (s s1 : FS) (x : Nat) (ino1 : Inode) (isNew : Nat → Prop)
    (hS : Step P s s1 x ino1 isNew) (i : Nat) (hi : i ≠ x) : s1.inodes[i]? = s.inodes[i]? := by
  rw [hS.inodes_eq, List.getElem?_set_ne (fun h => hi h.symm)]

theorem step_inode_eq (P : Params) (s s1 : FS) (x : Nat) (ino1 : Inode) (isNew : Nat → Prop)
    (hS : Step P s s1 x ino1 isNew) : s1.inodes[x]? = some ino1 := by
  rw [hS.inodes_eq, List.getElem?_set_self hS.xlt]

/-- Under a `Step` on inode `x` the chain stored for any other allocated inode is read
as before. -/
theorem step_frame (P : Params) (s s1 : FS) (x : Nat) (ino1 : Inode) (isNew : Nat → Prop)
    (hI : FsInv P s) (hS : Step P s s1 x ino1 isNew) (i : Nat) (ino : Inode)
    (hi : i ≠ x) (ha : allocated s i) (hino : s.inodes[i]? = some ino) :
    read_dir_from_blocks P s1 ino.size ino.blocks ino.pointers
      = read_dir_from_blocks P s ino.size ino.blocks ino.pointers := by
  apply read_dir_congr
  · intro j q hj hq
    obtain ⟨p, hp, hp8, hm⟩ := hI.used i ino j ha hino hj
    rw [hq] at hp
    cases hp
    exact not_meta_of_ge q hp8
  intro j q hj hq
  obtain ⟨p, hp, hp8, hm⟩ := hI.used i ino j ha hino hj
  rw [hq] at hp
  cases hp
  apply hS.frame q hp8 hm
  intro inoX j0 hax hX hj0 hc
  exact hI.disj x i inoX ino j0 j hax ha hX hino hj0 hj (Or.inl (fun h => hi h.symm))
    (by rw [hc, hq])


/-- A `Step` preserves the invariant. -/
theorem fsInv_step (P : Params) (s s1 : FS) (x : Nat) (ino1 : Inode) (isNew : Nat → Prop)
    (hI : FsInv P s) (hS : Step P s s1 x ino1 isNew) : FsInv P s1 := by
  have hne := step_inode_ne P s s1 x ino1 isNew hS
  have heq := step_inode_eq P s s1 x ino1 isNew hS
  have hmono : ∀ b, marked s b → marked s1 b := fun b hb => (hS.mark_iff b).2 (Or.inl hb)
  have hamono : ∀ i, allocated s i → allocated s1 i := fun i hi => (hS.alloc_iff i).2 (Or.inl hi)
  -- an allocated inode of `s1` other than `x` is an allocated inode of `s`
  have hold : ∀ i, i ≠ x → allocated s1 i → allocated s i := by
    intro i hi ha
    rcases (hS.alloc_iff i).1 ha with h | h
    · exact h
    · exact absurd h hi
  -- the used pointers of `ino1` differ from the used pointers of the other inodes
  have hcross : ∀ (k : Nat) (kno : Inode) (j l : Nat), k ≠ x → allocated s k →
      s.inodes[k]? = some kno → j < ino1.blocks → l < kno.blocks →
      ino1.pointers[j]? ≠ kno.pointers[l]? := by
    intro k kno j l hk hak hkno hj hl hc
    obtain ⟨p, hp, _, hcase⟩ := hS.used j hj
    obtain ⟨q, hq, _, hqm⟩ := hI.used k kno l hak hkno hl
    rw [hp, hq] at hc
    cases hc
    rcases hcase with hnew | ⟨hax, inoX, j0, hX, hj0, hpx⟩
    · exact (hS.new_fresh p hnew).2 hqm
    · exact hI.disj x k inoX kno j0 l hax hak hX hkno hj0 hl (Or.inl (fun h => hk h.symm))
        (by rw [hpx, hq])
  refine
    { img := ⟨hI.img.bpos, fun b hb => ?_, ?_, hS.sized⟩
      tbl := ?_, lo := ?_, plen := ?_, typ := ?_, cap := ?_, used := ?_, disj := ?_,
      refd := ?_, zero := ?_, fresh := ?_, chain := ?_, root := ?_ }
  · exact hmono b (hI.img.reserved b hb)
  · rw [hS.dmap_len, hS.blocks_len]; exact hI.img.bmap_len
  · rw [hS.imap_len, hI.tbl, hS.inodes_eq]; simp
  · intro i ha
    rcases (hS.alloc_iff i).1 ha with h | h
    · exact hI.lo i h
    · rw [h]; exact hS.x2
  · intro i ino hino
    by_cases hi : i = x
    · subst hi; rw [heq] at hino; cases hino; exact hS.plen
    · rw [hne i hi] at hino; exact hI.plen i ino hino
  · intro i ino ha hino
    by_cases hi : i = x
    · subst hi; rw [heq] at hino; cases hino; exact hS.typ
    · rw [hne i hi] at hino; exact hI.typ i ino (hold i hi ha) hino
  · intro i ino ha hino
    by_cases hi : i = x
    · subst hi; rw [heq] at hino; cases hino; exact hS.cap
    · rw [hne i hi] at hino; exact hI.cap i ino (hold i hi ha) hino
  · intro i ino j ha hino hj
    by_cases hi : i = x
    · subst hi; rw [heq] at hino; cases hino
      obtain ⟨p, hp, hp8, hcase⟩ := hS.used j hj
      refine ⟨p, hp, hp8, ?_⟩
      rcases hcase with hnew | ⟨hax, inoX, j0, hX, hj0, hpx⟩
      · exact (hS.mark_iff p).2 (Or.inr hnew)
      · obtain ⟨q, hq, _, hqm⟩ := hI.used i inoX j0 hax hX hj0
        rw [hpx] at hq; cases hq
        exact hmono p hqm
    · rw [hne i hi] at hino
      obtain ⟨p, hp, hp8, hm⟩ := hI.used i ino j (hold i hi ha) hino hj
      exact ⟨p, hp, hp8, hmono p hm⟩
  · intro i k ino kno j l hai hak hino hkno hj hl hor
    by_cases hi : i = x
    · subst hi; rw [heq] at hino; cases hino
      by_cases hk : k = i
      · subst hk; rw [heq] at hkno; cases hkno
        have hjl : j ≠ l := by
          rcases hor with h | h
          · exact absurd rfl h
          · exact h
        rcases Nat.lt_or_gt_of_ne hjl with h | h
        · exact hS.distinct j l h hl
        · exact fun hc => hS.distinct l j h hj hc.symm
      · rw [hne k hk] at hkno
        exact hcross k kno j l hk (hold k hk hak) hkno hj hl
    · rw [hne i hi] at hino
      by_cases hk : k = x
      · subst hk; rw [heq] at hkno; cases hkno
        exact fun hc => hcross i ino l j hi (hold i hi hai) hino hl hj hc.symm
      · rw [hne k hk] at hkno
        exact hI.disj i k ino kno j l (hold i hi hai) (hold k hk hak) hino hkno hj hl hor
  · intro b hb
    rcases (hS.mark_iff b).1 hb with hm | hnew
    · rcases hI.refd b hm with h8 | ⟨i, ino, j, ha, hino, hj, hp⟩
      · exact Or.inl h8
      · right
        by_cases hi : i = x
        · subst hi
          obtain ⟨j1, hj1, hp1⟩ := hS.old_used ha ino j hino hj
          exact ⟨i, ino1, j1, hamono i ha, heq, hj1, by rw [hp1, hp]⟩
        · exact ⟨i, ino, j, hamono i ha, by rw [hne i hi]; exact hino, hj, hp⟩
    · right
      obtain ⟨j, hj, hp⟩ := hS.new_used b hnew
      exact ⟨x, ino1, j, (hS.alloc_iff x).2 (Or.inr rfl), heq, hj, hp⟩
  · intro i ino ha hino hty
    by_cases hi : i = x
    · subst hi; rw [heq] at hino; cases hino; exact hS.zero hty
    · rw [hne i hi] at hino; exact hI.zero i ino (hold i hi ha) hino hty
  · intro i ino hna hino
    have hi : i ≠ x := fun h => hna ((hS.alloc_iff i).2 (Or.inr h))
    rw [hne i hi] at hino
    exact hI.fresh i ino (fun h => hna (hamono i h)) hino
  · intro i ino ha hino hty
    by_cases hi : i = x
    · subst hi; rw [heq] at hino; cases hino; exact hS.chain hty
    · rw [hne i hi] at hino
      obtain ⟨c, hc, hgood, hdot⟩ := hI.chain i ino (hold i hi ha) hino hty
      refine ⟨c, ?_, fun r hr => ?_, hdot⟩
      · rw [step_frame P s s1 x ino1 isNew hI hS i ino hi (hold i hi ha) hino]; exact hc
      · obtain ⟨h1, h2, h3⟩ := hgood r hr
        exact ⟨h1, h2, hamono _ h3⟩
  · obtain ⟨ha2, ino, hino, hty⟩ := hI.root
    refine ⟨hamono 2 ha2, ?_⟩
    by_cases hx : x = 2
    · subst hx
      exact ⟨ino1, heq, by rw [hS.keep_type ha2 ino hino]; exact hty⟩
    · exact ⟨ino, by rw [hne 2 (fun h => hx h.symm)]; exact hino, hty⟩


theorem nz_set (l : List Nat) (n i : Nat) (hn : n < l.length) :
    (∃ v, (l.set n 1)[i]? = some v ∧ v ≠ 0) ↔ (∃ v, l[i]? = some v ∧ v ≠ 0) ∨ i = n := by
  by_cases hi : i = n
  · subst hi
    simp [List.getElem?_set_self hn]
  · rw [List.getElem?_set_ne (fun h => hi h.symm)]
    simp [hi]

theorem lt_of_getElem?_some {α : Type} (l : List α) (i : Nat) (a : α) (h : l[i]? = some a) :
    i < l.length := by
  rcases Nat.lt_or_ge i l.length with h1 | h1
  · exact h1
  · rw [List.getElem?_eq_none h1] at h; simp at h

theorem marked_lt (s : FS) (b : Nat) (h : marked s b) : b < s.d_bmap.length := by
  obtain ⟨v, hv, _⟩ := h
  exact lt_of_getElem?_some _ _ _ hv

theorem allocated_lt (s : FS) (i : Nat) (h : allocated s i) : i < s.i_bmap.length := by
  obtain ⟨v, hv, _⟩ := h
  exact lt_of_getElem?_some _ _ _ hv

theorem get_next_free_inode_inv (s s0 : FS) (n : Nat)
    (h : get_next_free_inode s = some (n, s0)) :
    2 ≤ n ∧ s.i_bmap[n]? = some 0 ∧ s0 = { s with i_bmap := s.i_bmap.set n 1 } := by
  unfold get_next_free_inode at h
  simp only [get_i_bmap, set_i_bmap] at h
  split at h
  · simp at h
  · cases hsc : scan_free (List.drop 2 s.i_bmap) 2 with
    | none => simp [hsc] at h
    | some k =>
      simp only [hsc, Option.some.injEq, Prod.mk.injEq] at h
      obtain ⟨h1, h2, _⟩ := scan_free_spec _ _ _ hsc
      obtain ⟨rfl, rfl⟩ := h
      refine ⟨h1, ?_, rfl⟩
      rw [List.getElem?_drop] at h2
      have : 2 + (k - 2) = k := by omega
      rw [this] at h2
      exact h2

theorem get_next_free_block_inv (P : Params) (s s1 : FS) (b : Nat) (hI : ImageOK P s)
    (h : get_next_free_block s = some (b, s1)) :
    9 ≤ b ∧ s.d_bmap[b]? = some 0 ∧ s1 = { s with d_bmap := s.d_bmap.set b 1 } := by
  unfold get_next_free_block at h
  simp only [get_d_bmap, set_d_bmap] at h
  cases hsc : scan_free s.d_bmap 0 with
  | none => simp [hsc] at h
  | some k =>
    simp only [hsc, Option.some.injEq, Prod.mk.injEq] at h
    obtain ⟨_, h2, _⟩ := scan_free_spec _ _ _ hsc
    obtain ⟨rfl, rfl⟩ := h
    simp only [Nat.sub_zero] at h2
    refine ⟨?_, h2, rfl⟩
    by_contra hlt
    obtain ⟨v, hv, hv0⟩ := hI.reserved k (by omega)
    rw [h2] at hv
    simp at hv
    exact hv0 hv.symm

theorem imageOK_mark (P : Params) (s : FS) (b : Nat) (hI : ImageOK P s) :
    ImageOK P { s with d_bmap := s.d_bmap.set b 1 } := by
  refine ⟨hI.bpos, ?_, by simpa using hI.bmap_len, hI.blk_len⟩
  intro c hc
  obtain ⟨v, hv, hv0⟩ := hI.reserved c hc
  have hcl := lt_of_getElem?_some _ _ _ hv
  by_cases hcb : b = c
  · subst hcb
    exact ⟨1, by simp [List.getElem?_set_self hcl], by simp⟩
  · exact ⟨v, by simp only; rw [List.getElem?_set_ne hcb]; exact hv, hv0⟩

theorem marked_mark (s : FS) (b q : Nat) (hb : b < s.d_bmap.length) :
    marked { s with d_bmap := s.d_bmap.set b 1 } q ↔ marked s q ∨ q = b := by
  unfold marked
  exact nz_set s.d_bmap b q hb

theorem grow_pointers_inv (P : Params) (n j : Nat) (ptrs ptrs2 : List Nat) (s s2 : FS)
    (hI : ImageOK P s) (h : grow_pointers n j ptrs s = some (ptrs2, s2)) :
    (0 < n → j + n ≤ ptrs.length) ∧ ptrs2.length = ptrs.length ∧
    (∀ k, k < j ∨ j + n ≤ k → ptrs2[k]? = ptrs[k]?) ∧
    (∀ k, j ≤ k → k < j + n → ∃ q, ptrs2[k]? = some q ∧ 9 ≤ q ∧ ¬ marked s q ∧ marked s2 q) ∧
    (∀ k l, j ≤ k → k < l → l < j + n → ptrs2[k]? ≠ ptrs2[l]?) ∧
    s2.i_bmap = s.i_bmap ∧ s2.inodes = s.inodes ∧ s2.blocks = s.blocks ∧
    s2.d_bmap.length = s.d_bmap.length ∧
    (∀ b, marked s b → marked s2 b) ∧
    (∀ b, marked s2 b → marked s b ∨ ∃ k, j ≤ k ∧ k < j + n ∧ ptrs2[k]? = some b) ∧
    ImageOK P s2 := by
  induction n generalizing j ptrs s with
  | zero =>
    simp only [grow_pointers, Option.some.injEq, Prod.mk.injEq] at h
    obtain ⟨rfl, rfl⟩ := h
    exact ⟨fun h => absurd h (by omega), rfl, fun _ _ => rfl, fun k h1 h2 => absurd h2 (by omega),
      fun k l h1 h2 h3 => absurd h3 (by omega), rfl, rfl, rfl, rfl, fun _ hb => hb,
      fun _ hb => Or.inl hb, hI⟩
  | succ n ih =>
    unfold grow_pointers at h
    by_cases hlen : ptrs.length ≤ j
    · simp [hlen] at h
    · simp only [hlen, if_false] at h
      cases hg : get_next_free_block s with
      | none => simp [hg] at h
      | some r =>
        obtain ⟨b, s1⟩ := r
        simp only [hg] at h
        obtain ⟨hb9, hb0, hs1⟩ := get_next_free_block_inv P s s1 b hI hg
        subst hs1
        have hbl : b < s.d_bmap.length := lt_of_getElem?_some _ _ _ hb0
        have hnm : ¬ marked s b := by
          rintro ⟨v, hv, hv0⟩
          rw [hb0] at hv; simp at hv; exact hv0 hv.symm
        obtain ⟨g1, g2, g3, g4, g5, g6, g7, g8, g9, g10, g11, g12⟩ :=
          ih (j + 1) (ptrs.set j b) _ (imageOK_mark P s b hI) h
        have hm1 : ∀ q, marked s q → marked { s with d_bmap := s.d_bmap.set b 1 } q :=
          fun q hq => (marked_mark s b q hbl).2 (Or.inl hq)
        have hj : ptrs2[j]? = some b := by
          rw [g3 j (Or.inl (by omega)), List.getElem?_set_self (by omega)]
        refine ⟨fun _ => ?_, ?_, ?_, ?_, ?_, g6, g7, g8, ?_, ?_, ?_, g12⟩
        · rcases Nat.eq_zero_or_pos n with h0 | h0
          · omega
          · have := g1 h0; simp at this; omega
        · rw [g2]; simp
        · intro k hk
          rw [g3 k (by omega), List.getElem?_set_ne (by omega)]
        · intro k hk1 hk2
          by_cases hkj : k = j
          · subst hkj
            exact ⟨b, hj, hb9, hnm, g10 b ((marked_mark s b b hbl).2 (Or.inr rfl))⟩
          · obtain ⟨q, hq, hq9, hqn, hqm⟩ := g4 k (by omega) (by omega)
            exact ⟨q, hq, hq9, fun hm => hqn (hm1 q hm), hqm⟩
        · intro k l hk hkl hl
          by_cases hkj : k = j
          · subst hkj
            obtain ⟨q, hq, _, hqn, _⟩ := g4 l (by omega) (by omega)
            rw [hj, hq]
            intro hc
            cases hc
            exact hqn ((marked_mark s b b hbl).2 (Or.inr rfl))
          · exact g5 k l (by omega) hkl (by omega)
        · rw [g9]; simp
        · exact fun q hq => g10 q (hm1 q hq)
        · intro q hq
          rcases g11 q hq with h1 | ⟨k, hk1, hk2, hk3⟩
          · rcases (marked_mark s b q hbl).1 h1 with h2 | h2
            · exact Or.inl h2
            · subst h2
              exact Or.inr ⟨j, le_refl _, by omega, hj⟩
          · exact Or.inr ⟨k, by omega, by omega, hk3⟩


theorem dotEnd_cons (i : Nat) (c : List DirRec) (r : DirRec) (h : DotEnd i c) :
    DotEnd i (r :: c) := by
  obtain ⟨front, p, hc, hp⟩ := h
  exact ⟨r :: front, p, by rw [hc]; rfl, hp⟩

theorem dir_update_step (P : Params) (hP : ParamsOK P) (s : FS) (hI : FsInv P s) (p : Nat)
    (inoP : Inode) (c : List DirRec) (rec : DirRec) (e : Nat) (ptrs2 : List Nat) (s2 : FS)
    (sz : Nat) (hap : allocated s p) (hino : s.inodes[p]? = some inoP)
    (hty : inoP.type = P.TYPE_DIR)
    (hgoodc : ∀ r ∈ c, GoodName P r.name ∧ 2 ≤ r.inum ∧ allocated s r.inum)
    (hdot : DotEnd p c) (hrec : GoodName P rec.name ∧ 2 ≤ rec.inum ∧ allocated s rec.inum)
    (hg : grow_pointers e inoP.blocks inoP.pointers s = some (ptrs2, s2))
    (hfit : ((c.length + 1) * P.DIRREC_SIZE + P.BLOCKSIZE - 1) / P.BLOCKSIZE
      ≤ inoP.blocks + e) :
    ∃ s3, write_dir_to_blocks P s2 (rec :: c) (inoP.blocks + e) ptrs2 sz
        = some (0, s3, (c.length + 1) * P.DIRREC_SIZE) ∧
      s3.inodes = s.inodes ∧ s3.i_bmap = s.i_bmap ∧
      Step P s
        { s3 with
          inodes := s3.inodes.set p
            (Inode.mk inoP.type ((c.length + 1) * P.DIRREC_SIZE) (inoP.blocks + e) ptrs2) }
        p (Inode.mk inoP.type ((c.length + 1) * P.DIRREC_SIZE) (inoP.blocks + e) ptrs2)
        (fun b => marked s2 b ∧ ¬ marked s b) ∧
      read_dir_from_blocks P
        { s3 with
          inodes := s3.inodes.set p
            (Inode.mk inoP.type ((c.length + 1) * P.DIRREC_SIZE) (inoP.blocks + e) ptrs2) }
        ((c.length + 1) * P.DIRREC_SIZE) (inoP.blocks + e) ptrs2 = some (some (rec :: c)) := by
  obtain ⟨g1, g2, g3, g4, g5, g6, g7, g8, g9, g10, g11, g12⟩ :=
    grow_pointers_inv P e inoP.blocks inoP.pointers ptrs2 s s2 hI.img hg
  have hplen := hI.plen p inoP hino
  have hcap := hI.cap p inoP hap hino
  -- old used pointers
  have hold : ∀ j, j < inoP.blocks → ∃ q, ptrs2[j]? = some q ∧ inoP.pointers[j]? = some q ∧
      8 ≤ q ∧ marked s q := by
    intro j hj
    obtain ⟨q, hq, hq8, hqm⟩ := hI.used p inoP j hap hino hj
    exact ⟨q, by rw [g3 j (Or.inl hj)]; exact hq, hq, hq8, hqm⟩
  have hok : PtrsOK s2 ptrs2 0 (inoP.blocks + e) := by
    intro j _ hj
    by_cases hjb : j < inoP.blocks
    · obtain ⟨q, hq, _, hq8, hqm⟩ := hold j hjb
      refine ⟨q, hq, hq8, ?_⟩
      rw [g8]
      exact lt_of_lt_of_le (marked_lt s q hqm) hI.img.bmap_len
    · obtain ⟨q, hq, hq9, _, hqm⟩ := g4 j (by omega) (by omega)
      refine ⟨q, hq, by omega, ?_⟩
      exact lt_of_lt_of_le (marked_lt s2 q hqm) g12.bmap_len
  have hdist : ∀ i j, i < j → j < inoP.blocks + e → ptrs2[i]? ≠ ptrs2[j]? := by
    intro i j hij hj
    by_cases hjb : j < inoP.blocks
    · rw [g3 i (Or.inl (by omega)), g3 j (Or.inl hjb)]
      exact hI.disj p p inoP inoP i j hap hap hino hino (by omega) hjb (Or.inr (by omega))
    · by_cases hib : i < inoP.blocks
      · obtain ⟨q, hq, _, _, hqm⟩ := hold i hib
        obtain ⟨q2, hq2, _, hqn, _⟩ := g4 j (by omega) (by omega)
        rw [hq, hq2]
        intro hc; cases hc
        exact hqn hqm
      · exact g5 i j (by omega) hij (by omega)
  have hsz2 : BlocksSized P s2 := by
    intro b blk hb
    rw [g8] at hb
    exact hI.img.blk_len b blk hb
  obtain ⟨s3, h1, h2, h3, h4, h5, h6, h7, _, h9⟩ := write_dir_spec P hP.bpos hP.codec s2
    (rec :: c) (inoP.blocks + e) ptrs2 sz hsz2 hok (fun i j _ hij hj => hdist i j hij (by omega))
    (by simpa using hfit)
    (by
      intro r hr
      rcases List.mem_cons.1 hr with h | h
      · subst h; exact ⟨hrec.1, by omega⟩
      · exact ⟨(hgoodc r h).1, by have := (hgoodc r h).2.1; omega⟩)
  simp only [List.length_cons] at h1 h7 h9
  have hplt : p < s.inodes.length := lt_of_getElem?_some _ _ _ hino
  have h9b : read_dir_from_blocks P
      { s3 with
        inodes := s3.inodes.set p
          (Inode.mk inoP.type ((c.length + 1) * P.DIRREC_SIZE) (inoP.blocks + e) ptrs2) }
      ((c.length + 1) * P.DIRREC_SIZE) (inoP.blocks + e) ptrs2 = some (some (rec :: c)) := by
    exact (read_dir_congr P s3
      { s3 with
        inodes := s3.inodes.set p
          (Inode.mk inoP.type ((c.length + 1) * P.DIRREC_SIZE) (inoP.blocks + e) ptrs2) }
      _ _ _ (ptrsOK_not_meta s2 ptrs2 _ hok) (fun _ _ _ _ => rfl)).trans h9
  refine ⟨s3, h1, by rw [h4, g7], by rw [h2, g6], ?_, ?_⟩
  · refine
      { xlt := hplt, x2 := hI.lo p hap, imap_len := ?_, alloc_iff := ?_, dmap_len := ?_,
        mark_iff := ?_, new_fresh := ?_, inodes_eq := ?_, blocks_len := ?_, sized := ?_,
        frame := ?_, plen := ?_, typ := Or.inr hty, cap := ?_, used := ?_, distinct := hdist,
        new_used := ?_, old_used := ?_, zero := ?_, chain := ?_, keep_type := ?_ }
    · simp only; rw [h2, g6]
    · intro i
      unfold allocated
      simp only
      rw [h2, g6]
      constructor
      · exact fun h => Or.inl h
      · rintro (h | h)
        · exact h
        · subst h; exact hap
    · simp only; rw [h3, g9]
    · intro b
      have hm : marked { s3 with
          inodes := s3.inodes.set p
            (Inode.mk inoP.type ((c.length + 1) * P.DIRREC_SIZE) (inoP.blocks + e) ptrs2) } b
          ↔ marked s2 b := by
        unfold marked; simp only; rw [h3]
      rw [hm]
      constructor
      · intro h
        by_cases hb : marked s b
        · exact Or.inl hb
        · exact Or.inr ⟨h, hb⟩
      · rintro (h | h)
        · exact g10 b h
        · exact h.1
    · rintro b ⟨hb2, hbn⟩
      refine ⟨?_, hbn⟩
      rcases g11 b hb2 with h | ⟨k, hk1, hk2, hk3⟩
      · exact absurd h hbn
      · obtain ⟨q, hq, hq9, _, _⟩ := g4 k hk1 hk2
        rw [hk3] at hq; cases hq; exact hq9
    · simp only; rw [h4, g7]
    · simp only; rw [h5, g8]
    · exact h6
    · intro q _ hqm hq
      simp only
      rw [h7 q, g8]
      intro i hi
      by_cases hib : i < inoP.blocks
      · rw [g3 i (Or.inl hib)]
        exact hq inoP i hap hino hib
      · obtain ⟨q2, hq2, _, hqn, _⟩ := g4 i (by omega) (by omega)
        rw [hq2]
        intro hc; cases hc
        exact hqn hqm
    · simp only; rw [g2]; exact hplen
    · simp only
      rcases Nat.eq_zero_or_pos e with h0 | h0
      · omega
      · have := g1 h0; omega
    · intro j hj
      simp only at hj ⊢
      by_cases hjb : j < inoP.blocks
      · obtain ⟨q, hq, hq0, hq8, _⟩ := hold j hjb
        exact ⟨q, hq, hq8, Or.inr ⟨hap, inoP, j, hino, hjb, hq0⟩⟩
      · obtain ⟨q, hq, hq9, hqn, hqm⟩ := g4 j (by omega) hj
        exact ⟨q, hq, by omega, Or.inl ⟨hqm, hqn⟩⟩
    · rintro b ⟨hb2, hbn⟩
      rcases g11 b hb2 with h | ⟨k, _, hk2, hk3⟩
      · exact absurd h hbn
      · exact ⟨k, hk2, hk3⟩
    · intro _ inoX j0 hX hj0
      rw [hino] at hX; cases hX
      exact ⟨j0, by simp only; omega, g3 j0 (Or.inl hj0)⟩
    · intro hf
      simp only at hf
      exact absurd (hf.symm.trans hty) hP.types
    · intro _
      refine ⟨rec :: c, h9b, ?_, dotEnd_cons p c rec hdot⟩
      have hal : ∀ i, allocated s i → allocated { s3 with
          inodes := s3.inodes.set p
            (Inode.mk inoP.type ((c.length + 1) * P.DIRREC_SIZE) (inoP.blocks + e) ptrs2) } i := by
        intro i hi
        unfold allocated; simp only; rw [h2, g6]; exact hi
      intro r hr
      rcases List.mem_cons.1 hr with h | h
      · subst h; exact ⟨hrec.1, hrec.2.1, hal _ hrec.2.2⟩
      · obtain ⟨a1, a2, a3⟩ := hgoodc r h
        exact ⟨a1, a2, hal _ a3⟩
    · intro _ inoX hX
      rw [hino] at hX; cases hX
      rfl
  · exact h9b


/-- `add_rec_to_dir_inode` on an allocated directory `p` of a well-formed image is a
`Step` on `p` that puts the new record in front of the chain of `p`. -/
theorem add_rec_step (P : Params) (hP : ParamsOK P) (s : FS) (hI : FsInv P s) (p : Nat)
    (inoP : Inode) (rec : DirRec) (r : Int) (s1 : FS) (hap : allocated s p)
    (hino : s.inodes[p]? = some inoP) (hty : inoP.type = P.TYPE_DIR)
    (hrec : GoodName P rec.name ∧ 2 ≤ rec.inum ∧ allocated s rec.inum)
    (hrun : add_rec_to_dir_inode P s p rec = some (r, s1)) :
    ∃ (c : List DirRec) (ino1 : Inode) (isNew : Nat → Prop),
      read_dir_from_blocks P s inoP.size inoP.blocks inoP.pointers = some (some c) ∧
      Step P s s1 p ino1 isNew ∧ ino1.type = inoP.type ∧ s1.i_bmap = s.i_bmap ∧
      read_dir_from_blocks P s1 ino1.size ino1.blocks ino1.pointers = some (some (rec :: c)) := by
  obtain ⟨c, hc, hgoodc, hdot⟩ := hI.chain p inoP hap hino hty
  have hplt : p < s.inodes.length := lt_of_getElem?_some _ _ _ hino
  have hsl := stream_length P hP.codec (rec :: c)
  simp only [List.length_cons] at hsl
  unfold add_rec_to_dir_inode at hrun
  simp only [get_inode, hino, read_dir_from_inode, hc] at hrun
  by_cases hfit : ((c.length + 1) * P.DIRREC_SIZE + P.BLOCKSIZE - 1) / P.BLOCKSIZE ≤ inoP.blocks
  · obtain ⟨s3, h1, h2, h3, hstep, hread⟩ := dir_update_step P hP s hI p inoP c rec 0
      inoP.pointers s inoP.size hap hino hty hgoodc hdot hrec rfl (by simpa using hfit)
    simp only [Nat.add_zero] at h1 hstep hread
    rw [h1] at hrun
    have hp3 : p < s3.inodes.length := by rw [h2]; exact hplt
    simp [set_inode, hp3] at hrun
    obtain ⟨_, rfl⟩ := hrun
    exact ⟨c, _, _, hc, hstep, rfl, h3, hread⟩
  · have hlt : inoP.blocks
        < (((rec :: c).map P.encode).flatten.length + P.BLOCKSIZE - 1) / P.BLOCKSIZE := by
      rw [hsl]; omega
    rw [write_dir_short P hP.bpos s (rec :: c) inoP.blocks inoP.pointers inoP.size hlt, hsl]
      at hrun
    have hpos : 0 < ((c.length + 1) * P.DIRREC_SIZE + P.BLOCKSIZE - 1) / P.BLOCKSIZE
        - inoP.blocks := by omega
    have hne1 : ¬ (((((c.length + 1) * P.DIRREC_SIZE + P.BLOCKSIZE - 1) / P.BLOCKSIZE
        - inoP.blocks : Nat) : Int) = -1) := by omega
    have hgt : ((((c.length + 1) * P.DIRREC_SIZE + P.BLOCKSIZE - 1) / P.BLOCKSIZE
        - inoP.blocks : Nat) : Int) > 0 := by omega
    simp only [hne1, if_false, hgt, if_true, Int.toNat_ofNat] at hrun
    cases hg : grow_pointers
        (((c.length + 1) * P.DIRREC_SIZE + P.BLOCKSIZE - 1) / P.BLOCKSIZE - inoP.blocks)
        inoP.blocks inoP.pointers s with
    | none => simp [hg] at hrun
    | some res =>
      obtain ⟨ptrs2, s2⟩ := res
      simp only [hg] at hrun
      obtain ⟨s3, h1, h2, h3, hstep, hread⟩ := dir_update_step P hP s hI p inoP c rec
        (((c.length + 1) * P.DIRREC_SIZE + P.BLOCKSIZE - 1) / P.BLOCKSIZE - inoP.blocks)
        ptrs2 s2 inoP.size hap hino hty hgoodc hdot hrec hg (by omega)
      rw [h1] at hrun
      have hp3 : p < s3.inodes.length := by rw [h2]; exact hplt
      simp [set_inode, hp3] at hrun
      obtain ⟨_, rfl⟩ := hrun
      exact ⟨c, _, _, hc, hstep, rfl, h3, hread⟩


theorem step_other (P : Params) (s s1 : FS) (x : Nat) (ino1 : Inode) (isNew : Nat → Prop)
    (hI : FsInv P s) (hS : Step P s s1 x ino1 isNew) (i : Nat) (hi : i ≠ x)
    (ha : allocated s i) :
    get_inode s1 i = get_inode s i ∧ read_dir_from_inode P s1 i = read_dir_from_inode P s i := by
  have hne := step_inode_ne P s s1 x ino1 isNew hS i hi
  refine ⟨hne, ?_⟩
  unfold read_dir_from_inode get_inode
  rw [hne]
  cases hino : s.inodes[i]? with
  | none => rfl
  | some ino =>
    simp only
    exact step_frame P s s1 x ino1 isNew hI hS i ino hi ha hino

theorem free_not_allocated (s : FS) (n : Nat) (h : s.i_bmap[n]? = some 0) : ¬ allocated s n := by
  rintro ⟨v, hv, hv0⟩
  rw [h] at hv; simp at hv; exact hv0 hv.symm

theorem free_not_marked (s : FS) (b : Nat) (h : s.d_bmap[b]? = some 0) : ¬ marked s b := by
  rintro ⟨v, hv, hv0⟩
  rw [h] at hv; simp at hv; exact hv0 hv.symm

/-- The first half of `my_mknod`: a free inode number `n` is marked and its record is set
to an empty file. -/
theorem mknod_inode_step (P : Params) (hP : ParamsOK P) (s : FS) (hI : FsInv P s) (n : Nat)
    (hfree : s.i_bmap[n]? = some 0) (h2 : 2 ≤ n) :
    ∃ old : Inode, s.inodes[n]? = some old ∧
      Step P s
        { s with
          i_bmap := s.i_bmap.set n 1
          inodes := s.inodes.set n (Inode.mk P.TYPE_FILE 0 0 old.pointers) }
        n (Inode.mk P.TYPE_FILE 0 0 old.pointers) (fun _ => False) := by
  have hnl : n < s.i_bmap.length := lt_of_getElem?_some _ _ _ hfree
  have hnl2 : n < s.inodes.length := by rw [← hI.tbl]; exact hnl
  have hna := free_not_allocated s n hfree
  refine ⟨s.inodes[n], List.getElem?_eq_getElem hnl2, ?_⟩
  have hold : s.inodes[n]? = some s.inodes[n] := List.getElem?_eq_getElem hnl2
  refine
    { xlt := hnl2, x2 := h2, imap_len := by simp, alloc_iff := ?_, dmap_len := rfl,
      mark_iff := fun b => by unfold marked; simp, new_fresh := fun b h => absurd h id,
      inodes_eq := rfl, blocks_len := rfl, sized := hI.img.blk_len,
      frame := fun _ _ _ _ => rfl, plen := hI.plen n s.inodes[n] hold, typ := Or.inl rfl,
      cap := Nat.zero_le _, used := fun j hj => absurd hj (by simp),
      distinct := fun i j _ hj => absurd hj (by simp),
      new_used := fun b h => absurd h id, old_used := fun h => absurd h hna,
      zero := ?_, chain := ?_, keep_type := fun h => absurd h hna }
  · intro i
    unfold allocated
    exact nz_set s.i_bmap n i hnl
  · intro _ j _ hj
    exact hI.fresh n s.inodes[n] hna hold j hj
  · intro h
    exact absurd h hP.types


/-- The first half of `my_mkdir`: a free inode number `n` and a free block `b` are marked,
the chain `[(".", n), ("..", d)]` is written to `b` and the record of `n` is set to a
directory with this one block. -/
theorem mkdir_inode_step (P : Params) (hP : ParamsOK P) (s : FS) (hI : FsInv P s)
    (n b d : Nat) (junk : Inode) (sz0 : Nat) (hfree : s.i_bmap[n]? = some 0) (h2 : 2 ≤ n)
    (hb : s.d_bmap[b]? = some 0) (hb9 : 9 ≤ b) (hd : allocated s d)
    (hjunk : junk.pointers.length = P.NUM_POINTERS) (hK : 1 ≤ P.NUM_POINTERS) :
    ∃ s3, write_dir_to_blocks P { s with i_bmap := s.i_bmap.set n 1, d_bmap := s.d_bmap.set b 1 }
        [⟨[46], n⟩, ⟨[46, 46], d⟩] 1 (junk.pointers.set 0 b) sz0
        = some (0, s3, 2 * P.DIRREC_SIZE) ∧
      s3.inodes = s.inodes ∧
      Step P s
        { s3 with
          inodes := s3.inodes.set n
            (Inode.mk P.TYPE_DIR (2 * P.DIRREC_SIZE) 1 (junk.pointers.set 0 b)) }
        n (Inode.mk P.TYPE_DIR (2 * P.DIRREC_SIZE) 1 (junk.pointers.set 0 b))
        (fun q => q = b) ∧
      read_dir_from_blocks P
        { s3 with
          inodes := s3.inodes.set n
            (Inode.mk P.TYPE_DIR (2 * P.DIRREC_SIZE) 1 (junk.pointers.set 0 b)) }
        (2 * P.DIRREC_SIZE) 1 (junk.pointers.set 0 b)
        = some (some [⟨[46], n⟩, ⟨[46, 46], d⟩]) := by
  have hnl : n < s.i_bmap.length := lt_of_getElem?_some _ _ _ hfree
  have hnl2 : n < s.inodes.length := by rw [← hI.tbl]; exact hnl
  have hna := free_not_allocated s n hfree
  have hbl : b < s.d_bmap.length := lt_of_getElem?_some _ _ _ hb
  have hnm := free_not_marked s b hb
  have hptr0 : (junk.pointers.set 0 b)[0]? = some b := by
    rw [List.getElem?_set_self (by omega)]
  obtain ⟨hg1, hg2⟩ := dot_names_good P hP.mf
  have hneed : ((2 : Nat) * P.DIRREC_SIZE + P.BLOCKSIZE - 1) / P.BLOCKSIZE = 1 := by
    have hd := hP.codec.dpos
    have hf := hP.fit
    have hB := hP.bpos
    apply Nat.div_eq_of_lt_le <;> omega
  obtain ⟨s3, h1, h2', h3, h4, h5, h6, h7, _, h9⟩ := write_dir_spec P hP.bpos hP.codec
    { s with i_bmap := s.i_bmap.set n 1, d_bmap := s.d_bmap.set b 1 }
    [⟨[46], n⟩, ⟨[46, 46], d⟩] 1 (junk.pointers.set 0 b) sz0 hI.img.blk_len
    (by
      intro j _ hj
      have : j = 0 := by omega
      subst this
      exact ⟨b, hptr0, by omega, lt_of_lt_of_le hbl hI.img.bmap_len⟩)
    (by intro i j _ hij hj; omega)
    (by
      simp only [List.length_cons, List.length_nil, Nat.zero_add, Nat.reduceAdd]
      rw [hneed])
    (by
      intro r hr
      simp only [List.mem_cons, List.mem_singleton, List.not_mem_nil, or_false] at hr
      rcases hr with rfl | rfl
      · exact ⟨hg1, by simp only; omega⟩
      · exact ⟨hg2, by simp only; have := hI.lo d hd; omega⟩)
  simp only [List.length_cons, List.length_nil, Nat.zero_add, Nat.reduceAdd] at h1 h7 h9
  rw [hneed] at h7
  have h9b : read_dir_from_blocks P
      { s3 with
        inodes := s3.inodes.set n
          (Inode.mk P.TYPE_DIR (2 * P.DIRREC_SIZE) 1 (junk.pointers.set 0 b)) }
      (2 * P.DIRREC_SIZE) 1 (junk.pointers.set 0 b)
      = some (some [⟨[46], n⟩, ⟨[46, 46], d⟩]) :=
    (read_dir_congr P s3
      { s3 with
        inodes := s3.inodes.set n
          (Inode.mk P.TYPE_DIR (2 * P.DIRREC_SIZE) 1 (junk.pointers.set 0 b)) }
      _ _ _ (single_ptr_not_meta _ b (by omega) hptr0) (fun _ _ _ _ => rfl)).trans h9
  have hal : ∀ i, allocated { s3 with
        inodes := s3.inodes.set n
          (Inode.mk P.TYPE_DIR (2 * P.DIRREC_SIZE) 1 (junk.pointers.set 0 b)) } i
      ↔ allocated s i ∨ i = n := by
    intro i
    unfold allocated
    simp only
    rw [h2']
    exact nz_set s.i_bmap n i hnl
  refine ⟨s3, h1, h4, ?_, h9b⟩
  refine
    { xlt := hnl2, x2 := h2, imap_len := by simp only; rw [h2']; simp, alloc_iff := hal,
      dmap_len := by simp only; rw [h3]; simp, mark_iff := ?_, new_fresh := ?_,
      inodes_eq := by simp only; rw [h4], blocks_len := h5, sized := h6,
      frame := ?_, plen := by simp only [List.length_set]; exact hjunk, typ := Or.inr rfl,
      cap := hK, used := ?_, distinct := fun i j hij hj => absurd hj (by simp only; omega),
      new_used := fun q hq => ⟨0, by simp, by rw [hq]; exact hptr0⟩,
      old_used := fun h => absurd h hna,
      zero := fun h => absurd h.symm hP.types, chain := ?_, keep_type := fun h => absurd h hna }
  · intro q
    unfold marked
    simp only
    rw [h3]
    exact nz_set s.d_bmap b q hbl
  · intro q hq
    subst hq
    exact ⟨hb9, hnm⟩
  · intro q _ hqm _
    simp only
    rw [h7 q]
    intro i hi
    have : i = 0 := by omega
    subst this
    rw [hptr0]
    intro hc; cases hc
    exact hnm hqm
  · intro j hj
    have : j = 0 := by simp only at hj; omega
    subst this
    exact ⟨b, hptr0, by omega, Or.inl rfl⟩
  · intro _
    refine ⟨_, h9b, ?_, ⟨[], d, rfl, fun h => ?_⟩⟩
    · intro r hr
      simp only [List.mem_cons, List.mem_singleton, List.not_mem_nil, or_false] at hr
      rcases hr with rfl | rfl
      · exact ⟨hg1, h2, (hal n).2 (Or.inr rfl)⟩
      · exact ⟨hg2, hI.lo d hd, (hal d).2 (Or.inl hd)⟩
    · subst h
      exact absurd hI.root.1 hna


theorem bytes_at_mem (l : List Nat) (a b c : Nat) (h : c ∈ bytes_at l a b) : c ∈ l := by
  unfold bytes_at at h
  exact List.mem_of_mem_drop (List.mem_of_mem_take h)

theorem get_file_from_path_mem (P : Params) (path leaf : CStr)
    (h : get_file_from_path P path = some leaf) : ∀ c ∈ leaf, c ∈ path := by
  unfold get_file_from_path at h
  cases hf : find_last_slash path (strnlen path (P.MAX_FILENAME * P.MAX_PATH_DEPTH)) with
  | none => simp [hf] at h
  | some ls =>
    simp only [hf] at h
    split at h
    · simp at h
    · simp only [Option.some.injEq] at h
      subst h
      exact fun c hc => bytes_at_mem _ _ _ _ hc

/-- The effect of `my_mknod` on a well-formed image when the parent path resolves to an
allocated directory `p`. -/
theorem my_mknod_spec (P : Params) (hP : ParamsOK P) (s s1 : FS) (hI : FsInv P s)
    (pl0 : List CStr) (path leaf : CStr) (p : Nat) (inoP : Inode) (r : Int)
    (hpar : get_parent_dir_inode P pl0 s path = some p) (hap : allocated s p)
    (hino : s.inodes[p]? = some inoP) (hty : inoP.type = P.TYPE_DIR)
    (hleaf : get_file_from_path P path = some leaf) (hnz : ∀ c ∈ path, c ≠ 0)
    (hrun : my_mknod P pl0 path s = some (r, s1)) :
    ∃ (n : Nat) (s0 : FS) (c : List DirRec) (inoP1 : Inode) (ptrs : List Nat),
      get_next_free_inode s = some (n, s0) ∧ ¬ allocated s n ∧ 2 ≤ n ∧ r = 0 ∧ FsInv P s1 ∧
      (∀ i, allocated s1 i ↔ allocated s i ∨ i = n) ∧
      get_inode s1 n = some (Inode.mk P.TYPE_FILE 0 0 ptrs) ∧
      read_dir_from_inode P s p = some (some c) ∧
      read_dir_from_inode P s1 p = some (some (⟨leaf.take P.MAX_FILENAME, n⟩ :: c)) ∧
      get_inode s1 p = some inoP1 ∧ inoP1.type = P.TYPE_DIR ∧
      (∀ i, i ≠ p → i ≠ n → allocated s i →
        get_inode s1 i = get_inode s i ∧
        read_dir_from_inode P s1 i = read_dir_from_inode P s i) := by
  unfold my_mknod at hrun
  simp only [hpar, hleaf] at hrun
  cases hn : get_next_free_inode s with
  | none => simp [hn] at hrun
  | some res =>
    obtain ⟨n, s0⟩ := res
    simp only [hn] at hrun
    obtain ⟨hn2, hfree, hs0⟩ := get_next_free_inode_inv s s0 n hn
    subst hs0
    have hna := free_not_allocated s n hfree
    have hpn : p ≠ n := fun h => hna (h ▸ hap)
    obtain ⟨old, hold, hstepA⟩ := mknod_inode_step P hP s hI n hfree hn2
    have hnl2 : n < s.inodes.length := lt_of_getElem?_some _ _ _ hold
    have hgi : get_inode { s with i_bmap := s.i_bmap.set n 1 } n = some old := hold
    simp only [hgi, set_inode, hnl2, if_true, Option.getD_some] at hrun
    have hIA := fsInv_step P s _ n _ _ hI hstepA
    have hapA := (hstepA.alloc_iff p).2 (Or.inl hap)
    have hanA := (hstepA.alloc_iff n).2 (Or.inr rfl)
    have hinoA := (step_inode_ne P s _ n _ _ hstepA p hpn).trans hino
    cases har : add_rec_to_dir_inode P
        { s with
          i_bmap := s.i_bmap.set n 1
          inodes := s.inodes.set n (Inode.mk P.TYPE_FILE 0 0 old.pointers) }
        p ⟨leaf.take P.MAX_FILENAME, n⟩ with
    | none =>
      rw [show ({ type := P.TYPE_FILE, size := 0, blocks := 0, pointers := old.pointers } : Inode)
        = Inode.mk P.TYPE_FILE 0 0 old.pointers from rfl] at hrun
      simp [har] at hrun
    | some res2 =>
      obtain ⟨r2, s3⟩ := res2
      rw [show ({ type := P.TYPE_FILE, size := 0, blocks := 0, pointers := old.pointers } : Inode)
        = Inode.mk P.TYPE_FILE 0 0 old.pointers from rfl] at hrun
      simp only [har, Option.some.injEq, Prod.mk.injEq] at hrun
      obtain ⟨hr, hs⟩ := hrun
      subst hs
      have hgood : GoodName P (leaf.take P.MAX_FILENAME) := by
        refine ⟨by simp [List.length_take], fun c hc => ?_⟩
        exact hnz c (get_file_from_path_mem P path leaf hleaf c (List.mem_of_mem_take hc))
      obtain ⟨c, ino1, isNew, hc, hstepB, hty1, himap, hread⟩ := add_rec_step P hP _ hIA p inoP
        ⟨leaf.take P.MAX_FILENAME, n⟩ r2 s3 hapA hinoA hty ⟨hgood, hn2, hanA⟩ har
      have hIB := fsInv_step P _ s3 p _ _ hIA hstepB
      have hp1 := step_inode_eq P _ s3 p ino1 isNew hstepB
      refine ⟨n, _, c, ino1, old.pointers, rfl, hna, hn2, hr.symm, hIB, ?_, ?_, ?_, ?_, hp1,
        hty1.trans hty, ?_⟩
      · intro i
        rw [hstepB.alloc_iff i, hstepA.alloc_iff i]
        constructor
        · rintro ((h | h) | h)
          · exact Or.inl h
          · exact Or.inr h
          · exact Or.inl (h ▸ hap)
        · rintro (h | h)
          · exact Or.inl (Or.inl h)
          · exact Or.inl (Or.inr h)
      · have := step_inode_ne P _ s3 p ino1 isNew hstepB n (fun h => hpn h.symm)
        unfold get_inode
        rw [this]
        exact step_inode_eq P s _ n _ _ hstepA
      · unfold read_dir_from_inode get_inode
        rw [hino]
        exact (step_frame P s _ n _ _ hI hstepA p inoP hpn hap hino).symm.trans hc
      · unfold read_dir_from_inode get_inode
        rw [hp1]
        exact hread
      · intro i hip hin hai
        have hA := step_other P s _ n _ _ hI hstepA i hin hai
        have hB := step_other P _ s3 p ino1 isNew hIA hstepB i hip
          ((hstepA.alloc_iff i).2 (Or.inl hai))
        exact ⟨hB.1.trans hA.1, hB.2.trans hA.2⟩


theorem bytes_at_length_le (l : List Nat) (a b : Nat) : (bytes_at l a b).length ≤ b := by
  unfold bytes_at
  simp [List.length_take]

/-- The effect of `my_mkdir` on a well-formed image when the parent path resolves to an
allocated directory `d`. -/
theorem my_mkdir_spec (P : Params) (hP : ParamsOK P) (s s1 : FS) (hI : FsInv P s)
    (pl0 : List CStr) (junk : Inode) (path leaf : CStr) (d : Nat) (inoD : Inode) (r : Int)
    (hpar : get_parent_dir_inode P pl0 s path = some d) (hap : allocated s d)
    (hino : s.inodes[d]? = some inoD) (hty : inoD.type = P.TYPE_DIR)
    (hleaf : get_file_from_path P path = some leaf) (hnz : ∀ c ∈ path, c ≠ 0)
    (hjunk : junk.pointers.length = P.NUM_POINTERS)
    (hrun : my_mkdir P pl0 junk path s = some (r, s1)) :
    ∃ (n b : Nat) (s0 s2 : FS) (c : List DirRec) (inoD1 : Inode),
      get_next_free_inode s = some (n, s0) ∧ get_next_free_block s0 = some (b, s2) ∧
      ¬ allocated s n ∧ 2 ≤ n ∧ r = 0 ∧ FsInv P s1 ∧ leaf.length < P.MAX_FILENAME ∧
      (∀ i, allocated s1 i ↔ allocated s i ∨ i = n) ∧
      get_inode s1 n
        = some (Inode.mk P.TYPE_DIR (2 * P.DIRREC_SIZE) 1 (junk.pointers.set 0 b)) ∧
      (junk.pointers.set 0 b)[0]? = some b ∧
      read_dir_from_inode P s1 n = some (some [⟨[46], n⟩, ⟨[46, 46], d⟩]) ∧
      read_dir_from_inode P s d = some (some c) ∧
      read_dir_from_inode P s1 d = some (some (⟨leaf, n⟩ :: c)) ∧
      get_inode s1 d = some inoD1 ∧ inoD1.type = P.TYPE_DIR ∧
      (∀ i, i ≠ d → i ≠ n → allocated s i →
        get_inode s1 i = get_inode s i ∧
        read_dir_from_inode P s1 i = read_dir_from_inode P s i) := by
  obtain ⟨c0, hc0, _, _⟩ := hI.chain d inoD hap hino hty
  have hrd : read_dir_from_inode P s d = some (some c0) := by
    unfold read_dir_from_inode get_inode
    rw [hino]; exact hc0
  unfold get_parent_dir_inode at hpar
  unfold get_file_from_path at hleaf
  unfold my_mkdir at hrun
  cases hf : find_last_slash path (strnlen path (P.MAX_FILENAME * P.MAX_PATH_DEPTH)) with
  | none => simp [hf] at hpar
  | some ls =>
    simp only [hf] at hpar hleaf hrun
    have hwrap : ¬ strnlen path (P.MAX_FILENAME * P.MAX_PATH_DEPTH) ≤ ls := by
      intro hle
      rw [if_pos hle] at hleaf
      simp at hleaf
    rw [if_neg hwrap] at hleaf
    simp only [Option.some.injEq] at hleaf
    simp only [hpar, hrd, Option.isNone_some, Bool.false_eq_true, if_false, hleaf, hwrap]
      at hrun
    by_cases hguard : P.MAX_FILENAME < strnlen path (P.MAX_FILENAME * P.MAX_PATH_DEPTH) - ls
        ∨ P.MAX_FILENAME < 3
    · simp [hguard] at hrun
    · simp only [hguard, if_false] at hrun
      have hleaflen : leaf.length < P.MAX_FILENAME := by
        have h1 := bytes_at_length_le path (ls + 1)
          (strnlen path (P.MAX_FILENAME * P.MAX_PATH_DEPTH) - ls - 1)
        rw [hleaf] at h1
        have h3 := hP.mf
        omega
      cases hn : get_next_free_inode s with
      | none => simp [hn] at hrun
      | some res =>
        obtain ⟨n, s0⟩ := res
        simp only [hn] at hrun
        obtain ⟨hn2, hfree, hs0⟩ := get_next_free_inode_inv s s0 n hn
        subst hs0
        have hna := free_not_allocated s n hfree
        have hdn : d ≠ n := fun h => hna (h ▸ hap)
        have hK : 1 ≤ P.NUM_POINTERS := by
          by_contra hlt
          have : junk.pointers.length < 1 := by omega
          simp [this] at hrun
        have hj1 : ¬ junk.pointers.length < 1 := by omega
        simp only [hj1, if_false] at hrun
        cases hb : get_next_free_block { s with i_bmap := s.i_bmap.set n 1 } with
        | none => simp [hb] at hrun
        | some res2 =>
          obtain ⟨b, s2⟩ := res2
          simp only [hb] at hrun
          obtain ⟨hb9, hb0, hs2⟩ := get_next_free_block_inv P
            { s with i_bmap := s.i_bmap.set n 1 } s2 b
            ⟨hI.img.bpos, hI.img.reserved, hI.img.bmap_len, hI.img.blk_len⟩ hb
          subst hs2
          obtain ⟨s3, h1, h2, hstepA, hreadA⟩ := mkdir_inode_step P hP s hI n b d junk junk.size
            hfree hn2 hb0 hb9 hap hjunk hK
          rw [h1] at hrun
          have hn3 : n < s3.inodes.length := by rw [h2]; exact hstepA.xlt
          simp only [Int.reduceNeg, OfNat.zero_ne_ofNat, ↓reduceIte, set_inode, hn3] at hrun
          have hIA := fsInv_step P s _ n _ _ hI hstepA
          have hapA := (hstepA.alloc_iff d).2 (Or.inl hap)
          have hanA := (hstepA.alloc_iff n).2 (Or.inr rfl)
          have hinoA := (step_inode_ne P s _ n _ _ hstepA d hdn).trans hino
          cases har : add_rec_to_dir_inode P
              { s3 with
                inodes := s3.inodes.set n
                  (Inode.mk P.TYPE_DIR (2 * P.DIRREC_SIZE) 1 (junk.pointers.set 0 b)) }
              d ⟨leaf, n⟩ with
          | none =>
            rw [show ({ type := P.TYPE_DIR, size := 2 * P.DIRREC_SIZE, blocks := 1,
                        pointers := junk.pointers.set 0 b } : Inode)
              = Inode.mk P.TYPE_DIR (2 * P.DIRREC_SIZE) 1 (junk.pointers.set 0 b) from rfl] at hrun
            simp [har] at hrun
          | some res3 =>
            obtain ⟨r3, s5⟩ := res3
            rw [show ({ type := P.TYPE_DIR, size := 2 * P.DIRREC_SIZE, blocks := 1,
                        pointers := junk.pointers.set 0 b } : Inode)
              = Inode.mk P.TYPE_DIR (2 * P.DIRREC_SIZE) 1 (junk.pointers.set 0 b) from rfl] at hrun
            simp only [har] at hrun
            simp at hrun
            obtain ⟨hr, hs⟩ := hrun
            subst hs
            have hgood : GoodName P leaf := by
              refine ⟨by omega, fun c hc => ?_⟩
              rw [← hleaf] at hc
              exact hnz c (bytes_at_mem _ _ _ _ hc)
            obtain ⟨c, ino1, isNew, hc, hstepB, hty1, himap, hread⟩ := add_rec_step P hP _ hIA d
              inoD ⟨leaf, n⟩ r3 s5 hapA hinoA hty ⟨hgood, hn2, hanA⟩ har
            have hIB := fsInv_step P _ s5 d _ _ hIA hstepB
            have hd1 := step_inode_eq P _ s5 d ino1 isNew hstepB
            have hnB := step_other P _ s5 d ino1 isNew hIA hstepB n (fun h => hdn h.symm) hanA
            have hnA := step_inode_eq P s _ n _ _ hstepA
            have hptr0 : (junk.pointers.set 0 b)[0]? = some b := by
              rw [List.getElem?_set_self (by omega)]
            refine ⟨n, b, _, _, c, ino1, rfl, hb, hna, hn2, hr.symm, hIB, hleaflen, ?_, ?_,
              hptr0, ?_, ?_, ?_, hd1, hty1.trans hty, ?_⟩
            · intro i
              rw [hstepB.alloc_iff i, hstepA.alloc_iff i]
              constructor
              · rintro ((h | h) | h)
                · exact Or.inl h
                · exact Or.inr h
                · exact Or.inl (h ▸ hap)
              · rintro (h | h)
                · exact Or.inl (Or.inl h)
                · exact Or.inl (Or.inr h)
            · exact hnB.1.trans hnA
            · rw [hnB.2]
              unfold read_dir_from_inode get_inode
              rw [hnA]
              exact hreadA
            · unfold read_dir_from_inode get_inode
              rw [hino]
              exact (step_frame P s _ n _ _ hI hstepA d inoD hdn hap hino).symm.trans hc
            · unfold read_dir_from_inode get_inode
              rw [hd1]
              exact hread
            · intro i hid hin hai
              have hA := step_other P s _ n _ _ hI hstepA i hin hai
              have hB := step_other P _ s5 d ino1 isNew hIA hstepB i hid
                ((hstepA.alloc_iff i).2 (Or.inl hai))
              exact ⟨hB.1.trans hA.1, hB.2.trans hA.2⟩


theorem alloc_loop_inv (P : Params) (n : Nat) (ino ino1 : Inode) (s s1 : FS)
    (hI : ImageOK P s) (hN : InodeOK P s ino) (hcap : ino.blocks + n ≤ P.NUM_POINTERS)
    (h : alloc_loop P n ino s = some (ino1, s1)) :
    ImageOK P s1 ∧ InodeOK P s1 ino1 ∧ ino1.blocks = ino.blocks + n ∧ ino1.type = ino.type ∧
    s1.inodes = s.inodes ∧ s1.i_bmap = s.i_bmap ∧ s1.d_bmap.length = s.d_bmap.length ∧
    s1.blocks.length = s.blocks.length ∧
    (∀ j, j < ino.blocks → ino1.pointers[j]? = ino.pointers[j]?) ∧
    (∀ b, marked s b → marked s1 b) ∧
    (∀ b, marked s1 b →
      marked s b ∨ ∃ j, ino.blocks ≤ j ∧ j < ino1.blocks ∧ ino1.pointers[j]? = some b) ∧
    (∀ j, ino.blocks ≤ j → j < ino1.blocks →
      ∃ q, ino1.pointers[j]? = some q ∧ 9 ≤ q ∧ ¬ marked s q) ∧
    (∀ q, marked s q → s1.blocks[q]? = s.blocks[q]?) := by
  induction n generalizing ino s with
  | zero =>
    simp only [alloc_loop, Option.some.injEq, Prod.mk.injEq] at h
    obtain ⟨rfl, rfl⟩ := h
    exact ⟨hI, hN, rfl, rfl, rfl, rfl, rfl, rfl, fun _ _ => rfl, fun _ hb => hb,
      fun _ hb => Or.inl hb, fun j h1 h2 => absurd h2 (by omega), fun _ _ => rfl⟩
  | succ n ih =>
    have hlt : ino.blocks < P.NUM_POINTERS := by omega
    have hslot : first_zero_slot ino.pointers 0 = some ino.blocks := by
      have := first_zero_slot_spec ino.pointers 0 ino.blocks
        (fun j hj => by
          obtain ⟨p, hp, hp8, _⟩ := hN.used j hj
          exact ⟨p, hp, by omega⟩)
        (hN.unused ino.blocks (le_refl _) hlt)
      simpa using this
    unfold alloc_loop at h
    simp only [hslot] at h
    cases hg : get_next_free_block s with
    | none => simp [hg] at h
    | some res =>
      obtain ⟨b, sb⟩ := res
      obtain ⟨hb9, hb0, hsb⟩ := get_next_free_block_inv P s sb b hI hg
      subst hsb
      have hbl : b < s.d_bmap.length := lt_of_getElem?_some _ _ _ hb0
      have hbl2 : b < s.blocks.length := lt_of_lt_of_le hbl hI.bmap_len
      have hmeta : is_meta_block b = false := by simp [is_meta_block]; omega
      have hnm := free_not_marked s b hb0
      simp only [hg, write_block, hmeta, Bool.false_eq_true, if_false, List.length_set, hbl2,
        if_true, Option.getD_some] at h
      obtain ⟨hI2, hN2⟩ := alloc_step_ok P ino s b hI hN hlt hb9 hb0
      obtain ⟨a1, a2, a3, a4, a5, a6, a7, a8, a9, a10, a11, a12, a13⟩ :=
        ih _ _ hI2 hN2 (by simp only; omega) h
      have hm1 : ∀ q, marked s q →
          marked { s with d_bmap := s.d_bmap.set b 1,
                          blocks := s.blocks.set b (List.replicate P.BLOCKSIZE 0) } q :=
        fun q hq => (nz_set s.d_bmap b q hbl).2 (Or.inl hq)
      have hjb : ino1.pointers[ino.blocks]? = some b := by
        rw [a9 ino.blocks (by simp only; omega)]
        simp only
        rw [List.getElem?_set_self (by rw [hN.len]; exact hlt)]
      refine ⟨a1, a2, by rw [a3]; simp only; omega, a4, a5, a6, by rw [a7]; simp,
        by rw [a8]; simp, ?_, fun q hq => a10 q (hm1 q hq), ?_, ?_, ?_⟩
      · intro j hj
        rw [a9 j (by simp only; omega)]
        simp only
        rw [List.getElem?_set_ne (by omega)]
      · intro q hq
        rcases a11 q hq with h1 | ⟨j, hj1, hj2, hj3⟩
        · rcases (nz_set s.d_bmap b q hbl).1 h1 with h2 | h2
          · exact Or.inl h2
          · subst h2
            exact Or.inr ⟨ino.blocks, le_refl _, by rw [a3]; simp only; omega, hjb⟩
        · exact Or.inr ⟨j, by simp only at hj1; omega, hj2, hj3⟩
      · intro j hj1 hj2
        by_cases hjj : j = ino.blocks
        · subst hjj
          exact ⟨b, hjb, hb9, hnm⟩
        · obtain ⟨q, hq, hq9, hqn⟩ := a12 j (by simp only; omega) hj2
          exact ⟨q, hq, hq9, fun hm => hqn (hm1 q hm)⟩
      · intro q hq
        rw [a13 q (hm1 q hq)]
        simp only
        have : b ≠ q := by
          intro hbq; subst hbq; exact hnm hq
        rw [List.getElem?_set_ne this]

theorem write_chunk_inv (P : Params) (s s1 : FS) (ptr bo : Nat) (src : List Nat)
    (hsz : BlocksSized P s) (hlen : bo + src.length ≤ P.BLOCKSIZE)
    (hm : is_meta_block ptr = false)
    (h : write_chunk P s ptr bo src = some s1) :
    s1.i_bmap = s.i_bmap ∧ s1.d_bmap = s.d_bmap ∧ s1.inodes = s.inodes ∧
    s1.blocks.length = s.blocks.length ∧ BlocksSized P s1 ∧
    (∀ q, q ≠ ptr → s1.blocks[q]? = s.blocks[q]?) := by
  unfold write_chunk read_block write_block at h
  · simp only [hm, Bool.false_eq_true, if_false] at h
    cases hb : s.blocks[ptr]? with
    | none =>
      simp only [hb, Option.some.injEq] at h
      subst h
      exact ⟨rfl, rfl, rfl, rfl, hsz, fun q _ => (rfl : s.blocks[q]? = s.blocks[q]?)⟩
    | some blk =>
      have hpl := lt_of_getElem?_some _ _ _ hb
      simp only [hb, hpl, if_true, Option.getD_some, Option.some.injEq] at h
      subst h
      refine ⟨rfl, rfl, rfl, by simp, ?_, ?_⟩
      · exact blk_len_set _ _ _ _ hsz (by
          rw [memcpy_at_length _ _ _ (by rw [hsz ptr blk hb]; exact hlen)]
          exact hsz ptr blk hb)
      · intro q hq
        simp only
        rw [List.getElem?_set_ne (fun h => hq h.symm)]

theorem write_loop_frame (P : Params) (ino : Inode) (buf : List Nat)
    (fuel size cb bo d bw : Nat) (s s2 : FS) (r : Nat) (hbo : bo ≤ P.BLOCKSIZE)
    (hsz : BlocksSized P s)
    (hnm : ∀ (j p : Nat), ino.pointers[j]? = some p → is_meta_block p = false)
    (h : write_loop P ino buf fuel size cb bo d bw s = some (r, s2)) :
    s2.i_bmap = s.i_bmap ∧ s2.d_bmap = s.d_bmap ∧ s2.inodes = s.inodes ∧
    s2.blocks.length = s.blocks.length ∧ BlocksSized P s2 ∧
    (∀ q : Nat, (∀ j : Nat, ino.pointers[j]? ≠ some q) → s2.blocks[q]? = s.blocks[q]?) := by
  induction fuel generalizing size cb bo d bw s with
  | zero =>
    simp only [write_loop, Option.some.injEq, Prod.mk.injEq] at h
    obtain ⟨_, rfl⟩ := h
    exact ⟨rfl, rfl, rfl, rfl, hsz, fun _ _ => rfl⟩
  | succ fuel ih =>
    unfold write_loop at h
    by_cases hs : size > 0
    · simp only [hs, if_true] at h
      cases hp : ino.pointers[cb]? with
      | none => simp [hp] at h
      | some ptr =>
        simp only [hp] at h
        generalize hnb : (if size ≥ P.BLOCKSIZE - bo then P.BLOCKSIZE - bo else size) = nb at h
        have hnble : nb ≤ P.BLOCKSIZE - bo := by
          rw [← hnb]; split <;> omega
        by_cases hbuf : buf.length < d + nb ∨ 2 ^ 31 ≤ d + nb ∨ 2 ^ 31 ≤ bw + nb
        · simp only [hbuf, if_true] at h
          simp at h
        · simp only [hbuf, if_false] at h
          cases hw : write_chunk P s ptr bo (bytes_at buf d nb) with
          | none => simp [hw] at h
          | some sm =>
            simp only [hw] at h
            have hlen : bo + (bytes_at buf d nb).length ≤ P.BLOCKSIZE := by
              have := bytes_at_length_le buf d nb
              omega
            obtain ⟨c1, c2, c3, c4, c5, c6⟩ := write_chunk_inv P s sm ptr bo _ hsz hlen
              (hnm cb ptr hp) hw
            have hrest : ∀ size1 cb1, write_loop P ino buf fuel size1 cb1 0 (d + nb) (bw + nb) sm
                = some (r, s2) →
                s2.i_bmap = s.i_bmap ∧ s2.d_bmap = s.d_bmap ∧ s2.inodes = s.inodes ∧
                s2.blocks.length = s.blocks.length ∧ BlocksSized P s2 ∧
                (∀ q : Nat, (∀ j : Nat, ino.pointers[j]? ≠ some q) →
                  s2.blocks[q]? = s.blocks[q]?) := by
              intro size1 cb1 h1
              obtain ⟨e1, e2, e3, e4, e5, e6⟩ := ih size1 cb1 0 _ _ sm (Nat.zero_le _) c5 h1
              refine ⟨e1.trans c1, e2.trans c2, e3.trans c3, e4.trans c4, e5, ?_⟩
              intro q hq
              rw [e6 q hq, c6 q (fun hqp => hq cb (by rw [hp, hqp]))]
            split at h
            · exact hrest _ _ h
            · exact hrest _ _ h
    · simp only [hs, if_false, Option.some.injEq, Prod.mk.injEq] at h
      obtain ⟨_, rfl⟩ := h
      exact ⟨rfl, rfl, rfl, rfl, hsz, fun _ _ => rfl⟩


theorem inodeOK_not_meta (P : Params) (s : FS) (ino : Inode) (hN : InodeOK P s ino) :
    ∀ (j p : Nat), ino.pointers[j]? = some p → is_meta_block p = false := by
  intro j p hp
  have hj : j < P.NUM_POINTERS := by
    rw [← hN.len]; exact lt_of_getElem?_some _ _ _ hp
  by_cases hjb : j < ino.blocks
  · obtain ⟨q, hq, hq8, _⟩ := hN.used j hjb
    rw [hp] at hq
    cases hq
    exact not_meta_of_ge p hq8
  · have := hN.unused j (by omega) hj
    rw [hp] at this
    cases this
    rfl

theorem inodeOK_of_inv (P : Params) (s : FS) (hI : FsInv P s) (i : Nat) (ino : Inode)
    (ha : allocated s i) (hino : s.inodes[i]? = some ino) (hty : ino.type = P.TYPE_FILE) :
    InodeOK P s ino :=
  { len := hI.plen i ino hino
    cap := hI.cap i ino ha hino
    used := fun j hj => hI.used i ino j ha hino hj
    unused := hI.zero i ino ha hino hty
    distinct := fun j l hjl hl =>
      hI.disj i i ino ino j l ha ha hino hino (by omega) hl (Or.inr (by omega)) }

/-- `my_write` on an allocated file of a well-formed image, within the capacity of the
direct pointers, is a `Step` on that inode. -/
theorem my_write_step (P : Params) (hP : ParamsOK P) (s s1 : FS) (hI : FsInv P s)
    (inum : Nat) (ino : Inode) (buf : List Nat) (size offset : Nat) (r : Int)
    (ha : allocated s inum) (hino : s.inodes[inum]? = some ino)
    (hty : ino.type = P.TYPE_FILE) (hcap : size + offset ≤ P.NUM_POINTERS * P.BLOCKSIZE)
    (hrun : my_write P inum buf size offset s = some (r, s1)) :
    ∃ (ino1 : Inode) (isNew : Nat → Prop),
      Step P s s1 inum ino1 isNew ∧ ino1.type = P.TYPE_FILE ∧ s1.i_bmap = s.i_bmap := by
  have hB := hP.bpos
  have hB0 : P.BLOCKSIZE ≠ 0 := by omega
  have hword := hP.word
  have hN := inodeOK_of_inv P s hI inum ino ha hino hty
  have hneed : u32 (size + offset + P.BLOCKSIZE - 1) / P.BLOCKSIZE
      = (size + offset + P.BLOCKSIZE - 1) / P.BLOCKSIZE := by
    unfold u32
    rw [Nat.mod_eq_of_lt (by omega)]
  have hK := ceil_div_le (size + offset) P.BLOCKSIZE P.NUM_POINTERS hB hcap
  have hilt : inum < s.inodes.length := lt_of_getElem?_some _ _ _ hino
  unfold my_write at hrun
  simp only [hB0, if_false, hneed, get_inode, hino] at hrun
  cases hal : alloc_loop P ((size + offset + P.BLOCKSIZE - 1) / P.BLOCKSIZE - ino.blocks) ino s with
  | none => simp [hal] at hrun
  | some res =>
    obtain ⟨ino1, sa⟩ := res
    simp only [hal] at hrun
    obtain ⟨a1, a2, a3, a4, a5, a6, a7, a8, a9, a10, a11, a12, a13⟩ := alloc_loop_inv P _ ino ino1
      s sa hI.img hN (by have := hN.cap; omega) hal
    cases hwl : write_loop P { ino1 with size := u32 (size + offset) } buf size size
        (offset / P.BLOCKSIZE) (offset % P.BLOCKSIZE) 0 0 sa with
    | none => simp [hwl] at hrun
    | some res2 =>
      obtain ⟨bw, s2⟩ := res2
      obtain ⟨w1, w2, w3, w4, w5, w6⟩ := write_loop_frame P
        { ino1 with size := u32 (size + offset) } buf _ _ _ _ _ _ sa s2 bw
        (le_of_lt (Nat.mod_lt _ hB)) a1.blk_len
        (fun j p hp => inodeOK_not_meta P sa ino1 a2 j p hp) hwl
      have hi2 : inum < s2.inodes.length := by rw [w3, a5]; exact hilt
      simp only [hwl, set_inode, hi2, if_true, Option.getD_some, Option.some.injEq,
        Prod.mk.injEq] at hrun
      obtain ⟨_, rfl⟩ := hrun
      have hmk : ∀ b, marked { s2 with
            inodes := s2.inodes.set inum { ino1 with size := u32 (size + offset) } } b
          ↔ marked sa b := by
        intro b; unfold marked; simp only; rw [w2]
      refine ⟨{ ino1 with size := u32 (size + offset) }, fun b => marked sa b ∧ ¬ marked s b,
        ?_, a4.trans hty, by simp only; rw [w1, a6]⟩
      refine
        { xlt := hilt, x2 := hI.lo inum ha, imap_len := by simp only; rw [w1, a6],
          alloc_iff := ?_, dmap_len := by simp only; rw [w2, a7], mark_iff := ?_,
          new_fresh := ?_, inodes_eq := by simp only; rw [w3, a5],
          blocks_len := by simp only; rw [w4, a8], sized := w5, frame := ?_,
          plen := a2.len, typ := Or.inl (a4.trans hty), cap := a2.cap, used := ?_,
          distinct := a2.distinct, new_used := ?_, old_used := ?_, zero := fun _ => a2.unused,
          chain := ?_, keep_type := ?_ }
      · intro i
        unfold allocated
        simp only
        rw [w1, a6]
        constructor
        · exact fun h => Or.inl h
        · rintro (h | h)
          · exact h
          · subst h; exact ha
      · intro b
        rw [hmk]
        constructor
        · intro h
          by_cases hb : marked s b
          · exact Or.inl hb
          · exact Or.inr ⟨h, hb⟩
        · rintro (h | h)
          · exact a10 b h
          · exact h.1
      · rintro b ⟨hb1, hb2⟩
        refine ⟨?_, hb2⟩
        rcases a11 b hb1 with h | ⟨j, hj1, hj2, hj3⟩
        · exact absurd h hb2
        · obtain ⟨q, hq, hq9, _⟩ := a12 j hj1 hj2
          rw [hj3] at hq; cases hq; exact hq9
      · intro q hq8 hqm hq
        simp only
        rw [w6 q, a13 q hqm]
        intro j
        simp only
        by_cases hj1 : j < ino.blocks
        · rw [a9 j hj1]
          exact hq ino j ha hino hj1
        · by_cases hj2 : j < ino1.blocks
          · obtain ⟨q2, hq2, _, hqn⟩ := a12 j (by omega) hj2
            rw [hq2]
            intro hc; cases hc
            exact hqn hqm
          · by_cases hj3 : j < P.NUM_POINTERS
            · rw [a2.unused j (by omega) hj3]
              intro hc; cases hc
              omega
            · rw [List.getElem?_eq_none (by rw [a2.len]; omega)]
              simp
      · intro j hj
        simp only at hj ⊢
        obtain ⟨p, hp, hp8, hpm⟩ := a2.used j hj
        refine ⟨p, hp, hp8, ?_⟩
        by_cases hj1 : j < ino.blocks
        · exact Or.inr ⟨ha, ino, j, hino, hj1, by rw [← a9 j hj1]; exact hp⟩
        · obtain ⟨q2, hq2, _, hqn⟩ := a12 j (by omega) hj
          rw [hp] at hq2; cases hq2
          exact Or.inl ⟨hpm, hqn⟩
      · rintro b ⟨hb1, hb2⟩
        rcases a11 b hb1 with h | ⟨j, _, hj2, hj3⟩
        · exact absurd h hb2
        · exact ⟨j, hj2, hj3⟩
      · intro _ inoX j0 hX hj0
        rw [hino] at hX; cases hX
        exact ⟨j0, by simp only; omega, a9 j0 hj0⟩
      · intro hd
        simp only at hd
        exact absurd ((a4.trans hty).symm.trans hd) hP.types
      · intro _ inoX hX
        rw [hino] at hX; cases hX
        exact a4


theorem my_init_state (P : Params) (junk : Inode) (hP : ParamsOK P)
    (hN : 9 ≤ P.NUM_OF_BLOCKS) (hNI : 3 ≤ P.NUM_INODES) (hK : 1 ≤ junk.pointers.length) :
    ∃ s1 : FS,
      my_init P junk (zero_image P) = some { s1 with
        inodes := s1.inodes.set 2
          (Inode.mk P.TYPE_DIR (2 * P.DIRREC_SIZE) 1 (junk.pointers.set 0 8)) } ∧
      s1.i_bmap = (List.replicate P.NUM_INODES 0).set 2 1 ∧
      s1.d_bmap = List.replicate 9 1 ++ List.replicate (P.NUM_OF_BLOCKS - 9) 0 ∧
      s1.inodes = List.replicate P.NUM_INODES
        (Inode.mk 0 0 0 (List.replicate P.NUM_POINTERS 0)) ∧
      s1.blocks.length = P.NUM_OF_BLOCKS ∧ BlocksSized P s1 ∧
      read_dir_from_blocks P s1 (2 * P.DIRREC_SIZE) 1 (junk.pointers.set 0 8)
        = some (some [⟨[46], 2⟩, ⟨[46, 46], 2⟩]) := by
  have hB := hP.bpos
  have hmark : mark_first 9 0 (List.replicate P.NUM_OF_BLOCKS 0)
      = some (List.replicate 9 1 ++ List.replicate (P.NUM_OF_BLOCKS - 9) 0) := by
    have := mark_first_spec 9 0 P.NUM_OF_BLOCKS hN
    simpa using this
  have hneed : ((2 : Nat) * P.DIRREC_SIZE + P.BLOCKSIZE - 1) / P.BLOCKSIZE = 1 := by
    have hd := hP.codec.dpos
    have hf := hP.fit
    apply Nat.div_eq_of_lt_le <;> omega
  obtain ⟨hg1, hg2⟩ := dot_names_good P hP.mf
  have hptr0 : (junk.pointers.set 0 8)[0]? = some 8 := by
    rw [List.getElem?_set_self (by omega)]
  obtain ⟨s1, h1, h2, h3, h4, h5, h6, _, _, h9⟩ := write_dir_spec P hB hP.codec
    { i_bmap := (List.replicate P.NUM_INODES 0).set 2 1
      d_bmap := List.replicate 9 1 ++ List.replicate (P.NUM_OF_BLOCKS - 9) 0
      inodes := List.replicate P.NUM_INODES
        { type := 0, size := 0, blocks := 0, pointers := List.replicate P.NUM_POINTERS 0 }
      blocks := List.replicate P.NUM_OF_BLOCKS (List.replicate P.BLOCKSIZE 0) }
    [⟨[46], 2⟩, ⟨[46, 46], 2⟩] 1 (junk.pointers.set 0 8) 0
    (by
      intro b blk hb
      have := List.getElem?_mem hb
      simp only [List.mem_replicate] at this
      rw [this.2]; simp)
    (by
      intro j _ hj
      have : j = 0 := by omega
      subst this
      exact ⟨8, hptr0, le_refl _, by simp; omega⟩)
    (by intro i j _ hij hj; omega)
    (by
      simp only [List.length_cons, List.length_nil, Nat.zero_add, Nat.reduceAdd]
      rw [hneed])
    (by
      intro r hr
      simp only [List.mem_cons, List.mem_singleton, List.not_mem_nil, or_false] at hr
      rcases hr with rfl | rfl
      · exact ⟨hg1, by simp⟩
      · exact ⟨hg2, by simp⟩)
  simp only [List.length_cons, List.length_nil, Nat.zero_add, Nat.reduceAdd] at h1 h9
  have h2I : 2 < s1.inodes.length := by rw [h4]; simp; omega
  refine ⟨s1, ?_, h2, h3, h4, by rw [h5]; simp, h6, h9⟩
  unfold my_init
  simp only [get_d_bmap, zero_image, hmark, set_d_bmap, get_i_bmap, set_i_bmap,
    List.length_replicate]
  have e1 : ¬ P.NUM_INODES ≤ 2 := by omega
  have e2 : ¬ (junk.pointers.length < 1 ∨ P.MAX_FILENAME < 3) := by have := hP.mf; omega
  simp only [e1, e2, if_false]
  rw [h1]
  simp [set_inode, h2I]

theorem replicate_set_nz (n i : Nat) :
    (∃ v, ((List.replicate n 0).set 2 1)[i]? = some v ∧ v ≠ 0) → i = 2 := by
  rintro ⟨v, hv, hv0⟩
  by_contra hi
  rw [List.getElem?_set_ne (fun h => hi h.symm)] at hv
  have := List.getElem?_mem hv
  simp only [List.mem_replicate] at this
  exact hv0 this.2

/-- The image written by `my_init` satisfies the invariant. -/
theorem my_init_inv (P : Params) (junk : Inode) (s : FS) (hP : ParamsOK P)
    (hN : 9 ≤ P.NUM_OF_BLOCKS) (hNI : 3 ≤ P.NUM_INODES)
    (hjunk : junk.pointers.length = P.NUM_POINTERS) (hK : 1 ≤ P.NUM_POINTERS)
    (hrun : my_init P junk (zero_image P) = some s) : FsInv P s := by
  obtain ⟨s1, h0, h1, h2, h3, h4, h5, h6⟩ := my_init_state P junk hP hN hNI (by omega)
  rw [h0] at hrun
  simp only [Option.some.injEq] at hrun
  subst hrun
  have h2I : 2 < s1.inodes.length := by rw [h3]; simp; omega
  have hal : ∀ i, allocated { s1 with
        inodes := s1.inodes.set 2
          (Inode.mk P.TYPE_DIR (2 * P.DIRREC_SIZE) 1 (junk.pointers.set 0 8)) } i → i = 2 := by
    intro i hi
    unfold allocated at hi
    simp only at hi
    rw [h1] at hi
    exact replicate_set_nz _ _ hi
  have hal2 : allocated { s1 with
        inodes := s1.inodes.set 2
          (Inode.mk P.TYPE_DIR (2 * P.DIRREC_SIZE) 1 (junk.pointers.set 0 8)) } 2 := by
    unfold allocated
    simp only
    rw [h1]
    exact ⟨1, by rw [List.getElem?_set_self (by simp; omega)], by simp⟩
  have hroot : ({ s1 with
        inodes := s1.inodes.set 2
          (Inode.mk P.TYPE_DIR (2 * P.DIRREC_SIZE) 1 (junk.pointers.set 0 8)) } : FS).inodes[2]?
      = some (Inode.mk P.TYPE_DIR (2 * P.DIRREC_SIZE) 1 (junk.pointers.set 0 8)) := by
    simp only
    rw [List.getElem?_set_self h2I]
  have hptr0 : (junk.pointers.set 0 8)[0]? = some 8 := by
    rw [List.getElem?_set_self (by omega)]
  have hmk : ∀ b, marked { s1 with
        inodes := s1.inodes.set 2
          (Inode.mk P.TYPE_DIR (2 * P.DIRREC_SIZE) 1 (junk.pointers.set 0 8)) } b ↔ b < 9 := by
    intro b
    unfold marked
    simp only
    rw [h2]
    constructor
    · rintro ⟨v, hv, hv0⟩
      by_contra hb
      rw [List.getElem?_append_right (by simp; omega)] at hv
      have := List.getElem?_mem hv
      simp only [List.mem_replicate] at this
      exact hv0 this.2
    · intro hb
      refine ⟨1, ?_, by simp⟩
      rw [List.getElem?_append_left (by simpa using hb), List.getElem?_replicate]
      simp [hb]
  have h6b : read_dir_from_blocks P
      { s1 with
        inodes := s1.inodes.set 2
          (Inode.mk P.TYPE_DIR (2 * P.DIRREC_SIZE) 1 (junk.pointers.set 0 8)) }
      (2 * P.DIRREC_SIZE) 1 (junk.pointers.set 0 8)
      = some (some [⟨[46], 2⟩, ⟨[46, 46], 2⟩]) :=
    (read_dir_congr P s1
      { s1 with
        inodes := s1.inodes.set 2
          (Inode.mk P.TYPE_DIR (2 * P.DIRREC_SIZE) 1 (junk.pointers.set 0 8)) }
      _ _ _ (single_ptr_not_meta _ 8 (le_refl _) hptr0) (fun _ _ _ _ => rfl)).trans h6
  obtain ⟨hg1, hg2⟩ := dot_names_good P hP.mf
  refine
    { img := ⟨hP.bpos, fun b hb => (hmk b).2 (by omega), ?_, h5⟩
      tbl := ?_, lo := fun i hi => by rw [hal i hi], plen := ?_, typ := ?_, cap := ?_,
      used := ?_, disj := ?_, refd := fun b hb => Or.inl (by have := (hmk b).1 hb; omega),
      zero := ?_, fresh := ?_, chain := ?_, root := ⟨hal2, _, hroot, rfl⟩ }
  · simp only; rw [h2, h4]; simp; omega
  · simp only; rw [h1, h3]; simp
  · intro i ino hino
    by_cases hi : i = 2
    · subst hi; rw [hroot] at hino; cases hino
      simp only [List.length_set]; exact hjunk
    · simp only at hino
      rw [List.getElem?_set_ne (fun h => hi h.symm), h3] at hino
      have := List.getElem?_mem hino
      simp only [List.mem_replicate] at this
      rw [this.2]; simp
  · intro i ino ha hino
    have := hal i ha; subst this
    rw [hroot] at hino; cases hino
    exact Or.inr rfl
  · intro i ino ha hino
    have := hal i ha; subst this
    rw [hroot] at hino; cases hino
    exact hK
  · intro i ino j ha hino hj
    have := hal i ha; subst this
    rw [hroot] at hino; cases hino
    have : j = 0 := by simp only at hj; omega
    subst this
    exact ⟨8, hptr0, le_refl _, (hmk 8).2 (by omega)⟩
  · intro i k ino kno j l hai hak hino hkno hj hl hor
    have := hal i hai; subst this
    have := hal k hak; subst this
    rw [hroot] at hino hkno; cases hino; cases hkno
    simp only at hj hl
    omega
  · intro i ino ha hino hty
    have := hal i ha; subst this
    rw [hroot] at hino; cases hino
    exact absurd hty.symm hP.types
  · intro i ino hna hino j hj
    have hi : i ≠ 2 := fun h => hna (h ▸ hal2)
    simp only at hino
    rw [List.getElem?_set_ne (fun h => hi h.symm), h3] at hino
    have := List.getElem?_mem hino
    simp only [List.mem_replicate] at this
    rw [this.2]
    simp [List.getElem?_replicate, hj]
  · intro i ino ha hino _
    have := hal i ha; subst this
    rw [hroot] at hino; cases hino
    refine ⟨_, h6b, ?_, ⟨[], 2, rfl, fun _ => rfl⟩⟩
    intro r hr
    simp only [List.mem_cons, List.mem_singleton, List.not_mem_nil, or_false] at hr
    rcases hr with rfl | rfl
    · exact ⟨hg1, le_refl _, hal2⟩
    · exact ⟨hg2, le_refl _, hal2⟩

theorem last_two_inj (f1 f2 : List DirRec) (a b a2 b2 : DirRec)
    (h : f1 ++ [a, b] = f2 ++ [a2, b2]) : f1 = f2 ∧ a = a2 ∧ b = b2 := by
  obtain ⟨h1, h2⟩ := List.append_inj' h (by simp)
  simp only [List.cons.injEq, and_true] at h2
  exact ⟨h1, h2.1, h2.2⟩

theorem read_dir_inode_eq (P : Params) (s : FS) (i : Nat) (ino : Inode)
    (h : s.inodes[i]? = some ino) :
    read_dir_from_inode P s i
      = read_dir_from_blocks P s ino.size ino.blocks ino.pointers := by
  unfold read_dir_from_inode get_inode
  rw [h]

/-- `ParentInv` is kept when a record for a new inode `n` is put in front of the chain of
directory `d` and nothing else changes. -/
theorem parentInv_dirpost (P : Params) (s s1 : FS) (d n : Nat) (rec : DirRec)
    (c : List DirRec) (inoD inoD1 : Inode) (hI : FsInv P s) (hPI : ParentInv P s)
    (had : allocated s d) (hinoD : get_inode s d = some inoD) (htyD : inoD.type = P.TYPE_DIR)
    (hfresh : ¬ allocated s n) (halloc : ∀ i, allocated s1 i ↔ allocated s i ∨ i = n)
    (hc0 : read_dir_from_inode P s d = some (some c))
    (hc1 : read_dir_from_inode P s1 d = some (some (rec :: c)))
    (hd1 : get_inode s1 d = some inoD1) (hty1 : inoD1.type = P.TYPE_DIR)
    (hframe : ∀ i, i ≠ d → i ≠ n → allocated s i →
      get_inode s1 i = get_inode s i ∧ read_dir_from_inode P s1 i = read_dir_from_inode P s i)
    (hnew : ∀ (inoN : Inode) (front : List DirRec) (p : Nat), get_inode s1 n = some inoN →
      inoN.type = P.TYPE_DIR →
      read_dir_from_inode P s1 n = some (some (front ++ [⟨[46], n⟩, ⟨[46, 46], p⟩])) →
      Listed P s1 p n) :
    ParentInv P s1 := by
  have hmono : ∀ p i, Listed P s p i → Listed P s1 p i := by
    rintro p i ⟨hap, inoP, cp, r, h1, h2, h3, h4, h5⟩
    have hpn : p ≠ n := fun h => hfresh (h ▸ hap)
    refine ⟨(halloc p).2 (Or.inl hap), ?_⟩
    by_cases hpd : p = d
    · subst hpd
      rw [hc0] at h3
      simp only [Option.some.injEq] at h3
      subst h3
      exact ⟨inoD1, rec :: c, r, hd1, hty1, hc1, List.mem_cons_of_mem _ h4, h5⟩
    · obtain ⟨f1, f2⟩ := hframe p hpd hpn hap
      exact ⟨inoP, cp, r, f1.trans h1, h2, f2.trans h3, h4, h5⟩
  intro i ino front p hai hino hty hch hi2
  by_cases hin : i = n
  · subst hin
    exact hnew ino front p hino hty hch
  · have hai0 : allocated s i := by
      rcases (halloc i).1 hai with h | h
      · exact h
      · exact absurd h hin
    by_cases hid : i = d
    · subst hid
      rw [hc1] at hch
      simp only [Option.some.injEq] at hch
      obtain ⟨c0, hc0b, _, f0, p0, hc0e, _⟩ := hI.chain i inoD had hinoD htyD
      rw [← read_dir_inode_eq P s i inoD hinoD, hc0] at hc0b
      simp only [Option.some.injEq] at hc0b
      subst hc0b
      rw [hc0e] at hch
      have := last_two_inj (rec :: f0) front _ _ _ _ hch
      have hp : p0 = p := by
        have h3 := this.2.2
        simp only [DirRec.mk.injEq, true_and] at h3
        exact h3
      subst hp
      exact hmono p0 i (hPI i inoD f0 p0 had hinoD htyD (by rw [hc0, hc0e]) hi2)
    · obtain ⟨f1, f2⟩ := hframe i hid hin hai0
      exact hmono p i (hPI i ino front p hai0 (f1.symm.trans hino) hty (f2.symm.trans hch) hi2)

/-- `ParentInv` is kept by a `Step` on a file inode. -/
theorem parentInv_write (P : Params) (hP : ParamsOK P) (s s1 : FS) (x : Nat) (inoX ino1 : Inode)
    (isNew : Nat → Prop) (hI : FsInv P s) (hPI : ParentInv P s) (hS : Step P s s1 x ino1 isNew)
    (hax : allocated s x) (hinoX : s.inodes[x]? = some inoX) (htyX : inoX.type = P.TYPE_FILE)
    (hty1 : ino1.type = P.TYPE_FILE) : ParentInv P s1 := by
  have hold : ∀ i, allocated s1 i → allocated s i := by
    intro i hi
    rcases (hS.alloc_iff i).1 hi with h | h
    · exact h
    · exact h ▸ hax
  have hmono : ∀ p i, Listed P s p i → Listed P s1 p i := by
    rintro p i ⟨hap, inoP, cp, r, h1, h2, h3, h4, h5⟩
    have hpx : p ≠ x := by
      intro h; subst h
      unfold get_inode at h1
      rw [hinoX] at h1; cases h1
      exact hP.types (htyX.symm.trans h2)
    obtain ⟨f1, f2⟩ := step_other P s s1 x ino1 isNew hI hS p hpx hap
    exact ⟨(hS.alloc_iff p).2 (Or.inl hap), inoP, cp, r, f1.trans h1, h2, f2.trans h3, h4, h5⟩
  intro i ino front p hai hino hty hch hi2
  have hix : i ≠ x := by
    intro h; subst h
    unfold get_inode at hino
    rw [step_inode_eq P s s1 i ino1 isNew hS] at hino; cases hino
    exact hP.types (hty1.symm.trans hty)
  obtain ⟨f1, f2⟩ := step_other P s s1 x ino1 isNew hI hS i hix (hold i hai)
  exact hmono p i (hPI i ino front p (hold i hai) (f1.symm.trans hino) hty
    (f2.symm.trans hch) hi2)

/-- Every reachable image satisfies the invariant. -/
theorem reach_inv (P : Params) (hP : ParamsOK P) (s : FS) (hR : Reach P s) :
    FsInv P s ∧ ParentInv P s := by
  induction hR with
  | init junk s hjunk hrun =>
    have hI := my_init_inv P junk s hP hP.nblocks hP.ninodes hjunk hP.kpos hrun
    refine ⟨hI, ?_⟩
    intro i ino front p hai _ _ _ hi2
    exfalso
    obtain ⟨s1, h0, h1, _⟩ := my_init_state P junk hP hP.nblocks hP.ninodes
      (by rw [hjunk]; exact hP.kpos)
    rw [h0] at hrun
    simp only [Option.some.injEq] at hrun
    subst hrun
    unfold allocated at hai
    simp only at hai
    rw [h1] at hai
    exact hi2 (replicate_set_nz _ _ hai)
  | mknod s s1 pl0 path p inoP r _ hnz hpar hap hino hty hrun ih =>
    obtain ⟨hI, hPI⟩ := ih
    cases hleaf : get_file_from_path P path with
    | none =>
      unfold my_mknod at hrun
      simp [hpar, hleaf] at hrun
    | some leaf =>
      obtain ⟨n, s0, c, inoP1, ptrs, _, hna, _, _, hI1, halloc, hn1, hc0, hc1, hp1, hty1, hframe⟩ :=
        my_mknod_spec P hP s s1 hI pl0 path leaf p inoP r hpar hap hino hty hleaf hnz hrun
      refine ⟨hI1, parentInv_dirpost P s s1 p n _ c inoP inoP1 hI hPI hap hino hty hna halloc
        hc0 hc1 hp1 hty1 hframe ?_⟩
      intro inoN front q hN htyN _
      rw [hn1] at hN; cases hN
      exact absurd htyN hP.types
  | mkdir s s1 pl0 junk path p inoP r _ hnz hjunk hpar hap hino hty hrun ih =>
    obtain ⟨hI, hPI⟩ := ih
    cases hleaf : get_file_from_path P path with
    | none =>
      unfold get_file_from_path at hleaf
      unfold get_parent_dir_inode at hpar
      cases hf : find_last_slash path (strnlen path (P.MAX_FILENAME * P.MAX_PATH_DEPTH)) with
      | none => simp [hf] at hpar
      | some ls =>
        simp [hf] at hleaf
        unfold my_mkdir at hrun
        simp only [hf] at hrun hpar
        simp [hpar, hleaf] at hrun
    | some leaf =>
      obtain ⟨n, b, s0, s2, c, inoD1, _, _, hna, _, _, hI1, _, halloc, hn1, _, hcn, hc0, hc1, hp1,
          hty1, hframe⟩ :=
        my_mkdir_spec P hP s s1 hI pl0 junk path leaf p inoP r hpar hap hino hty hleaf hnz
          hjunk hrun
      refine ⟨hI1, parentInv_dirpost P s s1 p n _ c inoP inoD1 hI hPI hap hino hty hna halloc
        hc0 hc1 hp1 hty1 hframe ?_⟩
      intro inoN front q _ _ hch
      rw [hcn] at hch
      simp only [Option.some.injEq] at hch
      have := last_two_inj [] front _ _ _ _ hch
      have hq : p = q := by
        have h3 := this.2.2
        simp only [DirRec.mk.injEq, true_and] at h3
        exact h3
      subst hq
      exact ⟨(halloc p).2 (Or.inl hap), inoD1, _, ⟨leaf, n⟩, hp1, hty1, hc1,
        List.mem_cons_self _ _, rfl⟩
  | write s s1 inum ino buf size offset r _ ha hino hty hcap hrun ih =>
    obtain ⟨hI, hPI⟩ := ih
    obtain ⟨ino1, isNew, hS, hty1, _⟩ := my_write_step P hP s s1 hI inum ino buf size offset r
      ha hino hty hcap hrun
    exact ⟨fsInv_step P s s1 inum ino1 isNew hI hS,
      parentInv_write P hP s s1 inum ino ino1 isNew hI hPI hS ha hino hty hty1⟩

theorem demo_paramsOK : ParamsOK demo where
  codec := demo_codecOK
  bpos := by decide
  fit := by decide
  mf := by decide
  types := by decide
  word := by decide
  nblocks := by decide
  ninodes := by decide
  kpos := by decide

theorem demo_reach_fresh : Reach demo demo_fresh_fs :=
  Reach.init demo_inode0 demo_fresh_fs (by decide) (by decide)

theorem demo_reach_a : Reach demo demo_a_fs :=
  Reach.mknod demo_fresh_fs demo_a_fs demo_pl0 [47, 97] 2
    { type := 2, size := 8, blocks := 1, pointers := [8, 0, 0, 0] } 0
    demo_reach_fresh (by decide) (by decide) ⟨1, by decide, by decide⟩ (by decide) (by decide)
    (by decide)

theorem demo_reach_hello : Reach demo demo_hello_fs :=
  Reach.write demo_a_fs demo_hello_fs 3
    { type := 1, size := 0, blocks := 0, pointers := [0, 0, 0, 0] }
    [72, 101, 108, 108, 111] 5 0 5
    demo_reach_a ⟨1, by decide, by decide⟩ (by decide) (by decide) (by decide) (by decide)

theorem demo_reach_d : Reach demo demo_d_fs :=
  Reach.mkdir demo_fresh_fs demo_d_fs demo_pl0 demo_inode0 [47, 100] 2
    { type := 2, size := 8, blocks := 1, pointers := [8, 0, 0, 0] } 0
    demo_reach_fresh (by decide) (by decide) (by decide) ⟨1, by decide, by decide⟩ (by decide)
    (by decide) (by decide)

theorem block_referenced_of (s : FS) (b i j : Nat) (ino : Inode)
    (hino : get_inode s i = some ino) (hj : j < ino.blocks) (hp : ino.pointers[j]? = some b) :
    block_referenced s b = true := by
  unfold block_referenced
  rw [List.any_eq_true]
  refine ⟨ino, List.getElem?_mem hino, ?_⟩
  have : (ino.pointers.take ino.blocks)[j]? = some b := by
    rw [List.getElem?_take_of_lt hj]; exact hp
  simpa using List.getElem?_mem this

/-- The dot entries on the images of `Reach`, where the parent lookup of every
`my_mknod` and `my_mkdir` call returned an allocated directory: the record chain of
every directory inode `d` ends with `(".", d)` followed by the last record `("..", p)`,
where `p = 2` for the root directory 2 and otherwise `p` is a directory whose chain
holds a record for `d`. -/
theorem dot_entries_invariant (P : Params) (hP : ParamsOK P) (s : FS) (hR : Reach P s)
    (d : Nat) (ino : Inode) (ha : allocated s d) (hino : get_inode s d = some ino)
    (hty : ino.type = P.TYPE_DIR) :
    ∃ (front : List DirRec) (p : Nat),
      read_dir_from_inode P s d = some (some (front ++ [⟨[46], d⟩, ⟨[46, 46], p⟩])) ∧
      (d = 2 → p = 2) ∧ (d ≠ 2 → Listed P s p d) := by
  obtain ⟨hI, hPI⟩ := reach_inv P hP s hR
  obtain ⟨c, hc, _, front, p, hce, h2⟩ := hI.chain d ino ha hino hty
  have hrd : read_dir_from_inode P s d = some (some (front ++ [⟨[46], d⟩, ⟨[46, 46], p⟩])) := by
    rw [read_dir_inode_eq P s d ino hino, hc, hce]
  exact ⟨front, p, hrd, h2, fun hd => hPI d ino front p ha hino hty hrd hd⟩

/-- The dot entries in the small configuration: after `my_init` and `mkdir("/d")` the
chain of the new directory 3 ends with `(".", 3)`, `("..", p)` for a directory `p`
listing 3. -/
theorem dot_entries_invariant_witness :
    ∃ (front : List DirRec) (p : Nat),
      read_dir_from_inode demo demo_d_fs 3
        = some (some (front ++ [⟨[46], 3⟩, ⟨[46, 46], p⟩])) ∧
      (3 = 2 → p = 2) ∧ (3 ≠ 2 → Listed demo demo_d_fs p 3) :=
  dot_entries_invariant demo demo_paramsOK demo_d_fs demo_reach_d 3
    { type := 2, size := 8, blocks := 1, pointers := [9, 0, 0, 0] }
    ⟨1, by decide, by decide⟩ (by decide) (by decide)

/-- C7 fails on the code: on the fresh small image `my_write(3, buf, 1, 0)` takes block 9
for the free inode 3, and `my_mknod("/a")` then hands out inode 3 with `blocks = 0`
keeping its pointers; block 9 is set in the bitmap and no inode has it among
`pointers[0..blocks)`. -/
theorem bitmap_invariant_stale_block :
    ∃ s0 s1 s2, my_init demo demo_inode0 (zero_image demo) = some s0 ∧
      my_write demo 3 [1] 1 0 s0 = some (1, s1) ∧
      my_mknod demo demo_pl0 [47, 97] s1 = some (0, s2) ∧
      marked s2 9 ∧ ¬ 9 ≤ 8 ∧
      ¬ ∃ (i : Nat) (ino : Inode) (j : Nat),
        get_inode s2 i = some ino ∧ j < ino.blocks ∧ ino.pointers[j]? = some 9 := by
  refine ⟨demo_fresh_fs, demo_stale_w_fs, demo_stale_fs, by decide, by decide, by decide,
    ⟨1, by decide, by decide⟩, by decide, ?_⟩
  rintro ⟨i, ino, j, h1, h2, h3⟩
  have := block_referenced_of demo_stale_fs 9 i j ino h1 h2 h3
  revert this
  decide

theorem walk_nil (P : Params) (s : FS) (rows : List CStr) (cur : Nat) :
    walk P s rows [] cur = some cur := by
  unfold walk
  simp

theorem lookup_mem (P : Params) (c : List DirRec) (name : CStr)
    (h : 2 ≤ get_inum_for_name_in_dir P c name) :
    ∃ r ∈ c, r.inum = get_inum_for_name_in_dir P c name := by
  induction c with
  | nil => simp [get_inum_for_name_in_dir] at h
  | cons x xs ih =>
    unfold get_inum_for_name_in_dir at h ⊢
    by_cases hx : x.name.take P.MAX_FILENAME = name.take P.MAX_FILENAME
    · rw [if_pos hx]
      exact ⟨x, List.mem_cons_self _ _, rfl⟩
    · rw [if_neg hx] at h ⊢
      obtain ⟨r, hr, hri⟩ := ih h
      exact ⟨r, List.mem_cons_of_mem _ hr, hri⟩

theorem cstr_at_mid (A comp T : CStr) (j : Nat) (x : Nat) (h : comp[j]? = some x) :
    cstr_at (A ++ comp ++ T) (A.length + j) = some x := by
  have hj : j < comp.length := lt_of_getElem?_some comp j x h
  unfold cstr_at
  rw [if_pos (by simp only [List.length_append]; omega)]
  rw [List.append_assoc, List.getElem?_append_right (by omega)]
  simp only [Nat.add_sub_cancel_left]
  rw [List.getElem?_append_left hj]
  exact h

theorem cstr_at_end (path : CStr) : cstr_at path path.length = some 0 := by
  unfold cstr_at
  simp

theorem bytes_at_mid (A comp T : CStr) : bytes_at (A ++ comp ++ T) A.length comp.length = comp := by
  unfold bytes_at
  rw [List.append_assoc, List.drop_left, List.take_left]

theorem split_loop_scan (P : Params) (path A comp T : CStr) (hpath : path = A ++ comp ++ T)
    (hns : ∀ c ∈ comp, c ≠ 47) (i : Nat) (hi : i < P.MAX_PATH_DEPTH) (pathl : List CStr)
    (fuel : Nat) :
    ∀ k j, j + k = comp.length →
      split_loop P path path.length (fuel + k) i (A.length + j) A.length pathl
        = split_loop P path path.length fuel i (A.length + comp.length) A.length pathl := by
  intro k
  induction k with
  | zero =>
    intro j hj
    simp only [Nat.add_zero] at hj ⊢
    rw [hj]
  | succ k ih =>
    intro j hj
    have hjl : j < comp.length := by omega
    have hx : comp[j]? = some comp[j] := List.getElem?_eq_getElem hjl
    have hlen : A.length + j ≤ path.length := by
      rw [hpath]; simp only [List.length_append]; omega
    show split_loop P path path.length (fuel + k + 1) i (A.length + j) A.length pathl = _
    rw [split_loop, if_pos ⟨hi, hlen⟩]
    have hc : cstr_at path (A.length + j) = some comp[j] := by
      rw [hpath]; exact cstr_at_mid A comp T j _ hx
    rw [hc]
    simp only
    rw [if_neg (hns _ (List.getElem_mem hjl))]
    exact ih (j + 1) (by omega)

theorem cstr_at_head (A T : CStr) (x : Nat) : cstr_at (A ++ x :: T) A.length = some x := by
  unfold cstr_at
  rw [if_pos (by simp), List.getElem?_append_right (le_refl _)]
  simp

theorem set_take_succ {α : Type} (l : List α) (i : Nat) (a : α) (h : i < l.length) :
    (l.set i a).take (i + 1) = l.take i ++ [a] := by
  rw [List.set_eq_take_append_cons_drop, if_pos h]
  have hl : (l.take i).length = i := by simp; omega
  rw [List.take_append_eq_append_take, hl, List.take_of_length_le (by omega)]
  simp

theorem path_of_length (cs : List CStr) (x : CStr) :
    (path_of (x :: cs)).length = x.length + (path_of cs).length + 1 := by
  simp only [path_of, List.length_cons, List.length_append]
  omega

theorem split_loop_spec (P : Params) (cs : List CStr) :
    ∀ (path A comp : CStr) (i : Nat) (pathl : List CStr), path = A ++ comp ++ path_of cs →
      (∀ c ∈ comp, c ≠ 47) → (∀ x ∈ cs, ∀ c ∈ x, c ≠ 47) → comp.length ≤ P.MAX_FILENAME →
      (∀ x ∈ cs, x.length ≤ P.MAX_FILENAME) → i + cs.length < P.MAX_PATH_DEPTH →
      i + cs.length + 2 ≤ pathl.length →
      ∃ rest, split_loop P path path.length (comp.length + (path_of cs).length + 1) i
          A.length A.length pathl
        = some (0, pathl.take i ++ comp :: cs ++ [] :: rest) := by
  induction cs with
  | nil =>
    intro path A comp i pathl hpath hns _ hlen _ hi hrows
    simp only [path_of, List.length_nil, Nat.add_zero, List.append_nil] at hpath hi hrows ⊢
    have hsc := split_loop_scan P path A comp [] (by simpa using hpath) hns i hi pathl 1
      comp.length 0 (by simp)
    rw [Nat.add_comm 1 comp.length] at hsc
    simp only [Nat.add_zero] at hsc
    rw [hsc]
    have hpl : path.length = A.length + comp.length := by rw [hpath]; simp
    rw [split_loop, if_pos ⟨hi, by omega⟩, ← hpl, cstr_at_end]
    simp only [show (0 : Nat) ≠ 47 by decide, if_false]
    rw [split_loop]
    unfold split_tail
    rw [if_pos (by omega)]
    have hb : bytes_at path A.length (path.length + 1 - A.length - 1) = comp := by
      have : path.length + 1 - A.length - 1 = comp.length := by omega
      rw [this, hpath]
      simpa using bytes_at_mid A comp []
    rw [hb]
    unfold set_row
    rw [if_pos ⟨by omega, hlen⟩]
    simp only [List.length_set]
    rw [if_pos ⟨by omega, by simp⟩]
    refine ⟨(pathl.set i comp).drop (i + 1 + 1), ?_⟩
    rw [List.set_eq_take_append_cons_drop, if_pos (by simp; omega), set_take_succ _ _ _ (by omega)]
  | cons x xs ih =>
    intro path A comp i pathl hpath hns hcs hlen hlens hi hrows
    simp only [List.length_cons] at hi hrows
    have hsc := split_loop_scan P path A comp (path_of (x :: xs)) hpath hns i (by omega) pathl
      ((path_of (x :: xs)).length + 1) comp.length 0 (by simp)
    simp only [Nat.add_zero] at hsc
    have hf : comp.length + (path_of (x :: xs)).length + 1
        = (path_of (x :: xs)).length + 1 + comp.length := by omega
    rw [hf, hsc]
    have hpl : A.length + comp.length ≤ path.length := by rw [hpath]; simp
    have hpath2 : path = (A ++ comp) ++ 47 :: (x ++ path_of xs) := by
      rw [hpath]; simp [path_of]
    have hc : cstr_at path (A.length + comp.length) = some 47 := by
      have := cstr_at_head (A ++ comp) (x ++ path_of xs) 47
      rw [← hpath2, List.length_append] at this
      exact this
    rw [split_loop, if_pos ⟨by omega, hpl⟩, hc]
    simp only [if_true, Nat.add_sub_cancel_left]
    rw [if_neg (by omega)]
    have hb : bytes_at path A.length comp.length = comp := by
      rw [hpath]; exact bytes_at_mid A comp _
    rw [hb]
    unfold set_row
    rw [if_pos ⟨by omega, hlen⟩]
    simp only
    obtain ⟨rest, hrest⟩ := ih path (A ++ comp ++ [47]) x (i + 1) (pathl.set i comp)
      (by rw [hpath]; simp [path_of])
      (hcs x (List.mem_cons_self _ _)) (fun y hy => hcs y (List.mem_cons_of_mem _ hy))
      (hlens x (List.mem_cons_self _ _)) (fun y hy => hlens y (List.mem_cons_of_mem _ hy))
      (by omega) (by simp only [List.length_set]; omega)
    refine ⟨rest, ?_⟩
    have hal : (A ++ comp ++ [47]).length = A.length + comp.length + 1 := by
      simp only [List.length_append, List.length_singleton]
    rw [hal] at hrest
    rw [path_of_length]
    rw [hrest, set_take_succ _ _ _ (by omega)]
    simp

theorem path_of_snoc (comps : List CStr) (leaf : CStr) :
    path_of (comps ++ [leaf]) = path_of comps ++ 47 :: leaf := by
  induction comps with
  | nil => simp [path_of]
  | cons x xs ih => simp [path_of, ih]

theorem find_last_slash_at (path : CStr) (m : Nat) (h : cstr_at path m = some 47) :
    find_last_slash path m = some m := by
  cases m with
  | zero => simp [find_last_slash, h]
  | succ k => simp [find_last_slash, h]

theorem find_last_slash_spec (X leaf : CStr) (hns : ∀ c ∈ leaf, c ≠ 47) :
    ∀ j, j ≤ leaf.length + 1 →
      find_last_slash (X ++ 47 :: leaf) (X.length + j) = some X.length := by
  intro j
  induction j with
  | zero =>
    intro _
    exact find_last_slash_at _ _ (cstr_at_head X leaf 47)
  | succ j ih =>
    intro hj
    show find_last_slash (X ++ 47 :: leaf) (X.length + j + 1) = _
    rw [find_last_slash]
    have hc : ∃ c, cstr_at (X ++ 47 :: leaf) (X.length + j + 1) = some c ∧ c ≠ 47 := by
      by_cases hjl : j < leaf.length
      · refine ⟨leaf[j], ?_, hns _ (List.getElem_mem hjl)⟩
        have := cstr_at_mid (X ++ [47]) leaf [] j leaf[j] (List.getElem?_eq_getElem hjl)
        simpa [Nat.add_right_comm] using this
      · refine ⟨0, ?_, by decide⟩
        have := cstr_at_end (X ++ 47 :: leaf)
        have hl : (X ++ 47 :: leaf).length = X.length + j + 1 := by
          simp only [List.length_append, List.length_cons]; omega
        rw [hl] at this
        exact this
    obtain ⟨c, h1, h2⟩ := hc
    rw [h1]
    simp only [if_neg h2]
    exact ih (by omega)

/-- The directory part and the leaf of the path "/c1/.../ck/leaf" as the code computes
them. -/
theorem path_parts (P : Params) (comps : List CStr) (leaf : CStr) (hns : ∀ c ∈ leaf, c ≠ 47)
    (hcap : (path_of (comps ++ [leaf])).length ≤ P.MAX_FILENAME * P.MAX_PATH_DEPTH) :
    find_last_slash (path_of (comps ++ [leaf]))
        (strnlen (path_of (comps ++ [leaf])) (P.MAX_FILENAME * P.MAX_PATH_DEPTH))
      = some (path_of comps).length ∧
    (path_of (comps ++ [leaf])).take (path_of comps).length = path_of comps ∧
    bytes_at (path_of (comps ++ [leaf])) ((path_of comps).length + 1)
      (strnlen (path_of (comps ++ [leaf])) (P.MAX_FILENAME * P.MAX_PATH_DEPTH)
        - (path_of comps).length - 1) = leaf ∧
    strnlen (path_of (comps ++ [leaf])) (P.MAX_FILENAME * P.MAX_PATH_DEPTH)
      - (path_of comps).length = leaf.length + 1 := by
  have hsl : strnlen (path_of (comps ++ [leaf])) (P.MAX_FILENAME * P.MAX_PATH_DEPTH)
      = (path_of comps).length + (leaf.length + 1) := by
    unfold strnlen
    rw [Nat.min_eq_left hcap, path_of_snoc]
    simp
  rw [hsl, path_of_snoc]
  refine ⟨find_last_slash_spec _ leaf hns _ (le_refl _), List.take_left _ _, ?_, by omega⟩
  have : (path_of comps).length + (leaf.length + 1) - (path_of comps).length - 1
      = leaf.length := by omega
  rw [this]
  have := bytes_at_mid (path_of comps ++ [47]) leaf []
  simpa using this

theorem get_file_from_path_parts (P : Params) (comps : List CStr) (leaf : CStr)
    (hns : ∀ c ∈ leaf, c ≠ 47)
    (hcap : (path_of (comps ++ [leaf])).length ≤ P.MAX_FILENAME * P.MAX_PATH_DEPTH) :
    get_file_from_path P (path_of (comps ++ [leaf])) = some leaf := by
  obtain ⟨h1, _, h3, h4⟩ := path_parts P comps leaf hns hcap
  unfold get_file_from_path
  simp only [h1]
  rw [if_neg (by omega), h3]

theorem get_inode_for_path_rows (P : Params) (pl pl1 : List CStr) (s : FS) (path x : CStr)
    (r : Int) (rows : List CStr)
    (h : split_path P path (strnlen path (P.MAX_PATH_DEPTH * P.MAX_FILENAME)) pl
      = some (r, x :: rows)) (hpl : pl1 = pl) :
    get_inode_for_path P pl1 s path = walk P s rows x 2 := by
  subst hpl
  unfold get_inode_for_path
  simp only [h]

theorem set_inode_getD_inodes (s : FS) (i : Nat) (ino : Inode) :
    ((set_inode s i ino).getD s).inodes = s.inodes.set i ino ∨
    ((set_inode s i ino).getD s).inodes = s.inodes := by
  unfold set_inode
  split
  · exact Or.inl rfl
  · exact Or.inr rfl

theorem write_block_meta (P : Params) (s : FS) (n : Nat) (b : Block) (r : Option FS)
    (hm : is_meta_block n = false) (h : write_block P s n b = some r) :
    (r.getD s).i_bmap = s.i_bmap ∧ (r.getD s).d_bmap = s.d_bmap ∧
    (r.getD s).inodes = s.inodes := by
  unfold write_block at h
  simp only [hm, Bool.false_eq_true, if_false] at h
  split at h
  · simp only [Option.some.injEq] at h
    subst h
    exact ⟨rfl, rfl, rfl⟩
  · simp only [Option.some.injEq] at h
    subst h
    exact ⟨rfl, rfl, rfl⟩

theorem write_chunk_meta (P : Params) (s s1 : FS) (ptr bo : Nat) (src : List Nat)
    (hm : is_meta_block ptr = false) (h : write_chunk P s ptr bo src = some s1) :
    s1.i_bmap = s.i_bmap ∧ s1.d_bmap = s.d_bmap ∧ s1.inodes = s.inodes := by
  unfold write_chunk at h
  cases hr : read_block P s ptr with
  | none => simp [hr] at h
  | some o =>
    cases o with
    | none =>
      simp only [hr, Option.some.injEq] at h
      subst h
      exact ⟨rfl, rfl, rfl⟩
    | some blk =>
      simp only [hr] at h
      cases hw : write_block P s ptr (memcpy_at blk bo src) with
      | none => simp [hw] at h
      | some r =>
        simp only [hw, Option.some.injEq] at h
        subst h
        exact write_block_meta P s ptr _ r hm hw

theorem get_next_free_block_inodes (s s1 : FS) (b : Nat)
    (h : get_next_free_block s = some (b, s1)) : s1.inodes = s.inodes := by
  unfold get_next_free_block at h
  cases hs : scan_free (get_d_bmap s) 0 with
  | none => simp [hs] at h
  | some k =>
    simp only [hs, Option.some.injEq, Prod.mk.injEq] at h
    rw [← h.2]
    rfl

theorem write_loop_meta (P : Params) (ino : Inode) (buf : List Nat) (fuel : Nat)
    (hnm : ∀ (j p : Nat), ino.pointers[j]? = some p → is_meta_block p = false) :
    ∀ (size cb bo d bw : Nat) (s s2 : FS) (r : Nat),
      write_loop P ino buf fuel size cb bo d bw s = some (r, s2) →
      s2.i_bmap = s.i_bmap ∧ s2.d_bmap = s.d_bmap ∧ s2.inodes = s.inodes := by
  induction fuel with
  | zero =>
    intro size cb bo d bw s s2 r h
    simp only [write_loop, Option.some.injEq, Prod.mk.injEq] at h
    rw [← h.2]
    exact ⟨rfl, rfl, rfl⟩
  | succ fuel ih =>
    intro size cb bo d bw s s2 r h
    rw [write_loop] at h
    by_cases hs : size > 0
    · rw [if_pos hs] at h
      simp only at h
      generalize hnb : (if size ≥ P.BLOCKSIZE - bo then P.BLOCKSIZE - bo else size) = nb at h
      cases hp : ino.pointers[cb]? with
      | none => simp [hp] at h
      | some ptr =>
        simp only [hp] at h
        by_cases hbuf : buf.length < d + nb ∨ 2 ^ 31 ≤ d + nb ∨ 2 ^ 31 ≤ bw + nb
        · rw [if_pos hbuf] at h
          simp at h
        · rw [if_neg hbuf] at h
          cases hw : write_chunk P s ptr bo (bytes_at buf d nb) with
          | none => simp [hw] at h
          | some sw =>
            simp only [hw] at h
            obtain ⟨c1, c2, c3⟩ := write_chunk_meta P s sw ptr bo _ (hnm cb ptr hp) hw
            by_cases hgt : size > P.BLOCKSIZE
            · rw [if_pos hgt] at h
              obtain ⟨e1, e2, e3⟩ := ih _ _ _ _ _ _ _ _ h
              exact ⟨e1.trans c1, e2.trans c2, e3.trans c3⟩
            · rw [if_neg hgt] at h
              obtain ⟨e1, e2, e3⟩ := ih _ _ _ _ _ _ _ _ h
              exact ⟨e1.trans c1, e2.trans c2, e3.trans c3⟩
    · rw [if_neg hs] at h
      simp only [Option.some.injEq, Prod.mk.injEq] at h
      rw [← h.2]
      exact ⟨rfl, rfl, rfl⟩


/-- C7, second failure: `my_mkdir` leaves `pointers[1..]` of the new directory as they
were in the uninitialised local inode; with a stale `pointers[1] = 5` there, a
`my_write(3, buf, 0, 9)` on the directory inode 3 stores the new block 11 in the first
zero slot `pointers[2]` and sets `blocks = 2`, so block 11 is set in the bitmap and is
not among `pointers[0..blocks)` of any inode. -/
theorem bitmap_invariant_directory_write :
    ∃ s0 s1 s2, my_init demo demo_inode0 (zero_image demo) = some s0 ∧
      my_mkdir demo demo_pl0 demo_inode_stale [47, 100] s0 = some (0, s1) ∧
      allocated s1 3 ∧ my_write demo 3 [] 0 9 s1 = some (0, s2) ∧
      marked s2 11 ∧
      ¬ ∃ (i : Nat) (ino : Inode) (j : Nat),
        get_inode s2 i = some ino ∧ j < ino.blocks ∧ ino.pointers[j]? = some 11 := by
  refine ⟨demo_fresh_fs, demo_junk_d_fs, demo_junk_w_fs, by decide, by decide,
    ⟨1, by decide, by decide⟩, by decide, ⟨1, by decide, by decide⟩, ?_⟩
  rintro ⟨i, ino, j, h1, h2, h3⟩
  have := block_referenced_of demo_junk_w_fs 11 i j ino h1 h2 h3
  revert this
  decide

theorem scan_free_least (l : List Nat) :
    ∀ (i m : Nat), l[m]? = some 0 →
      ∃ k, scan_free l i = some (i + k) ∧ k ≤ m ∧ l[k]? = some 0 ∧
        ∀ j, j < k → ∃ v, l[j]? = some v ∧ v ≠ 0 := by
  induction l with
  | nil => intro i m h; simp at h
  | cons x xs ih =>
    intro i m h
    by_cases hx : x = 0
    · refine ⟨0, ?_, Nat.zero_le _, by simp [hx], fun j hj => absurd hj (by omega)⟩
      simp [scan_free, hx]
    · cases m with
      | zero => simp at h; exact absurd h hx
      | succ m =>
        simp only [List.getElem?_cons_succ] at h
        obtain ⟨k, h1, h2, h3, h4⟩ := ih (i + 1) m h
        refine ⟨k + 1, ?_, by omega, by simpa using h3, ?_⟩
        · rw [scan_free, if_neg hx, h1]
          congr 1
          omega
        · intro j hj
          cases j with
          | zero => exact ⟨x, by simp, hx⟩
          | succ j =>
            obtain ⟨v, hv, hv0⟩ := h4 j (by omega)
            exact ⟨v, by simpa using hv, hv0⟩

/-- C17: when the inode bitmap has a free entry at an index `k ≥ 2`,
`get_next_free_inode` returns the least index `i ≥ 2` whose entry is 0, and when the
data-block bitmap has a free entry `get_next_free_block` returns the least index `b`
whose entry is 0 (so `b ≥ 9` when the entries 0..8 are set); in both cases the stored
bitmap is the old one with the returned entry set to 1 and nothing else of the image
changes. -/
theorem first_fit_allocation (s : FS) :
    (∀ k, 2 ≤ k → s.i_bmap[k]? = some 0 →
      ∃ i, get_next_free_inode s = some (i, { s with i_bmap := s.i_bmap.set i 1 }) ∧
        2 ≤ i ∧ i ≤ k ∧ s.i_bmap[i]? = some 0 ∧
        (∀ j, 2 ≤ j → j < i → ∃ v, s.i_bmap[j]? = some v ∧ v ≠ 0) ∧
        (s.i_bmap.set i 1)[i]? = some 1 ∧
        (∀ j, j ≠ i → (s.i_bmap.set i 1)[j]? = s.i_bmap[j]?)) ∧
    (∀ kb, s.d_bmap[kb]? = some 0 →
      ∃ b, get_next_free_block s = some (b, { s with d_bmap := s.d_bmap.set b 1 }) ∧
        b ≤ kb ∧ s.d_bmap[b]? = some 0 ∧
        (∀ j, j < b → ∃ v, s.d_bmap[j]? = some v ∧ v ≠ 0) ∧
        ((∀ j, j ≤ 8 → ∃ v, s.d_bmap[j]? = some v ∧ v ≠ 0) → 9 ≤ b) ∧
        (s.d_bmap.set b 1)[b]? = some 1 ∧
        (∀ j, j ≠ b → (s.d_bmap.set b 1)[j]? = s.d_bmap[j]?)) := by
  constructor
  · intro k hk hfi
    have hlen : k < s.i_bmap.length := lt_of_getElem?_some _ _ _ hfi
    have hd : (s.i_bmap.drop 2)[k - 2]? = some 0 := by
      rw [List.getElem?_drop]
      rw [show 2 + (k - 2) = k by omega]
      exact hfi
    obtain ⟨m, h1, h2, h3, h4⟩ := scan_free_least (s.i_bmap.drop 2) 2 (k - 2) hd
    rw [List.getElem?_drop] at h3
    have hil : 2 + m < s.i_bmap.length := lt_of_getElem?_some _ _ _ h3
    refine ⟨2 + m, ?_, by omega, by omega, h3, ?_, ?_, ?_⟩
    · unfold get_next_free_inode get_i_bmap set_i_bmap
      simp only
      rw [if_neg (by omega), h1]
    · intro j hj2 hjm
      obtain ⟨v, hv, hv0⟩ := h4 (j - 2) (by omega)
      rw [List.getElem?_drop, show 2 + (j - 2) = j by omega] at hv
      exact ⟨v, hv, hv0⟩
    · rw [List.getElem?_set_self hil]
    · intro j hj
      rw [List.getElem?_set_ne (Ne.symm hj)]
  · intro kb hfb
    obtain ⟨m, h1, h2, h3, h4⟩ := scan_free_least s.d_bmap 0 kb hfb
    have hbl : m < s.d_bmap.length := lt_of_getElem?_some _ _ _ h3
    refine ⟨m, ?_, h2, h3, h4, ?_, ?_, ?_⟩
    · unfold get_next_free_block get_d_bmap set_d_bmap
      simp only
      rw [h1]
      simp
    · intro hres
      by_contra hlt
      obtain ⟨v, hv, hv0⟩ := hres m (by omega)
      rw [h3] at hv
      simp only [Option.some.injEq] at hv
      exact hv0 hv.symm
    · rw [List.getElem?_set_self hbl]
    · intro j hj
      rw [List.getElem?_set_ne (Ne.symm hj)]

/-- C17 on the image after `my_init`, `mknod("/a")` and `write(3, "Hello", 5, 0)`: the next
inode is 4 and the next block is 11. -/
theorem first_fit_allocation_witness :
    (∃ i, get_next_free_inode demo_hello_fs
        = some (i, { demo_hello_fs with i_bmap := demo_hello_fs.i_bmap.set i 1 }) ∧
      2 ≤ i ∧ i ≤ 5 ∧ demo_hello_fs.i_bmap[i]? = some 0 ∧
      (∀ j, 2 ≤ j → j < i → ∃ v, demo_hello_fs.i_bmap[j]? = some v ∧ v ≠ 0) ∧
      (demo_hello_fs.i_bmap.set i 1)[i]? = some 1 ∧
      (∀ j, j ≠ i → (demo_hello_fs.i_bmap.set i 1)[j]? = demo_hello_fs.i_bmap[j]?)) ∧
    (∃ b, get_next_free_block demo_hello_fs
        = some (b, { demo_hello_fs with d_bmap := demo_hello_fs.d_bmap.set b 1 }) ∧
      b ≤ 13 ∧ demo_hello_fs.d_bmap[b]? = some 0 ∧
      (∀ j, j < b → ∃ v, demo_hello_fs.d_bmap[j]? = some v ∧ v ≠ 0) ∧
      ((∀ j, j ≤ 8 → ∃ v, demo_hello_fs.d_bmap[j]? = some v ∧ v ≠ 0) → 9 ≤ b) ∧
      (demo_hello_fs.d_bmap.set b 1)[b]? = some 1 ∧
      (∀ j, j ≠ b → (demo_hello_fs.d_bmap.set b 1)[j]? = demo_hello_fs.d_bmap[j]?)) :=
  ⟨(first_fit_allocation demo_hello_fs).1 5 (by decide) (by decide),
    (first_fit_allocation demo_hello_fs).2 13 (by decide)⟩

/-- C14: a read at an offset at or past the size of the inode returns 0 and leaves the
buffer as it was, whatever the requested size. -/
theorem my_read_past_end (P : Params) (s : FS) (inum : Nat) (ino : Inode) (buf : List Nat)
    (size offset : Nat) (hB : 0 < P.BLOCKSIZE) (hget : get_inode s inum = some ino)
    (hoff : ino.size ≤ offset) :
    my_read P inum buf size offset s = some (0, buf) := by
  unfold my_read
  rw [hget]
  simp only
  rw [if_neg (by omega), if_pos hoff]

/-- C14 on the 5-byte file of inode 3: a read of 10 bytes at offset 5. -/
theorem my_read_past_end_witness :
    my_read demo 3 (List.replicate 12 7) 10 5 demo_hello_fs = some (0, List.replicate 12 7) :=
  my_read_past_end demo demo_hello_fs 3
    { type := 1, size := 5, blocks := 1, pointers := [10, 0, 0, 0] } (List.replicate 12 7)
    10 5 (by decide) (by decide) (by decide)

/-- C11: when the path resolves to `n`, `my_open` stores `n` in `*fd` and returns -1
exactly when `n` is 0 or 1, and 0 otherwise; `my_getattr` returns `-ENOENT` exactly when
`n` is 0 or 1, and otherwise (the inode record of `n` being readable) returns 0 with
`st_ino = n`. -/
theorem notfound_reporting (P : Params) (pl0 : List CStr) (path : CStr) (statbuf0 : Stat)
    (s : FS) (n : Nat) (h : get_inode_for_path P pl0 s path = some n) :
    (∃ r, my_open P pl0 path s = some (r, n) ∧ (r = -1 ↔ (n = 0 ∨ n = 1)) ∧
      (¬ (n = 0 ∨ n = 1) → r = 0)) ∧
    ((n = 0 ∨ n = 1) ∨ (get_inode s n).isSome →
      ∃ r st, my_getattr P pl0 path statbuf0 s = some (r, st) ∧
        (r = -ENOENT ↔ (n = 0 ∨ n = 1)) ∧
        (¬ (n = 0 ∨ n = 1) → r = 0 ∧ st.st_ino = n)) := by
  have hn : n < 2 ↔ (n = 0 ∨ n = 1) := by omega
  constructor
  · unfold my_open
    rw [h]
    simp only
    by_cases h2 : n < 2
    · rw [if_pos h2]
      exact ⟨-1, rfl, ⟨fun _ => hn.1 h2, fun _ => rfl⟩, fun hc => absurd (hn.1 h2) hc⟩
    · rw [if_neg h2]
      refine ⟨0, rfl, ⟨fun hc => absurd hc (by decide), fun hc => absurd (hn.2 hc) h2⟩,
        fun _ => rfl⟩
  · intro hd
    unfold my_getattr
    rw [h]
    simp only
    by_cases h2 : n < 2
    · rw [if_pos h2]
      exact ⟨-ENOENT, statbuf0, rfl, ⟨fun _ => hn.1 h2, fun _ => rfl⟩,
        fun hc => absurd (hn.1 h2) hc⟩
    · rw [if_neg h2]
      have hs : (get_inode s n).isSome := by
        rcases hd with hd | hd
        · exact absurd (hn.2 hd) h2
        · exact hd
      obtain ⟨ino, hino⟩ := Option.isSome_iff_exists.1 hs
      rw [hino]
      refine ⟨0, _, rfl, ⟨fun hc => absurd hc (by decide), fun hc => absurd (hn.2 hc) h2⟩,
        fun _ => ⟨rfl, rfl⟩⟩

/-- C11 in the small configuration, after `my_init` and `mkdir("/d")`: the path "/d"
resolves to inode 3 and the path "/x" to 0. -/
theorem notfound_reporting_witness :
    ((∃ r, my_open demo demo_pl0 [47, 100] demo_d_fs = some (r, 3) ∧
        (r = -1 ↔ ((3 : Nat) = 0 ∨ (3 : Nat) = 1)) ∧
        (¬ ((3 : Nat) = 0 ∨ (3 : Nat) = 1) → r = 0)) ∧
      ((((3 : Nat) = 0 ∨ (3 : Nat) = 1) ∨ (get_inode demo_d_fs 3).isSome) →
        ∃ r st, my_getattr demo demo_pl0 [47, 100] stat0 demo_d_fs = some (r, st) ∧
          (r = -ENOENT ↔ ((3 : Nat) = 0 ∨ (3 : Nat) = 1)) ∧
          (¬ ((3 : Nat) = 0 ∨ (3 : Nat) = 1) → r = 0 ∧ st.st_ino = 3))) ∧
    ((∃ r, my_open demo demo_pl0 [47, 120] demo_d_fs = some (r, 0) ∧
        (r = -1 ↔ ((0 : Nat) = 0 ∨ (0 : Nat) = 1)) ∧
        (¬ ((0 : Nat) = 0 ∨ (0 : Nat) = 1) → r = 0)) ∧
      ((((0 : Nat) = 0 ∨ (0 : Nat) = 1) ∨ (get_inode demo_d_fs 0).isSome) →
        ∃ r st, my_getattr demo demo_pl0 [47, 120] stat0 demo_d_fs = some (r, st) ∧
          (r = -ENOENT ↔ ((0 : Nat) = 0 ∨ (0 : Nat) = 1)) ∧
          (¬ ((0 : Nat) = 0 ∨ (0 : Nat) = 1) → r = 0 ∧ st.st_ino = 0))) :=
  ⟨notfound_reporting demo demo_pl0 [47, 100] stat0 demo_d_fs 3 (by decide),
   notfound_reporting demo demo_pl0 [47, 120] stat0 demo_d_fs 0 (by decide)⟩

theorem lookup_none (P : Params) (c : List DirRec) (name : CStr)
    (h : ∀ r ∈ c, r.name.take P.MAX_FILENAME ≠ name.take P.MAX_FILENAME) :
    get_inum_for_name_in_dir P c name = 0 := by
  induction c with
  | nil => rfl
  | cons x xs ih =>
    unfold get_inum_for_name_in_dir
    rw [if_neg (h x (List.mem_cons_self _ _))]
    exact ih (fun r hr => h r (List.mem_cons_of_mem _ hr))

theorem walk_zero_or_ge (P : Params) (s : FS) (rows : List CStr) :
    ∀ (next : CStr) (cur v : Nat), 2 ≤ cur → walk P s rows next cur = some v →
      v = 0 ∨ 2 ≤ v := by
  induction rows with
  | nil =>
    intro next cur v hcur h
    unfold walk at h
    split at h
    · simp only [Option.some.injEq] at h; omega
    · split at h
      · simp at h
      · split at h
        · split at h
          · simp at h
          · simp at h
          · simp only at h
            split at h
            · simp only [Option.some.injEq] at h; omega
            · simp at h
        · simp only [Option.some.injEq] at h; omega
  | cons r rows1 ih =>
    intro next cur v hcur h
    unfold walk at h
    split at h
    · simp only [Option.some.injEq] at h; omega
    · split at h
      · simp at h
      · split at h
        · split at h
          · simp at h
          · simp at h
          · simp only at h
            split at h
            · simp only [Option.some.injEq] at h; omega
            · rename_i hn
              exact ih _ _ _ (by omega) h
        · simp only [Option.some.injEq] at h; omega

theorem walk_fails (P : Params) (s : FS) (rows : List CStr) (next : CStr) (cur : Nat)
    (rows2 : List CStr) (next2 : CStr) (cur2 : Nat)
    (hw : WalkTo P s rows next cur rows2 next2 cur2) (hf : FailsAt P s next2 cur2) :
    walk P s rows next cur = some 0 := by
  induction hw with
  | here rows next cur =>
    obtain ⟨hne, ino, hino, hc⟩ := hf
    unfold walk
    rw [if_neg hne, hino]
    simp only
    rcases hc with hc | ⟨c, hrd, hno⟩
    · rw [if_neg hc]
    · by_cases hty : ino.type = P.TYPE_DIR
      · rw [if_pos hty, hrd]
        simp only [lookup_none P c next hno]
        simp
      · rw [if_neg hty]
  | step rows1 r next cur ino c rows2 next2 cur2 hne hino hty hrd hge _ ih =>
    unfold walk
    rw [if_neg hne, hino]
    simp only
    rw [if_pos hty, hrd]
    simp only
    rw [if_neg (by omega)]
    exact ih hf

/-- C12: when the walk of `get_inode_for_path` over the components stored by
`split_path` comes, from inode 2, to look up a component in an inode that is not a
directory, or in a directory whose chain has no record of that name,
`get_inode_for_path` returns 0; and `get_inode_for_path` never returns 1. -/
theorem resolver_failure (P : Params) (pl0 : List CStr) (s : FS) (path : CStr) (r : Int)
    (next : CStr) (rows rows2 : List CStr) (next2 : CStr) (cur2 : Nat)
    (hsp : split_path P path (strnlen path (P.MAX_PATH_DEPTH * P.MAX_FILENAME)) pl0
      = some (r, next :: rows))
    (hw : WalkTo P s rows next 2 rows2 next2 cur2) (hf : FailsAt P s next2 cur2) :
    get_inode_for_path P pl0 s path = some 0 ∧
    ∀ (pl1 : List CStr) (s1 : FS) (path1 : CStr), get_inode_for_path P pl1 s1 path1 ≠ some 1 := by
  constructor
  · rw [get_inode_for_path_rows P pl0 pl0 s path next r rows hsp rfl]
    exact walk_fails P s rows next 2 rows2 next2 cur2 hw hf
  · intro pl1 s1 path1 h
    unfold get_inode_for_path at h
    simp only at h
    split at h
    · simp at h
    · split at h
      · simp at h
      · have := walk_zero_or_ge P s1 _ _ 2 1 (le_refl _) h
        omega

/-- C12 in the small configuration, after `my_init` and `mknod("/a")`: the walk of
"/a/b" finds "a" as inode 3, a file, in which "b" is to be looked up. -/
theorem resolver_failure_witness :
    get_inode_for_path demo demo_pl0 demo_a_fs [47, 97, 47, 98] = some 0 ∧
    ∀ (pl1 : List CStr) (s1 : FS) (path1 : CStr),
      get_inode_for_path demo pl1 s1 path1 ≠ some 1 :=
  resolver_failure demo demo_pl0 demo_a_fs [47, 97, 47, 98] 0 [97] [[98], [], []] [[], []]
    [98] 3 (by decide)
    (WalkTo.step [[], []] [98] [97] 2 (Inode.mk 2 12 2 [8, 9, 0, 0])
      [⟨[97], 3⟩, ⟨[46], 2⟩, ⟨[46, 46], 2⟩] [[], []] [98] 3 (by decide) (by decide)
      (by decide) (by decide) (by decide) (WalkTo.here [[], []] [98] 3))
    ⟨by decide, { type := 1, size := 0, blocks := 0, pointers := [0, 0, 0, 0] }, by decide,
      Or.inl (by decide)⟩

theorem path_of_cons_ne (x : CStr) (xs : List CStr) :
    path_of (x :: xs) = 47 :: (x ++ path_of xs) := by
  simp [path_of]

theorem split_loop_long (P : Params) (long rest : CStr) (hlong : ∀ c ∈ long, c ≠ 47)
    (hlen : P.MAX_FILENAME < long.length) (pre : List CStr) :
    ∀ (path A0 : CStr) (i : Nat) (pathl : List CStr),
      path = A0 ++ path_of (pre ++ [long]) ++ 47 :: rest →
      (∀ x ∈ pre, x.length ≤ P.MAX_FILENAME ∧ ∀ c ∈ x, c ≠ 47) →
      i + pre.length < P.MAX_PATH_DEPTH → i + pre.length ≤ pathl.length →
      ∃ pl1, split_loop P path path.length
          ((path_of (pre ++ [long])).length + rest.length + 1) i
          (A0.length + 1) (A0.length + 1) pathl = some (-1, pl1) := by
  induction pre with
  | nil =>
    intro path A0 i pathl hpath _ hi _
    simp only [List.nil_append, List.length_nil, Nat.add_zero] at hpath hi ⊢
    have hp2 : path = (A0 ++ [47]) ++ long ++ 47 :: rest := by
      rw [hpath]; simp [path_of]
    have hsc := split_loop_scan P path (A0 ++ [47]) long (47 :: rest) hp2 hlong i hi pathl
      (rest.length + 1 + 1) long.length 0 (by simp)
    have hal : (A0 ++ [47]).length = A0.length + 1 := by simp
    rw [hal] at hsc
    simp only [Nat.add_zero] at hsc
    have hf : (path_of [long]).length + rest.length + 1 = rest.length + 1 + 1 + long.length := by
      simp [path_of]; omega
    rw [hf, hsc]
    have hc : cstr_at path (A0.length + 1 + long.length) = some 47 := by
      have := cstr_at_head (A0 ++ [47] ++ long) rest 47
      have hl : (A0 ++ [47] ++ long).length = A0.length + 1 + long.length := by
        simp only [List.length_append, List.length_singleton]
      rw [← hp2, hl] at this
      exact this
    have hpl : A0.length + 1 + long.length ≤ path.length := by
      rw [hp2]; simp; omega
    rw [split_loop, if_pos ⟨hi, hpl⟩, hc]
    simp only [if_true, Nat.add_sub_cancel_left]
    rw [if_pos hlen]
    exact ⟨pathl, rfl⟩
  | cons x pre1 ih =>
    intro path A0 i pathl hpath hpre hi hrows
    simp only [List.length_cons] at hi hrows
    obtain ⟨hxl, hxs⟩ := hpre x (List.mem_cons_self _ _)
    have hne : pre1 ++ [long] ≠ [] := by simp
    obtain ⟨y, ys, hy⟩ := List.exists_cons_of_ne_nil hne
    have hp2 : path = (A0 ++ [47]) ++ x ++ (path_of (pre1 ++ [long]) ++ 47 :: rest) := by
      rw [hpath]; simp [path_of]
    have hsc := split_loop_scan P path (A0 ++ [47]) x _ hp2 hxs i (by omega) pathl
      ((path_of (pre1 ++ [long])).length + rest.length + 1 + 1) x.length 0 (by simp)
    have hal : (A0 ++ [47]).length = A0.length + 1 := by simp
    rw [hal] at hsc
    simp only [Nat.add_zero] at hsc
    have hf : (path_of (x :: pre1 ++ [long])).length + rest.length + 1
        = (path_of (pre1 ++ [long])).length + rest.length + 1 + 1 + x.length := by
      rw [List.cons_append, path_of_length]; omega
    rw [hf, hsc]
    have hc : cstr_at path (A0.length + 1 + x.length) = some 47 := by
      have h3 : path = (A0 ++ [47] ++ x) ++ 47 :: (y ++ path_of ys ++ 47 :: rest) := by
        rw [hp2, hy]; simp [path_of]
      have := cstr_at_head (A0 ++ [47] ++ x) (y ++ path_of ys ++ 47 :: rest) 47
      have hl : (A0 ++ [47] ++ x).length = A0.length + 1 + x.length := by
        simp only [List.length_append, List.length_singleton]
      rw [← h3, hl] at this
      exact this
    have hpl : A0.length + 1 + x.length ≤ path.length := by
      rw [hp2]; simp; omega
    rw [split_loop, if_pos ⟨by omega, hpl⟩, hc]
    simp only [if_true, Nat.add_sub_cancel_left]
    rw [if_neg (by omega)]
    have hb : bytes_at path (A0.length + 1) x.length = x := by
      have := bytes_at_mid (A0 ++ [47]) x (path_of (pre1 ++ [long]) ++ 47 :: rest)
      rw [← hp2, hal] at this
      exact this
    rw [hb]
    unfold set_row
    rw [if_pos ⟨by omega, hxl⟩]
    simp only
    obtain ⟨pl1, h1⟩ := ih path (A0 ++ [47] ++ x) (i + 1) (pathl.set i x)
      (by rw [hpath]; simp [path_of])
      (fun z hz => hpre z (List.mem_cons_of_mem _ hz)) (by omega)
      (by simp only [List.length_set]; omega)
    have hal2 : (A0 ++ [47] ++ x).length = A0.length + 1 + x.length := by
      simp only [List.length_append, List.length_singleton]
    rw [hal2] at h1
    exact ⟨pl1, h1⟩

theorem split_path_ok (P : Params) (x : CStr) (cs : List CStr) (pathl : List CStr)
    (hns : ∀ y ∈ x :: cs, ∀ c ∈ y, c ≠ 47) (hlens : ∀ y ∈ x :: cs, y.length ≤ P.MAX_FILENAME)
    (hdepth : cs.length + 1 ≤ P.MAX_PATH_DEPTH) (hrows : cs.length + 2 ≤ pathl.length) :
    ∃ rest, split_path P (path_of (x :: cs)) (path_of (x :: cs)).length pathl
      = some (0, x :: cs ++ [] :: rest) := by
  unfold split_path
  have hl := path_of_length cs x
  rw [if_neg (by omega)]
  have h0 : cstr_at (path_of (x :: cs)) 0 = some 47 := by
    have := cstr_at_head [] (x ++ path_of cs) 47
    simpa [path_of] using this
  rw [h0]
  simp only [ne_eq, not_true_eq_false, if_false]
  obtain ⟨rest, hrest⟩ := split_loop_spec P cs (path_of (x :: cs)) [47] x 0 pathl
    (by simp [path_of]) (hns x (List.mem_cons_self _ _))
    (fun y hy => hns y (List.mem_cons_of_mem _ hy)) (hlens x (List.mem_cons_self _ _))
    (fun y hy => hlens y (List.mem_cons_of_mem _ hy)) (by omega) (by omega)
  refine ⟨rest, ?_⟩
  rw [← hl] at hrest
  simpa using hrest

/-- C13 fails on the code: with `MAX_PATH_DEPTH = 3` the path "/a/b/c/d" has 4
components; the scan of `split_path` stops after the third '/', the rest of the path is
dropped and 0 is returned. -/
theorem split_path_deep_returns_zero :
    demo.MAX_PATH_DEPTH = 3 ∧
    split_path demo [47, 97, 47, 98, 47, 99, 47, 100] 8 demo_pl0
      = some (0, [[97], [98], [99], []]) := by
  decide

/-- C13, amended: `split_path` returns -1 for the empty path, for every path that does
not begin with '/', and for every path "/c1/.../ck/long/rest" in which `c1`, …, `ck`
(`k < MAX_PATH_DEPTH`) have at most `MAX_FILENAME` bytes and the component `long`, which
is followed by a '/', has more; it returns 0, with the components and an empty row
stored, for every path "/c1/.../ck" of at most `MAX_PATH_DEPTH` components of at most
`MAX_FILENAME` bytes each. -/
theorem split_path_validation (P : Params) (pathl : List CStr) :
    (∀ path : CStr, split_path P path 0 pathl = some (-1, pathl)) ∧
    (∀ (path : CStr) (pathlen c : Nat), cstr_at path 0 = some c → c ≠ 47 →
      split_path P path pathlen pathl = some (-1, pathl)) ∧
    (∀ (pre : List CStr) (long rest : CStr),
      (∀ x ∈ pre, x.length ≤ P.MAX_FILENAME ∧ ∀ c ∈ x, c ≠ 47) → (∀ c ∈ long, c ≠ 47) →
      P.MAX_FILENAME < long.length → pre.length < P.MAX_PATH_DEPTH →
      pre.length ≤ pathl.length →
      ∃ pl1, split_path P (path_of (pre ++ [long]) ++ 47 :: rest)
        (path_of (pre ++ [long]) ++ 47 :: rest).length pathl = some (-1, pl1)) ∧
    (∀ (x : CStr) (cs : List CStr),
      (∀ y ∈ x :: cs, y.length ≤ P.MAX_FILENAME ∧ ∀ c ∈ y, c ≠ 47) →
      cs.length + 1 ≤ P.MAX_PATH_DEPTH → cs.length + 2 ≤ pathl.length →
      ∃ rest, split_path P (path_of (x :: cs)) (path_of (x :: cs)).length pathl
        = some (0, x :: cs ++ [] :: rest)) := by
  refine ⟨?_, ?_, ?_, ?_⟩
  · intro path
    unfold split_path
    rw [if_pos (by omega)]
  · intro path pathlen c hc hne
    unfold split_path
    by_cases hp : pathlen < 1
    · rw [if_pos hp]
    · rw [if_neg hp, hc]
      simp only [ne_eq, hne, not_false_eq_true, if_true]
  · intro pre long rest hpre hlong hlen hdepth hrows
    obtain ⟨y, ys, hy⟩ := List.exists_cons_of_ne_nil
      (show pre ++ [long] ≠ [] by simp)
    have hl : (path_of (pre ++ [long]) ++ 47 :: rest).length
        = (path_of (pre ++ [long])).length + rest.length + 1 := by
      simp only [List.length_append, List.length_cons]; omega
    obtain ⟨pl1, h1⟩ := split_loop_long P long rest hlong hlen pre
      (path_of (pre ++ [long]) ++ 47 :: rest) [] 0 pathl (by simp) hpre (by omega) (by omega)
    refine ⟨pl1, ?_⟩
    unfold split_path
    rw [if_neg (by omega)]
    have h0 : cstr_at (path_of (pre ++ [long]) ++ 47 :: rest) 0 = some 47 := by
      rw [hy]
      have := cstr_at_head [] (y ++ path_of ys ++ 47 :: rest) 47
      simpa [path_of] using this
    rw [h0]
    simp only [ne_eq, not_true_eq_false, if_false]
    rw [← hl] at h1
    simpa using h1
  · intro x cs hgood hdepth hrows
    exact split_path_ok P x cs pathl (fun y hy => (hgood y hy).2) (fun y hy => (hgood y hy).1)
      hdepth hrows

/-- The allocation loop of `my_write` on a well-formed inode: the `n` new blocks go to
the slots `blocks`, …, `blocks + n - 1`, each was free, and each is all zero afterwards. -/
theorem alloc_loop_detail (P : Params) (n : Nat) (ino : Inode) (s : FS) (hI : ImageOK P s)
    (hN : InodeOK P s ino) (hcap : ino.blocks + n ≤ P.NUM_POINTERS)
    (hfree : n ≤ s.d_bmap.count 0) :
    ∃ ino1 s1, alloc_loop P n ino s = some (ino1, s1) ∧
      ino1.blocks = ino.blocks + n ∧ s1.d_bmap.count 0 + n = s.d_bmap.count 0 ∧
      (∀ j, j < ino.blocks → ino1.pointers[j]? = ino.pointers[j]?) ∧
      (∀ t, t < n → ∃ b, ino1.pointers[ino.blocks + t]? = some b ∧ 9 ≤ b ∧
        s.d_bmap[b]? = some 0 ∧ s1.d_bmap[b]? = some 1 ∧
        s1.blocks[b]? = some (List.replicate P.BLOCKSIZE 0)) ∧
      (∀ j, ino.blocks + n ≤ j → j < P.NUM_POINTERS → ino1.pointers[j]? = some 0) ∧
      (0 < n → first_zero_slot ino.pointers 0 = some ino.blocks) ∧
      (∀ (q v : Nat), s.d_bmap[q]? = some v → v ≠ 0 →
        s1.d_bmap[q]? = some v ∧ s1.blocks[q]? = s.blocks[q]?) := by
  induction n generalizing ino s with
  | zero =>
    exact ⟨ino, s, rfl, rfl, rfl, fun _ _ => rfl, fun t ht => absurd ht (by omega),
      fun j hj hjK => hN.unused j (by omega) hjK, fun h => absurd h (by omega),
      fun q v hv _ => ⟨hv, rfl⟩⟩
  | succ n ih =>
    have hlt : ino.blocks < P.NUM_POINTERS := by omega
    have hslot : first_zero_slot ino.pointers 0 = some ino.blocks := by
      have := first_zero_slot_spec ino.pointers 0 ino.blocks
        (fun j hj => by
          obtain ⟨p, hp, hp8, _⟩ := hN.used j hj
          exact ⟨p, hp, by omega⟩)
        (hN.unused ino.blocks (le_refl _) hlt)
      simpa using this
    obtain ⟨b, hb, hb9, hb0, hcount⟩ := get_next_free_block_spec P s hI (by omega)
    have hbl : b < s.d_bmap.length := lt_of_getElem?_some _ _ _ hb0
    have hblen : b < s.blocks.length := lt_of_lt_of_le hbl hI.bmap_len
    have hmeta : is_meta_block b = false := by
      simp [is_meta_block]; omega
    obtain ⟨hI2, hN2⟩ := alloc_step_ok P ino s b hI hN hlt hb9 hb0
    obtain ⟨ino1, s1, h1, h2, h3, h4, h5, h6, _, h8⟩ := ih _ _ hI2 hN2
      (by simp only; omega) (by simp only; omega)
    simp only at h2 h3 h4 h5 h6 h8
    have hmb : (s.d_bmap.set b 1)[b]? = some 1 := List.getElem?_set_self hbl
    refine ⟨ino1, s1, ?_, by omega, by omega, ?_, ?_, ?_, fun _ => hslot, ?_⟩
    · unfold alloc_loop
      simp only [hslot, hb, write_block, hmeta, hblen, if_true, Option.getD_some]
      simpa using h1
    · intro j hj
      rw [h4 j (by omega), List.getElem?_set_ne (by omega)]
    · intro t ht
      cases t with
      | zero =>
        refine ⟨b, ?_, hb9, hb0, ?_, ?_⟩
        · rw [Nat.add_zero, h4 ino.blocks (by omega),
            List.getElem?_set_self (by rw [hN.len]; exact hlt)]
        · exact (h8 b 1 hmb (by decide)).1
        · rw [(h8 b 1 hmb (by decide)).2]
          exact List.getElem?_set_self hblen
      | succ t =>
        obtain ⟨b2, p1, p2, p3, p4, p5⟩ := h5 t (by omega)
        refine ⟨b2, by rw [← p1]; congr 1; omega, p2, ?_, p4, p5⟩
        by_cases hbb : b2 = b
        · subst hbb
          rw [List.getElem?_set_self hbl] at p3
          simp at p3
        · rw [List.getElem?_set_ne (Ne.symm hbb)] at p3
          exact p3
    · intro j hj hjK
      exact h6 j (by omega) hjK
    · intro q v hv hv0
      have hqb : q ≠ b := by
        intro e; subst e
        rw [hb0] at hv
        simp only [Option.some.injEq] at hv
        exact hv0 hv.symm
      have hq2 : (s.d_bmap.set b 1)[q]? = some v := by
        rw [List.getElem?_set_ne (Ne.symm hqb)]; exact hv
      refine ⟨(h8 q v hq2 hv0).1, ?_⟩
      rw [(h8 q v hq2 hv0).2]
      rw [List.getElem?_set_ne (Ne.symm hqb)]

theorem set_inode_getD_d_bmap (s : FS) (i : Nat) (ino : Inode) :
    ((set_inode s i ino).getD s).d_bmap = s.d_bmap := by
  unfold set_inode
  split <;> rfl

/-- C16: for a well-formed inode and a write whose required block count
`R = ceil((offset + size) / BLOCKSIZE)` is at most `K` (with enough free blocks),
`my_write` first runs the allocation loop `R - blocks` times and then the copy loop on
its result.  The allocation loop takes exactly `R - blocks` entries from the data-block
bitmap (none when `R ≤ blocks`, where image and inode stay as they are), the copy loop
none; the new blocks are stored in the slots `blocks`, …, `R - 1`, the first of which is
the first zero slot of `pointers`; each was free, and each is all zero when the copy loop
starts. -/
theorem write_allocation_count (P : Params) (s : FS) (inum : Nat) (ino : Inode)
    (buf : List Nat) (size offset : Nat) (hI : ImageOK P s)
    (hget : get_inode s inum = some ino) (hN : InodeOK P s ino)
    (hR : (size + offset + P.BLOCKSIZE - 1) / P.BLOCKSIZE ≤ P.NUM_POINTERS)
    (hword : P.NUM_POINTERS * P.BLOCKSIZE + P.BLOCKSIZE ≤ 2 ^ 32)
    (hfree : (size + offset + P.BLOCKSIZE - 1) / P.BLOCKSIZE - ino.blocks
      ≤ s.d_bmap.count 0) :
    ∃ ino1 s_mid,
      alloc_loop P ((size + offset + P.BLOCKSIZE - 1) / P.BLOCKSIZE - ino.blocks) ino s
        = some (ino1, s_mid) ∧
      my_write P inum buf size offset s
        = (write_loop P { ino1 with size := size + offset } buf size size
            (offset / P.BLOCKSIZE) (offset % P.BLOCKSIZE) 0 0 s_mid).map
          (fun r => ((r.1 : Int),
            (set_inode r.2 inum { ino1 with size := size + offset }).getD r.2)) ∧
      s_mid.d_bmap.count 0 + ((size + offset + P.BLOCKSIZE - 1) / P.BLOCKSIZE - ino.blocks)
        = s.d_bmap.count 0 ∧
      (∀ r s1, my_write P inum buf size offset s = some (r, s1) →
        s1.d_bmap = s_mid.d_bmap) ∧
      ((size + offset + P.BLOCKSIZE - 1) / P.BLOCKSIZE ≤ ino.blocks →
        s_mid = s ∧ ino1 = ino) ∧
      (∀ j, j < ino.blocks → ino1.pointers[j]? = ino.pointers[j]?) ∧
      (∀ t, t < (size + offset + P.BLOCKSIZE - 1) / P.BLOCKSIZE - ino.blocks →
        ∃ b, ino1.pointers[ino.blocks + t]? = some b ∧ 9 ≤ b ∧
          s.d_bmap[b]? = some 0 ∧ s_mid.d_bmap[b]? = some 1 ∧
          s_mid.blocks[b]? = some (List.replicate P.BLOCKSIZE 0)) ∧
      (∀ j, ino.blocks + ((size + offset + P.BLOCKSIZE - 1) / P.BLOCKSIZE - ino.blocks) ≤ j →
        j < P.NUM_POINTERS → ino1.pointers[j]? = some 0) ∧
      (ino.blocks < (size + offset + P.BLOCKSIZE - 1) / P.BLOCKSIZE →
        first_zero_slot ino.pointers 0 = some ino.blocks) := by
  have hB := hI.bpos
  have hcapB : ino.blocks ≤ P.NUM_POINTERS := hN.cap
  have hso : size + offset ≤ P.NUM_POINTERS * P.BLOCKSIZE :=
    le_trans (le_ceil_div_mul (size + offset) P.BLOCKSIZE hB) (Nat.mul_le_mul_right _ hR)
  obtain ⟨ino1, s1, h1, h2, h3, h4, h5, h6, h7, h8⟩ := alloc_loop_detail P
    ((size + offset + P.BLOCKSIZE - 1) / P.BLOCKSIZE - ino.blocks) ino s hI hN (by omega) hfree
  obtain ⟨ino1', s1', g1, gI, gN, _⟩ := alloc_loop_spec P
    ((size + offset + P.BLOCKSIZE - 1) / P.BLOCKSIZE - ino.blocks) ino s hI hN (by omega) hfree
  rw [h1] at g1
  simp only [Option.some.injEq, Prod.mk.injEq] at g1
  obtain ⟨rfl, rfl⟩ := g1
  have hu1 : u32 (size + offset + P.BLOCKSIZE - 1) = size + offset + P.BLOCKSIZE - 1 := by
    unfold u32; exact Nat.mod_eq_of_lt (by omega)
  have hu2 : u32 (size + offset) = size + offset := by
    unfold u32; exact Nat.mod_eq_of_lt (by omega)
  have heq : my_write P inum buf size offset s
      = (write_loop P { ino1 with size := size + offset } buf size size
          (offset / P.BLOCKSIZE) (offset % P.BLOCKSIZE) 0 0 s1).map
        (fun r => ((r.1 : Int),
          (set_inode r.2 inum { ino1 with size := size + offset }).getD r.2)) := by
    unfold my_write
    rw [if_neg (by omega), hget]
    simp only [hu1, hu2, h1]
    cases write_loop P { ino1 with size := size + offset } buf size size
        (offset / P.BLOCKSIZE) (offset % P.BLOCKSIZE) 0 0 s1 with
    | none => rfl
    | some r => rfl
  refine ⟨ino1, s1, h1, heq, h3, ?_, ?_, h4, h5, h6, fun h => h7 (by omega)⟩
  · intro r s2 hrun
    rw [heq] at hrun
    cases hl : write_loop P { ino1 with size := size + offset } buf size size
        (offset / P.BLOCKSIZE) (offset % P.BLOCKSIZE) 0 0 s1 with
    | none => rw [hl] at hrun; simp at hrun
    | some q =>
      obtain ⟨bw, sw⟩ := q
      rw [hl] at hrun
      simp only [Option.map_some', Option.some.injEq, Prod.mk.injEq] at hrun
      obtain ⟨_, f2, _⟩ := write_loop_frame P { ino1 with size := size + offset } buf size
        size _ _ 0 0 s1 sw bw (le_of_lt (Nat.mod_lt _ hB)) gI.blk_len
        (fun j p hp => inodeOK_not_meta P s1 ino1 gN j p hp) hl
      rw [← hrun.2, set_inode_getD_d_bmap, f2]
  · intro hle
    have h0 : (size + offset + P.BLOCKSIZE - 1) / P.BLOCKSIZE - ino.blocks = 0 := by omega
    rw [h0] at h1
    simp only [alloc_loop, Option.some.injEq, Prod.mk.injEq] at h1
    exact ⟨h1.2.symm, h1.1.symm⟩

/-- C16 on the 5-byte, one-block file of inode 3: a write of 10 bytes at offset 0 needs
2 blocks. -/
theorem write_allocation_count_witness :
    ∃ ino1 s_mid,
      alloc_loop demo ((10 + 0 + demo.BLOCKSIZE - 1) / demo.BLOCKSIZE - 1)
        { type := 1, size := 5, blocks := 1, pointers := [10, 0, 0, 0] } demo_hello_fs
        = some (ino1, s_mid) ∧
      s_mid.d_bmap.count 0 + ((10 + 0 + demo.BLOCKSIZE - 1) / demo.BLOCKSIZE - 1)
        = demo_hello_fs.d_bmap.count 0 ∧
      (∀ t, t < (10 + 0 + demo.BLOCKSIZE - 1) / demo.BLOCKSIZE - 1 →
        ∃ b, ino1.pointers[1 + t]? = some b ∧ 9 ≤ b ∧
          demo_hello_fs.d_bmap[b]? = some 0 ∧ s_mid.d_bmap[b]? = some 1 ∧
          s_mid.blocks[b]? = some (List.replicate demo.BLOCKSIZE 0)) := by
  obtain ⟨ino1, s_mid, h1, _, h3, _, _, _, h7, _⟩ :=
    write_allocation_count demo demo_hello_fs 3
      { type := 1, size := 5, blocks := 1, pointers := [10, 0, 0, 0] }
      [1, 2, 3, 4, 5, 6, 7, 8, 9, 10] 10 0
      (imageOK_of_check _ _ (by decide)) (by decide) (inodeOK_of_check _ _ _ (by decide))
      (by decide) (by decide) (by decide)
  exact ⟨ino1, s_mid, h1, h3, h7⟩

/-- C15 fails on the code: the path "/abcd/x" has a first component of 4 bytes
(`MAX_FILENAME = 3`), so `split_path` returns -1 before it stores a row; the walk of
`get_inode_for_path` then reads the uninitialised pathlist.  On one image, a call that
finds an empty first row there returns 0 for inode 2, and a call that finds the row "x"
returns `-ENOENT`. -/
theorem my_getattr_reads_stale_pathlist :
    (split_path demo [47, 97, 98, 99, 100, 47, 120] 7 [[120], [], [], []]).map Prod.fst
      = some (-1) ∧
    (my_getattr demo [[], [], [], []] [47, 97, 98, 99, 100, 47, 120] stat0 demo_a_fs).map
      (fun r => (r.1, r.2.st_ino)) = some (0, 2) ∧
    (my_getattr demo [[120], [], [], []] [47, 97, 98, 99, 100, 47, 120] stat0 demo_a_fs).map
      Prod.fst = some (-ENOENT) := by
  decide

theorem grow_pointers_total (P : Params) (n : Nat) :
    ∀ (j : Nat) (ptrs : List Nat) (s : FS), ImageOK P s → j + n ≤ ptrs.length →
      n ≤ s.d_bmap.count 0 → ∃ ptrs2 s2, grow_pointers n j ptrs s = some (ptrs2, s2) := by
  induction n with
  | zero => intro j ptrs s _ _ _; exact ⟨ptrs, s, rfl⟩
  | succ n ih =>
    intro j ptrs s hI hlen hfree
    obtain ⟨b, hb, _, _, hcount⟩ := get_next_free_block_spec P s hI (by omega)
    rw [grow_pointers, if_neg (by omega), hb]
    simp only
    exact ih (j + 1) (ptrs.set j b) _ (imageOK_mark P s b hI)
      (by rw [List.length_set]; omega) (by simp only; omega)

theorem get_next_free_inode_total (s : FS) (k : Nat) (hk : 2 ≤ k)
    (hfree : s.i_bmap[k]? = some 0) :
    ∃ i s0, get_next_free_inode s = some (i, s0) ∧ 2 ≤ i ∧ i ≤ k := by
  have hlen : k < s.i_bmap.length := lt_of_getElem?_some _ _ _ hfree
  have hd : (s.i_bmap.drop 2)[k - 2]? = some 0 := by
    rw [List.getElem?_drop, show 2 + (k - 2) = k by omega]
    exact hfree
  obtain ⟨m, h1, h2, _, _⟩ := scan_free_least (s.i_bmap.drop 2) 2 (k - 2) hd
  refine ⟨2 + m, set_i_bmap s (s.i_bmap.set (2 + m) 1), ?_, by omega, by omega⟩
  unfold get_next_free_inode get_i_bmap
  simp only
  rw [if_neg (by omega), h1]

/-- `add_rec_to_dir_inode` returns on a directory of a well-formed image when the chain
with the new record fits into `K` blocks and the missing blocks are free. -/
theorem add_rec_total (P : Params) (hP : ParamsOK P) (s : FS) (hI : FsInv P s) (p : Nat)
    (inoP : Inode) (rec : DirRec) (c : List DirRec) (hap : allocated s p)
    (hino : s.inodes[p]? = some inoP) (hty : inoP.type = P.TYPE_DIR)
    (hrec : GoodName P rec.name ∧ 2 ≤ rec.inum ∧ allocated s rec.inum)
    (hc : read_dir_from_blocks P s inoP.size inoP.blocks inoP.pointers = some (some c))
    (hcapK : ((c.length + 1) * P.DIRREC_SIZE + P.BLOCKSIZE - 1) / P.BLOCKSIZE
      ≤ P.NUM_POINTERS)
    (hfree : ((c.length + 1) * P.DIRREC_SIZE + P.BLOCKSIZE - 1) / P.BLOCKSIZE - inoP.blocks
      ≤ s.d_bmap.count 0) :
    ∃ r s1, add_rec_to_dir_inode P s p rec = some (r, s1) := by
  obtain ⟨c0, hc0, hgoodc, hdot⟩ := hI.chain p inoP hap hino hty
  rw [hc] at hc0
  simp only [Option.some.injEq] at hc0
  subst hc0
  have hplt : p < s.inodes.length := lt_of_getElem?_some _ _ _ hino
  have hsl := stream_length P hP.codec (rec :: c)
  simp only [List.length_cons] at hsl
  unfold add_rec_to_dir_inode
  simp only [get_inode, hino, read_dir_from_inode, hc]
  by_cases hfit : ((c.length + 1) * P.DIRREC_SIZE + P.BLOCKSIZE - 1) / P.BLOCKSIZE ≤ inoP.blocks
  · obtain ⟨s3, h1, h2, _⟩ := dir_update_step P hP s hI p inoP c rec 0
      inoP.pointers s inoP.size hap hino hty hgoodc hdot hrec rfl (by simpa using hfit)
    simp only [Nat.add_zero] at h1
    rw [h1]
    simp
  · have hlt : inoP.blocks
        < (((rec :: c).map P.encode).flatten.length + P.BLOCKSIZE - 1) / P.BLOCKSIZE := by
      rw [hsl]; omega
    rw [write_dir_short P hP.bpos s (rec :: c) inoP.blocks inoP.pointers inoP.size hlt, hsl]
    have hne1 : ¬ (((((c.length + 1) * P.DIRREC_SIZE + P.BLOCKSIZE - 1) / P.BLOCKSIZE
        - inoP.blocks : Nat) : Int) = -1) := by omega
    have hgt : ((((c.length + 1) * P.DIRREC_SIZE + P.BLOCKSIZE - 1) / P.BLOCKSIZE
        - inoP.blocks : Nat) : Int) > 0 := by omega
    simp only [hne1, if_false, hgt, if_true, Int.toNat_ofNat]
    obtain ⟨ptrs2, s2, hg⟩ := grow_pointers_total P
      (((c.length + 1) * P.DIRREC_SIZE + P.BLOCKSIZE - 1) / P.BLOCKSIZE - inoP.blocks)
      inoP.blocks inoP.pointers s hI.img (by rw [hI.plen p inoP hino]; omega) hfree
    rw [hg]
    simp only
    obtain ⟨s3, h1, _⟩ := dir_update_step P hP s hI p inoP c rec
      (((c.length + 1) * P.DIRREC_SIZE + P.BLOCKSIZE - 1) / P.BLOCKSIZE - inoP.blocks)
      ptrs2 s2 inoP.size hap hino hty hgoodc hdot hrec hg (by omega)
    rw [h1]
    simp

/-- `my_mknod` returns when the parent path resolves to a directory of a well-formed
image, an inode is free, and the chain of the directory with one more record fits into
`K` blocks, the missing blocks being free. -/
theorem my_mknod_total (P : Params) (hP : ParamsOK P) (s : FS) (hI : FsInv P s)
    (pl0 : List CStr) (path leaf : CStr) (p : Nat) (inoP : Inode) (c : List DirRec) (k : Nat)
    (hpar : get_parent_dir_inode P pl0 s path = some p) (hap : allocated s p)
    (hino : s.inodes[p]? = some inoP) (hty : inoP.type = P.TYPE_DIR)
    (hleaf : get_file_from_path P path = some leaf) (hnz : ∀ c ∈ path, c ≠ 0)
    (hk : 2 ≤ k) (hkfree : s.i_bmap[k]? = some 0)
    (hc : read_dir_from_blocks P s inoP.size inoP.blocks inoP.pointers = some (some c))
    (hcapK : ((c.length + 1) * P.DIRREC_SIZE + P.BLOCKSIZE - 1) / P.BLOCKSIZE
      ≤ P.NUM_POINTERS)
    (hfree : ((c.length + 1) * P.DIRREC_SIZE + P.BLOCKSIZE - 1) / P.BLOCKSIZE - inoP.blocks
      ≤ s.d_bmap.count 0) :
    ∃ r s1, my_mknod P pl0 path s = some (r, s1) := by
  obtain ⟨n, s0, hn, _, _⟩ := get_next_free_inode_total s k hk hkfree
  obtain ⟨hn2, hfreeN, hs0⟩ := get_next_free_inode_inv s s0 n hn
  subst hs0
  have hna := free_not_allocated s n hfreeN
  have hpn : p ≠ n := fun h => hna (h ▸ hap)
  obtain ⟨old, hold, hstepA⟩ := mknod_inode_step P hP s hI n hfreeN hn2
  have hnl2 : n < s.inodes.length := lt_of_getElem?_some _ _ _ hold
  have hgi : get_inode { s with i_bmap := s.i_bmap.set n 1 } n = some old := hold
  have hIA := fsInv_step P s _ n _ _ hI hstepA
  have hapA := (hstepA.alloc_iff p).2 (Or.inl hap)
  have hanA := (hstepA.alloc_iff n).2 (Or.inr rfl)
  have hinoA := (step_inode_ne P s _ n _ _ hstepA p hpn).trans hino
  have hgood : GoodName P (leaf.take P.MAX_FILENAME) := by
    refine ⟨by simp [List.length_take], fun c hc => ?_⟩
    exact hnz c (get_file_from_path_mem P path leaf hleaf c (List.mem_of_mem_take hc))
  obtain ⟨r2, s3, har⟩ := add_rec_total P hP _ hIA p inoP ⟨leaf.take P.MAX_FILENAME, n⟩ c
    hapA hinoA hty ⟨hgood, hn2, hanA⟩
    ((step_frame P s _ n _ _ hI hstepA p inoP hpn hap hino).trans hc) hcapK hfree
  refine ⟨0, s3, ?_⟩
  unfold my_mknod
  simp only [hpar, hleaf, hn]
  simp only [hgi, set_inode, hnl2, if_true, Option.getD_some]
  rw [show ({ type := P.TYPE_FILE, size := 0, blocks := 0, pointers := old.pointers } : Inode)
    = Inode.mk P.TYPE_FILE 0 0 old.pointers from rfl]
  simp only [har]

theorem count_zero_fresh (n m : Nat) :
    (List.replicate n 1 ++ List.replicate m 0).count 0 = m := by
  rw [List.count_append, List.count_replicate, List.count_replicate]
  simp

theorem parent_of_root_level (P : Params) (pl0 : List CStr) (s : FS) (name : CStr)
    (hch : ∀ c ∈ name, c ≠ 47)
    (hcap : name.length + 1 ≤ P.MAX_FILENAME * P.MAX_PATH_DEPTH)
    (hpl0 : pl0.head? = some []) :
    get_file_from_path P (47 :: name) = some name ∧
    get_parent_dir_inode P pl0 s (47 :: name) = some 2 := by
  have e : path_of ([] ++ [name]) = 47 :: name := by simp [path_of]
  have hp := path_parts P [] name hch (by rw [e]; simpa using hcap)
  have hf := get_file_from_path_parts P [] name hch (by rw [e]; simpa using hcap)
  rw [e] at hp hf
  simp only [path_of, List.length_nil, List.take_zero] at hp
  constructor
  · exact hf
  · unfold get_parent_dir_inode
    simp only [hp.1, List.take_zero]
    cases pl0 with
    | nil => simp at hpl0
    | cons y g =>
      simp only [List.head?_cons, Option.some.injEq] at hpl0
      subst hpl0
      have hsp0 : split_path P [] (strnlen [] (P.MAX_PATH_DEPTH * P.MAX_FILENAME)) ([] :: g)
          = some (-1, [] :: g) := by
        simp [strnlen, split_path]
      rw [get_inode_for_path_rows P _ _ s _ _ _ _ hsp0 rfl]
      exact walk_nil P s g 2

/-- C18 fails on the code: in the small configuration (`MAX_FILENAME = 3`) the leaf of
"/abcd" is "abcd" and its parent is the root directory 2, and `my_mknod("/abcd")` on the
fresh image copies the first 3 bytes of the leaf: the record put into the root chain is
("abc", 3), not ("abcd", 3). -/
theorem root_level_mknod_truncates_name :
    ∃ s0 s1, my_init demo demo_inode0 (zero_image demo) = some s0 ∧
      get_file_from_path demo [47, 97, 98, 99, 100] = some [97, 98, 99, 100] ∧
      get_parent_dir_inode demo demo_pl0 s0 [47, 97, 98, 99, 100] = some 2 ∧
      my_mknod demo demo_pl0 [47, 97, 98, 99, 100] s0 = some (0, s1) ∧
      read_dir_from_inode demo s1 2
        = some (some [⟨[97, 98, 99], 3⟩, ⟨[46], 2⟩, ⟨[46, 46], 2⟩]) := by
  refine ⟨demo_fresh_fs, demo_abcd_fs, ?_, ?_, ?_, ?_, ?_⟩ <;> decide

/-- C18, amended: for every path "/" followed by a name free of NUL and '/' of at most
`MAX_FILENAME` bytes (the path having at most `MAX_FILENAME * MAX_PATH_DEPTH` bytes),
`get_file_from_path` yields the name; when the first row of the uninitialised
`pathlist` that the parent lookup reads is empty, `get_parent_dir_inode` returns 2 on
every image, and `my_mknod` on a freshly initialised image (with at least 2 pointers, 10
blocks and 4 inodes) returns 0, makes inode 3 an empty file and puts the record
`(name, 3)` in front of the root chain `[(".", 2), ("..", 2)]`. -/
theorem root_level_mknod (P : Params) (hP : ParamsOK P) (junk : Inode) (s : FS)
    (pl0 : List CStr) (name : CStr) (hjunk : junk.pointers.length = P.NUM_POINTERS)
    (hinit : my_init P junk (zero_image P) = some s) (hlen : name.length ≤ P.MAX_FILENAME)
    (hch : ∀ c ∈ name, c ≠ 0 ∧ c ≠ 47)
    (hcap : name.length + 1 ≤ P.MAX_FILENAME * P.MAX_PATH_DEPTH)
    (hpl0 : pl0.head? = some []) (hK : 2 ≤ P.NUM_POINTERS) (hN : 10 ≤ P.NUM_OF_BLOCKS)
    (hNI : 4 ≤ P.NUM_INODES) :
    get_file_from_path P (47 :: name) = some name ∧
    (∀ s0 : FS, get_parent_dir_inode P pl0 s0 (47 :: name) = some 2) ∧
    ∃ (s1 : FS) (ptrs : List Nat), my_mknod P pl0 (47 :: name) s = some (0, s1) ∧
      get_inode s1 3 = some (Inode.mk P.TYPE_FILE 0 0 ptrs) ∧
      read_dir_from_inode P s1 2 = some (some [⟨name, 3⟩, ⟨[46], 2⟩, ⟨[46, 46], 2⟩]) := by
  have hpp := fun s0 => parent_of_root_level P pl0 s0 name (fun c hc => (hch c hc).2) hcap hpl0
  refine ⟨(hpp s).1, fun s0 => (hpp s0).2, ?_⟩
  have hI := my_init_inv P junk s hP hP.nblocks hP.ninodes hjunk hP.kpos hinit
  obtain ⟨s1, h0, hib, hdb, hin, _, _, hrd⟩ := my_init_state P junk hP hP.nblocks hP.ninodes
    (by rw [hjunk]; exact hP.kpos)
  rw [h0] at hinit
  simp only [Option.some.injEq] at hinit
  have e1 : s.inodes = s1.inodes.set 2
      (Inode.mk P.TYPE_DIR (2 * P.DIRREC_SIZE) 1 (junk.pointers.set 0 8)) := by rw [← hinit]
  have e2 : s.i_bmap = s1.i_bmap := by rw [← hinit]
  have e3 : s.d_bmap = s1.d_bmap := by rw [← hinit]
  have e4 : s.blocks = s1.blocks := by rw [← hinit]
  have hB := hP.bpos
  have hfit := hP.fit
  have hino : s.inodes[2]?
      = some (Inode.mk P.TYPE_DIR (2 * P.DIRREC_SIZE) 1 (junk.pointers.set 0 8)) := by
    rw [e1, List.getElem?_set_self (by rw [hin, List.length_replicate]; omega)]
  have hc : read_dir_from_blocks P s (2 * P.DIRREC_SIZE) 1 (junk.pointers.set 0 8)
      = some (some [⟨[46], 2⟩, ⟨[46, 46], 2⟩]) :=
    (read_dir_congr P s1 s _ _ _
      (single_ptr_not_meta _ 8 (le_refl _)
        (by rw [List.getElem?_set_self (by have := hP.kpos; omega)]))
      (fun _ _ _ _ => by rw [e4])).trans hrd
  have hceil : ((0 + 1 + 1 + 1) * P.DIRREC_SIZE + P.BLOCKSIZE - 1) / P.BLOCKSIZE ≤ 2 :=
    ceil_div_le _ _ 2 hB (by omega)
  have hk3 : s.i_bmap[3]? = some 0 := by
    rw [e2, hib, List.getElem?_set_ne (by decide)]
    simp [List.getElem?_replicate]; omega
  have hnz : ∀ c ∈ (47 :: name), c ≠ 0 := by
    intro c hc
    rcases List.mem_cons.1 hc with h | h
    · omega
    · exact (hch c h).1
  obtain ⟨r, s2, hrun⟩ := my_mknod_total P hP s hI pl0 (47 :: name) name 2 _
    [⟨[46], 2⟩, ⟨[46, 46], 2⟩] 3 (hpp s).2 hI.root.1 hino rfl (hpp s).1 hnz (by decide) hk3 hc
    (by simp only [List.length_cons, List.length_nil]; omega)
    (by
      simp only [List.length_cons, List.length_nil]
      rw [e3, hdb, count_zero_fresh]
      omega)
  obtain ⟨n, sx, c, inoP1, ptrs, hgn, _, hn2, hr0, _, _, hn1, hc0, hc1, _⟩ :=
    my_mknod_spec P hP s s2 hI pl0 (47 :: name) name 2 _ r (hpp s).2 hI.root.1 hino rfl
      (hpp s).1 hnz hrun
  have hn3 : n = 3 := by
    obtain ⟨i, si, hgi, hi2, hi3⟩ := get_next_free_inode_total s 3 (by decide) hk3
    rw [hgn] at hgi
    simp only [Option.some.injEq, Prod.mk.injEq] at hgi
    obtain ⟨hfz, _⟩ := (get_next_free_inode_inv s sx n hgn).2
    rw [e2, hib] at hfz
    by_cases h2 : n = 2
    · subst h2
      rw [List.getElem?_set_self (by rw [List.length_replicate]; omega)] at hfz
      simp at hfz
    · omega
  subst hn3
  have hcc : c = [⟨[46], 2⟩, ⟨[46, 46], 2⟩] := by
    rw [read_dir_inode_eq P s 2 _ hino, hc] at hc0
    simp only [Option.some.injEq] at hc0
    exact hc0.symm
  subst hcc
  rw [List.take_of_length_le hlen] at hc1
  subst hr0
  exact ⟨s2, ptrs, hrun, hn1, hc1⟩

/-- C18, amended, in the small configuration: "/a" on the fresh image. -/
theorem root_level_mknod_witness :
    get_file_from_path demo (47 :: [97]) = some [97] ∧
    (∀ s0 : FS, get_parent_dir_inode demo demo_pl0 s0 (47 :: [97]) = some 2) ∧
    ∃ (s1 : FS) (ptrs : List Nat), my_mknod demo demo_pl0 (47 :: [97]) demo_fresh_fs
        = some (0, s1) ∧
      get_inode s1 3 = some (Inode.mk demo.TYPE_FILE 0 0 ptrs) ∧
      read_dir_from_inode demo s1 2 = some (some [⟨[97], 3⟩, ⟨[46], 2⟩, ⟨[46, 46], 2⟩]) :=
  root_level_mknod demo demo_paramsOK demo_inode0 demo_fresh_fs demo_pl0 [97] (by decide)
    (by decide) (by decide) (by decide) (by decide) (by decide) (by decide) (by decide)
    (by decide)

theorem div_add_ceil_le (offset size B : Nat) (hB : 0 < B) :
    offset / B + (size + B - 1) / B ≤ (size + offset + B - 1) / B := by
  have h1 : size + offset + B - 1 = (size + offset % B + B - 1) + offset / B * B := by
    have := Nat.div_add_mod offset B
    have h2 : offset / B * B = B * (offset / B) := Nat.mul_comm _ _
    omega
  rw [h1, Nat.add_mul_div_right _ _ hB]
  have := Nat.div_le_div_right (c := B) (show size + B - 1 ≤ size + offset % B + B - 1 by omega)
  omega

theorem ceil_sub_block (size B : Nat) (hB : 0 < B) (h : B < size) :
    (size + B - 1) / B = (size - B + B - 1) / B + 1 := by
  have : size + B - 1 = (size - B + B - 1) + B := by omega
  rw [this, Nat.add_div_right _ hB]

/-- The copy loop of `my_write`, started at block index `cb` with `size` bytes to go,
writes only to blocks `pointers[l]` with `cb ≤ l < cb + ceil(size / BLOCKSIZE)`. -/
theorem write_loop_range (P : Params) (ino : Inode) (buf : List Nat)
    (hB : 0 < P.BLOCKSIZE) (fuel : Nat)
    (hnm : ∀ (j p : Nat), ino.pointers[j]? = some p → is_meta_block p = false) :
    ∀ (size cb bo d bw : Nat) (s s2 : FS) (r bound : Nat), bo ≤ P.BLOCKSIZE →
      BlocksSized P s →
      (0 < size → cb + (size + P.BLOCKSIZE - 1) / P.BLOCKSIZE ≤ bound) →
      write_loop P ino buf fuel size cb bo d bw s = some (r, s2) →
      ∀ q : Nat, (∀ l : Nat, cb ≤ l → l < bound → ino.pointers[l]? ≠ some q) →
        s2.blocks[q]? = s.blocks[q]? := by
  induction fuel with
  | zero =>
    intro size cb bo d bw s s2 r bound _ _ _ h q _
    simp only [write_loop, Option.some.injEq, Prod.mk.injEq] at h
    rw [← h.2]
  | succ fuel ih =>
    intro size cb bo d bw s s2 r bound hbo hsz hbound h q hq
    rw [write_loop] at h
    by_cases hs : size > 0
    · rw [if_pos hs] at h
      simp only at h
      generalize hnb : (if size ≥ P.BLOCKSIZE - bo then P.BLOCKSIZE - bo else size) = nb at h
      have hnble : nb ≤ P.BLOCKSIZE - bo := by
        split at hnb <;> omega
      have hb1 := hbound hs
      have hone : 1 ≤ (size + P.BLOCKSIZE - 1) / P.BLOCKSIZE :=
        (Nat.le_div_iff_mul_le hB).2 (by omega)
      cases hp : ino.pointers[cb]? with
      | none => simp [hp] at h
      | some ptr =>
        simp only [hp] at h
        have hptr : ptr ≠ q := by
          intro e
          exact hq cb (le_refl _) (by omega) (by rw [hp, e])
        by_cases hbuf : buf.length < d + nb ∨ 2 ^ 31 ≤ d + nb ∨ 2 ^ 31 ≤ bw + nb
        · rw [if_pos hbuf] at h
          simp at h
        · rw [if_neg hbuf] at h
          cases hw : write_chunk P s ptr bo (bytes_at buf d nb) with
          | none => simp [hw] at h
          | some sw =>
            simp only [hw] at h
            obtain ⟨_, _, _, _, hsz2, hfr⟩ := write_chunk_inv P s sw ptr bo _ hsz
              (by have := bytes_at_length_le buf d nb; omega) (hnm cb ptr hp) hw
            by_cases hgt : size > P.BLOCKSIZE
            · rw [if_pos hgt] at h
              have hc := ceil_sub_block size P.BLOCKSIZE hB hgt
              rw [ih _ _ _ _ _ sw s2 r bound (Nat.zero_le _) hsz2 (fun _ => by omega) h q
                (fun l hl hlb => hq l (by omega) hlb)]
              exact hfr q (Ne.symm hptr)
            · rw [if_neg hgt] at h
              rw [ih _ _ _ _ _ sw s2 r bound (Nat.zero_le _) hsz2
                (fun h0 => absurd h0 (by omega)) h q hq]
              exact hfr q (Ne.symm hptr)
    · rw [if_neg hs] at h
      simp only [Option.some.injEq, Prod.mk.injEq] at h
      rw [← h.2]

theorem set_inode_getD_frame (s : FS) (i : Nat) (ino : Inode) :
    ((set_inode s i ino).getD s).blocks = s.blocks ∧
    ∀ j, j ≠ i → ((set_inode s i ino).getD s).inodes[j]? = s.inodes[j]? := by
  unfold set_inode
  split
  · refine ⟨rfl, fun j hj => ?_⟩
    simp only [Option.getD_some]
    rw [List.getElem?_set_ne (Ne.symm hj)]
  · exact ⟨rfl, fun _ _ => rfl⟩

/-- The frame of `my_write` on a well-formed inode within its capacity: the other inode
records stay, and so does every marked block that is not one of the blocks of the
inode. -/
theorem my_write_frame (P : Params) (s s1 : FS) (inum : Nat) (ino : Inode) (buf : List Nat)
    (size offset : Nat) (r : Int) (hI : ImageOK P s) (hget : get_inode s inum = some ino)
    (hN : InodeOK P s ino) (hcap : size + offset ≤ P.NUM_POINTERS * P.BLOCKSIZE)
    (hword : P.NUM_POINTERS * P.BLOCKSIZE + P.BLOCKSIZE ≤ 2 ^ 32)
    (hrun : my_write P inum buf size offset s = some (r, s1)) :
    (∀ j, j ≠ inum → s1.inodes[j]? = s.inodes[j]?) ∧
    (∀ q, marked s q → (∀ l, l < ino.blocks → ino.pointers[l]? ≠ some q) →
      s1.blocks[q]? = s.blocks[q]?) := by
  have hB := hI.bpos
  have hR := ceil_div_le (size + offset) P.BLOCKSIZE P.NUM_POINTERS hB hcap
  have hu1 : u32 (size + offset + P.BLOCKSIZE - 1) = size + offset + P.BLOCKSIZE - 1 := by
    unfold u32; exact Nat.mod_eq_of_lt (by omega)
  have hu2 : u32 (size + offset) = size + offset := by
    unfold u32; exact Nat.mod_eq_of_lt (by omega)
  unfold my_write at hrun
  rw [if_neg (by omega), hget] at hrun
  simp only [hu1, hu2] at hrun
  cases ha : alloc_loop P ((size + offset + P.BLOCKSIZE - 1) / P.BLOCKSIZE - ino.blocks)
      ino s with
  | none => simp [ha] at hrun
  | some p =>
    obtain ⟨ino1, sa⟩ := p
    simp only [ha] at hrun
    have hcapB := hN.cap
    obtain ⟨aI, aN, ab, _, ai, _, _, _, aold, _, _, anew, afr⟩ :=
      alloc_loop_inv P _ ino ino1 s sa hI hN (by omega) ha
    have hnm1 : ∀ (j p : Nat),
        ({ ino1 with size := size + offset } : Inode).pointers[j]? = some p →
        is_meta_block p = false := fun j p hp => inodeOK_not_meta P sa ino1 aN j p hp
    cases hl : write_loop P { ino1 with size := size + offset } buf size size
        (offset / P.BLOCKSIZE) (offset % P.BLOCKSIZE) 0 0 sa with
    | none => simp [hl] at hrun
    | some w =>
      obtain ⟨bw, s2⟩ := w
      simp only [hl, Option.some.injEq, Prod.mk.injEq] at hrun
      have wi := (write_loop_meta P { ino1 with size := size + offset } buf size hnm1
        _ _ _ _ _ sa s2 bw hl).2.2
      obtain ⟨sb, si⟩ := set_inode_getD_frame s2 inum { ino1 with size := size + offset }
      rw [← hrun.2]
      constructor
      · intro j hj
        rw [si j hj, wi, ai]
      · intro q hq hnot
        rw [sb]
        have hrange := write_loop_range P { ino1 with size := size + offset } buf hB size
          hnm1 size (offset / P.BLOCKSIZE) (offset % P.BLOCKSIZE) 0 0 sa s2 bw ino1.blocks
          (le_of_lt (Nat.mod_lt _ hB)) aI.blk_len
          (fun _ => by
            have := div_add_ceil_le offset size P.BLOCKSIZE hB
            omega) hl q
          (fun l _ hlb => by
            show ino1.pointers[l]? ≠ some q
            by_cases hlo : l < ino.blocks
            · rw [aold l hlo]; exact hnot l hlo
            · obtain ⟨q2, hq2, _, hnm⟩ := anew l (by omega) hlb
              rw [hq2]
              intro e
              simp only [Option.some.injEq] at e
              exact hnm (e ▸ hq))
        rw [hrange, afr q hq]

theorem read_loop_congr (P : Params) (s s1 : FS) (ino : Inode) (start offset : Nat)
    (hm : ∀ (l p : Nat), ino.pointers[l]? = some p → is_meta_block p = false)
    (h : ∀ (l p : Nat), ino.pointers[l]? = some p → s1.blocks[p]? = s.blocks[p]?)
    (fuel : Nat) :
    ∀ (cb size retstat : Nat) (buf : List Nat),
      read_loop P s1 ino start offset fuel cb size retstat buf
        = read_loop P s ino start offset fuel cb size retstat buf := by
  induction fuel with
  | zero => intro cb size retstat buf; rfl
  | succ fuel ih =>
    intro cb size retstat buf
    rw [read_loop, read_loop]
    cases hp : ino.pointers[cb]? with
    | none => rfl
    | some ptr =>
      have hb : read_block P s1 ptr = read_block P s ptr := by
        unfold read_block
        rw [h cb ptr hp, hm cb ptr hp]
        rfl
      simp only [hb]
      cases read_block P s ptr with
      | none => rfl
      | some o =>
        cases o with
        | none => rfl
        | some blk =>
          simp only [ih]

theorem my_read_congr (P : Params) (s s1 : FS) (j : Nat)
    (hino : get_inode s1 j = get_inode s j)
    (hm : ∀ (jno : Inode) (l p : Nat), get_inode s j = some jno → jno.pointers[l]? = some p →
      is_meta_block p = false)
    (h : ∀ (jno : Inode) (l p : Nat), get_inode s j = some jno → jno.pointers[l]? = some p →
      s1.blocks[p]? = s.blocks[p]?) (buf : List Nat) (size offset : Nat) :
    my_read P j buf size offset s1 = my_read P j buf size offset s := by
  unfold my_read
  rw [hino]
  cases hg : get_inode s j with
  | none => rfl
  | some jno =>
    simp only
    split
    · rfl
    · split
      · rfl
      · exact read_loop_congr P s s1 jno _ _ (fun l p hp => hm jno l p hg hp)
          (fun l p hp => h jno l p hg hp) _ _ _ _ _

/-- C20, amended: on an image with the bitmap entries 0..8 set, let `i` be a well-formed
inode and `j ≠ i` an inode whose blocks `pointers[0..blocks)` are marked in the bitmap
and are not blocks of `i`.  A `my_write` on `i` with `size + offset ≤ K * BLOCKSIZE`
leaves the record of `j` as it is, and every block of `j` outside the metadata region
(block 0, or 8 and above) reads as before; and when all pointer entries of `j` name
blocks outside the metadata region (the bitmaps and the inode table, which the write
does change) and those past `blocks` are 0 or name marked blocks that are not blocks of
`i`, every `my_read` on `j` returns the same code and the same bytes after the write as
before it. -/
theorem write_isolation (P : Params) (s s1 : FS) (i : Nat) (ino : Inode) (buf : List Nat)
    (size offset : Nat) (r : Int) (hI : ImageOK P s) (hget : get_inode s i = some ino)
    (hN : InodeOK P s ino) (hcap : size + offset ≤ P.NUM_POINTERS * P.BLOCKSIZE)
    (hword : P.NUM_POINTERS * P.BLOCKSIZE + P.BLOCKSIZE ≤ 2 ^ 32)
    (hrun : my_write P i buf size offset s = some (r, s1))
    (j : Nat) (jno : Inode) (hj : j ≠ i) (hgetj : get_inode s j = some jno)
    (href : ∀ (l p : Nat), l < jno.blocks → jno.pointers[l]? = some p →
      marked s p ∧ ∀ l2, l2 < ino.blocks → ino.pointers[l2]? ≠ some p) :
    get_inode s1 j = some jno ∧
    (∀ (l p : Nat), l < jno.blocks → jno.pointers[l]? = some p → p = 0 ∨ 8 ≤ p →
      read_block P s1 p = read_block P s p) ∧
    ((∀ (l p : Nat), jno.pointers[l]? = some p → p = 0 ∨ 8 ≤ p) →
      (∀ (l p : Nat), jno.blocks ≤ l → jno.pointers[l]? = some p →
        p = 0 ∨ (marked s p ∧ ∀ l2, l2 < ino.blocks → ino.pointers[l2]? ≠ some p)) →
      ∀ (rbuf : List Nat) (rsize roffset : Nat),
        my_read P j rbuf rsize roffset s1 = my_read P j rbuf rsize roffset s) := by
  obtain ⟨f1, f2⟩ := my_write_frame P s s1 i ino buf size offset r hI hget hN hcap hword hrun
  have hrec : get_inode s1 j = get_inode s j := f1 j hj
  refine ⟨hrec.trans hgetj, ?_, ?_⟩
  · intro l p hl hp hdata
    obtain ⟨hm, hn⟩ := href l p hl hp
    have hnm : is_meta_block p = false := by
      rcases hdata with h0 | h8
      · subst h0; rfl
      · exact not_meta_of_ge p h8
    unfold read_block
    simp only [hnm, Bool.false_eq_true, if_false]
    rw [f2 p hm hn]
  · intro hdata hrest rbuf rsize roffset
    refine my_read_congr P s s1 j hrec ?_ ?_ rbuf rsize roffset
    · intro jno2 l p hg hp
      rw [hgetj] at hg
      simp only [Option.some.injEq] at hg
      subst hg
      rcases hdata l p hp with h0 | h8
      · subst h0; rfl
      · exact not_meta_of_ge p h8
    intro jno2 l p hg hp
    rw [hgetj] at hg
    simp only [Option.some.injEq] at hg
    subst hg
    by_cases hl : l < jno.blocks
    · obtain ⟨hm, hn⟩ := href l p hl hp
      exact f2 p hm hn
    · rcases hrest l p (by omega) hp with h0 | ⟨hm, hn⟩
      · subst h0
        refine f2 0 (hI.reserved 0 (by omega)) ?_
        intro l2 hl2 e
        obtain ⟨q, hq, hq8, _⟩ := hN.used l2 hl2
        rw [hq] at e
        simp only [Option.some.injEq] at e
        omega
      · exact f2 p hm hn

/-- C20, amended, in the small configuration: the files of inodes 3 and 4 hold "Hello"
(block 10) and "World" (block 11); 10 bytes are written to inode 3, which takes block
12. -/
theorem write_isolation_witness :
    get_inode demo_two_w_fs 4
      = some { type := 1, size := 5, blocks := 1, pointers := [11, 0, 0, 0] } ∧
    read_block demo demo_two_w_fs 11 = read_block demo demo_two_fs 11 ∧
    ∀ (rbuf : List Nat) (rsize roffset : Nat),
      my_read demo 4 rbuf rsize roffset demo_two_w_fs
        = my_read demo 4 rbuf rsize roffset demo_two_fs := by
  obtain ⟨h1, h2, h3⟩ := write_isolation demo demo_two_fs demo_two_w_fs 3
    { type := 1, size := 5, blocks := 1, pointers := [10, 0, 0, 0] }
    [1, 2, 3, 4, 5, 6, 7, 8, 9, 10] 10 0 10
    (imageOK_of_check _ _ (by decide)) (by decide) (inodeOK_of_check _ _ _ (by decide))
    (by decide) (by decide) (by decide) 4
    { type := 1, size := 5, blocks := 1, pointers := [11, 0, 0, 0] } (by decide) (by decide)
    (by
      intro l p hl hp
      have hl0 : l = 0 := by
        have : l < 1 := hl
        omega
      subst hl0
      simp only [List.getElem?_cons_zero, Option.some.injEq] at hp
      subst hp
      refine ⟨⟨1, by decide, by decide⟩, ?_⟩
      intro l2 hl2
      have hl20 : l2 = 0 := by
        have : l2 < 1 := hl2
        omega
      subst hl20
      decide)
  refine ⟨h1, h2 0 11 (by decide) (by decide) (Or.inr (by decide)), h3 ?_ ?_⟩
  · intro l p hp
    rcases l with _ | _ | _ | _ | l
    · simp at hp; omega
    · simp at hp; exact Or.inl hp.symm
    · simp at hp; exact Or.inl hp.symm
    · simp at hp; exact Or.inl hp.symm
    · simp at hp
  intro l p hl hp
  left
  have hl1 : 1 ≤ l := hl
  rcases l with _ | _ | _ | _ | l
  · omega
  · simp at hp; exact hp.symm
  · simp at hp; exact hp.symm
  · simp at hp; exact hp.symm
  · simp at hp

theorem write_block_len (P : Params) (s : FS) (n : Nat) (b : Block) (r : Option FS)
    (hlen : ∀ (t : FS) (n : Nat) (b : Block), t.inodes.length = P.NUM_INODES →
      (P.meta_write t n b).inodes.length = P.NUM_INODES)
    (hs : s.inodes.length = P.NUM_INODES) (h : write_block P s n b = some r) :
    (r.getD s).inodes.length = P.NUM_INODES := by
  unfold write_block at h
  split at h
  · simp only [Option.some.injEq] at h
    subst h
    exact hlen s n b hs
  · split at h
    · simp only [Option.some.injEq] at h
      subst h
      exact hs
    · simp only [Option.some.injEq] at h
      subst h
      exact hs

theorem write_chunk_len (P : Params) (s s1 : FS) (ptr bo : Nat) (src : List Nat)
    (hlen : ∀ (t : FS) (n : Nat) (b : Block), t.inodes.length = P.NUM_INODES →
      (P.meta_write t n b).inodes.length = P.NUM_INODES)
    (hs : s.inodes.length = P.NUM_INODES) (h : write_chunk P s ptr bo src = some s1) :
    s1.inodes.length = P.NUM_INODES := by
  unfold write_chunk at h
  cases hr : read_block P s ptr with
  | none => simp [hr] at h
  | some o =>
    cases o with
    | none =>
      simp only [hr, Option.some.injEq] at h
      subst h
      exact hs
    | some blk =>
      simp only [hr] at h
      cases hw : write_block P s ptr (memcpy_at blk bo src) with
      | none => simp [hw] at h
      | some r =>
        simp only [hw, Option.some.injEq] at h
        subst h
        exact write_block_len P s ptr _ r hlen hs hw

theorem alloc_loop_len (P : Params)
    (hlen : ∀ (t : FS) (n : Nat) (b : Block), t.inodes.length = P.NUM_INODES →
      (P.meta_write t n b).inodes.length = P.NUM_INODES) (n : Nat) :
    ∀ (ino ino1 : Inode) (s s1 : FS), s.inodes.length = P.NUM_INODES →
      alloc_loop P n ino s = some (ino1, s1) →
      s1.inodes.length = P.NUM_INODES ∧ ino1.blocks = ino.blocks + n := by
  induction n with
  | zero =>
    intro ino ino1 s s1 hs h
    simp only [alloc_loop, Option.some.injEq, Prod.mk.injEq] at h
    obtain ⟨rfl, rfl⟩ := h
    exact ⟨hs, rfl⟩
  | succ n ih =>
    intro ino ino1 s s1 hs h
    rw [alloc_loop] at h
    simp only at h
    cases hz : first_zero_slot ino.pointers 0 with
    | none =>
      simp only [hz] at h
      obtain ⟨h1, h2⟩ := ih { ino with blocks := ino.blocks + 1 } _ _ _ hs h
      exact ⟨h1, by rw [h2]; simp only; omega⟩
    | some i =>
      simp only [hz] at h
      cases hb : get_next_free_block s with
      | none => simp [hb] at h
      | some bs =>
        obtain ⟨b, sb⟩ := bs
        simp only [hb] at h
        have hsb : sb.inodes.length = P.NUM_INODES := by
          rw [get_next_free_block_inodes s sb b hb]; exact hs
        cases hw : write_block P sb b (List.replicate P.BLOCKSIZE 0) with
        | none => simp [hw] at h
        | some r =>
          simp only [hw] at h
          obtain ⟨h1, h2⟩ := ih _ _ _ _ (write_block_len P sb b _ r hlen hsb hw) h
          exact ⟨h1, by rw [h2]; simp only; omega⟩

theorem write_loop_len (P : Params) (ino : Inode) (buf : List Nat)
    (hlen : ∀ (t : FS) (n : Nat) (b : Block), t.inodes.length = P.NUM_INODES →
      (P.meta_write t n b).inodes.length = P.NUM_INODES) (fuel : Nat) :
    ∀ (size cb bo d bw : Nat) (s s2 : FS) (r : Nat), s.inodes.length = P.NUM_INODES →
      write_loop P ino buf fuel size cb bo d bw s = some (r, s2) →
      s2.inodes.length = P.NUM_INODES := by
  induction fuel with
  | zero =>
    intro size cb bo d bw s s2 r hs h
    simp only [write_loop, Option.some.injEq, Prod.mk.injEq] at h
    rw [← h.2]
    exact hs
  | succ fuel ih =>
    intro size cb bo d bw s s2 r hs h
    rw [write_loop] at h
    by_cases hsz : size > 0
    · rw [if_pos hsz] at h
      simp only at h
      generalize hnb : (if size ≥ P.BLOCKSIZE - bo then P.BLOCKSIZE - bo else size) = nb at h
      cases hp : ino.pointers[cb]? with
      | none => simp [hp] at h
      | some ptr =>
        simp only [hp] at h
        by_cases hbuf : buf.length < d + nb ∨ 2 ^ 31 ≤ d + nb ∨ 2 ^ 31 ≤ bw + nb
        · rw [if_pos hbuf] at h
          simp at h
        · rw [if_neg hbuf] at h
          cases hw : write_chunk P s ptr bo (bytes_at buf d nb) with
          | none => simp [hw] at h
          | some sw =>
            simp only [hw] at h
            have hsw := write_chunk_len P s sw ptr bo _ hlen hs hw
            by_cases hgt : size > P.BLOCKSIZE
            · rw [if_pos hgt] at h
              exact ih _ _ _ _ _ _ _ _ hsw h
            · rw [if_neg hgt] at h
              exact ih _ _ _ _ _ _ _ _ hsw h
    · rw [if_neg hsz] at h
      simp only [Option.some.injEq, Prod.mk.injEq] at h
      rw [← h.2]
      exact hs

/-- C5, amended: a `my_write` that stays within defined behaviour stores
`(size + offset) mod 2 ^ 32` in the size field of the inode, whatever the size was
before, so the size field does not get smaller when the write ends at or after the old
size (with `size + offset < 2 ^ 32`); the block count `blocks` of the inode never gets
smaller.  (The inode table is taken to keep its `NUM_INODES` records whatever is written
to its blocks.) -/
theorem my_write_size_field (P : Params) (s s1 : FS) (inum : Nat) (ino : Inode)
    (buf : List Nat) (size offset : Nat) (r : Int)
    (hlen : ∀ (t : FS) (n : Nat) (b : Block), t.inodes.length = P.NUM_INODES →
      (P.meta_write t n b).inodes.length = P.NUM_INODES)
    (hs : s.inodes.length = P.NUM_INODES) (hino : get_inode s inum = some ino)
    (hrun : my_write P inum buf size offset s = some (r, s1)) :
    ∃ ino1, get_inode s1 inum = some ino1 ∧ ino1.size = u32 (size + offset) ∧
      ino.blocks ≤ ino1.blocks ∧
      (ino.size ≤ size + offset → size + offset < 2 ^ 32 → ino.size ≤ ino1.size) := by
  unfold my_write at hrun
  split at hrun
  · simp at hrun
  · simp only [hino] at hrun
    cases ha : alloc_loop P
        (u32 (size + offset + P.BLOCKSIZE - 1) / P.BLOCKSIZE - ino.blocks) ino s with
    | none => simp [ha] at hrun
    | some p =>
      obtain ⟨ino1, sa⟩ := p
      simp only [ha] at hrun
      obtain ⟨a1, a2⟩ := alloc_loop_len P hlen _ ino ino1 s sa hs ha
      cases hl : write_loop P { ino1 with size := u32 (size + offset) } buf size size
          (offset / P.BLOCKSIZE) (offset % P.BLOCKSIZE) 0 0 sa with
      | none => simp [hl] at hrun
      | some q =>
        obtain ⟨bw, s2⟩ := q
        simp only [hl, Option.some.injEq, Prod.mk.injEq] at hrun
        have l1 := write_loop_len P { ino1 with size := u32 (size + offset) } buf hlen size
          _ _ _ _ _ sa s2 bw a1 hl
        have hi : inum < s2.inodes.length := by
          rw [l1, ← hs]
          exact lt_of_getElem?_some _ _ _ hino
        refine ⟨{ ino1 with size := u32 (size + offset) }, ?_, rfl, ?_, ?_⟩
        · rw [← hrun.2]
          unfold set_inode get_inode
          rw [if_pos hi]
          simp only [Option.getD_some]
          rw [List.getElem?_set_self hi]
        · show ino.blocks ≤ ino1.blocks
          omega
        · intro h1 h2
          show ino.size ≤ u32 (size + offset)
          unfold u32
          rw [Nat.mod_eq_of_lt h2]
          exact h1

/-- C5, amended, in the small configuration: two bytes written at offset 6 of the
5-byte file of inode 3 set its size to 8; the block count stays 1. -/
theorem my_write_size_field_witness :
    ∃ ino1, get_inode
        (((my_write demo 3 [7, 7] 2 6 demo_hello_fs).map Prod.snd).getD (zero_image demo)) 3
          = some ino1 ∧
      ino1.size = u32 (2 + 6) ∧ 1 ≤ ino1.blocks ∧ (5 ≤ 2 + 6 → 2 + 6 < 2 ^ 32 → 5 ≤ ino1.size) :=
  my_write_size_field demo demo_hello_fs _ 3
    { type := 1, size := 5, blocks := 1, pointers := [10, 0, 0, 0] } [7, 7] 2 6 2
    (fun _ _ _ _ => rfl) (by decide) (by decide) (by decide)

/-- C8 fails on the code: `mkdir("/d")` on the fresh small image, whose parent "/" is the
existing root directory 2.  The parent lookup resolves the empty parent path, for which
`split_path` returns -1 without storing a row, and the walk reads the uninitialised
`pathlist`: with the stale row "x" there it looks up "x" in the root and returns 0.  The
call returns 0 all the same and stores the record ("..", 0) in the new directory 3, whose
chain is then read back as `[(".", 3)]`: it does not end with `(".", 3)` followed by a
record `("..", 2)` for its parent.  With an empty first row the same call leaves the
chain `[(".", 3), ("..", 2)]`. -/
theorem my_mkdir_stale_parent_dotdot :
    (get_inode demo_fresh_fs 2).map Inode.type = some demo.TYPE_DIR ∧
    (split_path demo [] 0 demo_pl_x).map Prod.fst = some (-1) ∧
    get_parent_dir_inode demo demo_pl_x demo_fresh_fs [47, 100] = some 0 ∧
    my_mkdir demo demo_pl_x demo_inode0 [47, 100] demo_fresh_fs = some (0, demo_stale_d_fs) ∧
    allocated demo_stale_d_fs 3 ∧
    get_inode demo_stale_d_fs 3 = some (Inode.mk demo.TYPE_DIR 8 1 [9, 0, 0, 0]) ∧
    demo_stale_d_fs.blocks[9]? = some [46, 0, 0, 3, 46, 46, 0, 0] ∧
    read_dir_from_inode demo demo_stale_d_fs 3 = some (some [⟨[46], 3⟩]) ∧
    ¬ DotEnd 3 [⟨[46], 3⟩] ∧
    read_dir_from_inode demo demo_d_fs 3 = some (some [⟨[46], 3⟩, ⟨[46, 46], 2⟩]) := by
  refine ⟨by decide, by decide, by decide, by decide, ⟨1, by decide, by decide⟩, by decide,
    by decide, by decide, ?_, by decide⟩
  rintro ⟨front, p, h, _⟩
  have := congrArg List.length h
  simp at this

/-- The stale pathlist row in a root-level `my_mknod`: on the image with the directory
"/d" (inode 3), `mknod("/a")` run while the first row of the uninitialised `pathlist` of
the parent lookup holds "d" takes the directory 3 for the parent of "/a"; it returns 0,
hands out inode 4 and puts the record ("a", 4) into the chain of 3, and "/a" is then
resolved to 0. -/
theorem resolve_after_create_stale_row :
    get_parent_dir_inode demo demo_pl_d demo_d_fs [47, 97] = some 3 ∧
    (get_inode demo_d_fs 3).map Inode.type = some demo.TYPE_DIR ∧
    (get_next_free_inode demo_d_fs).map Prod.fst = some 4 ∧
    my_mknod demo demo_pl_d [47, 97] demo_d_fs = some (0, demo_d_stale_a_fs) ∧
    read_dir_from_inode demo demo_d_stale_a_fs 3
      = some (some [⟨[97], 4⟩, ⟨[46], 3⟩, ⟨[46, 46], 2⟩]) ∧
    get_inode_for_path demo demo_pl0 demo_d_stale_a_fs [47, 97] = some 0 := by
  refine ⟨?_, ?_, ?_, ?_, ?_, ?_⟩ <;> decide

/-- A record that shadows a component of the parent path: with paths of up to 4
components, after `my_init` and `mkdir("/d")` the parent "/d/../d" of the path
"/d/../d/.." resolves to the directory 3; `my_mknod("/d/../d/..")` returns 0, hands out
inode 4 and puts the record ("..", 4) in front of the chain of 3, so the walk along
"/d/../d/.." goes from 3 to the file 4 and `get_inode_for_path` returns 0. -/
theorem resolve_after_create_shadowed :
    get_parent_dir_inode demo4 demo4_pl0 demo4_d_fs [47, 100, 47, 46, 46, 47, 100, 47, 46, 46]
      = some 3 ∧
    (get_inode demo4_d_fs 3).map Inode.type = some demo4.TYPE_DIR ∧
    (get_next_free_inode demo4_d_fs).map Prod.fst = some 4 ∧
    my_mknod demo4 demo4_pl0 [47, 100, 47, 46, 46, 47, 100, 47, 46, 46] demo4_d_fs
      = some (0, demo4_dd_file_fs) ∧
    get_inode_for_path demo4 demo4_pl0 demo4_dd_file_fs
      [47, 100, 47, 46, 46, 47, 100, 47, 46, 46] = some 0 := by
  refine ⟨?_, ?_, ?_, ?_, ?_⟩ <;> decide

/-- The stale pathlist row in a root-level `my_mkdir`: on the image with the directory
"/d" (inode 3), `mkdir("/a")` run while the first row of the uninitialised `pathlist` of
the parent lookup holds "d" takes the directory 3 for the parent; it returns 0 and makes
inode 4 a directory with the chain `[(".", 4), ("..", 3)]`, and `my_getattr("/a")` then
returns `-ENOENT`. -/
theorem my_mkdir_post_stale_row :
    get_parent_dir_inode demo demo_pl_d demo_d_fs [47, 97] = some 3 ∧
    my_mkdir demo demo_pl_d demo_inode0 [47, 97] demo_d_fs = some (0, demo_d_stale_adir_fs) ∧
    read_dir_from_inode demo demo_d_stale_adir_fs 4
      = some (some [⟨[46], 4⟩, ⟨[46, 46], 3⟩]) ∧
    (my_getattr demo demo_pl0 [47, 97] stat0 demo_d_stale_adir_fs).map Prod.fst
      = some (-ENOENT) := by
  refine ⟨?_, ?_, ?_, ?_⟩ <;> decide

/-- Where `my_mkdir` leaves defined behaviour on the name: a leaf of `MAX_FILENAME`
bytes ("/abc" with `MAX_FILENAME = 3`) does not fit with its NUL into the name field
that `strncpy` fills, and for the path "/../../../x", longer than the `strnlen` bound 9
with a '/' at index 9, the length `pathlen - last_slash - 1` of the leaf wraps; a leaf
of 2 bytes is stored. -/
theorem my_mkdir_leaf_bounds :
    my_mkdir demo demo_pl0 demo_inode0 [47, 97, 98, 99] demo_fresh_fs = none ∧
    my_mkdir demo demo_pl0 demo_inode0 [47, 46, 46, 47, 46, 46, 47, 46, 46, 47, 120]
      demo_fresh_fs = none ∧
    my_mknod demo demo_pl0 [47, 46, 46, 47, 46, 46, 47, 46, 46, 47, 120] demo_fresh_fs
      = none ∧
    (my_mkdir demo demo_pl0 demo_inode0 [47, 97, 98] demo_fresh_fs).map Prod.fst
      = some 0 := by
  refine ⟨?_, ?_, ?_, ?_⟩ <;> decide

/-- The stale pathlist row in the parent lookup of a root-level path: on the fresh small
image, with the row "x" in the uninitialised `pathlist`, `get_parent_dir_inode("/a")`
returns 0; `my_mknod("/a")` returns 0 and makes inode 3 a file, the record ("a", 3) goes
to inode 0, and the root chain stays `[(".", 2), ("..", 2)]`. -/
theorem root_level_parent_stale_row :
    get_parent_dir_inode demo demo_pl_x demo_fresh_fs [47, 97] = some 0 ∧
    my_mknod demo demo_pl_x [47, 97] demo_fresh_fs = some (0, demo_stale_a_fs) ∧
    get_inode demo_stale_a_fs 3 = some (Inode.mk demo.TYPE_FILE 0 0 [0, 0, 0, 0]) ∧
    read_dir_from_inode demo demo_stale_a_fs 0 = some (some [⟨[97], 3⟩]) ∧
    read_dir_from_inode demo demo_stale_a_fs 2
      = some (some [⟨[46], 2⟩, ⟨[46, 46], 2⟩]) := by
  refine ⟨?_, ?_, ?_, ?_, ?_⟩ <;> decide

/-- C6, second failure: `my_mkdir` leaves `pointers[1..]` of the new directory as they
were in the uninitialised local inode; with a stale `pointers[1] = 4` there, the call
`my_write(3, buf, 8, 8)` on the directory inode 3 (`size + offset = 16` is within
`K * BLOCKSIZE = 32`) stores its 8 bytes in block 4 of the inode table, which in the
layout of the small configuration holds the record of the root inode 2: the allocated
inode 2 ends with `size = 1000` and `blocks = 1`, beyond `blocks * BLOCKSIZE = 8`. -/
theorem size_capacity_directory_write :
    my_mkdir demo demo_pl0 demo_inode_stale4 [47, 100] demo_fresh_fs
      = some (0, demo_junk4_d_fs) ∧
    get_inode demo_junk4_d_fs 3 = some (Inode.mk demo.TYPE_DIR 8 1 [9, 4, 0, 0]) ∧
    my_write demo 3 [0, 0, 2, 1000, 1, 8, 0, 2] 8 8 demo_junk4_d_fs
      = some (8, demo_junk4_w_fs) ∧
    allocated demo_junk4_w_fs 2 ∧
    get_inode demo_junk4_w_fs 2 = some (Inode.mk demo.TYPE_DIR 1000 1 [8, 0, 0, 0]) ∧
    ¬ 1000 ≤ 1 * demo.BLOCKSIZE := by
  refine ⟨by decide, by decide, by decide, ⟨1, by decide, by decide⟩, by decide, by decide⟩

/-- C20 fails on the code: in the small configuration the file inode 3 is well formed
(block 10), the entries 0..8 of the bitmap are set, every block among
`pointers[0..blocks)` of an inode is marked and none is named twice; the file inode 4 has
the one block 5, a block of the inode table, which in the layout of the small
configuration holds `size` and `blocks` of inode 3.  `my_write(3, buf, 10, 0)` returns 10
and leaves the record of inode 4 as it is, and `my_read(4, buf, 8, 0)` returns other
bytes after the write than before it. -/
theorem write_isolation_meta_pointer :
    image_check demo demo_meta_fs = true ∧
    inode_check demo demo_meta_fs (Inode.mk 1 5 1 [10, 0, 0, 0]) = true ∧
    get_inode demo_meta_fs 3 = some (Inode.mk 1 5 1 [10, 0, 0, 0]) ∧
    get_inode demo_meta_fs 4 = some (Inode.mk 1 8 1 [5, 0, 0, 0]) ∧
    (demo_meta_fs.inodes.all fun ino =>
      (ino.pointers.take ino.blocks).all fun p => !(demo_meta_fs.d_bmap.getD p 0 == 0)) = true ∧
    (demo_meta_fs.inodes.map fun ino => ino.pointers.take ino.blocks).flatten.Nodup ∧
    my_write demo 3 [1, 2, 3, 4, 5, 6, 7, 8, 9, 10] 10 0 demo_meta_fs
      = some (10, demo_meta_w_fs) ∧
    get_inode demo_meta_w_fs 4 = some (Inode.mk 1 8 1 [5, 0, 0, 0]) ∧
    my_read demo 4 [0, 0, 0, 0, 0, 0, 0, 0] 8 0 demo_meta_fs
      = some (8, [5, 1, 10, 0, 1, 8, 1, 5]) ∧
    my_read demo 4 [0, 0, 0, 0, 0, 0, 0, 0] 8 0 demo_meta_w_fs
      = some (8, [10, 2, 51539607562, 0, 1, 8, 1, 5]) := by
  refine ⟨?_, ?_, ?_, ?_, ?_, ?_, ?_, ?_, ?_, ?_⟩ <;> decide

/-! ## The bitmap invariant under arbitrary paths and write sizes -/

theorem bstep_inode_ne (P : Params) (s s1 : FS) (x : Nat) (ino1 : Inode) (isNew : Nat → Prop)
    (hS : BStep P s s1 x ino1 isNew) (i : Nat) (hi : i ≠ x) : s1.inodes[i]? = s.inodes[i]? := by
  rw [hS.inodes_eq, List.getElem?_set_ne (fun h => hi h.symm)]

theorem bstep_inode_eq (P : Params) (s s1 : FS) (x : Nat) (ino1 : Inode) (isNew : Nat → Prop)
    (hS : BStep P s s1 x ino1 isNew) : s1.inodes[x]? = some ino1 := by
  rw [hS.inodes_eq, List.getElem?_set_self hS.xlt]

theorem bstep_owner (P : Params) (s s1 : FS) (x : Nat) (ino1 : Inode) (isNew : Nat → Prop)
    (hS : BStep P s s1 x ino1 isNew) (i : Nat) : Owner s1 i ↔ Owner s i ∨ i = x := by
  unfold Owner
  rw [hS.alloc_iff i]
  constructor
  · rintro ((h | h) | h)
    · exact Or.inl (Or.inl h)
    · exact Or.inr h.1
    · exact Or.inl (Or.inr h)
  · rintro ((h | h) | h)
    · exact Or.inl (Or.inl h)
    · exact Or.inr h
    · by_cases hx : x = 0
      · exact Or.inr (h.trans hx)
      · exact Or.inl (Or.inr ⟨h, hx⟩)

/-- Under a `BStep` on inode `x` the chain stored for any other inode that holds blocks
is read as before. -/
theorem bstep_frame (P : Params) (s s1 : FS) (x : Nat) (ino1 : Inode) (isNew : Nat → Prop)
    (hI : BmInv P s) (hS : BStep P s s1 x ino1 isNew) (i : Nat) (ino : Inode)
    (hi : i ≠ x) (ha : Owner s i) (hino : s.inodes[i]? = some ino) :
    read_dir_from_blocks P s1 ino.size ino.blocks ino.pointers
      = read_dir_from_blocks P s ino.size ino.blocks ino.pointers := by
  apply read_dir_congr
  · intro j q hj hq
    exact not_meta_of_ge q (hI.used i ino j q ha hino hj hq).1
  intro j q hj hq
  obtain ⟨hq8, hqm⟩ := hI.used i ino j q ha hino hj hq
  apply hS.frame q hq8 hqm
  intro inoX j0 hox hX hj0 hc
  exact hi (hI.disj x i inoX ino j0 j q hox ha hX hino hj0 hj hc hq).1.symm

/-- A `BStep` preserves the invariant `BmInv`. -/
theorem bmInv_step (P : Params) (s s1 : FS) (x : Nat) (ino1 : Inode) (isNew : Nat → Prop)
    (hI : BmInv P s) (hS : BStep P s s1 x ino1 isNew) : BmInv P s1 := by
  have hne := bstep_inode_ne P s s1 x ino1 isNew hS
  have heq := bstep_inode_eq P s s1 x ino1 isNew hS
  have hown := bstep_owner P s s1 x ino1 isNew hS
  have hmono : ∀ b, marked s b → marked s1 b := fun b hb => (hS.mark_iff b).2 (Or.inl hb)
  have hamono : ∀ i, allocated s i → allocated s1 i := fun i hi => (hS.alloc_iff i).2 (Or.inl hi)
  have hold : ∀ i, i ≠ x → allocated s1 i → allocated s i := by
    intro i hi ha
    rcases (hS.alloc_iff i).1 ha with h | h
    · exact h
    · exact absurd h.1 hi
  have holdo : ∀ i, i ≠ x → Owner s1 i → Owner s i := by
    intro i hi ha
    rcases (hown i).1 ha with h | h
    · exact h
    · exact absurd h hi
  have hlo1 : ∀ i, allocated s1 i → 2 ≤ i := by
    intro i ha
    rcases (hS.alloc_iff i).1 ha with h | h
    · exact hI.lo i h
    · rw [h.1]; exact hS.x2 h.2
  have hx0 : allocated s1 x → x ≠ 0 := by
    intro ha h0
    have := hlo1 x ha
    omega
  have hcross : ∀ (k : Nat) (kno : Inode) (j l p : Nat), k ≠ x → Owner s k →
      s.inodes[k]? = some kno → j < ino1.blocks → l < kno.blocks →
      ino1.pointers[j]? = some p → kno.pointers[l]? = some p → False := by
    intro k kno j l p hk hak hkno hj hl hp hq
    obtain ⟨_, hcase⟩ := hS.used j p hj hp
    obtain ⟨_, hqm⟩ := hI.used k kno l p hak hkno hl hq
    rcases hcase with hnew | ⟨hax, inoX, j0, hX, hj0, hpx⟩
    · exact (hS.new_fresh p hnew).2 hqm
    · exact hk (hI.disj x k inoX kno j0 l p hax hak hX hkno hj0 hl hpx hq).1.symm
  refine
    { img := ⟨hI.img.bpos, fun b hb => ?_, ?_, hS.sized⟩
      tbl := ?_, lo := hlo1, plen := ?_, typ := ?_, used := ?_, disj := ?_,
      refd := ?_, zero := ?_, fresh := ?_, chain := ?_, root := hamono 2 hI.root }
  · exact hmono b (hI.img.reserved b hb)
  · rw [hS.dmap_len, hS.blocks_len]; exact hI.img.bmap_len
  · rw [hS.imap_len, hI.tbl, hS.inodes_eq]; simp
  · intro i ino hino
    by_cases hi : i = x
    · subst hi; rw [heq] at hino; cases hino; exact hS.plen
    · rw [hne i hi] at hino; exact hI.plen i ino hino
  · intro i ino ha hino
    by_cases hi : i = x
    · subst hi; rw [heq] at hino; cases hino; exact hS.typ (hx0 ha)
    · rw [hne i hi] at hino; exact hI.typ i ino (hold i hi ha) hino
  · intro i ino j p ha hino hj hp
    by_cases hi : i = x
    · subst hi; rw [heq] at hino; cases hino
      obtain ⟨hp8, hcase⟩ := hS.used j p hj hp
      refine ⟨hp8, ?_⟩
      rcases hcase with hnew | ⟨hax, inoX, j0, hX, hj0, hpx⟩
      · exact (hS.mark_iff p).2 (Or.inr hnew)
      · exact hmono p (hI.used i inoX j0 p hax hX hj0 hpx).2
    · rw [hne i hi] at hino
      obtain ⟨hp8, hm⟩ := hI.used i ino j p (holdo i hi ha) hino hj hp
      exact ⟨hp8, hmono p hm⟩
  · intro i k ino kno j l p hai hak hino hkno hj hl hp hq
    by_cases hi : i = x
    · subst hi; rw [heq] at hino; cases hino
      by_cases hk : k = i
      · subst hk; rw [heq] at hkno; cases hkno
        refine ⟨rfl, ?_⟩
        rcases Nat.lt_trichotomy j l with h | h | h
        · exact absurd hq (hS.distinct j l p h hl hp)
        · exact h
        · exact absurd hp (hS.distinct l j p h hj hq)
      · rw [hne k hk] at hkno
        exact absurd (hcross k kno j l p hk (holdo k hk hak) hkno hj hl hp hq) id
    · rw [hne i hi] at hino
      by_cases hk : k = x
      · subst hk; rw [heq] at hkno; cases hkno
        exact absurd (hcross i ino l j p hi (holdo i hi hai) hino hl hj hq hp) id
      · rw [hne k hk] at hkno
        exact hI.disj i k ino kno j l p (holdo i hi hai) (holdo k hk hak) hino hkno hj hl hp hq
  · intro b hb
    rcases (hS.mark_iff b).1 hb with hm | hnew
    · rcases hI.refd b hm with h8 | ⟨i, ino, j, ha, hino, hj, hp⟩
      · exact Or.inl h8
      · right
        by_cases hi : i = x
        · subst hi
          obtain ⟨j1, hj1, hp1⟩ := hS.old_used ha ino j b hino hj hp
          exact ⟨i, ino1, j1, (hown i).2 (Or.inr rfl), heq, hj1, hp1⟩
        · exact ⟨i, ino, j, (hown i).2 (Or.inl ha), by rw [hne i hi]; exact hino, hj, hp⟩
    · right
      obtain ⟨j, hj, hp⟩ := hS.new_used b hnew
      exact ⟨x, ino1, j, (hown x).2 (Or.inr rfl), heq, hj, hp⟩
  · intro i ino ha hino hty
    by_cases hi : i = x
    · subst hi; rw [heq] at hino; cases hino; exact hS.zero (hx0 ha) hty
    · rw [hne i hi] at hino; exact hI.zero i ino (hold i hi ha) hino hty
  · intro i ino hna hino
    have hi : i ≠ x := fun h => hna ((hown i).2 (Or.inr h))
    rw [hne i hi] at hino
    exact hI.fresh i ino (fun h => hna ((hown i).2 (Or.inl h))) hino
  · intro i ino c ha hino hty hrd
    by_cases hi : i = x
    · subst hi; rw [heq] at hino; cases hino; exact hS.chain (hx0 ha) hty c hrd
    · rw [hne i hi] at hino
      rw [bstep_frame P s s1 x ino1 isNew hI hS i ino hi (Or.inl (hold i hi ha)) hino] at hrd
      intro r hr
      obtain ⟨h1, h2⟩ := hI.chain i ino c (hold i hi ha) hino hty hrd r hr
      exact ⟨h1, hamono _ h2⟩

/-- On an image satisfying `BmInv` the walk of `get_inode_for_path`, started in an
allocated inode, returns 0 or an allocated inode. -/
theorem walk_owner (P : Params) (s : FS) (hI : BmInv P s) (rows : List CStr) :
    ∀ (next : CStr) (cur v : Nat), allocated s cur → walk P s rows next cur = some v →
      v = 0 ∨ allocated s v := by
  induction rows with
  | nil =>
    intro next cur v hcur h
    unfold walk at h
    split at h
    · simp only [Option.some.injEq] at h; subst h; exact Or.inr hcur
    · split at h
      · simp at h
      · split at h
        · split at h
          · simp at h
          · simp at h
          · simp only at h
            split at h
            · simp only [Option.some.injEq] at h; exact Or.inl h.symm
            · simp at h
        · simp only [Option.some.injEq] at h; exact Or.inl h.symm
  | cons r rows1 ih =>
    intro next cur v hcur h
    unfold walk at h
    split at h
    · simp only [Option.some.injEq] at h; subst h; exact Or.inr hcur
    · split at h
      · simp at h
      · rename_i ino hino
        split at h
        · rename_i hty
          split at h
          · simp at h
          · simp at h
          · rename_i c hrd
            simp only at h
            split at h
            · simp only [Option.some.injEq] at h; exact Or.inl h.symm
            · rename_i hn
              obtain ⟨rc, hrc, hri⟩ := lookup_mem P c next (by omega)
              rw [read_dir_inode_eq P s cur ino hino] at hrd
              have := (hI.chain cur ino c hcur hino hty hrd rc hrc).2
              rw [hri] at this
              exact ih _ _ _ this h
        · simp only [Option.some.injEq] at h; exact Or.inl h.symm

theorem get_inode_for_path_owner (P : Params) (s : FS) (hI : BmInv P s) (pl0 : List CStr)
    (path : CStr) (v : Nat) (h : get_inode_for_path P pl0 s path = some v) : Owner s v := by
  unfold get_inode_for_path at h
  simp only at h
  split at h
  · simp at h
  · split at h
    · simp at h
    · rcases walk_owner P s hI _ _ _ _ hI.root h with h0 | h0
      · exact Or.inr h0
      · exact Or.inl h0

theorem get_parent_owner (P : Params) (s : FS) (hI : BmInv P s) (pl0 : List CStr)
    (path : CStr) (v : Nat) (h : get_parent_dir_inode P pl0 s path = some v) : Owner s v := by
  unfold get_parent_dir_inode at h
  simp only at h
  split at h
  · simp at h
  · exact get_inode_for_path_owner P s hI pl0 _ v h

theorem owner_lt (P : Params) (s : FS) (hI : BmInv P s) (i : Nat) (h : Owner s i) :
    i < s.inodes.length := by
  rw [← hI.tbl]
  rcases h with h | h
  · exact allocated_lt s i h
  · have := allocated_lt s 2 hI.root
    omega

/-- The first half of `my_mknod` for `BmInv`: a free inode number `n` is marked and its
record is set to an empty file. -/
theorem mknod_inode_stepB (P : Params) (hP : ParamsOK P) (s : FS) (hI : BmInv P s) (n : Nat)
    (hfree : s.i_bmap[n]? = some 0) (h2 : 2 ≤ n) :
    ∃ old : Inode, s.inodes[n]? = some old ∧
      BStep P s
        { s with
          i_bmap := s.i_bmap.set n 1
          inodes := s.inodes.set n (Inode.mk P.TYPE_FILE 0 0 old.pointers) }
        n (Inode.mk P.TYPE_FILE 0 0 old.pointers) (fun _ => False) := by
  have hnl : n < s.i_bmap.length := lt_of_getElem?_some _ _ _ hfree
  have hnl2 : n < s.inodes.length := by rw [← hI.tbl]; exact hnl
  have hna := free_not_allocated s n hfree
  have hno : ¬ Owner s n := by
    rintro (h | h)
    · exact hna h
    · omega
  refine ⟨s.inodes[n], List.getElem?_eq_getElem hnl2, ?_⟩
  have hold : s.inodes[n]? = some s.inodes[n] := List.getElem?_eq_getElem hnl2
  refine
    { xlt := hnl2, x2 := fun _ => h2, imap_len := by simp, alloc_iff := ?_, dmap_len := rfl,
      mark_iff := fun b => by unfold marked; simp, new_fresh := fun b h => absurd h id,
      inodes_eq := rfl, blocks_len := rfl, sized := hI.img.blk_len,
      frame := fun _ _ _ _ => rfl, plen := hI.plen n s.inodes[n] hold,
      typ := fun _ => Or.inl rfl,
      used := fun j p hj => absurd hj (by simp),
      distinct := fun i j p _ hj => absurd hj (by simp),
      new_used := fun b h => absurd h id, old_used := fun h => absurd h hno,
      zero := ?_, chain := ?_ }
  · intro i
    unfold allocated
    rw [show (∃ v, (s.i_bmap.set n 1)[i]? = some v ∧ v ≠ 0)
      ↔ (∃ v, s.i_bmap[i]? = some v ∧ v ≠ 0) ∨ i = n from nz_set s.i_bmap n i hnl]
    constructor
    · rintro (h | h)
      · exact Or.inl h
      · exact Or.inr ⟨h, by omega⟩
    · rintro (h | h)
      · exact Or.inl h
      · exact Or.inr h.1
  · intro _ _ j _ hj
    exact hI.fresh n s.inodes[n] hno hold j hj
  · intro _ h
    exact absurd h hP.types

theorem read_stream_ptr (P : Params) (s : FS) (ptrs : List Nat) (n : Nat) :
    ∀ bs, read_stream P s ptrs n = some (some bs) → ∀ j, j < n → ∃ q, ptrs[j]? = some q := by
  induction n with
  | zero => intro bs _ j hj; omega
  | succ n ih =>
    intro bs h j hj
    unfold read_stream at h
    split at h
    · simp at h
    · simp at h
    · rename_i bs0 h0
      split at h
      · simp at h
      · rename_i p hp
        by_cases hjn : j = n
        · subst hjn; exact ⟨p, hp⟩
        · exact ih bs0 h0 j (by omega)

theorem read_dir_ptr (P : Params) (s : FS) (size blocks : Nat) (ptrs : List Nat)
    (c : List DirRec) (h : read_dir_from_blocks P s size blocks ptrs = some (some c)) :
    ∀ j, j < blocks → ∃ q, ptrs[j]? = some q := by
  unfold read_dir_from_blocks at h
  split at h
  · simp at h
  · split at h
    · simp at h
    · simp at h
    · rename_i bs hbs
      exact read_stream_ptr P s ptrs blocks bs hbs

/-- What `write_dir_to_blocks` does for any chain that fits into the given blocks: the
records are stored end to end, and reading back decodes the stored stream. -/
theorem write_dir_any (P : Params) (hB : 0 < P.BLOCKSIZE) (hC : CodecOK P) (s : FS)
    (chain : List DirRec) (blocks : Nat) (ptrs : List Nat) (size0 : Nat)
    (hblk : BlocksSized P s) (hok : PtrsOK s ptrs 0 blocks) (hd : PtrsDistinct ptrs 0 blocks)
    (hfit : (chain.length * P.DIRREC_SIZE + P.BLOCKSIZE - 1) / P.BLOCKSIZE ≤ blocks) :
    ∃ s1 tail, write_dir_to_blocks P s chain blocks ptrs size0
        = some (0, s1, chain.length * P.DIRREC_SIZE) ∧
      s1.i_bmap = s.i_bmap ∧ s1.d_bmap = s.d_bmap ∧ s1.inodes = s.inodes ∧
      s1.blocks.length = s.blocks.length ∧ BlocksSized P s1 ∧
      (∀ q, (∀ i, i < (chain.length * P.DIRREC_SIZE + P.BLOCKSIZE - 1) / P.BLOCKSIZE →
        ptrs[i]? ≠ some q) → s1.blocks[q]? = s.blocks[q]?) ∧
      read_dir_from_blocks P s1 (chain.length * P.DIRREC_SIZE) blocks ptrs
        = some (some (decode_chain P chain.length ((chain.map P.encode).flatten ++ tail))) := by
  have hB0 : P.BLOCKSIZE ≠ 0 := by omega
  have hD0 : P.DIRREC_SIZE ≠ 0 := by have := hC.dpos; omega
  have hsl := stream_length P hC chain
  obtain ⟨s1, h1, h2, h3, h4, h5, h6, h7, h8⟩ := write_stream_spec P ptrs
    ((chain.length * P.DIRREC_SIZE + P.BLOCKSIZE - 1) / P.BLOCKSIZE) 0
    (chain.map P.encode).flatten s hblk
    (fun j a b => hok j a (by omega)) (fun i j a b c => hd i j a b (by omega))
    (by rw [hsl]; exact le_ceil_div_mul _ _ hB)
  have hnot : ¬ ((chain.map P.encode).flatten.length + P.BLOCKSIZE - 1) / P.BLOCKSIZE > blocks := by
    rw [hsl]; omega
  refine ⟨s1, List.replicate
      ((chain.length * P.DIRREC_SIZE + P.BLOCKSIZE - 1) / P.BLOCKSIZE * P.BLOCKSIZE
        - (chain.map P.encode).flatten.length) 0 ++
      content s1 ptrs (0 + (chain.length * P.DIRREC_SIZE + P.BLOCKSIZE - 1) / P.BLOCKSIZE)
        (blocks - (chain.length * P.DIRREC_SIZE + P.BLOCKSIZE - 1) / P.BLOCKSIZE),
    ?_, h2, h3, h4, h5, h6, ?_, ?_⟩
  rotate_left
  · intro q hq
    exact h7 q (fun i _ hi => hq i (by omega))
  · unfold read_dir_from_blocks
    simp only [hD0, if_false]
    rw [read_stream_spec P s1 ptrs blocks (ptrsOK_mono s s1 ptrs 0 blocks h5 hok)]
    simp only
    have e : blocks = (chain.length * P.DIRREC_SIZE + P.BLOCKSIZE - 1) / P.BLOCKSIZE
        + (blocks - (chain.length * P.DIRREC_SIZE + P.BLOCKSIZE - 1) / P.BLOCKSIZE) := by omega
    rw [e, content_add, h8, Nat.mul_div_cancel _ hC.dpos, List.append_assoc]
    simp only [Nat.add_sub_cancel_left]
  · unfold write_dir_to_blocks
    simp only [hB0, if_false, hnot]
    rw [hsl, h1]

theorem decode_chain_dot_zero (P : Params) (hC : CodecOK P) (r1 r2 : DirRec) (tail : List Nat)
    (h1 : GoodName P r1.name) (h1i : r1.inum ≠ 0) (h2 : GoodName P r2.name)
    (h2i : r2.inum = 0) :
    decode_chain P 2 (([r1, r2].map P.encode).flatten ++ tail) = [r1] := by
  have hl1 := hC.enc_len r1
  have hl2 := hC.enc_len r2
  simp only [List.map_cons, List.map_nil, List.flatten_cons, List.flatten_nil, List.append_nil,
    List.append_assoc]
  unfold decode_chain
  have a1 : ¬ (P.encode r1 ++ (P.encode r2 ++ tail)).length < P.DIRREC_SIZE := by
    simp [hl1]
  have a2 : (P.encode r1 ++ (P.encode r2 ++ tail)).take P.DIRREC_SIZE = P.encode r1 := by
    rw [← hl1, List.take_left]
  have a3 : (P.encode r1 ++ (P.encode r2 ++ tail)).drop P.DIRREC_SIZE
      = P.encode r2 ++ tail := by
    rw [← hl1, List.drop_left]
  simp only [a1, if_false, a2, a3, hC.dec_enc r1 h1, h1i]
  unfold decode_chain
  have b1 : ¬ (P.encode r2 ++ tail).length < P.DIRREC_SIZE := by
    simp [hl2]
  have b2 : (P.encode r2 ++ tail).take P.DIRREC_SIZE = P.encode r2 := by
    rw [← hl2, List.take_left]
  simp only [b1, if_false, b2, hC.dec_enc r2 h2, h2i, if_true]

/-- The first half of `my_mkdir` for `BmInv`: a free inode number `n` and a free block `b`
are marked, the records `(".", n)`, `("..", d)` are written to `b` and the record of `n`
is set to a directory with this one block; `d` is what the parent lookup returned, an
allocated inode or 0. -/
theorem mkdir_inode_stepB (P : Params) (hP : ParamsOK P) (s : FS) (hI : BmInv P s)
    (n b d : Nat) (junk : Inode) (sz0 : Nat) (hfree : s.i_bmap[n]? = some 0) (h2 : 2 ≤ n)
    (hb : s.d_bmap[b]? = some 0) (hb9 : 9 ≤ b) (hd : Owner s d)
    (hjunk : junk.pointers.length = P.NUM_POINTERS) (hK : 1 ≤ P.NUM_POINTERS) :
    ∃ s3, write_dir_to_blocks P { s with i_bmap := s.i_bmap.set n 1, d_bmap := s.d_bmap.set b 1 }
        [⟨[46], n⟩, ⟨[46, 46], d⟩] 1 (junk.pointers.set 0 b) sz0
        = some (0, s3, 2 * P.DIRREC_SIZE) ∧
      s3.inodes = s.inodes ∧
      BStep P s
        { s3 with
          inodes := s3.inodes.set n
            (Inode.mk P.TYPE_DIR (2 * P.DIRREC_SIZE) 1 (junk.pointers.set 0 b)) }
        n (Inode.mk P.TYPE_DIR (2 * P.DIRREC_SIZE) 1 (junk.pointers.set 0 b))
        (fun q => q = b) := by
  have hnl : n < s.i_bmap.length := lt_of_getElem?_some _ _ _ hfree
  have hnl2 : n < s.inodes.length := by rw [← hI.tbl]; exact hnl
  have hna := free_not_allocated s n hfree
  have hno : ¬ Owner s n := by
    rintro (h | h)
    · exact hna h
    · omega
  have hbl : b < s.d_bmap.length := lt_of_getElem?_some _ _ _ hb
  have hnm := free_not_marked s b hb
  have hptr0 : (junk.pointers.set 0 b)[0]? = some b := by
    rw [List.getElem?_set_self (by omega)]
  obtain ⟨hg1, hg2⟩ := dot_names_good P hP.mf
  have hneed : ((2 : Nat) * P.DIRREC_SIZE + P.BLOCKSIZE - 1) / P.BLOCKSIZE = 1 := by
    have hd := hP.codec.dpos
    have hf := hP.fit
    have hB := hP.bpos
    apply Nat.div_eq_of_lt_le <;> omega
  obtain ⟨s3, tail, h1, h2', h3, h4, h5, h6, h7, h9⟩ := write_dir_any P hP.bpos hP.codec
    { s with i_bmap := s.i_bmap.set n 1, d_bmap := s.d_bmap.set b 1 }
    [⟨[46], n⟩, ⟨[46, 46], d⟩] 1 (junk.pointers.set 0 b) sz0 hI.img.blk_len
    (by
      intro j _ hj
      have : j = 0 := by omega
      subst this
      exact ⟨b, hptr0, by omega, lt_of_lt_of_le hbl hI.img.bmap_len⟩)
    (by intro i j _ hij hj; omega)
    (by
      simp only [List.length_cons, List.length_nil, Nat.zero_add, Nat.reduceAdd]
      rw [hneed])
  simp only [List.length_cons, List.length_nil, Nat.zero_add, Nat.reduceAdd] at h1 h7 h9
  rw [hneed] at h7
  have h9b : read_dir_from_blocks P
      { s3 with
        inodes := s3.inodes.set n
          (Inode.mk P.TYPE_DIR (2 * P.DIRREC_SIZE) 1 (junk.pointers.set 0 b)) }
      (2 * P.DIRREC_SIZE) 1 (junk.pointers.set 0 b)
      = some (some (decode_chain P 2
          (([⟨[46], n⟩, ⟨[46, 46], d⟩].map P.encode).flatten ++ tail))) :=
    (read_dir_congr P s3
      { s3 with
        inodes := s3.inodes.set n
          (Inode.mk P.TYPE_DIR (2 * P.DIRREC_SIZE) 1 (junk.pointers.set 0 b)) }
      _ _ _ (single_ptr_not_meta _ b (by omega) hptr0) (fun _ _ _ _ => rfl)).trans h9
  have hal0 : ∀ i, allocated { s3 with
        inodes := s3.inodes.set n
          (Inode.mk P.TYPE_DIR (2 * P.DIRREC_SIZE) 1 (junk.pointers.set 0 b)) } i
      ↔ allocated s i ∨ i = n := by
    intro i
    unfold allocated
    simp only
    rw [h2']
    exact nz_set s.i_bmap n i hnl
  have hal : ∀ i, allocated { s3 with
        inodes := s3.inodes.set n
          (Inode.mk P.TYPE_DIR (2 * P.DIRREC_SIZE) 1 (junk.pointers.set 0 b)) } i
      ↔ allocated s i ∨ (i = n ∧ n ≠ 0) := by
    intro i
    rw [hal0 i]
    constructor
    · rintro (h | h)
      · exact Or.inl h
      · exact Or.inr ⟨h, by omega⟩
    · rintro (h | h)
      · exact Or.inl h
      · exact Or.inr h.1
  refine ⟨s3, h1, h4, ?_⟩
  refine
    { xlt := hnl2, x2 := fun _ => h2, imap_len := by simp only; rw [h2']; simp,
      alloc_iff := hal,
      dmap_len := by simp only; rw [h3]; simp, mark_iff := ?_, new_fresh := ?_,
      inodes_eq := by simp only; rw [h4], blocks_len := h5, sized := h6,
      frame := ?_, plen := by simp only [List.length_set]; exact hjunk,
      typ := fun _ => Or.inr rfl,
      used := ?_, distinct := fun i j p hij hj => absurd hj (by simp only; omega),
      new_used := fun q hq => ⟨0, by simp, by rw [hq]; exact hptr0⟩,
      old_used := fun h => absurd h hno,
      zero := fun _ h => absurd h.symm hP.types, chain := ?_ }
  · intro q
    unfold marked
    simp only
    rw [h3]
    exact nz_set s.d_bmap b q hbl
  · intro q hq
    subst hq
    exact ⟨hb9, hnm⟩
  · intro q _ hqm _
    simp only
    rw [h7 q]
    intro i hi
    have : i = 0 := by omega
    subst this
    rw [hptr0]
    intro hc; cases hc
    exact hnm hqm
  · intro j p hj hp
    have : j = 0 := by simp only at hj; omega
    subst this
    simp only at hp
    rw [hptr0] at hp
    cases hp
    exact ⟨by omega, Or.inl rfl⟩
  · intro _ _ c hrd
    simp only at hrd
    rw [h9b] at hrd
    simp only [Option.some.injEq] at hrd
    rcases hd with hda | hd0
    · have hdc := decode_chain_spec P hP.codec [⟨[46], n⟩, ⟨[46, 46], d⟩] tail (by
        intro r hr
        simp only [List.mem_cons, List.mem_singleton, List.not_mem_nil, or_false] at hr
        rcases hr with rfl | rfl
        · exact ⟨hg1, by simp only; omega⟩
        · exact ⟨hg2, by simp only; have := hI.lo d hda; omega⟩)
      simp only [List.length_cons, List.length_nil, Nat.zero_add, Nat.reduceAdd] at hdc
      rw [hdc] at hrd
      subst hrd
      intro r hr
      simp only [List.mem_cons, List.mem_singleton, List.not_mem_nil, or_false] at hr
      rcases hr with rfl | rfl
      · exact ⟨hg1, (hal0 n).2 (Or.inr rfl)⟩
      · exact ⟨hg2, (hal0 d).2 (Or.inl hda)⟩
    · have hdc := decode_chain_dot_zero P hP.codec ⟨[46], n⟩ ⟨[46, 46], d⟩ tail hg1
        (by simp only; omega) hg2 hd0
      rw [hdc] at hrd
      subst hrd
      intro r hr
      simp only [List.mem_singleton] at hr
      subst hr
      exact ⟨hg1, (hal0 n).2 (Or.inr rfl)⟩

/-- The second half of `add_rec_to_dir_inode` for `BmInv`: after `e` new blocks have been
taken, the chain with the new record in front is written to the blocks of `p`, an
allocated inode or inode 0. -/
theorem dir_update_stepB (P : Params) (hP : ParamsOK P) (s : FS) (hI : BmInv P s) (p : Nat)
    (inoP : Inode) (c : List DirRec) (rec : DirRec) (e : Nat) (ptrs2 : List Nat) (s2 : FS)
    (sz : Nat) (hop : Owner s p) (hino : s.inodes[p]? = some inoP)
    (hrd : read_dir_from_blocks P s inoP.size inoP.blocks inoP.pointers = some (some c))
    (hrec : GoodName P rec.name ∧ allocated s rec.inum)
    (hg : grow_pointers e inoP.blocks inoP.pointers s = some (ptrs2, s2))
    (hfit : ((c.length + 1) * P.DIRREC_SIZE + P.BLOCKSIZE - 1) / P.BLOCKSIZE
      ≤ inoP.blocks + e) :
    ∃ s3, write_dir_to_blocks P s2 (rec :: c) (inoP.blocks + e) ptrs2 sz
        = some (0, s3, (c.length + 1) * P.DIRREC_SIZE) ∧
      s3.inodes = s.inodes ∧ s3.i_bmap = s.i_bmap ∧
      BStep P s
        { s3 with
          inodes := s3.inodes.set p
            (Inode.mk inoP.type ((c.length + 1) * P.DIRREC_SIZE) (inoP.blocks + e) ptrs2) }
        p (Inode.mk inoP.type ((c.length + 1) * P.DIRREC_SIZE) (inoP.blocks + e) ptrs2)
        (fun b => marked s2 b ∧ ¬ marked s b) := by
  obtain ⟨g1, g2, g3, g4, g5, g6, g7, g8, g9, g10, g11, g12⟩ :=
    grow_pointers_inv P e inoP.blocks inoP.pointers ptrs2 s s2 hI.img hg
  have hplen := hI.plen p inoP hino
  have hptr := read_dir_ptr P s _ _ _ c hrd
  have hpa : p ≠ 0 → allocated s p := by
    intro h0
    rcases hop with h | h
    · exact h
    · exact absurd h h0
  -- old used pointers
  have hold : ∀ j, j < inoP.blocks → ∃ q, ptrs2[j]? = some q ∧ inoP.pointers[j]? = some q ∧
      8 ≤ q ∧ marked s q := by
    intro j hj
    obtain ⟨q, hq⟩ := hptr j hj
    obtain ⟨hq8, hqm⟩ := hI.used p inoP j q hop hino hj hq
    exact ⟨q, by rw [g3 j (Or.inl hj)]; exact hq, hq, hq8, hqm⟩
  have hok : PtrsOK s2 ptrs2 0 (inoP.blocks + e) := by
    intro j _ hj
    by_cases hjb : j < inoP.blocks
    · obtain ⟨q, hq, _, hq8, hqm⟩ := hold j hjb
      refine ⟨q, hq, hq8, ?_⟩
      rw [g8]
      exact lt_of_lt_of_le (marked_lt s q hqm) hI.img.bmap_len
    · obtain ⟨q, hq, hq9, _, hqm⟩ := g4 j (by omega) (by omega)
      refine ⟨q, hq, by omega, ?_⟩
      exact lt_of_lt_of_le (marked_lt s2 q hqm) g12.bmap_len
  have hdist : ∀ i j, i < j → j < inoP.blocks + e → ptrs2[i]? ≠ ptrs2[j]? := by
    intro i j hij hj
    by_cases hjb : j < inoP.blocks
    · obtain ⟨qi, hqi, hqi0, _, _⟩ := hold i (by omega)
      obtain ⟨qj, hqj, hqj0, _, _⟩ := hold j hjb
      rw [hqi, hqj]
      intro hc
      simp only [Option.some.injEq] at hc
      subst hc
      have := (hI.disj p p inoP inoP i j qi hop hop hino hino (by omega) hjb hqi0 hqj0).2
      omega
    · by_cases hib : i < inoP.blocks
      · obtain ⟨q, hq, _, _, hqm⟩ := hold i hib
        obtain ⟨q2, hq2, _, hqn, _⟩ := g4 j (by omega) (by omega)
        rw [hq, hq2]
        intro hc; cases hc
        exact hqn hqm
      · exact g5 i j (by omega) hij (by omega)
  have hsz2 : BlocksSized P s2 := by
    intro b blk hb
    rw [g8] at hb
    exact hI.img.blk_len b blk hb
  obtain ⟨s3, tail, h1, h2, h3, h4, h5, h6, h7, h9⟩ := write_dir_any P hP.bpos hP.codec s2
    (rec :: c) (inoP.blocks + e) ptrs2 sz hsz2 hok (fun i j _ hij hj => hdist i j hij (by omega))
    (by simpa using hfit)
  simp only [List.length_cons] at h1 h7 h9
  have hplt : p < s.inodes.length := lt_of_getElem?_some _ _ _ hino
  have h9b : read_dir_from_blocks P
      { s3 with
        inodes := s3.inodes.set p
          (Inode.mk inoP.type ((c.length + 1) * P.DIRREC_SIZE) (inoP.blocks + e) ptrs2) }
      ((c.length + 1) * P.DIRREC_SIZE) (inoP.blocks + e) ptrs2
      = some (some (decode_chain P (c.length + 1)
          (((rec :: c).map P.encode).flatten ++ tail))) := by
    exact (read_dir_congr P s3
      { s3 with
        inodes := s3.inodes.set p
          (Inode.mk inoP.type ((c.length + 1) * P.DIRREC_SIZE) (inoP.blocks + e) ptrs2) }
      _ _ _ (ptrsOK_not_meta s2 ptrs2 _ hok) (fun _ _ _ _ => rfl)).trans h9
  have hal : ∀ i, allocated s i → allocated { s3 with
      inodes := s3.inodes.set p
        (Inode.mk inoP.type ((c.length + 1) * P.DIRREC_SIZE) (inoP.blocks + e) ptrs2) } i := by
    intro i hi
    unfold allocated; simp only; rw [h2, g6]; exact hi
  refine ⟨s3, h1, by rw [h4, g7], by rw [h2, g6], ?_⟩
  refine
    { xlt := hplt, x2 := fun h0 => hI.lo p (hpa h0), imap_len := ?_, alloc_iff := ?_,
      dmap_len := ?_,
      mark_iff := ?_, new_fresh := ?_, inodes_eq := ?_, blocks_len := ?_, sized := ?_,
      frame := ?_, plen := ?_, typ := fun h0 => hI.typ p inoP (hpa h0) hino, used := ?_,
      distinct := ?_,
      new_used := ?_, old_used := ?_, zero := ?_, chain := ?_ }
  · simp only; rw [h2, g6]
  · intro i
    unfold allocated
    simp only
    rw [h2, g6]
    constructor
    · exact fun h => Or.inl h
    · rintro (h | h)
      · exact h
      · rw [h.1]; exact hpa h.2
  · simp only; rw [h3, g9]
  · intro b
    have hm : marked { s3 with
        inodes := s3.inodes.set p
          (Inode.mk inoP.type ((c.length + 1) * P.DIRREC_SIZE) (inoP.blocks + e) ptrs2) } b
        ↔ marked s2 b := by
      unfold marked; simp only; rw [h3]
    rw [hm]
    constructor
    · intro h
      by_cases hb : marked s b
      · exact Or.inl hb
      · exact Or.inr ⟨h, hb⟩
    · rintro (h | h)
      · exact g10 b h
      · exact h.1
  · rintro b ⟨hb2, hbn⟩
    refine ⟨?_, hbn⟩
    rcases g11 b hb2 with h | ⟨k, hk1, hk2, hk3⟩
    · exact absurd h hbn
    · obtain ⟨q, hq, hq9, _, _⟩ := g4 k hk1 hk2
      rw [hk3] at hq; cases hq; exact hq9
  · simp only; rw [h4, g7]
  · simp only; rw [h5, g8]
  · exact h6
  · intro q _ hqm hq
    simp only
    rw [h7 q, g8]
    intro i hi
    by_cases hib : i < inoP.blocks
    · rw [g3 i (Or.inl hib)]
      exact hq inoP i hop hino hib
    · obtain ⟨q2, hq2, _, hqn, _⟩ := g4 i (by omega) (by omega)
      rw [hq2]
      intro hc; cases hc
      exact hqn hqm
  · simp only; rw [g2]; exact hplen
  · intro j q hj hq
    simp only at hj hq
    by_cases hjb : j < inoP.blocks
    · obtain ⟨q1, hq1, hq0, hq8, _⟩ := hold j hjb
      rw [hq] at hq1
      cases hq1
      exact ⟨hq8, Or.inr ⟨hop, inoP, j, hino, hjb, hq0⟩⟩
    · obtain ⟨q1, hq1, hq9, hqn, hqm⟩ := g4 j (by omega) hj
      rw [hq] at hq1
      cases hq1
      exact ⟨by omega, Or.inl ⟨hqm, hqn⟩⟩
  · intro i j q hij hj hqi hc
    simp only at hj hqi hc
    exact hdist i j hij hj (by rw [hqi, hc])
  · rintro b ⟨hb2, hbn⟩
    rcases g11 b hb2 with h | ⟨k, _, hk2, hk3⟩
    · exact absurd h hbn
    · exact ⟨k, hk2, hk3⟩
  · intro _ inoX j0 q hX hj0 hq
    rw [hino] at hX; cases hX
    exact ⟨j0, by simp only; omega, by simp only; rw [g3 j0 (Or.inl hj0)]; exact hq⟩
  · intro h0 hf j hj1 hj2
    simp only at hf hj1 ⊢
    rw [g3 j (Or.inr hj1)]
    exact hI.zero p inoP (hpa h0) hino hf j (by omega) hj2
  · intro h0 hty c1 hrd1
    simp only at hty hrd1
    have hgoodc := hI.chain p inoP c (hpa h0) hino hty hrd
    have hdc := decode_chain_spec P hP.codec (rec :: c) tail (by
      intro r hr
      rcases List.mem_cons.1 hr with h | h
      · subst h; exact ⟨hrec.1, by have := hI.lo _ hrec.2; omega⟩
      · exact ⟨(hgoodc r h).1, by have := hI.lo _ (hgoodc r h).2; omega⟩)
    simp only [List.length_cons] at hdc
    rw [h9b, hdc] at hrd1
    simp only [Option.some.injEq] at hrd1
    subst hrd1
    intro r hr
    rcases List.mem_cons.1 hr with h | h
    · subst h; exact ⟨hrec.1, hal _ hrec.2⟩
    · exact ⟨(hgoodc r h).1, hal _ (hgoodc r h).2⟩

/-- `add_rec_to_dir_inode` on an allocated inode or on inode 0 of an image satisfying
`BmInv` is a `BStep` on that inode. -/
theorem add_rec_stepB (P : Params) (hP : ParamsOK P) (s : FS) (hI : BmInv P s) (p : Nat)
    (inoP : Inode) (rec : DirRec) (r : Int) (s1 : FS) (hop : Owner s p)
    (hino : s.inodes[p]? = some inoP)
    (hrec : GoodName P rec.name ∧ allocated s rec.inum)
    (hrun : add_rec_to_dir_inode P s p rec = some (r, s1)) :
    ∃ (ino1 : Inode) (isNew : Nat → Prop), BStep P s s1 p ino1 isNew := by
  have hplt : p < s.inodes.length := lt_of_getElem?_some _ _ _ hino
  unfold add_rec_to_dir_inode at hrun
  simp only [get_inode, hino, read_dir_from_inode] at hrun
  cases hc : read_dir_from_blocks P s inoP.size inoP.blocks inoP.pointers with
  | none => simp [hc] at hrun
  | some o =>
    cases o with
    | none => simp [hc] at hrun
    | some c =>
      simp only [hc] at hrun
      have hsl := stream_length P hP.codec (rec :: c)
      simp only [List.length_cons] at hsl
      by_cases hfit : ((c.length + 1) * P.DIRREC_SIZE + P.BLOCKSIZE - 1) / P.BLOCKSIZE
          ≤ inoP.blocks
      · obtain ⟨s3, h1, h2, h3, hstep⟩ := dir_update_stepB P hP s hI p inoP c rec 0
          inoP.pointers s inoP.size hop hino hc hrec rfl (by simpa using hfit)
        simp only [Nat.add_zero] at h1 hstep
        rw [h1] at hrun
        have hp3 : p < s3.inodes.length := by rw [h2]; exact hplt
        simp [set_inode, hp3] at hrun
        obtain ⟨_, rfl⟩ := hrun
        exact ⟨_, _, hstep⟩
      · have hlt : inoP.blocks
            < (((rec :: c).map P.encode).flatten.length + P.BLOCKSIZE - 1) / P.BLOCKSIZE := by
          rw [hsl]; omega
        rw [write_dir_short P hP.bpos s (rec :: c) inoP.blocks inoP.pointers inoP.size hlt, hsl]
          at hrun
        have hpos : 0 < ((c.length + 1) * P.DIRREC_SIZE + P.BLOCKSIZE - 1) / P.BLOCKSIZE
            - inoP.blocks := by omega
        have hne1 : ¬ (((((c.length + 1) * P.DIRREC_SIZE + P.BLOCKSIZE - 1) / P.BLOCKSIZE
            - inoP.blocks : Nat) : Int) = -1) := by omega
        have hgt : ((((c.length + 1) * P.DIRREC_SIZE + P.BLOCKSIZE - 1) / P.BLOCKSIZE
            - inoP.blocks : Nat) : Int) > 0 := by omega
        simp only [hne1, if_false, hgt, if_true, Int.toNat_ofNat] at hrun
        cases hg : grow_pointers
            (((c.length + 1) * P.DIRREC_SIZE + P.BLOCKSIZE - 1) / P.BLOCKSIZE - inoP.blocks)
            inoP.blocks inoP.pointers s with
        | none => simp [hg] at hrun
        | some res =>
          obtain ⟨ptrs2, s2⟩ := res
          simp only [hg] at hrun
          obtain ⟨s3, h1, h2, h3, hstep⟩ := dir_update_stepB P hP s hI p inoP c rec
            (((c.length + 1) * P.DIRREC_SIZE + P.BLOCKSIZE - 1) / P.BLOCKSIZE - inoP.blocks)
            ptrs2 s2 inoP.size hop hino hc hrec hg (by omega)
          rw [h1] at hrun
          have hp3 : p < s3.inodes.length := by rw [h2]; exact hplt
          simp [set_inode, hp3] at hrun
          obtain ⟨_, rfl⟩ := hrun
          exact ⟨_, _, hstep⟩

theorem first_zero_slot_none (l : List Nat) :
    ∀ i, (∀ x ∈ l, x ≠ 0) → first_zero_slot l i = none := by
  induction l with
  | nil => intro i _; rfl
  | cons x xs ih =>
    intro i h
    unfold first_zero_slot
    rw [if_neg (h x (List.mem_cons_self _ _))]
    exact ih (i + 1) (fun y hy => h y (List.mem_cons_of_mem _ hy))

/-- The allocation loop of `my_write` on an inode whose pointers `pointers[0..blocks)` are
not 0 and whose other pointers are 0, for any number of passes: while a slot is free the
new block goes to slot `blocks`; once all `K` slots are taken a pass only adds one to
`blocks`. -/
theorem alloc_loop_gen (P : Params) (n : Nat) :
    ∀ (ino ino1 : Inode) (s s1 : FS), ImageOK P s →
      ino.pointers.length = P.NUM_POINTERS →
      (∀ (j p : Nat), j < ino.blocks → ino.pointers[j]? = some p → p ≠ 0) →
      (∀ j, ino.blocks ≤ j → j < P.NUM_POINTERS → ino.pointers[j]? = some 0) →
      alloc_loop P n ino s = some (ino1, s1) →
      ImageOK P s1 ∧ ino1.blocks = ino.blocks + n ∧ ino1.type = ino.type ∧
      ino1.pointers.length = P.NUM_POINTERS ∧
      s1.inodes = s.inodes ∧ s1.i_bmap = s.i_bmap ∧ s1.d_bmap.length = s.d_bmap.length ∧
      s1.blocks.length = s.blocks.length ∧
      (∀ j, j < ino.blocks → ino1.pointers[j]? = ino.pointers[j]?) ∧
      (∀ b, marked s b → marked s1 b) ∧
      (∀ b, marked s1 b →
        marked s b ∨ ∃ j, ino.blocks ≤ j ∧ j < ino1.blocks ∧ ino1.pointers[j]? = some b) ∧
      (∀ (j q : Nat), ino.blocks ≤ j → j < ino1.blocks → ino1.pointers[j]? = some q →
        9 ≤ q ∧ ¬ marked s q ∧ marked s1 q) ∧
      (∀ (i j q : Nat), ino.blocks ≤ i → i < j → j < ino1.blocks →
        ino1.pointers[i]? = some q → ino1.pointers[j]? ≠ some q) ∧
      (∀ j, ino1.blocks ≤ j → j < P.NUM_POINTERS → ino1.pointers[j]? = some 0) ∧
      (∀ q, marked s q → s1.blocks[q]? = s.blocks[q]?) := by
  induction n with
  | zero =>
    intro ino ino1 s s1 hI hlen hnz hz h
    simp only [alloc_loop, Option.some.injEq, Prod.mk.injEq] at h
    obtain ⟨rfl, rfl⟩ := h
    exact ⟨hI, rfl, rfl, hlen, rfl, rfl, rfl, rfl, fun _ _ => rfl, fun _ hb => hb,
      fun _ hb => Or.inl hb, fun j q h1 h2 => absurd h2 (by omega),
      fun i j q h1 h2 h3 => absurd h3 (by omega), hz, fun _ _ => rfl⟩
  | succ n ih =>
    intro ino ino1 s s1 hI hlen hnz hz h
    by_cases hlt : ino.blocks < P.NUM_POINTERS
    · have hslot : first_zero_slot ino.pointers 0 = some ino.blocks := by
        have := first_zero_slot_spec ino.pointers 0 ino.blocks
          (fun j hj => by
            have hjl : j < ino.pointers.length := by omega
            exact ⟨ino.pointers[j], List.getElem?_eq_getElem hjl,
              hnz j _ hj (List.getElem?_eq_getElem hjl)⟩)
          (hz ino.blocks (le_refl _) hlt)
        simpa using this
      unfold alloc_loop at h
      simp only [hslot] at h
      cases hg : get_next_free_block s with
      | none => simp [hg] at h
      | some res =>
        obtain ⟨b, sb⟩ := res
        obtain ⟨hb9, hb0, hsb⟩ := get_next_free_block_inv P s sb b hI hg
        subst hsb
        have hbl : b < s.d_bmap.length := lt_of_getElem?_some _ _ _ hb0
        have hbl2 : b < s.blocks.length := lt_of_lt_of_le hbl hI.bmap_len
        have hmeta : is_meta_block b = false := by simp [is_meta_block]; omega
        have hnm := free_not_marked s b hb0
        simp only [hg, write_block, hmeta, Bool.false_eq_true, if_false, List.length_set, hbl2,
          if_true, Option.getD_some] at h
        have hI2 : ImageOK P
            { s with d_bmap := s.d_bmap.set b 1,
                     blocks := s.blocks.set b (List.replicate P.BLOCKSIZE 0) } := by
          have hm := imageOK_mark P s b hI
          exact ⟨hI.bpos, hm.reserved, by simpa using hI.bmap_len,
            blk_len_set _ _ _ _ hI.blk_len (by simp)⟩
        obtain ⟨a1, a3, a4, a2, a5, a6, a7, a8, a9, a10, a11, a12, a14, a15, a13⟩ :=
          ih { ino with blocks := ino.blocks + 1, pointers := ino.pointers.set ino.blocks b }
            ino1 _ s1 hI2 (by simp only [List.length_set]; exact hlen)
            (by
              intro j p hj hp
              simp only at hj hp
              by_cases hjb : j = ino.blocks
              · subst hjb
                rw [List.getElem?_set_self (by omega)] at hp
                cases hp
                omega
              · rw [List.getElem?_set_ne (fun e => hjb e.symm)] at hp
                exact hnz j p (by omega) hp)
            (by
              intro j hj1 hj2
              simp only at hj1 ⊢
              rw [List.getElem?_set_ne (by omega)]
              exact hz j (by omega) hj2) h
        have hm1 : ∀ q, marked s q →
            marked { s with d_bmap := s.d_bmap.set b 1,
                            blocks := s.blocks.set b (List.replicate P.BLOCKSIZE 0) } q :=
          fun q hq => (nz_set s.d_bmap b q hbl).2 (Or.inl hq)
        have hmb : marked
            { s with d_bmap := s.d_bmap.set b 1,
                     blocks := s.blocks.set b (List.replicate P.BLOCKSIZE 0) } b :=
          (nz_set s.d_bmap b b hbl).2 (Or.inr rfl)
        have hjb : ino1.pointers[ino.blocks]? = some b := by
          rw [a9 ino.blocks (by simp only; omega)]
          simp only
          rw [List.getElem?_set_self (by omega)]
        refine ⟨a1, by rw [a3]; simp only; omega, a4, a2, a5, a6, by rw [a7]; simp,
          by rw [a8]; simp, ?_, fun q hq => a10 q (hm1 q hq), ?_, ?_, ?_, ?_, ?_⟩
        · intro j hj
          rw [a9 j (by simp only; omega)]
          simp only
          rw [List.getElem?_set_ne (by omega)]
        · intro q hq
          rcases a11 q hq with h1 | ⟨j, hj1, hj2, hj3⟩
          · rcases (nz_set s.d_bmap b q hbl).1 h1 with h2 | h2
            · exact Or.inl h2
            · subst h2
              exact Or.inr ⟨ino.blocks, le_refl _, by rw [a3]; simp only; omega, hjb⟩
          · exact Or.inr ⟨j, by simp only at hj1; omega, hj2, hj3⟩
        · intro j q hj1 hj2 hq
          by_cases hjj : j = ino.blocks
          · subst hjj
            rw [hjb] at hq
            cases hq
            exact ⟨hb9, hnm, a10 _ hmb⟩
          · obtain ⟨hq9, hqn, hqm⟩ := a12 j q (by simp only; omega) hj2 hq
            exact ⟨hq9, fun hm => hqn (hm1 q hm), hqm⟩
        · intro i j q hi hij hj hqi hqj
          by_cases hii : i = ino.blocks
          · subst hii
            rw [hjb] at hqi
            cases hqi
            exact (a12 j _ (by simp only; omega) hj hqj).2.1 hmb
          · exact a14 i j q (by simp only; omega) hij hj hqi hqj
        · intro j hj1 hj2
          exact a15 j hj1 hj2
        · intro q hq
          rw [a13 q (hm1 q hq)]
          simp only
          have : b ≠ q := by
            intro hbq; subst hbq; exact hnm hq
          rw [List.getElem?_set_ne this]
    · have hslot : first_zero_slot ino.pointers 0 = none := by
        apply first_zero_slot_none
        intro x hx
        obtain ⟨j, hj⟩ := List.getElem?_of_mem hx
        have hjl := lt_of_getElem?_some _ _ _ hj
        exact hnz j x (by omega) hj
      unfold alloc_loop at h
      simp only [hslot] at h
      obtain ⟨a1, a3, a4, a2, a5, a6, a7, a8, a9, a10, a11, a12, a14, a15, a13⟩ :=
        ih { ino with blocks := ino.blocks + 1 } ino1 s s1 hI hlen
          (by
            intro j p hj hp
            simp only at hj hp
            have hjl := lt_of_getElem?_some _ _ _ hp
            exact hnz j p (by omega) hp)
          (by
            intro j hj1 hj2
            simp only at hj1
            omega) h
      have hnone : ino1.pointers[ino.blocks]? = none := by
        rw [a9 ino.blocks (by simp only; omega)]
        simp only
        exact List.getElem?_eq_none (by omega)
      refine ⟨a1, by rw [a3]; simp only; omega, a4, a2, a5, a6, a7, a8, ?_, a10, ?_, ?_, ?_,
        a15, a13⟩
      · intro j hj
        exact a9 j (by simp only; omega)
      · intro q hq
        rcases a11 q hq with h1 | ⟨j, hj1, hj2, hj3⟩
        · exact Or.inl h1
        · exact Or.inr ⟨j, by simp only at hj1; omega, hj2, hj3⟩
      · intro j q hj1 hj2 hq
        by_cases hjj : j = ino.blocks
        · subst hjj
          rw [hnone] at hq
          cases hq
        · exact a12 j q (by simp only; omega) hj2 hq
      · intro i j q hi hij hj hqi hqj
        by_cases hii : i = ino.blocks
        · subst hii
          rw [hnone] at hqi
          cases hqi
        · exact a14 i j q (by simp only; omega) hij hj hqi hqj

/-- `my_write` on an allocated file of an image satisfying `BmInv`, with any size and
offset, is a `BStep` on that inode. -/
theorem my_write_stepB (P : Params) (hP : ParamsOK P) (s s1 : FS) (hI : BmInv P s)
    (inum : Nat) (ino : Inode) (buf : List Nat) (size offset : Nat) (r : Int)
    (ha : allocated s inum) (hino : s.inodes[inum]? = some ino)
    (hty : ino.type = P.TYPE_FILE)
    (hrun : my_write P inum buf size offset s = some (r, s1)) :
    ∃ (ino1 : Inode) (isNew : Nat → Prop), BStep P s s1 inum ino1 isNew := by
  have hB := hP.bpos
  have hB0 : P.BLOCKSIZE ≠ 0 := by omega
  have hilt : inum < s.inodes.length := lt_of_getElem?_some _ _ _ hino
  have hown : Owner s inum := Or.inl ha
  have hlen := hI.plen inum ino hino
  unfold my_write at hrun
  simp only [hB0, if_false, get_inode, hino] at hrun
  generalize u32 (size + offset + P.BLOCKSIZE - 1) / P.BLOCKSIZE - ino.blocks = n at hrun
  cases hal : alloc_loop P n ino s with
  | none => simp [hal] at hrun
  | some res =>
    obtain ⟨ino1, sa⟩ := res
    simp only [hal] at hrun
    obtain ⟨a1, a3, a4, a2, a5, a6, a7, a8, a9, a10, a11, a12, a14, a15, a13⟩ :=
      alloc_loop_gen P n ino ino1 s sa hI.img hlen
        (fun j p hj hp => by have := (hI.used inum ino j p hown hino hj hp).1; omega)
        (hI.zero inum ino ha hino hty) hal
    have hold8 : ∀ (j p : Nat), j < ino.blocks → ino1.pointers[j]? = some p →
        ino.pointers[j]? = some p ∧ 8 ≤ p ∧ marked s p := by
      intro j p hj hp
      rw [a9 j hj] at hp
      exact ⟨hp, hI.used inum ino j p hown hino hj hp⟩
    have hnm : ∀ (j p : Nat), ino1.pointers[j]? = some p → is_meta_block p = false := by
      intro j p hp
      have hjl : j < P.NUM_POINTERS := by
        rw [← a2]; exact lt_of_getElem?_some _ _ _ hp
      by_cases hj1 : j < ino.blocks
      · exact not_meta_of_ge p (hold8 j p hj1 hp).2.1
      · by_cases hj2 : j < ino1.blocks
        · exact not_meta_of_ge p (by have := (a12 j p (by omega) hj2 hp).1; omega)
        · have := a15 j (by omega) hjl
          rw [hp] at this
          cases this
          rfl
    cases hwl : write_loop P { ino1 with size := u32 (size + offset) } buf size size
        (offset / P.BLOCKSIZE) (offset % P.BLOCKSIZE) 0 0 sa with
    | none => simp [hwl] at hrun
    | some res2 =>
      obtain ⟨bw, s2⟩ := res2
      obtain ⟨w1, w2, w3, w4, w5, w6⟩ := write_loop_frame P
        { ino1 with size := u32 (size + offset) } buf _ _ _ _ _ _ sa s2 bw
        (le_of_lt (Nat.mod_lt _ hB)) a1.blk_len
        (fun j p hp => hnm j p hp) hwl
      have hi2 : inum < s2.inodes.length := by rw [w3, a5]; exact hilt
      simp only [hwl, set_inode, hi2, if_true, Option.getD_some, Option.some.injEq,
        Prod.mk.injEq] at hrun
      obtain ⟨_, rfl⟩ := hrun
      have hmk : ∀ b, marked { s2 with
            inodes := s2.inodes.set inum { ino1 with size := u32 (size + offset) } } b
          ↔ marked sa b := by
        intro b; unfold marked; simp only; rw [w2]
      refine ⟨{ ino1 with size := u32 (size + offset) }, fun b => marked sa b ∧ ¬ marked s b,
        ?_⟩
      refine
        { xlt := hilt, x2 := fun _ => hI.lo inum ha, imap_len := by simp only; rw [w1, a6],
          alloc_iff := ?_, dmap_len := by simp only; rw [w2, a7], mark_iff := ?_,
          new_fresh := ?_, inodes_eq := by simp only; rw [w3, a5],
          blocks_len := by simp only; rw [w4, a8], sized := w5, frame := ?_,
          plen := a2, typ := fun _ => Or.inl (a4.trans hty), used := ?_,
          distinct := ?_, new_used := ?_, old_used := ?_, zero := fun _ _ => a15,
          chain := ?_ }
      · intro i
        unfold allocated
        simp only
        rw [w1, a6]
        constructor
        · exact fun h => Or.inl h
        · rintro (h | h)
          · exact h
          · rw [h.1]; exact ha
      · intro b
        rw [hmk]
        constructor
        · intro h
          by_cases hb : marked s b
          · exact Or.inl hb
          · exact Or.inr ⟨h, hb⟩
        · rintro (h | h)
          · exact a10 b h
          · exact h.1
      · rintro b ⟨hb1, hb2⟩
        refine ⟨?_, hb2⟩
        rcases a11 b hb1 with h | ⟨j, hj1, hj2, hj3⟩
        · exact absurd h hb2
        · exact (a12 j b hj1 hj2 hj3).1
      · intro q hq8 hqm hq
        simp only
        rw [w6 q, a13 q hqm]
        intro j
        simp only
        intro hc
        have hjl : j < P.NUM_POINTERS := by
          rw [← a2]; exact lt_of_getElem?_some _ _ _ hc
        by_cases hj1 : j < ino.blocks
        · exact hq ino j hown hino hj1 (hold8 j q hj1 hc).1
        · by_cases hj2 : j < ino1.blocks
          · exact (a12 j q (by omega) hj2 hc).2.1 hqm
          · have := a15 j (by omega) hjl
            rw [hc] at this
            cases this
            omega
      · intro j p hj hp
        simp only at hj hp
        by_cases hj1 : j < ino.blocks
        · obtain ⟨h1, h2, _⟩ := hold8 j p hj1 hp
          exact ⟨h2, Or.inr ⟨hown, ino, j, hino, hj1, h1⟩⟩
        · obtain ⟨h1, h2, h3⟩ := a12 j p (by omega) hj hp
          exact ⟨by omega, Or.inl ⟨h3, h2⟩⟩
      · intro i j p hij hj hpi hpj
        simp only at hj hpi hpj
        by_cases hj1 : j < ino.blocks
        · obtain ⟨h1, _, _⟩ := hold8 i p (by omega) hpi
          obtain ⟨h2, _, _⟩ := hold8 j p hj1 hpj
          have := (hI.disj inum inum ino ino i j p hown hown hino hino (by omega) hj1 h1 h2).2
          omega
        · by_cases hi1 : i < ino.blocks
          · obtain ⟨_, _, hm⟩ := hold8 i p hi1 hpi
            exact (a12 j p (by omega) hj hpj).2.1 hm
          · exact a14 i j p (by omega) hij hj hpi hpj
      · rintro b ⟨hb1, hb2⟩
        rcases a11 b hb1 with h | ⟨j, _, hj2, hj3⟩
        · exact absurd h hb2
        · exact ⟨j, hj2, hj3⟩
      · intro _ inoX j0 p hX hj0 hp
        rw [hino] at hX; cases hX
        exact ⟨j0, by simp only; omega, by simp only; rw [a9 j0 hj0]; exact hp⟩
      · intro _ hd
        simp only at hd
        exact absurd ((a4.trans hty).symm.trans hd) hP.types

/-- `my_mknod` with any path keeps `BmInv`. -/
theorem my_mknod_bmInv (P : Params) (hP : ParamsOK P) (s s1 : FS) (hI : BmInv P s)
    (pl0 : List CStr) (path : CStr) (r : Int) (hnz : ∀ c ∈ path, c ≠ 0)
    (hrun : my_mknod P pl0 path s = some (r, s1)) : BmInv P s1 := by
  unfold my_mknod at hrun
  cases hpar : get_parent_dir_inode P pl0 s path with
  | none => simp [hpar] at hrun
  | some p =>
    simp only [hpar] at hrun
    have hop := get_parent_owner P s hI pl0 path p hpar
    cases hleaf : get_file_from_path P path with
    | none => simp [hleaf] at hrun
    | some leaf =>
      simp only [hleaf] at hrun
      cases hn : get_next_free_inode s with
      | none => simp [hn] at hrun
      | some res =>
        obtain ⟨n, s0⟩ := res
        simp only [hn] at hrun
        obtain ⟨hn2, hfree, hs0⟩ := get_next_free_inode_inv s s0 n hn
        subst hs0
        have hna := free_not_allocated s n hfree
        have hpn : p ≠ n := by
          intro h
          rcases hop with h1 | h1
          · exact hna (h ▸ h1)
          · omega
        obtain ⟨old, hold, hstepA⟩ := mknod_inode_stepB P hP s hI n hfree hn2
        have hnl2 : n < s.inodes.length := lt_of_getElem?_some _ _ _ hold
        have hgi : get_inode { s with i_bmap := s.i_bmap.set n 1 } n = some old := hold
        simp only [hgi, set_inode, hnl2, if_true, Option.getD_some] at hrun
        have hIA := bmInv_step P s _ n _ _ hI hstepA
        have hopA := (bstep_owner P s _ n _ _ hstepA p).2 (Or.inl hop)
        have hanA := (hstepA.alloc_iff n).2 (Or.inr ⟨rfl, by omega⟩)
        have hplt := owner_lt P s hI p hop
        have hinoA := (bstep_inode_ne P s _ n _ _ hstepA p hpn).trans
          (List.getElem?_eq_getElem hplt)
        rw [show ({ type := P.TYPE_FILE, size := 0, blocks := 0, pointers := old.pointers } : Inode)
          = Inode.mk P.TYPE_FILE 0 0 old.pointers from rfl] at hrun
        cases har : add_rec_to_dir_inode P
            { s with
              i_bmap := s.i_bmap.set n 1
              inodes := s.inodes.set n (Inode.mk P.TYPE_FILE 0 0 old.pointers) }
            p ⟨leaf.take P.MAX_FILENAME, n⟩ with
        | none => simp [har] at hrun
        | some res2 =>
          obtain ⟨r2, s3⟩ := res2
          simp only [har, Option.some.injEq, Prod.mk.injEq] at hrun
          obtain ⟨_, hs⟩ := hrun
          subst hs
          have hgood : GoodName P (leaf.take P.MAX_FILENAME) := by
            refine ⟨by simp [List.length_take], fun c hc => ?_⟩
            exact hnz c (get_file_from_path_mem P path leaf hleaf c (List.mem_of_mem_take hc))
          obtain ⟨ino1, isNew, hstepB⟩ := add_rec_stepB P hP _ hIA p _
            ⟨leaf.take P.MAX_FILENAME, n⟩ r2 s3 hopA hinoA ⟨hgood, hanA⟩ har
          exact bmInv_step P _ s3 p _ _ hIA hstepB

/-- `my_mkdir` with any path keeps `BmInv`. -/
theorem my_mkdir_bmInv (P : Params) (hP : ParamsOK P) (s s1 : FS) (hI : BmInv P s)
    (pl0 : List CStr) (junk : Inode) (path : CStr) (r : Int) (hnz : ∀ c ∈ path, c ≠ 0)
    (hjunk : junk.pointers.length = P.NUM_POINTERS)
    (h : my_mkdir P pl0 junk path s = some (r, s1)) : BmInv P s1 := by
  unfold my_mkdir at h
  simp only at h
  split at h
  · simp at h
  · rename_i ls hf
    split at h
    · simp at h
    · rename_i d hpar
      have hop := get_inode_for_path_owner P s hI pl0 _ d hpar
      split at h
      · simp at h
      · rename_i hwrap
        split at h
        · simp at h
        · split at h
          · simp at h
          · rename_i hguard
            split at h
            · simp at h
            · rename_i n sn hgn
              obtain ⟨hn2, hfree, hsn⟩ := get_next_free_inode_inv s sn n hgn
              subst hsn
              have hna := free_not_allocated s n hfree
              have hdn : d ≠ n := by
                intro e
                rcases hop with h1 | h1
                · exact hna (e ▸ h1)
                · omega
              split at h
              · simp at h
              · split at h
                · simp at h
                · rename_i b sb hgb
                  obtain ⟨hb9, hb0, hsb⟩ := get_next_free_block_inv P
                    { s with i_bmap := s.i_bmap.set n 1 } sb b
                    ⟨hI.img.bpos, hI.img.reserved, hI.img.bmap_len, hI.img.blk_len⟩ hgb
                  subst hsb
                  obtain ⟨s3a, h1, h2, hstepA⟩ := mkdir_inode_stepB P hP s hI n b d junk
                    junk.size hfree hn2 hb0 hb9 hop hjunk hP.kpos
                  split at h
                  · simp at h
                  · rename_i err s3 size3 hw
                    have e := h1.symm.trans hw
                    simp only [Option.some.injEq, Prod.mk.injEq] at e
                    obtain ⟨e1, e2, e3⟩ := e
                    subst e2
                    subst e3
                    split at h
                    · simp at h
                    · split at h
                      · simp at h
                      · rename_i s4 hset
                        have hn3 : n < s3a.inodes.length := by rw [h2]; exact hstepA.xlt
                        have hs4 : s4 = { s3a with
                            inodes := s3a.inodes.set n
                              (Inode.mk P.TYPE_DIR (2 * P.DIRREC_SIZE) 1
                                (junk.pointers.set 0 b)) } := by
                          unfold set_inode at hset
                          rw [if_pos hn3] at hset
                          simp only [Option.some.injEq] at hset
                          rw [← hset]
                        subst hs4
                        split at h
                        · simp at h
                        · rename_i q s5 hadd
                          simp only [Option.some.injEq, Prod.mk.injEq] at h
                          rw [← h.2]
                          have hIA := bmInv_step P s _ n _ _ hI hstepA
                          have hopA := (bstep_owner P s _ n _ _ hstepA d).2 (Or.inl hop)
                          have hanA := (hstepA.alloc_iff n).2 (Or.inr ⟨rfl, by omega⟩)
                          have hplt := owner_lt P s hI d hop
                          have hinoA := (bstep_inode_ne P s _ n _ _ hstepA d hdn).trans
                            (List.getElem?_eq_getElem hplt)
                          have hgood : GoodName P (bytes_at path (ls + 1)
                              (strnlen path (P.MAX_FILENAME * P.MAX_PATH_DEPTH) - ls - 1)) := by
                            refine ⟨?_, fun c hc => hnz c (bytes_at_mem _ _ _ _ hc)⟩
                            have h1 := bytes_at_length_le path (ls + 1)
                              (strnlen path (P.MAX_FILENAME * P.MAX_PATH_DEPTH) - ls - 1)
                            omega
                          obtain ⟨ino1, isNew, hstepB⟩ := add_rec_stepB P hP _ hIA d _ _ q s5
                            hopA hinoA ⟨hgood, hanA⟩ hadd
                          exact bmInv_step P _ s5 d _ _ hIA hstepB

/-- The image written by `my_init` satisfies `BmInv`. -/
theorem my_init_bmInv (P : Params) (junk : Inode) (s : FS) (hP : ParamsOK P)
    (hjunk : junk.pointers.length = P.NUM_POINTERS)
    (hrun : my_init P junk (zero_image P) = some s) : BmInv P s := by
  have hN := hP.nblocks
  have hNI := hP.ninodes
  have hK := hP.kpos
  obtain ⟨s1, h0, h1, h2, h3, h4, h5, h6⟩ := my_init_state P junk hP hN hNI (by omega)
  rw [h0] at hrun
  simp only [Option.some.injEq] at hrun
  subst hrun
  have h2I : 2 < s1.inodes.length := by rw [h3]; simp; omega
  have hal : ∀ i, allocated { s1 with
        inodes := s1.inodes.set 2
          (Inode.mk P.TYPE_DIR (2 * P.DIRREC_SIZE) 1 (junk.pointers.set 0 8)) } i → i = 2 := by
    intro i hi
    unfold allocated at hi
    simp only at hi
    rw [h1] at hi
    exact replicate_set_nz _ _ hi
  have hal2 : allocated { s1 with
        inodes := s1.inodes.set 2
          (Inode.mk P.TYPE_DIR (2 * P.DIRREC_SIZE) 1 (junk.pointers.set 0 8)) } 2 := by
    unfold allocated
    simp only
    rw [h1]
    exact ⟨1, by rw [List.getElem?_set_self (by simp; omega)], by simp⟩
  have hroot : ({ s1 with
        inodes := s1.inodes.set 2
          (Inode.mk P.TYPE_DIR (2 * P.DIRREC_SIZE) 1 (junk.pointers.set 0 8)) } : FS).inodes[2]?
      = some (Inode.mk P.TYPE_DIR (2 * P.DIRREC_SIZE) 1 (junk.pointers.set 0 8)) := by
    simp only
    rw [List.getElem?_set_self h2I]
  have hother : ∀ (i : Nat) (ino : Inode), i ≠ 2 → ({ s1 with
        inodes := s1.inodes.set 2
          (Inode.mk P.TYPE_DIR (2 * P.DIRREC_SIZE) 1 (junk.pointers.set 0 8)) } : FS).inodes[i]?
      = some ino → ino = Inode.mk 0 0 0 (List.replicate P.NUM_POINTERS 0) := by
    intro i ino hi hino
    simp only at hino
    rw [List.getElem?_set_ne (fun h => hi h.symm), h3] at hino
    have := List.getElem?_mem hino
    simp only [List.mem_replicate] at this
    exact this.2
  have hptr0 : (junk.pointers.set 0 8)[0]? = some 8 := by
    rw [List.getElem?_set_self (by omega)]
  have hmk : ∀ b, marked { s1 with
        inodes := s1.inodes.set 2
          (Inode.mk P.TYPE_DIR (2 * P.DIRREC_SIZE) 1 (junk.pointers.set 0 8)) } b ↔ b < 9 := by
    intro b
    unfold marked
    simp only
    rw [h2]
    constructor
    · rintro ⟨v, hv, hv0⟩
      by_contra hb
      rw [List.getElem?_append_right (by simp; omega)] at hv
      have := List.getElem?_mem hv
      simp only [List.mem_replicate] at this
      exact hv0 this.2
    · intro hb
      refine ⟨1, ?_, by simp⟩
      rw [List.getElem?_append_left (by simpa using hb), List.getElem?_replicate]
      simp [hb]
  have h6b : read_dir_from_blocks P
      { s1 with
        inodes := s1.inodes.set 2
          (Inode.mk P.TYPE_DIR (2 * P.DIRREC_SIZE) 1 (junk.pointers.set 0 8)) }
      (2 * P.DIRREC_SIZE) 1 (junk.pointers.set 0 8)
      = some (some [⟨[46], 2⟩, ⟨[46, 46], 2⟩]) :=
    (read_dir_congr P s1
      { s1 with
        inodes := s1.inodes.set 2
          (Inode.mk P.TYPE_DIR (2 * P.DIRREC_SIZE) 1 (junk.pointers.set 0 8)) }
      _ _ _ (single_ptr_not_meta _ 8 (le_refl _) hptr0) (fun _ _ _ _ => rfl)).trans h6
  obtain ⟨hg1, hg2⟩ := dot_names_good P hP.mf
  -- an inode with a used pointer is the root, and the pointer is `pointers[0] = 8`
  have hused : ∀ (i : Nat) (ino : Inode) (j p : Nat), ({ s1 with
        inodes := s1.inodes.set 2
          (Inode.mk P.TYPE_DIR (2 * P.DIRREC_SIZE) 1 (junk.pointers.set 0 8)) } : FS).inodes[i]?
      = some ino → j < ino.blocks → ino.pointers[j]? = some p → i = 2 ∧ j = 0 ∧ p = 8 := by
    intro i ino j p hino hj hp
    by_cases hi : i = 2
    · subst hi
      rw [hroot] at hino
      cases hino
      have : j = 0 := by simp only at hj; omega
      subst this
      simp only at hp
      rw [hptr0] at hp
      cases hp
      exact ⟨rfl, rfl, rfl⟩
    · have := hother i ino hi hino
      subst this
      simp only at hj
      omega
  refine
    { img := ⟨hP.bpos, fun b hb => (hmk b).2 (by omega), ?_, h5⟩
      tbl := ?_, lo := fun i hi => by rw [hal i hi], plen := ?_, typ := ?_,
      used := ?_, disj := ?_, refd := fun b hb => Or.inl (by have := (hmk b).1 hb; omega),
      zero := ?_, fresh := ?_, chain := ?_, root := hal2 }
  · simp only; rw [h2, h4]; simp; omega
  · simp only; rw [h1, h3]; simp
  · intro i ino hino
    by_cases hi : i = 2
    · subst hi; rw [hroot] at hino; cases hino
      simp only [List.length_set]; exact hjunk
    · have := hother i ino hi hino
      subst this
      simp
  · intro i ino ha hino
    have := hal i ha; subst this
    rw [hroot] at hino; cases hino
    exact Or.inr rfl
  · intro i ino j p _ hino hj hp
    obtain ⟨_, _, h8⟩ := hused i ino j p hino hj hp
    subst h8
    exact ⟨le_refl _, (hmk 8).2 (by omega)⟩
  · intro i k ino kno j l p _ _ hino hkno hj hl hp hq
    obtain ⟨a1, a2, _⟩ := hused i ino j p hino hj hp
    obtain ⟨b1, b2, _⟩ := hused k kno l p hkno hl hq
    exact ⟨a1.trans b1.symm, a2.trans b2.symm⟩
  · intro i ino ha hino hty
    have := hal i ha; subst this
    rw [hroot] at hino; cases hino
    exact absurd hty.symm hP.types
  · intro i ino hna hino j hj
    have hi : i ≠ 2 := fun h => hna (Or.inl (h ▸ hal2))
    have := hother i ino hi hino
    subst this
    simp [List.getElem?_replicate, hj]
  · intro i ino c ha hino _ hrd
    have := hal i ha; subst this
    rw [hroot] at hino; cases hino
    simp only at hrd
    rw [h6b] at hrd
    simp only [Option.some.injEq] at hrd
    subst hrd
    intro r hr
    simp only [List.mem_cons, List.mem_singleton, List.not_mem_nil, or_false] at hr
    rcases hr with rfl | rfl
    · exact ⟨hg1, hal2⟩
    · exact ⟨hg2, hal2⟩

theorem reachB_inv (P : Params) (hP : ParamsOK P) (s : FS) (hR : ReachB P s) : BmInv P s := by
  induction hR with
  | init junk s hjunk hrun => exact my_init_bmInv P junk s hP hjunk hrun
  | mknod s s1 pl0 path r _ hnz hrun ih => exact my_mknod_bmInv P hP s s1 ih pl0 path r hnz hrun
  | mkdir s s1 pl0 junk path r _ hnz hjunk hrun ih =>
    exact my_mkdir_bmInv P hP s s1 ih pl0 junk path r hnz hjunk hrun
  | write s s1 inum ino buf size offset r _ ha hino hty hrun ih =>
    obtain ⟨ino1, isNew, hstep⟩ := my_write_stepB P hP s s1 ih inum ino buf size offset r ha
      hino hty hrun
    exact bmInv_step P s s1 inum ino1 isNew ih hstep

theorem demo_reachB_orphan : ReachB demo demo_orphan_fs :=
  ReachB.mknod demo_over_fs demo_orphan_fs demo_pl0 [47, 120, 47, 121] 0
    (ReachB.write demo_a_fs demo_over_fs 3 (Inode.mk 1 0 0 [0, 0, 0, 0]) [] 0 33 0
      (ReachB.mknod demo_fresh_fs demo_a_fs demo_pl0 [47, 97] 0
        (ReachB.init demo_inode0 demo_fresh_fs (by decide) (by decide)) (by decide) (by decide))
      ⟨1, by decide, by decide⟩ (by decide) (by decide) (by decide))
    (by decide) (by decide)

/-- C7, amended: in every image reached from a freshly initialised one by `my_mknod` and
`my_mkdir` calls with any path and any return value (also with a missing parent or a
file as parent) and by `my_write` calls with any size and offset on allocated inodes of
type `TYPE_FILE`, each call with defined behaviour, every set entry `b` of the
data-block bitmap has `b ≤ 8` or is `pointers[j]` of some inode with `j < blocks`, and
every set entry of the inode bitmap names an inode of type `TYPE_FILE` or `TYPE_DIR`. -/
theorem bitmap_invariant (P : Params) (hP : ParamsOK P) (s : FS) (hR : ReachB P s) :
    (∀ b, marked s b → b ≤ 8 ∨ ∃ (i : Nat) (ino : Inode) (j : Nat),
      get_inode s i = some ino ∧ j < ino.blocks ∧ ino.pointers[j]? = some b) ∧
    (∀ i, allocated s i → ∃ ino : Inode, get_inode s i = some ino ∧
      (ino.type = P.TYPE_FILE ∨ ino.type = P.TYPE_DIR)) := by
  have hI := reachB_inv P hP s hR
  constructor
  · intro b hb
    rcases hI.refd b hb with h | ⟨i, ino, j, _, h1, h2, h3⟩
    · exact Or.inl h
    · exact Or.inr ⟨i, ino, j, h1, h2, h3⟩
  · intro i hi
    have hlt : i < s.inodes.length := by
      rw [← hI.tbl]; exact allocated_lt s i hi
    refine ⟨s.inodes[i], ?_, hI.typ i _ hi (List.getElem?_eq_getElem hlt)⟩
    unfold get_inode
    exact List.getElem?_eq_getElem hlt

/-- C7, amended, in the small configuration: the image after `my_init`, `mknod("/a")`,
the over-capacity `write(3, buf, 0, 33)` and `mknod("/x/y")` with a missing parent. -/
theorem bitmap_invariant_witness :
    (∀ b, marked demo_orphan_fs b → b ≤ 8 ∨ ∃ (i : Nat) (ino : Inode) (j : Nat),
      get_inode demo_orphan_fs i = some ino ∧ j < ino.blocks ∧ ino.pointers[j]? = some b) ∧
    (∀ i, allocated demo_orphan_fs i → ∃ ino : Inode, get_inode demo_orphan_fs i = some ino ∧
      (ino.type = demo.TYPE_FILE ∨ ino.type = demo.TYPE_DIR)) :=
  bitmap_invariant demo demo_paramsOK demo_orphan_fs demo_reachB_orphan

end MyFS
